import Mathlib

/-!
# Edit-menu commands of the audio editor (`src/menus/EditMenus.cpp`)

A shallow embedding of the command layer that drives the track editing
operations: cut, copy, paste, delete, duplicate, split, trim, join.

Modelling conventions.

* Times are `double` in the source.  The commands only add, subtract and
  compare them; they are modelled as integers (a count of ticks), on which
  these operations are exact.
* A `Track` object is one channel of the project's `TrackList`.  Object
  identity (the C++ pointer) is the field `id`.  The answers of queries that
  live in other translation units (`IsLeader`, `GetSelected`,
  `SupportsBasicEditing`, `SyncLock::IsSyncLockSelected`, and the group that
  `SyncLock::Group` returns) are carried by the track as fields.
* The editing operations of the track classes (`Copy`, `Clear`, `Paste`, ...)
  are not part of this translation unit.  They are taken as a parameter
  `TrackOps`; a mutating operation returns the new content of the track it
  is called on, or an error when it throws, in which case the track keeps
  the content it had.
* A command returns an `Outcome`: the state it leaves behind and whether it
  ran to its end (`completed = false` when an exception escaped it).
-/

namespace EditMenus

/-- Project time, in ticks. -/
abbrev Time := Int

/-- The kinds of track (`WaveTrack`, `LabelTrack`, `NoteTrack`, any other
subclass of `Track`). -/
inductive TrackKind where
  | wave
  | label
  | note
  | other
  deriving DecidableEq, Repr

/-- The placement fields of a wave clip that the command layer reads. -/
structure WaveClip where
  sequenceStart : Time
  sequenceDuration : Time
  trimLeft : Time
  trimRight : Time
  deriving DecidableEq, Repr

/-- What the editing operations of a track change: its clips (wave tracks)
and the rest of its payload. -/
structure Content (D : Type) where
  clips : List WaveClip
  data : D
  deriving DecidableEq, Repr

/-- One channel of a track list. -/
structure Track (D : Type) where
  id : Nat
  kind : TrackKind
  leader : Bool
  selected : Bool
  syncLockSelected : Bool
  syncGroup : Nat
  basicEditing : Bool
  content : Content D
  deriving DecidableEq, Repr

/-- A `TrackList`: the channels in project order. -/
abbrev TrackList (D : Type) := List (Track D)

variable {D : Type}

/-- Embeds `Track::SameKindAs`. -/
def SameKindAs (a b : Track D) : Bool :=
  decide (a.kind = b.kind)

/-- Embeds `TrackList::Leaders()`. -/
def Leaders (list : TrackList D) : List (Track D) :=
  list.filter (fun t => t.leader)

/-- Embeds `TrackList::SelectedLeaders()`. -/
def SelectedLeaders (list : TrackList D) : List (Track D) :=
  (Leaders list).filter (fun t => t.selected)

/-- Embeds `TrackList::Selected()`. -/
def Selected (list : TrackList D) : List (Track D) :=
  list.filter (fun t => t.selected)

/-- Embeds `TrackList::Any<Kind>()`: the tracks of one kind. -/
def AnyOfKind (k : TrackKind) (list : TrackList D) : List (Track D) :=
  list.filter (fun t => decide (t.kind = k))

/-- Embeds `range.StartingWith(pTrack)`: the part of the range from that track on. -/
def StartingWith (range : List (Track D)) (pTrack : Track D) : List (Track D) :=
  range.dropWhile (fun t => t.id != pTrack.id)

/-- Embeds `TrackList::FindLeader(pTrack)`: the last leader at or before the
track. -/
def FindLeader (list : TrackList D) (pTrack : Track D) : Option (Track D) :=
  match list.dropWhile (fun t => t.id != pTrack.id) with
  | [] => none
  | t :: _ =>
    ((list.takeWhile (fun t => t.id != pTrack.id)) ++ [t]).reverse.find?
      (fun c => c.leader)

/-- Embeds `TrackList::Channels(pTrack)`: the leader of the track, followed
by the channels up to the next leader. -/
def Channels (list : TrackList D) (pTrack : Track D) : List (Track D) :=
  match FindLeader list pTrack with
  | none => []
  | some leader =>
    match list.dropWhile (fun t => t.id != leader.id) with
    | [] => []
    | t :: rest => t :: rest.takeWhile (fun c => !c.leader)

/-- Embeds `TrackList::NChannels(track)`. -/
def NChannels (list : TrackList D) (track : Track D) : Nat :=
  (Channels list track).length

/-- Embeds `FitsInto`: whether the source track may be pasted into the destination
track.  Each track is looked up in the list that owns it. -/
def FitsInto (srcTracks dstTracks : TrackList D) (src dst : Track D) : Bool :=
  if !SameKindAs src dst then
    false
  else
    decide (NChannels srcTracks src ≤ NChannels dstTracks dst)

/-- First the destination track, second the source. -/
abbrev Correspondence (D : Type) := List (Track D × Track D)

/-- The `while` loop of `FindCorrespondence`.  Returns the pairs found and
what is left of the source range. -/
def correspondenceLoop (dstTracks srcTracks : TrackList D) :
    List (Track D) → List (Track D) → Correspondence D →
    Correspondence D × List (Track D)
  | [], srcRange, result => (result, srcRange)
  | _ :: _, [], result => (result, [])
  | dst :: dstRange, src :: srcRange, result =>
    if !FitsInto srcTracks dstTracks src dst then
      -- Skip selected track of inappropriate type and try again
      correspondenceLoop dstTracks srcTracks dstRange (src :: srcRange) result
    else
      correspondenceLoop dstTracks srcTracks dstRange srcRange
        (result ++ [(dst, src)])

/-- The destination range `FindCorrespondence` scans: the selected leaders,
or, when exactly one leader is selected, that leader and the ones after. -/
def destinationRange (dstTracks : TrackList D) : List (Track D) :=
  match SelectedLeaders dstTracks with
  | [only] => StartingWith (Leaders dstTracks) only
  | dstRange => dstRange

/-- Embeds `FindCorrespondence`. -/
def FindCorrespondence (dstTracks srcTracks : TrackList D) : Correspondence D :=
  let r := correspondenceLoop dstTracks srcTracks (destinationRange dstTracks)
    (Leaders srcTracks) []
  if !r.2.isEmpty then
    -- Could not fit all source tracks into the selected tracks
    []
  else
    r.1

/-! ## Collaborators: track operations, project, clipboard -/

/-- The operations of the track classes that the commands call.  A mutating
operation is given the track and returns its new content; `Except.error`
stands for a thrown exception.  `Copy` and the cut operations also return the
holder of the copy, `none` for a null holder. -/
structure TrackOps (D : Type) where
  Copy : Track D → Time → Time → Bool → Except String (Option (Track D))
  Cut : Track D → Time → Time → Except String (Content D × Option (Track D))
  SplitCut : Track D → Time → Time → Except String (Content D × Option (Track D))
  Clear : Track D → Time → Time → Except String (Content D)
  ClearAndAddCutLine : Track D → Time → Time → Except String (Content D)
  ClearAndPaste : Track D → Time → Time → Track D → Time → Time →
    Except String (Content D)
  Paste : Track D → Time → Track D → Except String (Content D)
  PasteOver : Track D → Time → Track D → Except String (Content D × Bool)
  ShiftLabelsOnInsert : Track D → Time → Time → Except String (Content D)
  SyncLockAdjust : Track D → Time → Time → Except String (Content D)
  Silence : Track D → Time → Time → Except String (Content D)
  SplitDelete : Track D → Time → Time → Except String (Content D)
  Trim : Track D → Time → Time → Except String (Content D)
  Split : Track D → Time → Time → Except String (Content D)
  Join : Track D → Time → Time → Except String (Content D)
  Disjoin : Track D → Time → Time → Except String (Content D)
  GetStartTime : Track D → Time
  GetEndTime : Track D → Time
  GetOffset : Track D → Time
  /-- Embeds `dest->Init(orig)`: first the destination, then the original. -/
  Init : Track D → Track D → Track D
  SetOffset : Track D → Time → Track D
  Offset : Track D → Time → Track D
  /-- Embeds `Track::FinishCopy(n, dest)`: first the original, then the copy. -/
  FinishCopy : Track D → Track D → Track D
  /-- Embeds `wt->LongSamplesToTime(wt->TimeToLongSamples(t))`. -/
  SnapToSample : Track D → Time → Time
  /-- Embeds `pClip->PasteInto(project)`: the track pasted into, and whether it is a
  new track (`use_count() == 1`) rather than one the project already owns. -/
  PasteInto : TrackList D → Track D → Except String (Track D × Bool)
  /-- Embeds `LabelTrackView::GetTextEditIndex`. -/
  GetTextEditIndex : Track D → Int
  /-- The text operations of the track views: `some c` when the call returns
  true, leaving the track with content `c`; `none` when it returns false. -/
  CutSelectedText : Track D → Option (Content D)
  CopySelectedText : Track D → Bool
  PasteSelectedText : Track D → Time → Time → Option (Content D)
  PasteText : Track D → Option (Content D)
  GetPlayStartTime : WaveClip → Time
  GetPlayEndTime : WaveClip → Time
  ClearLeft : WaveClip → Time → Except String WaveClip
  ClearRight : WaveClip → Time → Except String WaveClip

/-- Embeds `ViewInfo::selectedRegion`. -/
structure SelectedRegion where
  t0 : Time
  t1 : Time
  deriving DecidableEq, Repr

/-- One state pushed to the undo history, with the two descriptions given to
`ProjectHistory::PushState`. -/
structure HistoryEntry where
  longDescription : String
  shortDescription : String
  deriving DecidableEq, Repr

/-- The parts of an `AudacityProject` the edit commands read or write. -/
structure Project (D : Type) where
  key : Nat
  tracks : TrackList D
  selectedRegion : SelectedRegion
  history : List HistoryEntry
  isSyncLocked : Bool
  focus : Option Nat
  deriving DecidableEq, Repr

/-- The global `Clipboard`. -/
structure Clipboard (D : Type) where
  tracks : TrackList D
  t0 : Time
  t1 : Time
  project : Option Nat
  deriving DecidableEq, Repr

/-- The answers of the audio paste dialog. -/
inductive DialogResult where
  | cancel
  | keep
  | discard
  deriving DecidableEq, Repr

/-- Preferences and user input read by the commands: the cut-lines
preference, the wave-clip paste policy, the answer the user gives to the
audio paste dialog, and `QUANTIZED_TIME(t, projectRate)`. -/
structure Environment where
  enableCutLines : Bool
  pastePolicy : String
  dialogAnswer : DialogResult
  quantizedTime : Time → Time

/-- What a command can change. -/
structure State (D : Type) where
  project : Project D
  clipboard : Clipboard D
  messages : List String
  deriving DecidableEq, Repr

/-- The state a command leaves, and whether it ran to its end
(`completed = false`: an exception escaped it). -/
structure Outcome (D : Type) where
  state : State D
  completed : Bool
  deriving DecidableEq, Repr

/-- Embeds `ProjectHistory::PushState`. -/
def PushState (p : Project D) (longDescription shortDescription : String) :
    Project D :=
  { p with history := p.history ++ [⟨longDescription, shortDescription⟩] }

/-- Embeds `selectedRegion.collapseToT0()`. -/
def collapseToT0 (r : SelectedRegion) : SelectedRegion :=
  { r with t1 := r.t0 }

/-- Embeds `selectedRegion.setTimes(t0, t1)`. -/
def setTimes (t0 t1 : Time) : SelectedRegion :=
  ⟨t0, t1⟩

/-- Embeds `selectedRegion.isPoint()`. -/
def isPoint (r : SelectedRegion) : Bool :=
  decide (r.t0 = r.t1)

/-- An object identity not yet used in the list. -/
def freshId (list : TrackList D) : Nat :=
  (list.map (fun t => t.id)).foldr max 0 + 1

/-- Embeds `TrackList::Add`: the track becomes the last of the list, as a new
member with an identity of its own. -/
def Add (list : TrackList D) (t : Track D) : TrackList D :=
  list ++ [{ t with id := freshId list }]

/-- Embeds `Clipboard::Clear`. -/
def Clipboard.Clear (_c : Clipboard D) : Clipboard D :=
  ⟨[], 0, 0, none⟩

/-- Embeds `Clipboard::Assign`. -/
def Clipboard.Assign (_c : Clipboard D) (newContents : TrackList D)
    (t0 t1 : Time) (pProject : Nat) : Clipboard D :=
  ⟨newContents, t0, t1, some pProject⟩

/-- Embeds `Clipboard::Duration`. -/
def Clipboard.Duration (c : Clipboard D) : Time :=
  c.t1 - c.t0

/-- Embeds `SyncLock::IsSelectedOrSyncLockSelected`. -/
def IsSelectedOrSyncLockSelected (t : Track D) : Bool :=
  t.selected || t.syncLockSelected

/-- The helper `FinishCopy(n, dest, list)`. -/
def FinishCopy (ops : TrackOps D) (n : Track D) (dest : Option (Track D))
    (list : TrackList D) : TrackList D :=
  match dest with
  | none => list
  | some d => Add list (ops.FinishCopy n d)

/-- Run a mutating visitor over the tracks in order.  The walk stops at the
first call that throws: the tracks before it keep their new content, that
track and the ones after it are as they were. -/
def visitTracks (f : Track D → Except String (Content D)) :
    List (Track D) → List (Track D) × Bool
  | [] => ([], true)
  | t :: ts =>
    match f t with
    | .error _ => (t :: ts, false)
    | .ok c =>
      let r := visitTracks f ts
      ({ t with content := c } :: r.1, r.2)

/-- Offer a text operation to the tracks in order, stopping at the first
that accepts it.  `none`: no track accepted it. -/
def firstTextEdit (f : Track D → Option (Content D)) :
    List (Track D) → Option (List (Track D))
  | [] => none
  | t :: ts =>
    match f t with
    | some c => some ({ t with content := c } :: ts)
    | none => (firstTextEdit f ts).map (fun r => t :: r)

/-! ## Cut, Delete, Copy -/

/-- The first `Visit` of `OnCut`, over the selected tracks (`USE_MIDI` is
defined, so note tracks exist): a note track is cut, any other track that supports basic editing is copied, and the result
is added to the new clipboard.  Returns the tracks, the new clipboard and
whether no call threw. -/
def cutVisit (ops : TrackOps D) (t0 t1 : Time) :
    List (Track D) → TrackList D → List (Track D) × TrackList D × Bool
  | [], newClipboard => ([], newClipboard, true)
  | n :: ns, newClipboard =>
    if !n.selected then
      let r := cutVisit ops t0 t1 ns newClipboard
      (n :: r.1, r.2.1, r.2.2)
    else if n.kind = TrackKind.note then
      -- Since portsmf has a built-in cut operator, we use that instead
      match ops.Cut n t0 t1 with
      | .error _ => (n :: ns, newClipboard, false)
      | .ok (c, dest) =>
        let r := cutVisit ops t0 t1 ns (FinishCopy ops n dest newClipboard)
        ({ n with content := c } :: r.1, r.2.1, r.2.2)
    else if n.basicEditing then
      match ops.Copy n t0 t1 true with
      | .error _ => (n :: ns, newClipboard, false)
      | .ok dest =>
        let r := cutVisit ops t0 t1 ns (FinishCopy ops n dest newClipboard)
        (n :: r.1, r.2.1, r.2.2)
    else
      let r := cutVisit ops t0 t1 ns newClipboard
      (n :: r.1, r.2.1, r.2.2)

/-- The visitor of the second `Visit` of `OnCut`, applied to every track
that is selected or sync-lock selected. -/
def cutClear (ops : TrackOps D) (env : Environment) (t0 t1 : Time)
    (n : Track D) : Except String (Content D) :=
  if !IsSelectedOrSyncLockSelected n then
    .ok n.content
  else if n.kind = TrackKind.note then
    -- if NoteTrack, it was cut, so do not clear anything
    .ok n.content
  else if n.kind = TrackKind.wave && env.enableCutLines then
    ops.ClearAndAddCutLine n t0 t1
  else if n.basicEditing then
    ops.Clear n t0 t1
  else
    .ok n.content

/-- The two text loops at the head of `OnCut`: cut the selected text of a
selected label track, else of a wave track.  `some tracks`: text was cut,
and the command returns; `none`: the command goes on to cut audio. -/
def cutSelectedText (ops : TrackOps D) (tracks : TrackList D) :
    Option (TrackList D) :=
  match firstTextEdit
      (fun t => if t.selected && t.kind = TrackKind.label
        then ops.CutSelectedText t else none) tracks with
  | some r => some r
  | none =>
    firstTextEdit
      (fun t => if t.kind = TrackKind.wave then ops.CutSelectedText t else none)
      tracks

/-- Embeds `OnCut`. -/
def OnCut (ops : TrackOps D) (env : Environment) (st : State D) : Outcome D :=
  let project := st.project
  let t0 := project.selectedRegion.t0
  let t1 := project.selectedRegion.t1
  -- cutting the text inside of labels
  match cutSelectedText ops project.tracks with
  | some tracks => ⟨{ st with project := { project with tracks := tracks } }, true⟩
  | none =>
  let clipboard := st.clipboard.Clear
  let r := cutVisit ops t0 t1 project.tracks []
  if !r.2.2 then
    ⟨{ st with project := { project with tracks := r.1 }, clipboard := clipboard },
      false⟩
  else
  -- Survived possibility of exceptions.  Commit changes to the clipboard now.
  let clipboard := clipboard.Assign r.2.1 t0 t1 project.key
  -- Proceed to change the project.
  let v := visitTracks (cutClear ops env t0 t1) r.1
  if !v.2 then
    ⟨{ st with project := { project with tracks := v.1 }, clipboard := clipboard },
      false⟩
  else
  let project := { project with
    tracks := v.1, selectedRegion := collapseToT0 project.selectedRegion }
  ⟨{ st with
      project := PushState project "Cut to the clipboard" "Cut",
      clipboard := clipboard }, true⟩

/-- The body of the loop of `OnDelete`. -/
def deleteClear (ops : TrackOps D) (t0 t1 : Time) (n : Track D) :
    Except String (Content D) :=
  if !n.basicEditing then
    .ok n.content
  else if IsSelectedOrSyncLockSelected n then
    ops.Clear n t0 t1
  else
    .ok n.content

/-- Embeds `OnDelete`. -/
def OnDelete (ops : TrackOps D) (st : State D) : Outcome D :=
  let project := st.project
  let t0 := project.selectedRegion.t0
  let t1 := project.selectedRegion.t1
  let v := visitTracks (deleteClear ops t0 t1) project.tracks
  if !v.2 then
    ⟨{ st with project := { project with tracks := v.1 } }, false⟩
  else
  let project := { project with
    tracks := v.1, selectedRegion := collapseToT0 project.selectedRegion }
  ⟨{ st with
      project := PushState project "Deleted %.2f seconds at t=%.2f" "Delete" },
    true⟩

/-- The loop of `OnCopy` over the selected tracks; `none` when a `Copy`
throws. -/
def copyVisit (ops : TrackOps D) (t0 t1 : Time) :
    List (Track D) → TrackList D → Option (TrackList D)
  | [], newClipboard => some newClipboard
  | n :: ns, newClipboard =>
    if n.selected && n.basicEditing then
      match ops.Copy n t0 t1 true with
      | .error _ => none
      | .ok dest => copyVisit ops t0 t1 ns (FinishCopy ops n dest newClipboard)
    else
      copyVisit ops t0 t1 ns newClipboard

/-- The two text loops at the head of `OnCopy`: whether a selected label
track or a wave track copied its selected text, after which the command
returns. -/
def copiesSelectedText (ops : TrackOps D) (tracks : TrackList D) : Bool :=
  tracks.any
    (fun t => t.selected && t.kind = TrackKind.label && ops.CopySelectedText t)
  || tracks.any (fun t => t.kind = TrackKind.wave && ops.CopySelectedText t)

/-- Embeds `OnCopy`. -/
def OnCopy (ops : TrackOps D) (st : State D) : Outcome D :=
  let project := st.project
  let t0 := project.selectedRegion.t0
  let t1 := project.selectedRegion.t1
  if copiesSelectedText ops project.tracks then
    ⟨st, true⟩
  else
  let clipboard := st.clipboard.Clear
  match copyVisit ops t0 t1 project.tracks [] with
  | none => ⟨{ st with clipboard := clipboard }, false⟩
  | some newClipboard =>
    -- Survived possibility of exceptions.  Commit changes to the clipboard now.
    ⟨{ st with clipboard := clipboard.Assign newClipboard t0 t1 project.key }, true⟩

/-! ## Paste -/

/-- Embeds `DoPasteText`: handle text paste.  Returns the project and whether it
did paste. -/
def DoPasteText (ops : TrackOps D) (project : Project D) : Project D × Bool :=
  let t0 := project.selectedRegion.t0
  let t1 := project.selectedRegion.t1
  -- Paste into the active label (if any)
  match firstTextEdit
      (fun t => if t.kind = TrackKind.label && ops.GetTextEditIndex t != -1
        then ops.PasteSelectedText t t0 t1 else none) project.tracks with
  | some tracks =>
    (PushState { project with tracks := tracks }
      "Pasted text from the clipboard" "Paste", true)
  | none =>
  match firstTextEdit
      (fun t => if t.kind = TrackKind.wave then ops.PasteText t else none)
      project.tracks with
  | some tracks => ({ project with tracks := tracks }, true)
  | none => (project, false)

/-- Embeds `HasHiddenData`. -/
def HasHiddenData (trackList : TrackList D) : Bool :=
  (AnyOfKind TrackKind.wave trackList).any (fun waveTrack =>
    waveTrack.content.clips.any (fun clip =>
      clip.trimLeft != 0 || clip.trimRight != 0))

/-- The body of the clip loop of `DuplicateDiscardTrimmed`. -/
def discardTrimmedClip (ops : TrackOps D) (clip : WaveClip) :
    Except String WaveClip :=
  let left : Except String WaveClip :=
    if clip.trimLeft != 0 then
      let t0 := ops.GetPlayStartTime clip
      ops.ClearLeft { clip with trimLeft := 0 } t0
    else
      .ok clip
  match left with
  | .error e => .error e
  | .ok clip =>
    if clip.trimRight != 0 then
      let t1 := ops.GetPlayEndTime clip
      ops.ClearRight { clip with trimRight := 0 } t1
    else
      .ok clip

/-- The clip loop of `DuplicateDiscardTrimmed`. -/
def discardTrimmedClips (ops : TrackOps D) :
    List WaveClip → Except String (List WaveClip)
  | [] => .ok []
  | clip :: clips =>
    match discardTrimmedClip ops clip with
    | .error e => .error e
    | .ok c =>
      match discardTrimmedClips ops clips with
      | .error e => .error e
      | .ok cs => .ok (c :: cs)

/-- The track loop of `DuplicateDiscardTrimmed`, adding to `result`.  The
copy is used without a null check in the source; a null holder is an
error here. -/
def duplicateDiscardTrimmedLoop (ops : TrackOps D) :
    List (Track D) → TrackList D → Except String (TrackList D)
  | [], result => .ok result
  | track :: rest, result =>
    match ops.Copy track (ops.GetStartTime track) (ops.GetEndTime track) false with
    | .error e => .error e
    | .ok none => .error "null track copy"
    | .ok (some trackCopy) =>
      let trackCopy := ops.Init trackCopy track
      let trackCopy := ops.SetOffset trackCopy (ops.GetStartTime track)
      if trackCopy.kind = TrackKind.wave then
        match discardTrimmedClips ops trackCopy.content.clips with
        | .error e => .error e
        | .ok clips =>
          duplicateDiscardTrimmedLoop ops rest
            (Add result
              { trackCopy with content := { trackCopy.content with clips := clips } })
      else
        duplicateDiscardTrimmedLoop ops rest (Add result trackCopy)

/-- Embeds `DuplicateDiscardTrimmed`. -/
def DuplicateDiscardTrimmed (ops : TrackOps D) (src : TrackList D) :
    Except String (TrackList D) :=
  duplicateDiscardTrimmedLoop ops src []

/-- Embeds `FindSelection`. -/
def FindSelection (project : Project D) : Time × Time :=
  (project.selectedRegion.t0, project.selectedRegion.t1)

/-- Embeds `FindSourceTracks`.  `.ok none` is the null result (the user
cancelled). -/
def FindSourceTracks (ops : TrackOps D) (env : Environment) (st : State D) :
    Except String (Option (TrackList D)) :=
  let clipboard := st.clipboard
  let decision : Option Bool :=
    if clipboard.project != some st.project.key then
      if env.pastePolicy = "Ask" && HasHiddenData clipboard.tracks then
        match env.dialogAnswer with
        | .cancel => none
        | result => some (decide (result = DialogResult.discard))
      else if env.pastePolicy = "Discard" then
        some true
      else
        some false
    else
      some false
  match decision with
  | none => .ok none
  | some discardTrimmed =>
    if discardTrimmed then
      match DuplicateDiscardTrimmed ops clipboard.tracks with
      | .error e => .error e
      | .ok srcTracks => .ok (some srcTracks)
    else
      .ok (some clipboard.tracks)

/-- The track loop of `DoPasteNothingSelected`: the tracks, the first track
pasted into, and whether no call threw. -/
def pasteNothingSelectedLoop (ops : TrackOps D) :
    List (Track D) → TrackList D → Option Nat → TrackList D × Option Nat × Bool
  | [], tracks, pFirstNewTrack => (tracks, pFirstNewTrack, true)
  | pClip :: rest, tracks, pFirstNewTrack =>
    match ops.PasteInto tracks pClip with
    | .error _ => (tracks, pFirstNewTrack, false)
    | .ok (pNewTrack, newTrack) =>
      let pNewTrack := { pNewTrack with selected := true }
      if newTrack then
        pasteNothingSelectedLoop ops rest
          (FinishCopy ops pClip (some pNewTrack) tracks)
          (pFirstNewTrack.orElse (fun _ => some (freshId tracks)))
      else
        pasteNothingSelectedLoop ops rest
          (tracks.map (fun t =>
            if t.id = pNewTrack.id then ops.FinishCopy pClip pNewTrack else t))
          (pFirstNewTrack.orElse (fun _ => some pNewTrack.id))

/-- Embeds `DoPasteNothingSelected`: create and paste into new tracks. -/
def DoPasteNothingSelected (ops : TrackOps D) (env : Environment)
    (st : State D) (src : TrackList D) (t0 t1 : Time) : Outcome D :=
  let project := st.project
  let r := pasteNothingSelectedLoop ops src project.tracks none
  if !r.2.2 then
    ⟨{ st with project := { project with tracks := r.1 } }, false⟩
  else
  let quantT0 := env.quantizedTime t0
  let quantT1 := env.quantizedTime t1
  let project := { project with
    tracks := r.1, selectedRegion := setTimes 0 (quantT1 - quantT0) }
  let project := PushState project "Pasted from the clipboard" "Paste"
  ⟨{ st with project :=
      match r.2.1 with
      | some f => { project with focus := some f }
      | none => project }, true⟩

/-- Embeds `SyncLock::Group(pTrack)`: the members of the track's sync-lock group. -/
def SyncLockGroup (list : TrackList D) (pTrack : Track D) : List (Track D) :=
  list.filter (fun t => t.syncGroup == pTrack.syncGroup)

/-- The track of the list that has this identity, now. -/
def current (list : TrackList D) (pTrack : Track D) : Track D :=
  (list.find? (fun t => t.id == pTrack.id)).getD pTrack

/-- Give the track with the identity of `pTrack` a new content. -/
def setContent (list : TrackList D) (pTrack : Track D) (c : Content D) :
    TrackList D :=
  list.map (fun t => if t.id = pTrack.id then { t with content := c } else t)

/-- The variables of the paste loops of `OnPaste`. -/
structure PasteProgress (D : Type) where
  tracks : TrackList D
  iPair : Correspondence D
  bPastedSomething : Bool
  ff : Option Nat
  threw : Bool

/-- The channel loop of a paste into a wave track: `pasteWaveTrack` on each
destination channel, with the source channel range `srcChannels`. -/
def pasteChannels (ops : TrackOps D) (t0 t1 : Time) :
    List (Track D) → List (Track D) → PasteProgress D → PasteProgress D
  | [], _, s => s
  | dst :: dsts, srcChannels, s =>
    match srcChannels with
    | [] => { s with bPastedSomething := true, threw := true }
    | src :: srcRest =>
      let s := { s with bPastedSomething := true }
      -- For correct remapping of preserved split lines:
      match ops.ClearAndPaste (current s.tracks dst) t0 t1 src
          t1 (t0 + ops.GetEndTime src) with
      | .error _ => { s with threw := true }
      | .ok c =>
        pasteChannels ops t0 t1 dsts
          -- When the source is mono, may paste its only channel repeatedly
          (if srcChannels.length > 1 then srcRest else srcChannels)
          { s with tracks := setContent s.tracks dst c }

/-- The `TypeSwitch` of `OnPaste`: paste `src` into the leader. -/
def pasteInto (ops : TrackOps D) (clipboard : Clipboard D)
    (srcTracks : TrackList D) (t0 t1 : Time) (leader src : Track D)
    (s : PasteProgress D) : PasteProgress D :=
  match leader.kind with
  | .wave =>
    pasteChannels ops t0 t1 (Channels s.tracks leader) (Channels srcTracks src) s
  | .label =>
    -- Per Bug 293, users expect labels to move on a paste into a label track.
    match ops.Clear (current s.tracks leader) t0 t1 with
    | .error _ => { s with threw := true }
    | .ok c =>
      let s := { s with tracks := setContent s.tracks leader c }
      match ops.ShiftLabelsOnInsert (current s.tracks leader)
          clipboard.Duration t0 with
      | .error _ => { s with threw := true }
      | .ok c =>
        let s := { s with tracks := setContent s.tracks leader c }
        match ops.PasteOver (current s.tracks leader) t0 src with
        | .error _ => { s with threw := true }
        | .ok (c, pasted) =>
          { s with
            tracks := setContent s.tracks leader c,
            bPastedSomething := s.bPastedSomething || pasted }
  | _ =>
    let s := { s with bPastedSomething := true }
    match ops.Clear (current s.tracks leader) t0 t1 with
    | .error _ => { s with threw := true }
    | .ok c =>
      let s := { s with tracks := setContent s.tracks leader c }
      match ops.Paste (current s.tracks leader) t0 src with
      | .error _ => { s with threw := true }
      | .ok c => { s with tracks := setContent s.tracks leader c }

/-- The inner loop of `OnPaste`, over the leaders of one sync-lock group. -/
def pasteGroup (ops : TrackOps D) (clipboard : Clipboard D)
    (srcTracks : TrackList D) (t0 t1 newT1 : Time) (isSyncLocked : Bool) :
    List (Track D) → PasteProgress D → PasteProgress D
  | [], s => s
  | leader :: leaders, s =>
    match s.iPair with
    | [] =>
      -- Nothing more to paste
      s
    | (first, src) :: iPair =>
      if leader.id != first.id then
        if isSyncLocked then
          -- Track is not pasted into but must be adjusted
          if t1 != newT1 && t1 ≤ ops.GetEndTime (current s.tracks leader) then
            match ops.SyncLockAdjust (current s.tracks leader) t1 newT1 with
            | .error _ => { s with threw := true }
            | .ok c =>
              pasteGroup ops clipboard srcTracks t0 t1 newT1 isSyncLocked leaders
                { s with
                  tracks := setContent s.tracks leader c,
                  bPastedSomething := true }
          else
            pasteGroup ops clipboard srcTracks t0 t1 newT1 isSyncLocked leaders s
        else
          pasteGroup ops clipboard srcTracks t0 t1 newT1 isSyncLocked leaders s
      else
        -- Remember first pasted-into track, to focus it
        let s := { s with ff := s.ff.orElse (fun _ => some leader.id) }
        -- Do the pasting!
        let s := pasteInto ops clipboard srcTracks t0 t1 leader src
          { s with iPair := iPair }
        if s.threw then
          s
        else
          pasteGroup ops clipboard srcTracks t0 t1 newT1 isSyncLocked leaders s

/-- The outer loop of `OnPaste`, by sync-lock groups; `range` is the range
of leaders still to visit.  Each turn moves `range` past its first leader,
so `fuel` turns are enough when `fuel` is the number of leaders. -/
def pasteGroups (ops : TrackOps D) (clipboard : Clipboard D)
    (srcTracks : TrackList D) (t0 t1 newT1 : Time) (isSyncLocked : Bool) :
    Nat → List (Track D) → PasteProgress D → PasteProgress D
  | 0, _, s => s
  | _ + 1, [], s => s
  | fuel + 1, first :: _, s =>
    match s.iPair with
    | [] =>
      -- Nothing more to paste
      s
    | (dst, _) :: _ =>
      let group := SyncLockGroup s.tracks first
      let next : List (Track D) :=
        match group.getLast? with
        | none => []
        | some last =>
          match FindLeader s.tracks last with
          | none => []
          | some l => (StartingWith (Leaders s.tracks) l).tail
      if !group.any (fun t => t.id == dst.id) then
        -- Nothing to paste into this group
        pasteGroups ops clipboard srcTracks t0 t1 newT1 isSyncLocked fuel next s
      else
        let s := pasteGroup ops clipboard srcTracks t0 t1 newT1 isSyncLocked
          (group.filter (fun t => t.leader)) s
        if s.threw then
          s
        else
          pasteGroups ops clipboard srcTracks t0 t1 newT1 isSyncLocked fuel next s

/-- The two rejection messages of `OnPaste`. -/
def rejectionMessage (tracks : TrackList D) : String :=
  if (SelectedLeaders tracks).length = 1 then
    "The content you are trying to paste will span across more tracks than you currently have available. Add more tracks and try again."
  else
    "There are not enough tracks selected to accommodate your copied content. Select additional tracks and try again."

/-- The `return` by which `OnPaste` ends: after a text paste, on an empty
clipboard, after the user cancelled, after pasting into new tracks, after
the rejection message, at its end having pasted something, at its end
having pasted nothing, or by an exception. -/
inductive PasteExit where
  | textPasted
  | emptyClipboard
  | cancelled
  | newTracks
  | rejected
  | pasted
  | nothingPasted
  | threw
  deriving DecidableEq, Repr

/-- Embeds `OnPaste`, with the exit it takes.  `NotificationScope` only
drives a progress dialog and is left out. -/
def OnPasteTraced (ops : TrackOps D) (env : Environment) (st : State D) :
    Outcome D × PasteExit :=
  -- Handle text paste first.
  let text := DoPasteText ops st.project
  if text.2 then
    (⟨{ st with project := text.1 }, true⟩, .textPasted)
  else
  let clipboard := st.clipboard
  if clipboard.tracks.isEmpty then
    (⟨st, true⟩, .emptyClipboard)
  else
  match FindSourceTracks ops env st with
  | .error _ => (⟨st, false⟩, .threw)
  | .ok none =>
    -- user cancelled
    (⟨st, true⟩, .cancelled)
  | .ok (some srcTracks) =>
  let project := st.project
  let tracks := project.tracks
  -- If nothing's selected, we just insert new tracks.
  if (Selected tracks).isEmpty then
    let out := DoPasteNothingSelected ops env st srcTracks clipboard.t0 clipboard.t1
    (out, if out.completed then .newTracks else .threw)
  else
  -- Otherwise, paste into the selected tracks.
  let sel := FindSelection project
  let t0 := sel.1
  let t1 := sel.2
  let newT1 := t0 + clipboard.Duration
  let isSyncLocked := project.isSyncLocked
  -- Find tracks to paste in
  let correspondence := FindCorrespondence tracks srcTracks
  if correspondence.isEmpty then
    (⟨{ st with messages := st.messages ++ [rejectionMessage tracks] }, true⟩,
      .rejected)
  else
  let s := pasteGroups ops clipboard srcTracks t0 t1 newT1 isSyncLocked
    (Leaders tracks).length (Leaders tracks)
    ⟨tracks, correspondence, false, none, false⟩
  if s.threw then
    (⟨{ st with project := { project with tracks := s.tracks } }, false⟩, .threw)
  else if s.bPastedSomething then
    let project := { project with
      tracks := s.tracks,
      selectedRegion := setTimes t0 (t0 + clipboard.Duration) }
    let project := PushState project "Pasted from the clipboard" "Paste"
    (⟨{ st with project :=
        match s.ff with
        | some f => { project with focus := some f }
        | none => project }, true⟩, .pasted)
  else
    (⟨{ st with project := { project with tracks := s.tracks } }, true⟩,
      .nothingPasted)

/-- Embeds `OnPaste`. -/
def OnPaste (ops : TrackOps D) (env : Environment) (st : State D) : Outcome D :=
  (OnPasteTraced ops env st).1

/-! ## Duplicate, the split commands, Silence, Trim, Join, Disjoin -/

/-- The loop of `OnDuplicate`.  The range being walked is the live list of
selected tracks: `visited` are the tracks the iterator has passed, `rest`
the ones ahead of it, and a copy added to the project joins `rest`.
`none`: the walk has not ended within `fuel` steps. -/
def duplicateLoop (ops : TrackOps D) (t0 t1 : Time) (last : Option Nat) :
    Nat → List (Track D) → List (Track D) → Option (TrackList D × Bool)
  | 0, _, _ => none
  | _ + 1, visited, [] => some (visited, true)
  | fuel + 1, visited, n :: rest =>
    if !n.selected then
      duplicateLoop ops t0 t1 last fuel (visited ++ [n]) rest
    else if !n.basicEditing then
      -- continue
      duplicateLoop ops t0 t1 last fuel (visited ++ [n]) rest
    else
      -- Make copies not for clipboard but for direct addition to the project
      match ops.Copy n t0 t1 false with
      | .error _ => some (visited ++ n :: rest, false)
      | .ok none => some (visited ++ n :: rest, false)
      | .ok (some dest) =>
        let dest := ops.Init dest n
        let dest := ops.SetOffset dest (max t0 (ops.GetOffset n))
        let tracks := Add (visited ++ n :: rest) dest
        -- This break is really needed, else we loop infinitely
        if some n.id = last then
          some (tracks, true)
        else
          duplicateLoop ops t0 t1 last fuel (visited ++ [n])
            (tracks.drop (visited.length + 1))

/-- Embeds `OnDuplicate`, run for at most `fuel` steps of its loop. -/
def OnDuplicate (ops : TrackOps D) (fuel : Nat) (st : State D) :
    Option (Outcome D) :=
  let project := st.project
  let t0 := project.selectedRegion.t0
  let t1 := project.selectedRegion.t1
  let last := ((Selected project.tracks).getLast?).map (fun t => t.id)
  match duplicateLoop ops t0 t1 last fuel [] project.tracks with
  | none => none
  | some (tracks, false) =>
    some ⟨{ st with project := { project with tracks := tracks } }, false⟩
  | some (tracks, true) =>
    let project := { project with tracks := tracks }
    some ⟨{ st with project := PushState project "Duplicated" "Duplicate" }, true⟩

/-- The first `Visit` of `OnSplitCut`, over the selected tracks. -/
def splitCutVisit (ops : TrackOps D) (t0 t1 : Time) :
    List (Track D) → TrackList D → List (Track D) × TrackList D × Bool
  | [], newClipboard => ([], newClipboard, true)
  | n :: ns, newClipboard =>
    if !n.selected then
      let r := splitCutVisit ops t0 t1 ns newClipboard
      (n :: r.1, r.2.1, r.2.2)
    else if n.kind = TrackKind.wave then
      match ops.SplitCut n t0 t1 with
      | .error _ => (n :: ns, newClipboard, false)
      | .ok (c, dest) =>
        let r := splitCutVisit ops t0 t1 ns (FinishCopy ops n dest newClipboard)
        ({ n with content := c } :: r.1, r.2.1, r.2.2)
    else if n.basicEditing then
      match ops.Copy n t0 t1 true with
      | .error _ => (n :: ns, newClipboard, false)
      | .ok dest =>
        match ops.Silence n t0 t1 with
        | .error _ => (n :: ns, newClipboard, false)
        | .ok c =>
          let r := splitCutVisit ops t0 t1 ns (FinishCopy ops n dest newClipboard)
          ({ n with content := c } :: r.1, r.2.1, r.2.2)
    else
      let r := splitCutVisit ops t0 t1 ns newClipboard
      (n :: r.1, r.2.1, r.2.2)

/-- Embeds `OnSplitCut`. -/
def OnSplitCut (ops : TrackOps D) (st : State D) : Outcome D :=
  let project := st.project
  let t0 := project.selectedRegion.t0
  let t1 := project.selectedRegion.t1
  let clipboard := st.clipboard.Clear
  let r := splitCutVisit ops t0 t1 project.tracks []
  if !r.2.2 then
    ⟨{ st with project := { project with tracks := r.1 }, clipboard := clipboard },
      false⟩
  else
  -- Survived possibility of exceptions.  Commit changes to the clipboard now.
  let pushed := PushState { project with tracks := r.1 }
    "Split-cut to the clipboard" "Split Cut"
  ⟨{ st with
      project := pushed,
      clipboard := clipboard.Assign r.2.1 t0 t1 project.key }, true⟩

/-- A command that applies one visitor to the tracks and then pushes a
state: the shape shared by `OnSplitDelete`, `OnSilence`, `OnTrim`, `OnSplit`,
`OnJoin` and `OnDisjoin`. -/
def visitAndPush (f : Track D → Except String (Content D))
    (longDescription shortDescription : String) (st : State D) : Outcome D :=
  let project := st.project
  let v := visitTracks f project.tracks
  if !v.2 then
    ⟨{ st with project := { project with tracks := v.1 } }, false⟩
  else
    let project := { project with tracks := v.1 }
    ⟨{ st with project := PushState project longDescription shortDescription },
      true⟩

/-- The visitor of `OnSplitDelete`. -/
def splitDeleteVisitor (ops : TrackOps D) (t0 t1 : Time) (n : Track D) :
    Except String (Content D) :=
  if !n.selected then
    .ok n.content
  else if n.kind = TrackKind.wave then
    ops.SplitDelete n t0 t1
  else if n.basicEditing then
    ops.Silence n t0 t1
  else
    .ok n.content

/-- Embeds `OnSplitDelete`. -/
def OnSplitDelete (ops : TrackOps D) (st : State D) : Outcome D :=
  visitAndPush
    (splitDeleteVisitor ops st.project.selectedRegion.t0 st.project.selectedRegion.t1)
    "Split-deleted %.2f seconds at t=%.2f" "Split Delete" st

/-- A visitor that applies `op` to the selected wave tracks and to no other
track. -/
def onSelectedWave (op : Track D → Time → Time → Except String (Content D))
    (t0 t1 : Time) (n : Track D) : Except String (Content D) :=
  if n.selected && n.kind = TrackKind.wave then
    op n t0 t1
  else
    .ok n.content

/-- Embeds `OnSilence`. -/
def OnSilence (ops : TrackOps D) (st : State D) : Outcome D :=
  visitAndPush
    (onSelectedWave ops.Silence st.project.selectedRegion.t0
      st.project.selectedRegion.t1)
    "Silenced selected tracks for %.2f seconds at %.2f" "Silence" st

/-- Embeds `OnTrim`. -/
def OnTrim (ops : TrackOps D) (st : State D) : Outcome D :=
  if isPoint st.project.selectedRegion then
    ⟨st, true⟩
  else
    visitAndPush
      (onSelectedWave ops.Trim st.project.selectedRegion.t0
        st.project.selectedRegion.t1)
      "Trim selected audio tracks from %.2f seconds to %.2f seconds"
      "Trim Audio" st

/-- Embeds `OnSplit`; `pTrack` is `context.temporarySelection.pTrack`. -/
def OnSplit (ops : TrackOps D) (pTrack : Option (Track D)) (st : State D) :
    Outcome D :=
  let sel := FindSelection st.project
  match pTrack with
  | some pTrack =>
    if pTrack.kind = TrackKind.wave then
      visitAndPush
        (fun n =>
          if (Channels st.project.tracks pTrack).any (fun c => c.id == n.id)
          then ops.Split n sel.1 sel.2 else .ok n.content)
        "Split" "Split" st
    else
      -- Did nothing, don't push history
      ⟨st, true⟩
  | none =>
    visitAndPush (onSelectedWave ops.Split sel.1 sel.2) "Split" "Split" st

/-- The loop of `OnSplitNew` over the selected tracks.  It ends at `last`,
the last track that was selected when the command began, so the tracks it
adds to the project are never reached: the walk is over the tracks the
project had, `tracks` being the project's list as it grows. -/
def splitNewLoop (ops : TrackOps D) (t0 t1 : Time) (last : Option Nat) :
    List (Track D) → TrackList D → TrackList D × Bool
  | [], tracks => (tracks, true)
  | track :: rest, tracks =>
    if !track.selected then
      splitNewLoop ops t0 t1 last rest tracks
    else
      let step : Option (TrackList D) :=
        if track.kind = TrackKind.wave then
          let wt := current tracks track
          -- Clips must be aligned to sample positions
          let newt0 := ops.SnapToSample wt t0
          let newt1 := ops.SnapToSample wt t1
          match ops.Copy wt newt0 newt1 false with
          | .error _ => none
          | .ok dest =>
            match ops.SplitDelete wt newt0 newt1 with
            | .error _ => none
            | .ok c =>
              let tracks := setContent tracks track c
              match dest with
              | some dest =>
                some (FinishCopy ops (current tracks track)
                  (some (ops.Offset dest newt0)) tracks)
              | none => some tracks
        else
          some tracks
      match step with
      | none => (tracks, false)
      | some tracks =>
        if some track.id = last then
          (tracks, true)
        else
          splitNewLoop ops t0 t1 last rest tracks

/-- Embeds `OnSplitNew`. -/
def OnSplitNew (ops : TrackOps D) (st : State D) : Outcome D :=
  let project := st.project
  let t0 := project.selectedRegion.t0
  let t1 := project.selectedRegion.t1
  let last := ((Selected project.tracks).getLast?).map (fun t => t.id)
  let r := splitNewLoop ops t0 t1 last project.tracks project.tracks
  if !r.2 then
    ⟨{ st with project := { project with tracks := r.1 } }, false⟩
  else
    let project := { project with tracks := r.1 }
    ⟨{ st with project := PushState project "Split to new track" "Split New" },
      true⟩

/-- Embeds `OnJoin`. -/
def OnJoin (ops : TrackOps D) (st : State D) : Outcome D :=
  visitAndPush
    (onSelectedWave ops.Join st.project.selectedRegion.t0
      st.project.selectedRegion.t1)
    "Joined %.2f seconds at t=%.2f" "Join" st

/-- Embeds `OnDisjoin`. -/
def OnDisjoin (ops : TrackOps D) (st : State D) : Outcome D :=
  visitAndPush
    (onSelectedWave ops.Disjoin st.project.selectedRegion.t0
      st.project.selectedRegion.t1)
    "Detached %.2f seconds at t=%.2f" "Detach" st

/-! ## The top-level command handler -/

/-- Modelled from the spec: the top-level handler that runs a command is not
part of this translation unit (`OnCut` only says "If this throws, the project
will be rolled back by the top level handler").  Per the failure semantics
of the spec, on an error no change commits and the project is left exactly
as found: recovery is roll-back to the pre-command state. -/
def runCommand (command : State D → Outcome D) (st : State D) : State D :=
  let out := command st
  if out.completed then
    out.state
  else
    { out.state with project := st.project }

/-! ## A recording instance of the track operations

Used to run the commands on concrete projects: the payload of a track is the
list of the calls made on it. -/

/-- A call on a track, with its arguments; a source track is named by its
identity. -/
inductive Edit where
  | copied (src : Nat) (t0 t1 : Time)
  | cut (t0 t1 : Time)
  | splitCut (t0 t1 : Time)
  | clear (t0 t1 : Time)
  | clearAndAddCutLine (t0 t1 : Time)
  | clearAndPaste (t0 t1 : Time) (src : Nat)
  | paste (t0 : Time) (src : Nat)
  | pasteOver (t0 : Time) (src : Nat)
  | shiftLabelsOnInsert (length pt : Time)
  | syncLockAdjust (oldT1 newT1 : Time)
  | silence (t0 t1 : Time)
  | splitDelete (t0 t1 : Time)
  | trim (t0 t1 : Time)
  | split (t0 t1 : Time)
  | join (t0 t1 : Time)
  | disjoin (t0 t1 : Time)
  | setOffset (t : Time)
  | pastedFrom (src : Nat)
  deriving DecidableEq, Repr

/-- Append a call to the record of a track. -/
def record (t : Track (List Edit)) (e : Edit) : Content (List Edit) :=
  { t.content with data := t.content.data ++ [e] }

/-- The end of the last clip of the track, 0 without clips. -/
def lastClipEnd (t : Track (List Edit)) : Time :=
  (t.content.clips.map
    (fun c => c.sequenceStart + c.sequenceDuration - c.trimRight)).foldr max 0

/-- The recording operations.  Every call succeeds, except the mutating
calls on the tracks whose identity is in `failing`, which throw; label
tracks accept a `PasteOver` exactly when `labelsPaste` holds. -/
def recordingOps (failing : List Nat) (labelsPaste : Bool) :
    TrackOps (List Edit) where
  Copy n t0 t1 _ :=
    if n.id ∈ failing then .error "Copy"
    else .ok (some { n with content := ⟨n.content.clips, [Edit.copied n.id t0 t1]⟩ })
  Cut n t0 t1 :=
    if n.id ∈ failing then .error "Cut"
    else .ok (record n (.cut t0 t1),
      some { n with content := ⟨n.content.clips, [Edit.copied n.id t0 t1]⟩ })
  SplitCut n t0 t1 :=
    if n.id ∈ failing then .error "SplitCut"
    else .ok (record n (.splitCut t0 t1),
      some { n with content := ⟨n.content.clips, [Edit.copied n.id t0 t1]⟩ })
  Clear n t0 t1 :=
    if n.id ∈ failing then .error "Clear" else .ok (record n (.clear t0 t1))
  ClearAndAddCutLine n t0 t1 :=
    if n.id ∈ failing then .error "ClearAndAddCutLine"
    else .ok (record n (.clearAndAddCutLine t0 t1))
  ClearAndPaste n t0 t1 src _ _ :=
    if n.id ∈ failing then .error "ClearAndPaste"
    else .ok (record n (.clearAndPaste t0 t1 src.id))
  Paste n t0 src :=
    if n.id ∈ failing then .error "Paste" else .ok (record n (.paste t0 src.id))
  PasteOver n t0 src :=
    if n.id ∈ failing then .error "PasteOver"
    else if labelsPaste then .ok (record n (.pasteOver t0 src.id), true)
    else .ok (n.content, false)
  ShiftLabelsOnInsert n length pt := .ok (record n (.shiftLabelsOnInsert length pt))
  SyncLockAdjust n oldT1 newT1 :=
    if n.id ∈ failing then .error "SyncLockAdjust"
    else .ok (record n (.syncLockAdjust oldT1 newT1))
  Silence n t0 t1 := .ok (record n (.silence t0 t1))
  SplitDelete n t0 t1 := .ok (record n (.splitDelete t0 t1))
  Trim n t0 t1 := .ok (record n (.trim t0 t1))
  Split n t0 t1 := .ok (record n (.split t0 t1))
  Join n t0 t1 := .ok (record n (.join t0 t1))
  Disjoin n t0 t1 := .ok (record n (.disjoin t0 t1))
  GetStartTime _ := 0
  GetEndTime n := lastClipEnd n
  GetOffset _ := 0
  Init dest orig := { dest with selected := orig.selected, kind := orig.kind }
  SetOffset n t := { n with content := record n (.setOffset t) }
  Offset n t := { n with content := record n (.setOffset t) }
  FinishCopy _ dest := dest
  SnapToSample _ t := t
  PasteInto _ pClip :=
    .ok ({ pClip with content := ⟨pClip.content.clips, [Edit.pastedFrom pClip.id]⟩ },
      true)
  GetTextEditIndex _ := -1
  CutSelectedText _ := none
  CopySelectedText _ := false
  PasteSelectedText _ _ _ := none
  PasteText _ := none
  GetPlayStartTime c := c.sequenceStart + c.trimLeft
  GetPlayEndTime c := c.sequenceStart + c.sequenceDuration - c.trimRight
  ClearLeft c _ := .ok c
  ClearRight c _ := .ok c

/-- A track of the sample projects: a leader that supports basic editing
and has one clip over `[0, 10)`. -/
def sampleTrack (id : Nat) (kind : TrackKind) (selected syncLockSelected : Bool)
    (syncGroup : Nat) : Track (List Edit) :=
  { id := id, kind := kind, leader := true, selected := selected,
    syncLockSelected := syncLockSelected, syncGroup := syncGroup,
    basicEditing := true, content := ⟨[⟨0, 10, 0, 0⟩], []⟩ }

/-- A sample environment: no cut lines, paste policy "Keep", times already
quantized. -/
def sampleEnv : Environment :=
  { enableCutLines := false, pastePolicy := "Keep",
    dialogAnswer := DialogResult.keep, quantizedTime := fun t => t }

/-- A sample state: project 1 with the given tracks, selection and sync-lock
state, no history, and the given clipboard. -/
def sampleState (tracks : TrackList (List Edit)) (t0 t1 : Time)
    (isSyncLocked : Bool) (clipboard : Clipboard (List Edit)) :
    State (List Edit) :=
  { project :=
      { key := 1, tracks := tracks, selectedRegion := ⟨t0, t1⟩, history := [],
        isSyncLocked := isSyncLocked, focus := none },
    clipboard := clipboard, messages := [] }

/-- A clipboard of project 1 holding one mono wave track copied from
`[0, 5)`. -/
def monoClipboard : Clipboard (List Edit) :=
  ⟨[sampleTrack 1 TrackKind.wave false false 0], 0, 5, some 1⟩

/-! ## Specification functions

Definitions that follow the words of the specification, to compare the
commands with. -/

/-- First fit, source by source: each source leader takes the first of the
candidates left that it fits, and the next source continues after it.
`none` when some source finds no candidate. -/
def firstFit (fits : Track D → Track D → Bool) :
    List (Track D) → List (Track D) → Option (Correspondence D)
  | _, [] => some []
  | candidates, src :: sources =>
    match candidates.dropWhile (fun dst => !fits src dst) with
    | [] => none
    | dst :: rest => (firstFit fits rest sources).map (fun r => (dst, src) :: r)

/-- For `OnCopy`: one entry for each selected track that supports basic
editing and yields a non-null copy, in track order, each being the track's
`Copy(t0, t1)` as finished by `Track::FinishCopy`. -/
def copyEntries (ops : TrackOps D) (t0 t1 : Time) (tracks : TrackList D) :
    List (Track D) :=
  tracks.filterMap (fun n =>
    if n.selected && n.basicEditing then
      match ops.Copy n t0 t1 true with
      | .ok (some dest) => some (ops.FinishCopy n dest)
      | _ => none
    else
      none)

/-- For `OnCut`: as `copyEntries`, with `Cut(t0, t1)` for a note track. -/
def cutEntries (ops : TrackOps D) (t0 t1 : Time) (tracks : TrackList D) :
    List (Track D) :=
  tracks.filterMap (fun n =>
    if n.selected && n.basicEditing then
      if n.kind = TrackKind.note then
        match ops.Cut n t0 t1 with
        | .ok (_, some dest) => some (ops.FinishCopy n dest)
        | _ => none
      else
        match ops.Copy n t0 t1 true with
        | .ok (some dest) => some (ops.FinishCopy n dest)
        | _ => none
    else
      none)

/-- The entries added one by one, with `TrackList::Add`, to an empty list. -/
def addAll (entries : List (Track D)) : TrackList D :=
  entries.foldl Add []

/-! ## Sample projects -/

/-- A project with two selected mono wave tracks and the label track of
their sync-lock group; the clipboard holds one mono wave track. -/
def twoWaveState : State (List Edit) :=
  sampleState
    [sampleTrack 1 TrackKind.wave true false 0,
     sampleTrack 2 TrackKind.wave true false 0,
     sampleTrack 3 TrackKind.label false true 0] 2 4 false monoClipboard

/-- A stereo wave track, as the two channels of a track list. -/
def stereoTracks : TrackList (List Edit) :=
  [sampleTrack 1 TrackKind.wave true false 0,
   { sampleTrack 2 TrackKind.wave true false 0 with leader := false }]

/-- A project whose only selected track is a label track, while the
clipboard holds a wave track. -/
def labelOnlyState : State (List Edit) :=
  sampleState
    [sampleTrack 1 TrackKind.label true false 0] 2 4 false monoClipboard

/-- A sync-locked project with one sync-lock group: a wave track that is
not selected, a selected wave track, and a label track.  The selection is
the point 2 and the clipboard holds one mono wave track of duration 5. -/
def syncLockedState : State (List Edit) :=
  sampleState
    [sampleTrack 1 TrackKind.wave false true 0,
     sampleTrack 2 TrackKind.wave true true 0,
     sampleTrack 3 TrackKind.label false true 0] 2 2 true monoClipboard

/-- A project with one wave track and no track selected; the selection is
the point 3 and the clipboard holds one mono wave track cut from `[0, 5)`. -/
def unselectedState : State (List Edit) :=
  sampleState [sampleTrack 1 TrackKind.wave false false 0] 3 3 false monoClipboard

/-- A sync-locked project with one sync-lock group: a selected wave track,
a note track and a label track that are not selected but sync-lock
selected.  The selection is `[2, 4)`. -/
def noteSyncState : State (List Edit) :=
  sampleState
    [sampleTrack 1 TrackKind.wave true false 0,
     sampleTrack 2 TrackKind.note false true 0,
     sampleTrack 3 TrackKind.label false true 0] 2 4 true monoClipboard

/-! ## Wave clips, as the specification describes them -/

/-- Modelled from the spec: the play start of a clip is its offset plus its
trim-left (`playStart = offset + trimLeft`).  `WaveClip.cpp` is not among the
sources. -/
def specPlayStartTime (clip : WaveClip) : Time :=
  clip.sequenceStart + clip.trimLeft

/-- Modelled from the spec: the play end of a clip is
`offset + sequenceDuration - trimRight`. -/
def specPlayEndTime (clip : WaveClip) : Time :=
  clip.sequenceStart + clip.sequenceDuration - clip.trimRight

/-- Modelled from the spec: `ClearLeft(t)` permanently discards the audio of
the clip before `t`; its sequence then begins at `t` and is shorter by what
was discarded. -/
def specClearLeft (clip : WaveClip) (t : Time) : WaveClip :=
  { clip with
    sequenceStart := t,
    sequenceDuration := clip.sequenceStart + clip.sequenceDuration - t }

/-- Modelled from the spec: `ClearRight(t)` permanently discards the audio of
the clip after `t`; its sequence then ends at `t`. -/
def specClearRight (clip : WaveClip) (t : Time) : WaveClip :=
  { clip with sequenceDuration := t - clip.sequenceStart }

/-- The copy of a track that `DuplicateDiscardTrimmed` starts from, before it
discards the hidden audio of the clips: `Copy` over the whole track, `Init`,
`SetOffset`.  `none` when `Copy` throws or returns a null holder. -/
def duplicateOf (ops : TrackOps D) (track : Track D) : Option (Track D) :=
  match ops.Copy track (ops.GetStartTime track) (ops.GetEndTime track) false with
  | .ok (some trackCopy) =>
    some (ops.SetOffset (ops.Init trackCopy track) (ops.GetStartTime track))
  | _ => none

/-- The recording operations, with the clip operations of the specification. -/
def specClipOps : TrackOps (List Edit) :=
  { recordingOps [] true with
    GetPlayStartTime := specPlayStartTime
    GetPlayEndTime := specPlayEndTime
    ClearLeft := fun clip t => .ok (specClearLeft clip t)
    ClearRight := fun clip t => .ok (specClearRight clip t) }

/-- A clipboard of project 2: a wave track whose clip hides 2 ticks on the
left and 3 on the right, and a label track. -/
def trimmedClipboard : Clipboard (List Edit) :=
  ⟨[{ sampleTrack 1 TrackKind.wave false false 0 with
        content := ⟨[⟨0, 10, 2, 3⟩], []⟩ },
    sampleTrack 2 TrackKind.label false false 0], 0, 5, some 2⟩

/-- A project (number 1) with one selected wave track, about to paste the
clipboard of project 2, which has hidden data; the policy is "Ask" and the
user cancels. -/
def askState : State (List Edit) :=
  sampleState [sampleTrack 1 TrackKind.wave true false 0] 2 4 false trimmedClipboard

/-- The environment of `askState`. -/
def askEnv : Environment :=
  { sampleEnv with pastePolicy := "Ask", dialogAnswer := DialogResult.cancel }

/-! ## One track through Cut and Paste -/

/-- Whether the members of each sync-lock group are adjacent in the list. -/
def groupsContiguous : List (Track D) → Bool
  | [] => true
  | x :: rest =>
    (rest.dropWhile (fun t => t.syncGroup == x.syncGroup)).all
        (fun t => t.syncGroup != x.syncGroup)
      && groupsContiguous rest

/-- The track with another content. -/
def withContent (t : Track D) (c : Content D) : Track D :=
  { t with content := c }

/-- The calls `OnCut` makes on one selected track that supports basic
editing, in order: `Cut` on a note track; on any other track `Copy` in the
first `Visit` and the clearing call of the second.  Returns the content the
track is left with and the holder of the copy. -/
def cutTrack (ops : TrackOps D) (env : Environment) (t0 t1 : Time) (n : Track D) :
    Except String (Content D × Option (Track D)) :=
  if n.kind = TrackKind.note then
    ops.Cut n t0 t1
  else
    match ops.Copy n t0 t1 true with
    | .error e => .error e
    | .ok dest =>
      match cutClear ops env t0 t1 n with
      | .error e => .error e
      | .ok c => .ok (c, dest)

/-- The calls the `TypeSwitch` of `OnPaste` makes on a single-channel
destination track, in order, with the single-channel source `src`.  Returns
the content the track is left with and whether something was pasted. -/
def pasteTrack (ops : TrackOps D) (duration t0 t1 : Time) (dst src : Track D) :
    Except String (Content D × Bool) :=
  match dst.kind with
  | .wave =>
    match ops.ClearAndPaste dst t0 t1 src t1 (t0 + ops.GetEndTime src) with
    | .error e => .error e
    | .ok c => .ok (c, true)
  | .label =>
    match ops.Clear dst t0 t1 with
    | .error e => .error e
    | .ok c =>
      match ops.ShiftLabelsOnInsert (withContent dst c) duration t0 with
      | .error e => .error e
      | .ok c => ops.PasteOver (withContent dst c) t0 src
  | _ =>
    match ops.Clear dst t0 t1 with
    | .error e => .error e
    | .ok c =>
      match ops.Paste (withContent dst c) t0 src with
      | .error e => .error e
      | .ok c => .ok (c, true)

/-- What a visitor that runs without throwing leaves of a track. -/
def applyVisit (f : Track D → Except String (Content D)) (t : Track D) : Track D :=
  match f t with
  | .ok c => withContent t c
  | .error _ => t

/-- What the first `Visit` of `OnCut`, when it runs without throwing, leaves
of a track: a selected note track is cut, any other track is as it was. -/
def afterCutVisit (ops : TrackOps D) (t0 t1 : Time) (n : Track D) : Track D :=
  if n.selected && decide (n.kind = TrackKind.note) then
    match ops.Cut n t0 t1 with
    | .ok (c, _) => withContent n c
    | .error _ => n
  else
    n

/-- What `OnCut`, when it cuts audio and runs to its end, leaves of a track. -/
def cutOne (ops : TrackOps D) (env : Environment) (t0 t1 : Time) (n : Track D) :
    Track D :=
  applyVisit (cutClear ops env t0 t1) (afterCutVisit ops t0 t1 n)

/-! ## Tracks as runs of samples

An instance of the track operations that follows the specification of the
editing operations, for running Cut and Paste on concrete projects: the
payload of a track is the run of its samples, one a tick, from time 0. -/

/-- Modelled from the spec: the samples of the region `[t0, t1)`. -/
def copyRegion (data : List Int) (t0 t1 : Time) : List Int :=
  (data.drop t0.toNat).take (t1.toNat - t0.toNat)

/-- Modelled from the spec: the region `[t0, t1)` removed, the gap closed
(later audio shifts left). -/
def removeRegion (data : List Int) (t0 t1 : Time) : List Int :=
  data.take t0.toNat ++ data.drop t1.toNat

/-- Modelled from the spec: content inserted at `t`, later audio shifted
right by its duration. -/
def insertAt (data : List Int) (t : Time) (src : List Int) : List Int :=
  data.take t.toNat ++ src ++ data.drop t.toNat

/-- Modelled from the spec: the samples of the region `[t0, t1)` zeroed in
place, the duration unchanged. -/
def silenceRegion (data : List Int) (t0 t1 : Time) : List Int :=
  data.take t0.toNat ++ (copyRegion data t0 t1).map (fun _ => 0) ++ data.drop t1.toNat

/-- Modelled from the spec: the operations of the track classes, on runs of
samples.  `Cut` copies the region and removes it, closing the gap; `Copy`
leaves the track unchanged; `Clear` removes the region; `Paste` inserts at
`t0` and shifts the later audio right; `Silence` zeroes in place; the split
and join operations change no audio; a sync-lock adjustment inserts silence
or removes audio at the old end of the selection.  For a label track,
`ShiftLabelsOnInsert` moves what lies after the point right, if anything
does, and `PasteOver` writes the source over what is at the point.  No text
is being edited and no call throws. -/
def timelineOps : TrackOps (List Int) where
  Copy n t0 t1 _ :=
    .ok (some (withContent n ⟨n.content.clips, copyRegion n.content.data t0 t1⟩))
  Cut n t0 t1 :=
    .ok (⟨n.content.clips, removeRegion n.content.data t0 t1⟩,
      some (withContent n ⟨n.content.clips, copyRegion n.content.data t0 t1⟩))
  SplitCut n t0 t1 :=
    .ok (⟨n.content.clips, silenceRegion n.content.data t0 t1⟩,
      some (withContent n ⟨n.content.clips, copyRegion n.content.data t0 t1⟩))
  Clear n t0 t1 := .ok ⟨n.content.clips, removeRegion n.content.data t0 t1⟩
  ClearAndAddCutLine n t0 t1 := .ok ⟨n.content.clips, removeRegion n.content.data t0 t1⟩
  ClearAndPaste n t0 t1 src _ _ :=
    .ok ⟨n.content.clips, insertAt (removeRegion n.content.data t0 t1) t0 src.content.data⟩
  Paste n t0 src := .ok ⟨n.content.clips, insertAt n.content.data t0 src.content.data⟩
  PasteOver n t0 src :=
    .ok (⟨n.content.clips,
      n.content.data.take t0.toNat ++ src.content.data
        ++ n.content.data.drop (t0.toNat + src.content.data.length)⟩, true)
  ShiftLabelsOnInsert n length pt :=
    .ok ⟨n.content.clips,
      if pt.toNat < n.content.data.length then
        insertAt n.content.data pt (List.replicate length.toNat 0)
      else
        n.content.data⟩
  SyncLockAdjust n oldT1 newT1 :=
    if newT1 > oldT1 then
      .ok ⟨n.content.clips,
        insertAt n.content.data oldT1 (List.replicate (newT1 - oldT1).toNat 0)⟩
    else
      .ok ⟨n.content.clips, removeRegion n.content.data newT1 oldT1⟩
  Silence n t0 t1 := .ok ⟨n.content.clips, silenceRegion n.content.data t0 t1⟩
  SplitDelete n t0 t1 := .ok ⟨n.content.clips, silenceRegion n.content.data t0 t1⟩
  Trim n t0 t1 :=
    .ok ⟨n.content.clips,
      silenceRegion (silenceRegion n.content.data 0 t0) t1 n.content.data.length⟩
  Split n _ _ := .ok n.content
  Join n _ _ := .ok n.content
  Disjoin n _ _ := .ok n.content
  GetStartTime _ := 0
  GetEndTime n := n.content.data.length
  GetOffset _ := 0
  Init dest _ := dest
  SetOffset n _ := n
  Offset n _ := n
  FinishCopy _ dest := dest
  SnapToSample _ t := t
  PasteInto _ pClip := .ok (pClip, true)
  GetTextEditIndex _ := -1
  CutSelectedText _ := none
  CopySelectedText _ := false
  PasteSelectedText _ _ _ := none
  PasteText _ := none
  GetPlayStartTime := specPlayStartTime
  GetPlayEndTime := specPlayEndTime
  ClearLeft clip t := .ok (specClearLeft clip t)
  ClearRight clip t := .ok (specClearRight clip t)

/-- A single-channel track of samples that supports basic editing. -/
def samplesTrack (id : Nat) (kind : TrackKind) (selected syncLockSelected : Bool)
    (syncGroup : Nat) (data : List Int) : Track (List Int) :=
  { id := id, kind := kind, leader := true, selected := selected,
    syncLockSelected := syncLockSelected, syncGroup := syncGroup,
    basicEditing := true, content := ⟨[], data⟩ }

/-- A sync-locked project, with selection `[1, 3]` and an empty clipboard.
In the first sync-lock group: a wave track that is sync-lock selected only,
a selected stereo wave track and a selected label track; in the second a
selected note track; then a selected track that does not support basic
editing (as a time track), in a group of its own. -/
def roundTripState : State (List Int) :=
  { project :=
      { key := 1,
        tracks :=
          [samplesTrack 1 TrackKind.wave false true 0 [1, 2, 3, 4, 5, 6],
           samplesTrack 2 TrackKind.wave true true 0 [10, 20, 30, 40, 50],
           { samplesTrack 3 TrackKind.wave true true 0 [11, 21, 31, 41, 51] with
             leader := false },
           samplesTrack 4 TrackKind.label true true 0 [0, 0, 5, 0, 0, 0, 7],
           samplesTrack 5 TrackKind.note true true 1 [7, 8, 9, 10],
           { samplesTrack 6 TrackKind.other true false 2 [3, 3, 3] with
             basicEditing := false }],
        selectedRegion := ⟨1, 3⟩, history := [], isSyncLocked := true, focus := none },
    clipboard := ⟨[], 0, 0, none⟩, messages := [] }

/-- A project whose only track is a selected label track, with selection
`[2, 4]`; the clipboard, of the same project, holds one label track copied
from `[0, 5)`. -/
def labelPasteState : State (List Edit) :=
  sampleState [sampleTrack 1 TrackKind.label true false 0] 2 4 false
    ⟨[sampleTrack 1 TrackKind.label false false 0], 0, 5, some 1⟩

/-- For each destination channel, the source channel it is to receive:
destination channel `k` (counting on from `k`) with source channel
`min(k, n_src - 1)`. -/
def channelPairsFrom (srcs : List (Track D)) :
    Nat → List (Track D) → List (Track D × Track D)
  | _, [] => []
  | k, d :: ds =>
    match srcs[min k (srcs.length - 1)]? with
    | some s => (d, s) :: channelPairsFrom srcs (k + 1) ds
    | none => channelPairsFrom srcs (k + 1) ds

/-- The channels of a destination track, each with the channel of the source
track it is to receive. -/
def channelPairs (dsts srcs : List (Track D)) : List (Track D × Track D) :=
  channelPairsFrom srcs 0 dsts

/-- One `pasteWaveTrack` call for each of the pairs, first the destination
channel, second the source channel, in order. -/
def pasteEach (ops : TrackOps D) (t0 t1 : Time) :
    List (Track D × Track D) → PasteProgress D → PasteProgress D
  | [], s => s
  | (dst, src) :: rest, s =>
    let s := { s with bPastedSomething := true }
    match ops.ClearAndPaste (current s.tracks dst) t0 t1 src
        t1 (t0 + ops.GetEndTime src) with
    | .error _ => { s with threw := true }
    | .ok c => pasteEach ops t0 t1 rest { s with tracks := setContent s.tracks dst c }

/-- A stereo wave track of the clipboard, as its two channels. -/
def stereoSource : TrackList (List Edit) :=
  [sampleTrack 11 TrackKind.wave false false 0,
   { sampleTrack 12 TrackKind.wave false false 0 with leader := false }]


/-- A project with two selected tracks and selection `[2, 4]`: a wave track,
then a track that does not support basic editing (as a time track), which
is the last of the selection. -/
def timeTrackLastState : State (List Edit) :=
  sampleState
    [sampleTrack 1 TrackKind.wave true false 0,
     { sampleTrack 2 TrackKind.other true false 0 with basicEditing := false }]
    2 4 false ⟨[], 0, 0, none⟩


/-! ## Well-formed track lists

`Track.cpp`, `WaveTrack.cpp` and `SyncLock.cpp` are not part of the sources;
the invariants they keep of a project's track list are stated here. -/

/-- Whether `c` is a further channel of the track that `p` belongs to: not a
leader, a wave channel as `p` is, with the selection state, the support
for basic editing and the sync-lock group of `p`. -/
def isChannelAfter (p c : Track D) : Bool :=
  !c.leader && decide (c.kind = TrackKind.wave) && decide (p.kind = TrackKind.wave) &&
    decide (c.selected = p.selected) && decide (c.basicEditing = p.basicEditing) &&
    decide (c.syncGroup = p.syncGroup)

/-- Whether every track after `p` that is not a leader is a further channel
of the track before it. -/
def channelsFollow : Track D → List (Track D) → Bool
  | _, [] => true
  | p, c :: cs => (c.leader || isChannelAfter p c) && channelsFollow c cs

/-- Modelled from the spec: the invariants of the track list of a project.
The tracks are distinct objects; the list starts with a leader and the
channels of a track follow their leader, all of them wave channels that are
selected together and belong to one sync-lock group; the leaders of a
sync-lock group are adjacent; wave and note tracks support basic editing,
and whether a track does depends on its kind only; a track that does not
support basic editing (a time track) is in no sync-lock group with another
track. -/
def WellFormed (tracks : TrackList D) : Bool :=
  decide ((tracks.map (fun t => t.id)).Nodup) &&
  (match tracks with
    | [] => true
    | first :: rest => first.leader && channelsFollow first rest) &&
  groupsContiguous (Leaders tracks) &&
  tracks.all (fun n => n.basicEditing ||
    (decide (n.kind ≠ TrackKind.wave) && decide (n.kind ≠ TrackKind.note))) &&
  tracks.all (fun a => tracks.all (fun b =>
    decide (a.kind ≠ b.kind) || decide (a.basicEditing = b.basicEditing))) &&
  tracks.all (fun a => a.basicEditing ||
    tracks.all (fun b => decide (b.id = a.id) || decide (b.syncGroup ≠ a.syncGroup)))

/-- The channels of the tracks, in list order: each leader followed by its
further channels. -/
def ungroup : List (Track D × List (Track D)) → List (Track D)
  | [] => []
  | g :: gs => g.1 :: (g.2 ++ ungroup gs)

/-- A leader with its further channels, as `WellFormed` requires them. -/
def GroupOk (g : Track D × List (Track D)) : Prop :=
  g.1.leader = true ∧
  ∀ c ∈ g.2, c.leader = false ∧ c.kind = TrackKind.wave ∧ g.1.kind = TrackKind.wave ∧
    c.selected = g.1.selected ∧ c.basicEditing = g.1.basicEditing ∧
    c.syncGroup = g.1.syncGroup

/-- Whether the track is selected and supports basic editing: the tracks
`OnCut` copies to the clipboard. -/
def isCutTarget (t : Track D) : Bool :=
  t.selected && t.basicEditing

/-- What Cut and then Paste must have left of the track `b` of the project
after the cut, `a` being the track in its place: `a` is `b` with some
content; with the content `goal b` when `b` is selected and supports basic
editing; `b` itself when it does not support basic editing. -/
def Restored (goal : Track D → Content D) (a b : Track D) : Prop :=
  (∃ c, a = withContent b c) ∧
  (isCutTarget b = true → a = withContent b (goal b)) ∧
  (b.basicEditing = false → a = b)

/-- The calls `OnPaste` makes to paste the source `src` into the channels of
the track `g` all succeed and leave each channel `d` with content `goal d`. -/
def LawfulPair (ops : TrackOps D) (srcTracks : TrackList D) (duration t0 t1 : Time)
    (goal : Track D → Content D) (g : Track D × List (Track D)) (src : Track D) :
    Prop :=
  ∃ schans, Channels srcTracks src = src :: schans ∧
    List.Forall₂
      (fun d sc => pasteTrack ops duration t0 t1 d sc = .ok (goal d, true))
      (g.1 :: g.2) (src :: schans)

/-! ## When Cut is available -/

/-- Modelled from the spec: `TimeSelectedPred`, the range of the selection
is not empty. -/
def TimeSelectedPred (project : Project D) : Bool :=
  !isPoint project.selectedRegion

/-- Modelled from the spec: `EditableTracksSelectedPred`, a selected track
supports basic editing. -/
def EditableTracksSelectedPred (project : Project D) : Bool :=
  !((Selected project.tracks).filter (fun t => t.basicEditing)).isEmpty

/-- Embeds the predicate of `CutCopyAvailableFlag`, which enables Cut and
Copy.  `IsTextSelected` is the answer of `LabelTrackView::IsTextSelected`. -/
def CutCopyAvailableFlag (IsTextSelected : Track D → Bool) (project : Project D) :
    Bool :=
  let range := (AnyOfKind TrackKind.label project.tracks).filter IsTextSelected
  if !range.isEmpty then
    true
  else if TimeSelectedPred project && EditableTracksSelectedPred project then
    true
  else
    false

/-! ## The times of the code

The times of a project are doubles (`Time` stands for them as integers,
which add and subtract exactly).  `Binary64` carries out the sum and the
difference of two doubles as IEEE 754 does, for results in the normal
range. -/

/-- A double in the normal range, or zero: the value `mantissa * 2 ^ exponent`,
with `2 ^ 52 ≤ |mantissa| < 2 ^ 53` unless it is zero. -/
structure Binary64 where
  mantissa : Int
  exponent : Int
  deriving DecidableEq, Repr

/-- The number of binary digits of `n`, counting at most `fuel` of them. -/
def bitLength : Nat → Nat → Nat
  | 0, _ => 0
  | fuel + 1, n => if n = 0 then 0 else bitLength fuel (n / 2) + 1

/-- The double nearest to the exact value `m * 2 ^ e`, ties to even, as IEEE
754 rounds a result in the normal range. -/
def Binary64.round (m e : Int) : Binary64 :=
  let n := m.natAbs
  let len := bitLength 4096 n
  if n = 0 then
    ⟨0, 0⟩
  else if len ≤ 53 then
    -- exact: the digits are moved up to fill the 53 places
    ⟨m * 2 ^ (53 - len), e - ((53 - len : Nat) : Int)⟩
  else
    let k := len - 53
    let q := n / 2 ^ k
    let r := n % 2 ^ k
    let half := 2 ^ (k - 1)
    let q := if r > half ∨ (r = half ∧ q % 2 = 1) then q + 1 else q
    -- a carry out of the 53 places
    let q53 := if q = 2 ^ 53 then 2 ^ 52 else q
    let k53 := if q = 2 ^ 53 then k + 1 else k
    ⟨if m < 0 then -(q53 : Int) else (q53 : Int), e + (k53 : Int)⟩

/-- Embeds `x + y` on doubles: the exact sum, rounded. -/
def Binary64.add (x y : Binary64) : Binary64 :=
  let e := min x.exponent y.exponent
  Binary64.round
    (x.mantissa * 2 ^ (x.exponent - e).toNat + y.mantissa * 2 ^ (y.exponent - e).toNat) e

/-- Embeds `x - y` on doubles: the exact difference, rounded. -/
def Binary64.sub (x y : Binary64) : Binary64 :=
  Binary64.add x ⟨-y.mantissa, y.exponent⟩

/-- Whether the double is the one a decimal literal for `p / q` denotes: it
has 53 digits and is within half a unit in the last place of `p / q`
(`q` positive, the exponent negative). -/
def Binary64.isNearestTo (x : Binary64) (p q : Int) : Bool :=
  decide (2 ^ 52 ≤ x.mantissa.natAbs) && decide (x.mantissa.natAbs < 2 ^ 53) &&
    decide (2 * (x.mantissa * q - p * 2 ^ (-x.exponent).toNat).natAbs ≤ q.natAbs)

/-- The double `0.2`. -/
def double_0_2 : Binary64 := ⟨7205759403792794, -55⟩

/-- The double `0.9`. -/
def double_0_9 : Binary64 := ⟨8106479329266893, -53⟩

instance : HAdd Binary64 Binary64 Binary64 := ⟨Binary64.add⟩

instance : HSub Binary64 Binary64 Binary64 := ⟨Binary64.sub⟩

/-- The times `OnCut` writes when it cuts audio and runs to its end:
`clipboard.Assign( ..., t0, t1, ... )` and `selectedRegion.collapseToT0()`.
Returns the selection and the range of the clipboard.  `T` is the type of
the times: `Time` in the embedding, `Binary64` in the code. -/
def cutTimes {T : Type} (selection : T × T) : (T × T) × (T × T) :=
  ((selection.1, selection.1), (selection.1, selection.2))

/-- The selection `OnPaste` sets when it pasted into the selected tracks:
`selectedRegion.setTimes( t0, t0 + clipboard.Duration() )`, the duration
being `t1 - t0` of the range of the clipboard. -/
def pasteTimes {T : Type} [HAdd T T T] [HSub T T T] (selection clipboard : T × T) :
    T × T :=
  (selection.1, selection.1 + (clipboard.2 - clipboard.1))

end EditMenus

/-!
# FLAC export (`modules/mod-flac/ExportFLAC.cpp`)

`ExportFLAC::Export` drives three collaborators: the libFLAC stream encoder,
the mixer and the export delegate.  Their answers are taken as a parameter
(`Collaborators`); the model returns the result of `Export` together with
the calls it made, in order.  `LEGACY_FLAC` is not defined (libFLAC++ API
version 6 or later).
-/

namespace ExportFLAC

/-- Embeds `SAMPLES_PER_RUN`. -/
def SAMPLES_PER_RUN : Nat := 8192

/-- The results an export can end with (`ExportResult`). -/
inductive ExportResult where
  | Success
  | Error
  | Cancelled
  | Stopped
  deriving DecidableEq, Repr

/-- The two sample formats `Export` asks the mixer for. -/
inductive sampleFormat where
  | int16Sample
  | int24Sample
  deriving DecidableEq, Repr

/-- One row of `flacLevels`. -/
structure FlacLevel where
  do_exhaustive_model_search : Bool
  do_escape_coding : Bool
  do_mid_side_stereo : Bool
  loose_mid_side_stereo : Bool
  qlp_coeff_precision : Nat
  min_residual_partition_order : Nat
  max_residual_partition_order : Nat
  rice_parameter_search_dist : Nat
  max_lpc_order : Nat
  deriving DecidableEq, Repr

/-- Embeds the table `flacLevels`. -/
def flacLevels : List FlacLevel :=
  [ ⟨false, false, false, false, 0, 2, 2, 0, 0⟩,
    ⟨false, false, true, true, 0, 2, 2, 0, 0⟩,
    ⟨false, false, true, false, 0, 0, 3, 0, 0⟩,
    ⟨false, false, false, false, 0, 3, 3, 0, 6⟩,
    ⟨false, false, true, true, 0, 3, 3, 0, 8⟩,
    ⟨false, false, true, false, 0, 3, 3, 0, 8⟩,
    ⟨false, false, true, false, 0, 0, 4, 0, 8⟩,
    ⟨true, false, true, false, 0, 0, 6, 0, 8⟩,
    ⟨true, false, true, false, 0, 0, 6, 0, 12⟩ ]

/-- A tag: name and value. -/
abbrev Tag := String × String

/-- Modelled from the spec: `TAG_YEAR` is defined in `Tags.h`, which is not
part of the sources; it is the tag named YEAR. -/
def TAG_YEAR : String := "YEAR"

/-- Modelled from the spec: `TAG_COMMENTS` is defined in `Tags.h`, which is
not part of the sources; it is the tag named COMMENTS. -/
def TAG_COMMENTS : String := "COMMENTS"

/-- A call on the stream encoder, with its arguments.  `set_metadata` is
given the entries of the one metadata block; `process` the number of frames
and, per channel, the samples handed over. -/
inductive EncoderCall where
  | set_channels (value : Nat)
  | set_sample_rate (value : Int)
  | set_metadata (block : List Tag)
  | set_bits_per_sample (value : Nat)
  | set_do_exhaustive_model_search (value : Bool)
  | set_do_escape_coding (value : Bool)
  | set_do_mid_side_stereo (value : Bool)
  | set_loose_mid_side_stereo (value : Bool)
  | set_qlp_coeff_precision (value : Nat)
  | set_min_residual_partition_order (value : Nat)
  | set_max_residual_partition_order (value : Nat)
  | set_rice_parameter_search_dist (value : Nat)
  | set_max_lpc_order (value : Nat)
  | init
  | process (samples : Nat) (buffer : List (List Int))
  | finish
  deriving DecidableEq, Repr

/-- What `Export` does that can be seen from outside, in the order it does
it. -/
inductive Event where
  | encoder (call : EncoderCall)
  | appendComment (name value : String)
  | showExportErrorDialog (code : String)
  | showDiskFullExportErrorDialog
  | setErrorString (message : String)
  | setStatusString (message : String)
  | openFile
  | detachFile
  | createMixer (numChannels bufferSize : Nat) (format : sampleFormat)
  | mixerProcess (samplesThisRun : Nat)
  | updateProgress (result : ExportResult)
  deriving DecidableEq, Repr

/-- One non-trivial answer of `Mixer::Process`: the number of samples
produced and, per channel and index, the sample the mixer left in its
buffer (`GetBuffer(i)`), an integer of the format it was created with. -/
structure MixerBlock where
  samplesThisRun : Nat
  GetBuffer : Nat → Nat → Int

/-- The answers of the collaborators of `Export`.
`setterOk`: what each `set_...` call returns.  `appendOk k`: whether
appending an entry to a block of `k` entries succeeds.  `openOk`: whether
the output file opens.  `initStatus`: the status `init` returns, 0 being
`FLAC__STREAM_ENCODER_INIT_STATUS_OK`.  `blocks`: the successive answers of
`Mixer::Process`, which returns 0 once they are used up.  `processOk k` and
`progress k`: the answers of the `k`-th `encoder.process` and
`UpdateProgress`, counting from 0.  `finishOk`: what `finish` returns. -/
structure Collaborators where
  setterOk : EncoderCall → Bool
  appendOk : Nat → Bool
  openOk : Bool
  initStatus : Int
  blocks : List MixerBlock
  processOk : Nat → Bool
  progress : Nat → ExportResult
  finishOk : Bool

/-- The state of a chain `success = success && call`: whether every call so
far succeeded, and the events so far.  The call is made only while `success`
holds. -/
def andCall (c : Collaborators) (s : Bool × List Event) (call : EncoderCall) :
    Bool × List Event :=
  if s.1 then
    (c.setterOk call, s.2 ++ [Event.encoder call])
  else
    s

/-- The loop of `MakeMetadata` over the tags: `metadata` is the block so
far.  Returns the block, or `none` when an append fails, and the events. -/
def makeMetadataLoop (c : Collaborators) :
    List Tag → List Tag → List Event → Option (List Tag) × List Event
  | [], metadata, events => (some metadata, events)
  | (n, v) :: rest, metadata, events =>
    if n = TAG_YEAR then
      let events := events ++ [Event.appendComment "DATE" v]
      if !c.appendOk metadata.length then
        (none, events)
      else
        makeMetadataLoop c rest (metadata ++ [("DATE", v)]) events
    else if n = TAG_COMMENTS then
      -- Some apps use COMMENT and some use DESCRIPTION, so add both
      let events := events ++ [Event.appendComment "COMMENT" v]
      if !c.appendOk metadata.length then
        (none, events)
      else
        let metadata := metadata ++ [("COMMENT", v)]
        let events := events ++ [Event.appendComment "DESCRIPTION" v]
        if !c.appendOk metadata.length then
          (none, events)
        else
          makeMetadataLoop c rest (metadata ++ [("DESCRIPTION", v)]) events
    else
      let events := events ++ [Event.appendComment n v]
      if !c.appendOk metadata.length then
        (none, events)
      else
        makeMetadataLoop c rest (metadata ++ [(n, v)]) events

/-- Embeds `ExportFLAC::MakeMetadata`: a new, empty Vorbis comment block
filled from the tags. -/
def MakeMetadata (c : Collaborators) (tags : List Tag) (events : List Event) :
    Option (List Tag) × List Event :=
  makeMetadataLoop c tags [] events

/-- The value of a `short` read from memory, as a 32-bit integer. -/
def readShort (raw : Int) : Int :=
  (raw + 32768) % 65536 - 32768

/-- The value of an `int` read from memory. -/
def readInt (raw : Int) : Int :=
  (raw + 2147483648) % 4294967296 - 2147483648

/-- The width at which `Export` reads the mixer's buffer:
`((const int *)mixed)[j]` for `int24Sample`, `((const short *)mixed)[j]`
otherwise. -/
def readSample (format : sampleFormat) (raw : Int) : Int :=
  if format = sampleFormat.int24Sample then readInt raw else readShort raw

/-- The buffer `tmpsmplbuf`: `numChannels` rows of `SAMPLES_PER_RUN`
samples, by channel and index. -/
abbrev SampleBuffer := Nat → Nat → Int

/-- The assignment `tmpsmplbuf[i][j] = value`; `none` when the index lies
outside the buffer. -/
def writeSample (numChannels : Nat) (buffer : SampleBuffer) (i j : Nat)
    (value : Int) : Option SampleBuffer :=
  if i < numChannels ∧ j < SAMPLES_PER_RUN then
    some (fun a b => if a = i ∧ b = j then value else buffer a b)
  else
    none

/-- The loop `for (j = 0; j < samplesThisRun; j++)` of one channel. -/
def fillChannel (numChannels : Nat) (format : sampleFormat)
    (mixed : Nat → Int) (i : Nat) :
    Nat → SampleBuffer → Option SampleBuffer
  | 0, buffer => some buffer
  | samples + 1, buffer =>
    match fillChannel numChannels format mixed i samples buffer with
    | none => none
    | some buffer =>
      writeSample numChannels buffer i samples (readSample format (mixed samples))

/-- The loop `for (i = 0; i < numChannels; i++)` over the first `channels`
channels. -/
def fillBuffer (numChannels : Nat) (format : sampleFormat) (block : MixerBlock) :
    Nat → SampleBuffer → Option SampleBuffer
  | 0, buffer => some buffer
  | channels + 1, buffer =>
    match fillBuffer numChannels format block channels buffer with
    | none => none
    | some buffer =>
      fillChannel numChannels format (block.GetBuffer channels) channels
        block.samplesThisRun buffer

/-- What `encoder.process(tmpsmplbuf, samplesThisRun)` is given: the first
`samplesThisRun` samples of each channel. -/
def handedOver (numChannels samplesThisRun : Nat) (buffer : SampleBuffer) :
    List (List Int) :=
  (List.range numChannels).map (fun i =>
    (List.range samplesThisRun).map (fun j => buffer i j))

/-- The variables of the export loop when it ends. -/
structure LoopEnd where
  exportResult : ExportResult
  events : List Event
  deriving DecidableEq, Repr

/-- The `while (exportResult == ExportResult::Success)` loop of `Export`;
`k` counts the turns made.  `none`: a write went outside `tmpsmplbuf`. -/
def exportLoop (c : Collaborators) (numChannels : Nat) (format : sampleFormat) :
    List MixerBlock → Nat → SampleBuffer → List Event → Option LoopEnd
  | [], _, _, events =>
    -- stop encoding
    some ⟨ExportResult.Success, events ++ [Event.mixerProcess 0]⟩
  | block :: blocks, k, tmpsmplbuf, events =>
    let samplesThisRun := block.samplesThisRun
    let events := events ++ [Event.mixerProcess samplesThisRun]
    if samplesThisRun = 0 then
      -- stop encoding
      some ⟨ExportResult.Success, events⟩
    else
      match fillBuffer numChannels format block numChannels tmpsmplbuf with
      | none => none
      | some tmpsmplbuf =>
        let events := events ++ [Event.encoder
          (EncoderCall.process samplesThisRun
            (handedOver numChannels samplesThisRun tmpsmplbuf))]
        if !c.processOk k then
          some ⟨ExportResult.Error, events ++ [Event.showDiskFullExportErrorDialog]⟩
        else
          let exportResult := c.progress k
          let events := events ++ [Event.updateProgress exportResult]
          if exportResult = ExportResult.Success then
            exportLoop c numChannels format blocks (k + 1) tmpsmplbuf events
          else
            some ⟨exportResult, events⟩

/-- The end of `Export`, from the end of the loop on: the finalization
after the loop, the `return`, and then `cleanup2`, which looks at the
variable `exportResult`. -/
def finishExport (c : Collaborators) (loopEnd : LoopEnd) :
    ExportResult × List Event :=
  let exportResult := loopEnd.exportResult
  if exportResult ≠ ExportResult.Cancelled ∧ exportResult ≠ ExportResult.Error then
    -- libflac closes the file
    let events := loopEnd.events ++ [Event.detachFile, Event.encoder EncoderCall.finish]
    if !c.finishOk then
      (ExportResult.Error, events)
    else
      (exportResult, events)
  else
    -- cleanup2
    (exportResult,
      loopEnd.events ++ [Event.detachFile, Event.encoder EncoderCall.finish])

/-- How the part of `Export` before the export loop ends: with an error
that has been reported, with undefined behaviour (an index outside
`flacLevels`), or with the encoder initialised and the sample format
chosen. -/
inductive Setup where
  | failed (events : List Event)
  | undefined
  | ready (format : sampleFormat) (events : List Event)
  deriving DecidableEq, Repr

/-- The first calls of `Export` on the encoder:
`success = success && encoder.set_channels(..) && encoder.set_sample_rate(..)`. -/
def configureStart (c : Collaborators) (numChannels : Nat) (rate : Int) :
    Bool × List Event :=
  let s : Bool × List Event := (true, [])
  let s := andCall c s (.set_channels numChannels)
  andCall c s (.set_sample_rate rate)

/-- The step `if (success && metadata) success = encoder.set_metadata(&p, 1)`. -/
def configureMetadata (c : Collaborators) (s : Bool × List Event)
    (metadata : Option (List Tag)) : Bool × List Event :=
  match s.1, metadata with
  | true, some block =>
    (c.setterOk (.set_metadata block), s.2 ++ [Event.encoder (.set_metadata block)])
  | _, _ => s

/-- The calls of `Export` on the encoder from `set_bits_per_sample` to
`set_max_lpc_order`, `level` being `flacLevels[levelPref]`. -/
def configureLevel (c : Collaborators) (bitDepthPref : String) (numChannels : Nat)
    (level : FlacLevel) (s : Bool × List Event) : Bool × List Event :=
  let s :=
    if bitDepthPref = "24" then andCall c s (.set_bits_per_sample 24)
    else andCall c s (.set_bits_per_sample 16)
  let s := andCall c s (.set_do_exhaustive_model_search level.do_exhaustive_model_search)
  let s := andCall c s (.set_do_escape_coding level.do_escape_coding)
  let s :=
    if numChannels ≠ 2 then
      andCall c (andCall c s (.set_do_mid_side_stereo false))
        (.set_loose_mid_side_stereo false)
    else
      andCall c (andCall c s (.set_do_mid_side_stereo level.do_mid_side_stereo))
        (.set_loose_mid_side_stereo level.loose_mid_side_stereo)
  let s := andCall c s (.set_qlp_coeff_precision level.qlp_coeff_precision)
  let s := andCall c s
    (.set_min_residual_partition_order level.min_residual_partition_order)
  let s := andCall c s
    (.set_max_residual_partition_order level.max_residual_partition_order)
  let s := andCall c s (.set_rice_parameter_search_dist level.rice_parameter_search_dist)
  andCall c s (.set_max_lpc_order level.max_lpc_order)

/-- The first part of `ExportFLAC::Export`, down to the test of `success`:
the encoder is configured and the metadata block made.  `levelPref` is the
value `std::stol` reads from the level parameter, `bitDepthPref` the
bit-depth parameter, `rate` the project rate as `lrint` rounds it. -/
def configureEncoder (c : Collaborators) (levelPref : Int) (bitDepthPref : String)
    (numChannels : Nat) (rate : Int) (tags : List Tag) : Setup :=
  let s := configureStart c numChannels rate
  -- See note in MakeMetadata() about a bug in libflac++ 1.1.2
  let m : Option (List Tag) × List Event :=
    if s.1 then MakeMetadata c tags s.2 else (none, s.2)
  let metadata := m.1
  let s : Bool × List Event := (s.1, m.2)
  if s.1 && metadata.isNone then
    .failed (s.2 ++ [Event.showExportErrorDialog "FLAC:283"])
  else
  let s := configureMetadata c s metadata
  let format : sampleFormat :=
    if bitDepthPref = "24" then sampleFormat.int24Sample else sampleFormat.int16Sample
  -- Duplicate the flac command line compression levels
  let levelPref : Int := if levelPref < 0 ∨ levelPref > 8 then 5 else levelPref
  match flacLevels[levelPref.toNat]? with
  | none => .undefined
  | some level =>
  let s := configureLevel c bitDepthPref numChannels level s
  if !s.1 then
    .failed (s.2 ++ [Event.showExportErrorDialog "FLAC:336"])
  else
    .ready format s.2

/-- The part of `ExportFLAC::Export` before the export loop: the encoder is
configured, then the output file is opened and the encoder initialised. -/
def setupEncoder (c : Collaborators) (levelPref : Int) (bitDepthPref : String)
    (numChannels : Nat) (rate : Int) (tags : List Tag) : Setup :=
  match configureEncoder c levelPref bitDepthPref numChannels rate tags with
  | .undefined => .undefined
  | .failed events => .failed events
  | .ready format events =>
  let events := events ++ [Event.openFile]
  if !c.openOk then
    .failed (events ++ [Event.setErrorString "FLAC export couldn't open %s"])
  else
  let events := events ++ [Event.encoder EncoderCall.init]
  if c.initStatus ≠ 0 then
    .failed
      (events ++ [Event.setErrorString "FLAC encoder failed to initialize\nStatus: %d"])
  else
    .ready format events

/-- Embeds `ExportFLAC::Export`: the set-up, then the mixer, the export loop
and the finalization.  Returns the result and the events; `none` stands for
undefined behaviour (an index outside `flacLevels` or outside
`tmpsmplbuf`). -/
def Export (c : Collaborators) (levelPref : Int) (bitDepthPref : String)
    (numChannels : Nat) (rate : Int) (selectionOnly : Bool) (tags : List Tag) :
    Option (ExportResult × List Event) :=
  match setupEncoder c levelPref bitDepthPref numChannels rate tags with
  | .undefined => none
  | .failed events => some (ExportResult.Error, events)
  | .ready format events =>
    let events := events ++ [Event.createMixer numChannels SAMPLES_PER_RUN format]
    let events := events ++ [Event.setStatusString
      (if selectionOnly then "Exporting the selected audio as FLAC"
       else "Exporting the audio as FLAC")]
    match exportLoop c numChannels format c.blocks 0 (fun _ _ => 0) events with
    | none => none
    | some loopEnd => some (finishExport c loopEnd)

/-! ## Specification functions and sample runs -/

/-- The entries the tags stand for, in tag order: a YEAR tag under the name
DATE, a COMMENTS tag twice, as COMMENT and as DESCRIPTION, any other tag
as it is. -/
def tagEntries : List Tag → List Tag
  | [] => []
  | (n, v) :: rest =>
    if n = "YEAR" then ("DATE", v) :: tagEntries rest
    else if n = "COMMENTS" then ("COMMENT", v) :: ("DESCRIPTION", v) :: tagEntries rest
    else (n, v) :: tagEntries rest

/-- The frame counts of the `encoder.process` calls among the events, in
order. -/
def processFrames (events : List Event) : List Nat :=
  events.filterMap (fun e =>
    match e with
    | Event.encoder (EncoderCall.process samples _) => some samples
    | _ => none)

/-- The answers of `Mixer::Process` among the events, in order. -/
def mixerAnswers (events : List Event) : List Nat :=
  events.filterMap (fun e =>
    match e with
    | Event.mixerProcess samples => some samples
    | _ => none)

/-- Whether the event reports an error to the user: an error dialog or an
error string. -/
def Event.reportsError : Event → Bool
  | Event.showExportErrorDialog _ => true
  | Event.showDiskFullExportErrorDialog => true
  | Event.setErrorString _ => true
  | _ => false

/-- The sizes of the blocks in which `total` frames are delivered when every
block but the last is full. -/
def fullBlocks (total : Nat) : List Nat :=
  List.replicate (total / SAMPLES_PER_RUN) SAMPLES_PER_RUN
    ++ (if total % SAMPLES_PER_RUN = 0 then [] else [total % SAMPLES_PER_RUN])

/-- What `encoder.process` must be handed for a block: per channel, the
samples of the mixer read at the width of the format. -/
def expectedSamples (numChannels : Nat) (format : sampleFormat)
    (block : MixerBlock) : List (List Int) :=
  (List.range numChannels).map (fun i =>
    (List.range block.samplesThisRun).map (fun j =>
      readSample format (block.GetBuffer i j)))

/-- Collaborators that all succeed, with the given mixer blocks, except as
stated: `failingProcess` and `finishOk` tell whether `encoder.process` and
`encoder.finish` fail, and `progress` is what every progress update
reports. -/
def sampleCollaborators (blocks : List MixerBlock) (failingProcess : Bool)
    (progress : ExportResult) (finishOk : Bool) : Collaborators :=
  { setterOk := fun _ => true, appendOk := fun _ => true, openOk := true,
    initStatus := 0, blocks := blocks, processOk := fun _ => !failingProcess,
    progress := fun _ => progress, finishOk := finishOk }

/-- A mixer block of `samples` frames in which the sample of channel `i` at
index `j` is `10 * i + j`. -/
def sampleBlock (samples : Nat) : MixerBlock :=
  { samplesThisRun := samples, GetBuffer := fun i j => 10 * i + j }

/-- Whether the event is one the set-up of `Export` can produce, the
bit-depth parameter being `bitDepthPref`: a `set_...` call (with, for
`set_bits_per_sample`, 24 exactly when the parameter is "24", else 16),
`init`, an appended comment, the opening of the file, an error report. -/
def Event.isSetup (bitDepthPref : String) : Event → Bool
  | Event.encoder (EncoderCall.set_bits_per_sample value) =>
    decide (value = if bitDepthPref = "24" then 24 else 16)
  | Event.encoder (EncoderCall.process _ _) => false
  | Event.encoder EncoderCall.finish => false
  | Event.encoder _ => true
  | Event.appendComment _ _ => true
  | Event.showExportErrorDialog _ => true
  | Event.setErrorString _ => true
  | Event.openFile => true
  | _ => false

/-- Whether the event is one the configuration of the encoder can produce:
an event of the set-up made before the output file is opened. -/
def Event.isConfigure (bitDepthPref : String) : Event → Bool
  | Event.encoder EncoderCall.init => false
  | Event.setErrorString _ => false
  | Event.openFile => false
  | e => Event.isSetup bitDepthPref e

/-- Whether the event is one the export loop can produce: an answer of
the mixer, an `encoder.process` call, the disk-full dialog, a progress
update. -/
def Event.isLoop : Event → Bool
  | Event.mixerProcess _ => true
  | Event.encoder (EncoderCall.process _ _) => true
  | Event.showDiskFullExportErrorDialog => true
  | Event.updateProgress _ => true
  | _ => false

/-- The blocks the mixer delivers before `Process` returns 0. -/
def delivered (blocks : List MixerBlock) : List MixerBlock :=
  blocks.takeWhile (fun b => b.samplesThisRun ≠ 0)

/-- Whether the event is the detaching of the output file handle. -/
def Event.isDetach : Event → Bool
  | Event.detachFile => true
  | _ => false

/-- Whether the event is a call of `encoder.finish()`. -/
def Event.isFinish : Event → Bool
  | Event.encoder EncoderCall.finish => true
  | _ => false


/-! ## The level table and the sample buffer: observers -/

/-- The index into `flacLevels` in the words of the specification: a level
in 0..8 is used as is, any other level is replaced by 5. -/
def levelIndex (levelPref : Int) : Int :=
  if 0 ≤ levelPref ∧ levelPref ≤ 8 then levelPref else 5

/-- The calls from `set_bits_per_sample` to `set_max_lpc_order` that
`Export` makes, in order, for a row of `flacLevels`, as long as each
succeeds. -/
def levelCalls (bitDepthPref : String) (numChannels : Nat) (level : FlacLevel) :
    List EncoderCall :=
  [ .set_bits_per_sample (if bitDepthPref = "24" then 24 else 16),
    .set_do_exhaustive_model_search level.do_exhaustive_model_search,
    .set_do_escape_coding level.do_escape_coding,
    .set_do_mid_side_stereo
      (if numChannels ≠ 2 then false else level.do_mid_side_stereo),
    .set_loose_mid_side_stereo
      (if numChannels ≠ 2 then false else level.loose_mid_side_stereo),
    .set_qlp_coeff_precision level.qlp_coeff_precision,
    .set_min_residual_partition_order level.min_residual_partition_order,
    .set_max_residual_partition_order level.max_residual_partition_order,
    .set_rice_parameter_search_dist level.rice_parameter_search_dist,
    .set_max_lpc_order level.max_lpc_order ]

/-- Whether the call sets one of the compression parameters that
`flacLevels` tabulates. -/
def EncoderCall.isCompression : EncoderCall → Bool
  | .set_do_exhaustive_model_search _ => true
  | .set_do_escape_coding _ => true
  | .set_do_mid_side_stereo _ => true
  | .set_loose_mid_side_stereo _ => true
  | .set_qlp_coeff_precision _ => true
  | .set_min_residual_partition_order _ => true
  | .set_max_residual_partition_order _ => true
  | .set_rice_parameter_search_dist _ => true
  | .set_max_lpc_order _ => true
  | _ => false

/-- The events of a set-up, however it ended. -/
def Setup.events : Setup → List Event
  | .failed events => events
  | .undefined => []
  | .ready _ events => events

/-! ## `ExportFLAC::ParseConfig`

The configuration is a `rapidjson::Value`; the parameters are a vector of
pairs of an option identifier and an `ExportValue`. -/

/-- A `rapidjson::Value`.  A number carries its value as an `int` when it
has one (`IsInt()`), which is what `GetInt()` requires. -/
inductive JsonValue where
  | null
  | bool (value : Bool)
  | number (asInt : Option Int)
  | string (value : String)
  | array (items : List JsonValue)
  | object (members : List (String × JsonValue))

/-- Embeds `Value::IsObject`. -/
def JsonValue.IsObject : JsonValue → Bool
  | .object _ => true
  | _ => false

/-- Embeds `Value::IsNumber`. -/
def JsonValue.IsNumber : JsonValue → Bool
  | .number _ => true
  | _ => false

/-- Embeds `Value::FindMember`: the first member of that name. -/
def JsonValue.FindMember (config : JsonValue) (name : String) : Option JsonValue :=
  match config with
  | .object members => (members.find? (fun m => m.1 == name)).map (fun m => m.2)
  | _ => none

/-- Embeds `Value::HasMember`. -/
def JsonValue.HasMember (config : JsonValue) (name : String) : Bool :=
  (config.FindMember name).isSome

/-- Embeds `Value::operator[]` with a member name: the member found, a null
value when there is none. -/
def JsonValue.index (config : JsonValue) (name : String) : JsonValue :=
  (config.FindMember name).getD JsonValue.null

/-- Embeds `Value::GetInt`; `none` when the value is not a number with an
`int` value, which `GetInt` requires. -/
def JsonValue.GetInt : JsonValue → Option Int
  | .number (some value) => some value
  | _ => none

/-- The decimal digits of `n`, most significant first; `fuel` bounds the
number of digits. -/
def decimalDigits : Nat → Nat → List Char
  | 0, _ => []
  | fuel + 1, n =>
    if n < 10 then [Char.ofNat (48 + n)]
    else decimalDigits fuel (n / 10) ++ [Char.ofNat (48 + n % 10)]

/-- Embeds `std::to_string(int)`: the decimal representation, with a minus
sign for a negative value. -/
def to_string : Int → String
  | Int.ofNat n => String.mk (decimalDigits (n + 1) n)
  | Int.negSucc n => String.mk ('-' :: decimalDigits (n + 2) (n + 1))

/-- The values of the export options of this plugin: `ExportValue` holding a
`std::string`. -/
abbrev ExportValue := String

/-- Embeds `ExportProcessor::Parameters`. -/
abbrev Parameters := List (Int × ExportValue)

/-- Embeds the enumerator `FlacOptionIDBitDepth`. -/
def FlacOptionIDBitDepth : Int := 0

/-- Embeds the enumerator `FlacOptionIDLevel`. -/
def FlacOptionIDLevel : Int := 1

/-- The fields of an `ExportOption` that `ParseConfig` reads, and its
default value. -/
structure ExportOption where
  id : Int
  defaultValue : ExportValue
  values : List ExportValue
  deriving DecidableEq, Repr

/-- An `OptionDesc`: the option and its configuration key. -/
structure OptionDesc where
  option : ExportOption
  configKey : String
  deriving DecidableEq, Repr

/-- Embeds `FlacOptions`. -/
def FlacOptions : List OptionDesc :=
  [ ⟨⟨FlacOptionIDBitDepth, "16", ["16", "24"]⟩, "/FileFormats/FLACBitDepth"⟩,
    ⟨⟨FlacOptionIDLevel, "5", ["0", "1", "2", "3", "4", "5", "6", "7", "8"]⟩,
      "/FileFormats/FLACLevel"⟩ ]

/-- The loop of `ParseConfig` over the option descriptions: `false` as soon
as the level or the bit depth is not among the values of its option. -/
def checkOptions (level bitDepth : ExportValue) : List OptionDesc → Bool
  | [] => true
  | desc :: rest =>
    let option := desc.option
    if (option.id = FlacOptionIDLevel ∧ level ∉ option.values) ∨
        (desc.option.id = FlacOptionIDBitDepth ∧ bitDepth ∉ option.values) then
      false
    else
      checkOptions level bitDepth rest

/-- Embeds `ExportFLAC::ParseConfig`: the value returned and the caller's
parameters afterwards.  `none`: `GetInt` was called on a number that has no
`int` value. -/
def ParseConfig (config : JsonValue) (parameters : Parameters) :
    Option (Bool × Parameters) :=
  if !config.IsObject ||
      !config.HasMember "level" || !(config.index "level").IsNumber ||
      !config.HasMember "bit_depth" || !(config.index "bit_depth").IsNumber then
    some (false, parameters)
  else
    match (config.index "level").GetInt, (config.index "bit_depth").GetInt with
    | some levelValue, some bitDepthValue =>
      let level : ExportValue := to_string levelValue
      let bitDepth : ExportValue := to_string bitDepthValue
      if !checkOptions level bitDepth FlacOptions then
        some (false, parameters)
      else
        let result : Parameters :=
          [(FlacOptionIDLevel, level), (FlacOptionIDBitDepth, bitDepth)]
        -- std::swap(parameters, result)
        some (true, result)
    | _, _ => none

/-- A configuration object with the members "level" and "bit_depth", both
numbers with the given `int` values. -/
def sampleConfig (level bitDepth : Int) : JsonValue :=
  .object [("level", .number (some level)), ("bit_depth", .number (some bitDepth))]

end ExportFLAC

namespace EditMenus

variable {D : Type}

/-! ## Theorems -/

/-! ### The correspondence of a multi-track paste -/

theorem firstFit_skip (fits : Track D → Track D → Bool) (dst src : Track D)
    (candidates sources : List (Track D)) (h : fits src dst = false) :
    firstFit fits (dst :: candidates) (src :: sources)
      = firstFit fits candidates (src :: sources) := by
  simp [firstFit, List.dropWhile, h]

theorem firstFit_take (fits : Track D → Track D → Bool) (dst src : Track D)
    (candidates sources : List (Track D)) (h : fits src dst = true) :
    firstFit fits (dst :: candidates) (src :: sources)
      = (firstFit fits candidates sources).map (fun r => (dst, src) :: r) := by
  simp [firstFit, List.dropWhile, h]

theorem firstFit_nil_left (fits : Track D → Track D → Bool) (src : Track D)
    (sources : List (Track D)) :
    firstFit fits [] (src :: sources) = none := by
  simp [firstFit]

/-- The scan of `FindCorrespondence` is first fit: it leaves no source
exactly when first fit succeeds, and then it has appended the first-fit
pairs to its result. -/
theorem correspondenceLoop_eq_firstFit (dstTracks srcTracks : TrackList D)
    (candidates : List (Track D)) :
    ∀ (sources : List (Track D)) (result : Correspondence D),
      match firstFit (FitsInto srcTracks dstTracks) candidates sources with
      | some r =>
        correspondenceLoop dstTracks srcTracks candidates sources result
          = (result ++ r, [])
      | none =>
        (correspondenceLoop dstTracks srcTracks candidates sources result).2 ≠ [] := by
  induction candidates with
  | nil =>
    intro sources result
    cases sources with
    | nil => simp [firstFit, correspondenceLoop]
    | cons src sources => simp [firstFit, correspondenceLoop]
  | cons dst candidates ih =>
    intro sources result
    cases sources with
    | nil => simp [firstFit, correspondenceLoop]
    | cons src sources =>
      cases hfit : FitsInto srcTracks dstTracks src dst with
      | false =>
        rw [firstFit_skip _ _ _ _ _ hfit]
        have := ih (src :: sources) result
        simp only [correspondenceLoop, hfit, Bool.not_false, if_true]
        exact this
      | true =>
        rw [firstFit_take _ _ _ _ _ hfit]
        have := ih sources (result ++ [(dst, src)])
        simp only [correspondenceLoop, hfit, Bool.not_true, Bool.false_eq_true, if_false]
        cases hff : firstFit (FitsInto srcTracks dstTracks) candidates sources with
        | none => simp [hff] at this ⊢; exact this
        | some r => simp [hff] at this ⊢; exact this

/-- What `FindCorrespondence` returns, in terms of first fit. -/
theorem FindCorrespondence_eq_firstFit (dstTracks srcTracks : TrackList D) :
    FindCorrespondence dstTracks srcTracks
      = (firstFit (FitsInto srcTracks dstTracks) (destinationRange dstTracks)
          (Leaders srcTracks)).getD [] := by
  have h := correspondenceLoop_eq_firstFit dstTracks srcTracks
    (destinationRange dstTracks) (Leaders srcTracks) []
  unfold FindCorrespondence
  cases hff : firstFit (FitsInto srcTracks dstTracks) (destinationRange dstTracks)
      (Leaders srcTracks) with
  | none =>
    rw [hff] at h
    simp only [Option.getD_none]
    cases hr : (correspondenceLoop dstTracks srcTracks (destinationRange dstTracks)
        (Leaders srcTracks) []).2 with
    | nil => exact absurd hr h
    | cons a l => simp [hr]
  | some r =>
    rw [hff] at h
    simp [h]

theorem firstFit_snd (fits : Track D → Track D → Bool) :
    ∀ (sources candidates : List (Track D)) (r : Correspondence D),
      firstFit fits candidates sources = some r → r.map Prod.snd = sources := by
  intro sources
  induction sources with
  | nil => intro candidates r h; simp [firstFit] at h; subst h; simp
  | cons src sources ih =>
    intro candidates r h
    unfold firstFit at h
    split at h
    · simp at h
    · rename_i dst rest _
      cases hrec : firstFit fits rest sources with
      | none => simp [hrec] at h
      | some r2 =>
        simp [hrec] at h
        subst h
        simp [ih rest r2 hrec]

theorem firstFit_fits (fits : Track D → Track D → Bool) :
    ∀ (sources candidates : List (Track D)) (r : Correspondence D),
      firstFit fits candidates sources = some r →
      ∀ p ∈ r, fits p.2 p.1 = true := by
  intro sources
  induction sources with
  | nil => intro candidates r h; simp [firstFit] at h; subst h; simp
  | cons src sources ih =>
    intro candidates r h
    unfold firstFit at h
    split at h
    · simp at h
    · rename_i dst rest hdrop
      cases hrec : firstFit fits rest sources with
      | none => simp [hrec] at h
      | some r2 =>
        simp [hrec] at h
        subst h
        intro p hp
        rcases List.mem_cons.mp hp with hp | hp
        · subst hp
          have := List.head_dropWhile_not (fun dst => !fits src dst) candidates
          simp [hdrop] at this
          simpa using this
        · exact ih rest r2 hrec p hp

theorem firstFit_sublist (fits : Track D → Track D → Bool) :
    ∀ (sources candidates : List (Track D)) (r : Correspondence D),
      firstFit fits candidates sources = some r →
      (r.map Prod.fst).Sublist candidates := by
  intro sources
  induction sources with
  | nil => intro candidates r h; simp [firstFit] at h; subst h; simp
  | cons src sources ih =>
    intro candidates r h
    unfold firstFit at h
    split at h
    · simp at h
    · rename_i dst rest hdrop
      cases hrec : firstFit fits rest sources with
      | none => simp [hrec] at h
      | some r2 =>
        simp [hrec] at h
        subst h
        have h1 : (dst :: rest).Sublist candidates := by
          rw [← hdrop]; exact List.dropWhile_sublist _
        exact ((ih rest r2 hrec).cons₂ dst).trans h1

theorem destinationRange_sublist (dstTracks : TrackList D) :
    (destinationRange dstTracks).Sublist dstTracks := by
  unfold destinationRange
  split
  · exact (List.dropWhile_sublist _).trans (List.filter_sublist _)
  · exact (List.filter_sublist _).trans (List.filter_sublist _)

theorem destinationRange_of_not_single (dstTracks : TrackList D)
    (h : (SelectedLeaders dstTracks).length ≠ 1) :
    destinationRange dstTracks = SelectedLeaders dstTracks := by
  unfold destinationRange
  split
  · rename_i only honly
    simp [honly] at h
  · rfl

theorem destinationRange_of_single (dstTracks : TrackList D) (only : Track D)
    (h : SelectedLeaders dstTracks = [only]) :
    ∃ before first after,
      Leaders dstTracks = before ++ first :: after ∧
      destinationRange dstTracks = first :: after ∧
      first.id = only.id ∧ (∀ t ∈ before, t.id ≠ only.id) ∧
      ((dstTracks.map (fun t => t.id)).Nodup → first = only) := by
  have hmem : only ∈ Leaders dstTracks := by
    have : only ∈ SelectedLeaders dstTracks := by simp [h]
    exact (List.mem_filter.mp this).1
  have hsplit := List.takeWhile_append_dropWhile (fun t => t.id != only.id)
    (Leaders dstTracks)
  have hrange : destinationRange dstTracks
      = (Leaders dstTracks).dropWhile (fun t => t.id != only.id) := by
    unfold destinationRange
    rw [h]
    rfl
  cases hdrop : (Leaders dstTracks).dropWhile (fun t => t.id != only.id) with
  | nil =>
    have := (List.dropWhile_eq_nil_iff.mp hdrop) only hmem
    simp at this
  | cons first after =>
    have hfirst : first.id = only.id := by
      have := List.head_dropWhile_not (fun t => t.id != only.id) (Leaders dstTracks)
      simp [hdrop] at this
      exact this
    have hbefore : ∀ t ∈ (Leaders dstTracks).takeWhile (fun t => t.id != only.id),
        t.id ≠ only.id := by
      intro t ht
      have := List.mem_takeWhile_imp ht
      simpa using this
    refine ⟨_, first, after, ?_, ?_, hfirst, hbefore, ?_⟩
    · rw [← hdrop]; exact hsplit.symm
    · rw [hrange, hdrop]
    · intro hnodup
      have hsub : ((Leaders dstTracks).map (fun t => t.id)).Nodup :=
        ((List.filter_sublist _).map _).nodup hnodup
      rw [← hsplit, hdrop] at hmem hsub
      rcases List.mem_append.mp hmem with hm | hm
      · exact absurd rfl (hbefore only hm)
      · rcases List.mem_cons.mp hm with hm | hm
        · exact hm.symm
        · exfalso
          rw [List.map_append, List.map_cons] at hsub
          have h2 := (List.nodup_append.mp hsub).2.1
          have h3 := (List.nodup_cons.mp h2).1
          apply h3
          rw [hfirst]
          exact List.mem_map_of_mem (fun t => t.id) hm

/-- C2: `FitsInto(src, dst)` is true exactly when the two tracks are of the
same kind and the source has at most as many channels as the destination;
so a mono track fits a stereo track of its kind, a stereo track never fits a
mono track, and no track fits a track of another kind. -/
theorem FitsInto_iff_same_kind_and_channels (srcTracks dstTracks : TrackList D)
    (src dst : Track D) :
    (FitsInto srcTracks dstTracks src dst = true ↔
      src.kind = dst.kind ∧ NChannels srcTracks src ≤ NChannels dstTracks dst) ∧
    (src.kind = dst.kind → NChannels srcTracks src = 1 →
      NChannels dstTracks dst = 2 → FitsInto srcTracks dstTracks src dst = true) ∧
    (NChannels srcTracks src = 2 → NChannels dstTracks dst = 1 →
      FitsInto srcTracks dstTracks src dst = false) ∧
    (src.kind ≠ dst.kind → FitsInto srcTracks dstTracks src dst = false) := by
  have key : FitsInto srcTracks dstTracks src dst = true ↔
      src.kind = dst.kind ∧ NChannels srcTracks src ≤ NChannels dstTracks dst := by
    unfold FitsInto SameKindAs
    by_cases hk : src.kind = dst.kind <;> simp [hk]
  refine ⟨key, ?_, ?_, ?_⟩
  · intro hk h1 h2
    exact key.mpr ⟨hk, by omega⟩
  · intro h1 h2
    cases hf : FitsInto srcTracks dstTracks src dst with
    | false => rfl
    | true => have := (key.mp hf).2; omega
  · intro hk
    cases hf : FitsInto srcTracks dstTracks src dst with
    | false => rfl
    | true => exact absurd (key.mp hf).1 hk

/-- A mono wave track fits the stereo wave track of `stereoTracks`, and
that stereo track does not fit the mono track. -/
theorem FitsInto_iff_same_kind_and_channels_witness :
    FitsInto monoClipboard.tracks stereoTracks
        (sampleTrack 1 TrackKind.wave false false 0)
        (sampleTrack 1 TrackKind.wave true false 0) = true ∧
    FitsInto stereoTracks monoClipboard.tracks
        (sampleTrack 1 TrackKind.wave true false 0)
        (sampleTrack 1 TrackKind.wave false false 0) = false :=
  ⟨(FitsInto_iff_same_kind_and_channels monoClipboard.tracks stereoTracks
      (sampleTrack 1 TrackKind.wave false false 0)
      (sampleTrack 1 TrackKind.wave true false 0)).2.1 (by decide) (by decide)
      (by decide),
   (FitsInto_iff_same_kind_and_channels stereoTracks monoClipboard.tracks
      (sampleTrack 1 TrackKind.wave true false 0)
      (sampleTrack 1 TrackKind.wave false false 0)).2.2.1 (by decide) (by decide)⟩

/-- C3: a non-empty result of `FindCorrespondence` pairs the source leaders,
in source order and each exactly once, with destination tracks that form a
sublist of the candidate range (increasing track order, none used twice);
every pair satisfies `FitsInto`; the result is the first-fit assignment
(the destination of each source is the first candidate after the previous
destination that it fits); and the candidate range is the selected leaders,
or, when exactly one leader is selected, the leaders of the project from
that leader on. -/
theorem FindCorrespondence_nonempty_is_first_fit (dstTracks srcTracks : TrackList D)
    (h : FindCorrespondence dstTracks srcTracks ≠ []) :
    (FindCorrespondence dstTracks srcTracks).map Prod.snd = Leaders srcTracks ∧
    ((FindCorrespondence dstTracks srcTracks).map Prod.fst).Sublist
      (destinationRange dstTracks) ∧
    (destinationRange dstTracks).Sublist dstTracks ∧
    (∀ p ∈ FindCorrespondence dstTracks srcTracks,
      FitsInto srcTracks dstTracks p.2 p.1 = true) ∧
    firstFit (FitsInto srcTracks dstTracks) (destinationRange dstTracks)
      (Leaders srcTracks) = some (FindCorrespondence dstTracks srcTracks) ∧
    ((SelectedLeaders dstTracks).length ≠ 1 →
      destinationRange dstTracks = SelectedLeaders dstTracks ∧
      ∀ p ∈ FindCorrespondence dstTracks srcTracks,
        p.1.leader = true ∧ p.1.selected = true) ∧
    (∀ only, SelectedLeaders dstTracks = [only] →
      ∃ before first after,
        Leaders dstTracks = before ++ first :: after ∧
        destinationRange dstTracks = first :: after ∧
        first.id = only.id ∧ (∀ t ∈ before, t.id ≠ only.id) ∧
        ((dstTracks.map (fun t => t.id)).Nodup → first = only)) := by
  have heq := FindCorrespondence_eq_firstFit dstTracks srcTracks
  cases hff : firstFit (FitsInto srcTracks dstTracks) (destinationRange dstTracks)
      (Leaders srcTracks) with
  | none => rw [hff] at heq; exact absurd heq h
  | some r =>
    rw [hff] at heq
    simp only [Option.getD_some] at heq
    rw [heq]
    have hsub := firstFit_sublist _ _ _ _ hff
    refine ⟨firstFit_snd _ _ _ _ hff, hsub, destinationRange_sublist dstTracks,
      firstFit_fits _ _ _ _ hff, rfl, ?_, ?_⟩
    · intro hlen
      refine ⟨destinationRange_of_not_single dstTracks hlen, ?_⟩
      intro p hp
      have hmem : p.1 ∈ destinationRange dstTracks :=
        hsub.subset (List.mem_map_of_mem Prod.fst hp)
      rw [destinationRange_of_not_single dstTracks hlen] at hmem
      have h1 := List.mem_filter.mp hmem
      have h2 := List.mem_filter.mp h1.1
      exact ⟨by simpa using h2.2, by simpa using h1.2⟩
    · intro only honly
      exact destinationRange_of_single dstTracks only honly

/-- In `twoWaveState` the clipboard's wave track is paired with the first
selected wave track. -/
theorem FindCorrespondence_nonempty_is_first_fit_witness :
    FindCorrespondence twoWaveState.project.tracks monoClipboard.tracks ≠ [] ∧
    (FindCorrespondence twoWaveState.project.tracks monoClipboard.tracks).map Prod.snd
      = Leaders monoClipboard.tracks :=
  ⟨by decide,
   (FindCorrespondence_nonempty_is_first_fit twoWaveState.project.tracks
      monoClipboard.tracks (by decide)).1⟩

/-! ### Paste: rejection -/

theorem FindCorrespondence_empty_or_complete (dstTracks srcTracks : TrackList D) :
    FindCorrespondence dstTracks srcTracks = [] ∨
    ((FindCorrespondence dstTracks srcTracks).map Prod.snd = Leaders srcTracks ∧
      (FindCorrespondence dstTracks srcTracks).length = (Leaders srcTracks).length) := by
  rw [FindCorrespondence_eq_firstFit]
  cases hff : firstFit (FitsInto srcTracks dstTracks) (destinationRange dstTracks)
      (Leaders srcTracks) with
  | none => left; rfl
  | some r =>
    right
    have := firstFit_snd _ _ _ _ hff
    refine ⟨this, ?_⟩
    simp only [Option.getD_some]
    rw [← this, List.length_map]

/-- What `OnPaste` does once it has reached `FindCorrespondence` and got an
empty correspondence. -/
theorem OnPasteTraced_of_empty_correspondence (ops : TrackOps D) (env : Environment)
    (st : State D) (srcTracks : TrackList D)
    (htext : (DoPasteText ops st.project).2 = false)
    (hclip : st.clipboard.tracks ≠ [])
    (hsrc : FindSourceTracks ops env st = .ok (some srcTracks))
    (hsel : Selected st.project.tracks ≠ [])
    (hcorr : FindCorrespondence st.project.tracks srcTracks = []) :
    OnPasteTraced ops env st
      = (⟨{ st with messages := st.messages ++ [rejectionMessage st.project.tracks] },
          true⟩, PasteExit.rejected) := by
  have h1 : st.clipboard.tracks.isEmpty = false := by
    cases hc : st.clipboard.tracks with
    | nil => exact absurd hc hclip
    | cons a l => rfl
  have h2 : (Selected st.project.tracks).isEmpty = false := by
    cases hc : Selected st.project.tracks with
    | nil => exact absurd hc hsel
    | cons a l => rfl
  unfold OnPasteTraced
  simp [htext, h1, hsrc, h2, hcorr]

/-- C1: `FindCorrespondence` never returns a partial correspondence: its
result is empty or has exactly one pair per source leader, and it is empty
whenever the scan ends with source leaders left unmatched.  When `OnPaste`
reaches it (no text paste, a non-empty clipboard, source tracks found, some
track selected) and source leaders are left unmatched, `OnPaste` reports the
rejection message and returns: the project (tracks, selection, history) and
the clipboard are as they were. -/
theorem OnPaste_rejects_without_mutation (ops : TrackOps D) (env : Environment)
    (st : State D) (srcTracks : TrackList D)
    (htext : (DoPasteText ops st.project).2 = false)
    (hclip : st.clipboard.tracks ≠ [])
    (hsrc : FindSourceTracks ops env st = .ok (some srcTracks))
    (hsel : Selected st.project.tracks ≠ [])
    (hleft : (correspondenceLoop st.project.tracks srcTracks
      (destinationRange st.project.tracks) (Leaders srcTracks) []).2 ≠ []) :
    (∀ dstTracks sources : TrackList D,
      FindCorrespondence dstTracks sources = [] ∨
      ((FindCorrespondence dstTracks sources).map Prod.snd = Leaders sources ∧
        (FindCorrespondence dstTracks sources).length = (Leaders sources).length)) ∧
    FindCorrespondence st.project.tracks srcTracks = [] ∧
    (OnPasteTraced ops env st).2 = PasteExit.rejected ∧
    (OnPaste ops env st).completed = true ∧
    (OnPaste ops env st).state.project = st.project ∧
    (OnPaste ops env st).state.clipboard = st.clipboard ∧
    (OnPaste ops env st).state.messages
      = st.messages ++ [rejectionMessage st.project.tracks] := by
  have hcorr : FindCorrespondence st.project.tracks srcTracks = [] := by
    unfold FindCorrespondence
    cases hr : (correspondenceLoop st.project.tracks srcTracks
      (destinationRange st.project.tracks) (Leaders srcTracks) []).2 with
    | nil => exact absurd hr hleft
    | cons a l => simp [hr]
  have hrun := OnPasteTraced_of_empty_correspondence ops env st srcTracks
    htext hclip hsrc hsel hcorr
  refine ⟨FindCorrespondence_empty_or_complete, hcorr, ?_, ?_, ?_, ?_, ?_⟩ <;>
    simp [OnPaste, hrun]

/-- In `labelOnlyState` the clipboard's wave track fits no selected track:
the paste is rejected and the project is unchanged. -/
theorem OnPaste_rejects_without_mutation_witness :
    (OnPasteTraced (recordingOps [] true) sampleEnv labelOnlyState).2
      = PasteExit.rejected ∧
    (OnPaste (recordingOps [] true) sampleEnv labelOnlyState).state.project
      = labelOnlyState.project :=
  have h := OnPaste_rejects_without_mutation (recordingOps [] true) sampleEnv
    labelOnlyState monoClipboard.tracks (by decide) (by decide) rfl (by decide)
    (by decide)
  ⟨h.2.2.1, h.2.2.2.2.1⟩

/-! ### Paste: what each exit leaves behind -/

/-- What `DoPasteNothingSelected` leaves: the selection and the history. -/
theorem DoPasteNothingSelected_spec (ops : TrackOps D) (env : Environment)
    (st : State D) (src : TrackList D) (t0 t1 : Time) :
    ((DoPasteNothingSelected ops env st src t0 t1).completed = true →
      (DoPasteNothingSelected ops env st src t0 t1).state.project.selectedRegion
        = ⟨0, env.quantizedTime t1 - env.quantizedTime t0⟩ ∧
      (DoPasteNothingSelected ops env st src t0 t1).state.project.history
        = st.project.history ++ [⟨"Pasted from the clipboard", "Paste"⟩]) ∧
    ((DoPasteNothingSelected ops env st src t0 t1).completed = false →
      (DoPasteNothingSelected ops env st src t0 t1).state.project.selectedRegion
        = st.project.selectedRegion ∧
      (DoPasteNothingSelected ops env st src t0 t1).state.project.history
        = st.project.history) := by
  unfold DoPasteNothingSelected
  cases hr : (pasteNothingSelectedLoop ops src st.project.tracks none).2.2 with
  | false => simp [hr]
  | true =>
    cases hf : (pasteNothingSelectedLoop ops src st.project.tracks none).2.1 with
    | none => simp [hr, hf, PushState, setTimes]
    | some f => simp [hr, hf, PushState, setTimes]

/-- For each exit of `OnPaste`: whether the command ran to its end, the
history and the selection it leaves. -/
theorem OnPasteTraced_exits (ops : TrackOps D) (env : Environment) (st : State D) :
    ((OnPasteTraced ops env st).2 = PasteExit.pasted →
      (OnPasteTraced ops env st).1.completed = true ∧
      Selected st.project.tracks ≠ [] ∧ st.clipboard.tracks ≠ [] ∧
      (OnPasteTraced ops env st).1.state.project.history
        = st.project.history ++ [⟨"Pasted from the clipboard", "Paste"⟩] ∧
      (OnPasteTraced ops env st).1.state.project.selectedRegion
        = ⟨st.project.selectedRegion.t0,
            st.project.selectedRegion.t0 + (st.clipboard.t1 - st.clipboard.t0)⟩) ∧
    ((OnPasteTraced ops env st).2 = PasteExit.newTracks →
      (OnPasteTraced ops env st).1.completed = true ∧
      Selected st.project.tracks = [] ∧ st.clipboard.tracks ≠ [] ∧
      (OnPasteTraced ops env st).1.state.project.history
        = st.project.history ++ [⟨"Pasted from the clipboard", "Paste"⟩] ∧
      (OnPasteTraced ops env st).1.state.project.selectedRegion
        = ⟨0, env.quantizedTime st.clipboard.t1 - env.quantizedTime st.clipboard.t0⟩) ∧
    ((OnPasteTraced ops env st).2 = PasteExit.rejected ∨
      (OnPasteTraced ops env st).2 = PasteExit.cancelled ∨
      (OnPasteTraced ops env st).2 = PasteExit.emptyClipboard →
      (OnPasteTraced ops env st).1.completed = true ∧
      (OnPasteTraced ops env st).1.state.project = st.project ∧
      (OnPasteTraced ops env st).1.state.clipboard = st.clipboard) ∧
    ((OnPasteTraced ops env st).2 = PasteExit.nothingPasted →
      (OnPasteTraced ops env st).1.completed = true ∧
      (OnPasteTraced ops env st).1.state.project.history = st.project.history ∧
      (OnPasteTraced ops env st).1.state.project.selectedRegion
        = st.project.selectedRegion) ∧
    ((OnPasteTraced ops env st).2 = PasteExit.threw ↔
      (OnPasteTraced ops env st).1.completed = false) ∧
    ((OnPasteTraced ops env st).1.completed = false →
      (OnPasteTraced ops env st).1.state.project.history = st.project.history ∧
      (OnPasteTraced ops env st).1.state.project.selectedRegion
        = st.project.selectedRegion) := by
  unfold OnPasteTraced
  cases htext : (DoPasteText ops st.project).2 with
  | true => simp [htext]
  | false =>
    cases hclip : st.clipboard.tracks with
    | nil => simp [htext, hclip]
    | cons c cs =>
      cases hsrc : FindSourceTracks ops env st with
      | error e => simp [htext, hclip, hsrc]
      | ok o =>
        cases o with
        | none => simp [htext, hclip, hsrc]
        | some srcTracks =>
          cases hsel : Selected st.project.tracks with
          | nil =>
            have hn := DoPasteNothingSelected_spec ops env st srcTracks
              st.clipboard.t0 st.clipboard.t1
            cases hc : (DoPasteNothingSelected ops env st srcTracks
                st.clipboard.t0 st.clipboard.t1).completed with
            | false => simp [htext, hclip, hsrc, hsel, hc, hn.2 hc]
            | true => simp [htext, hclip, hsrc, hsel, hc, hn.1 hc]
          | cons a l =>
            cases hcorr : FindCorrespondence st.project.tracks srcTracks with
            | nil => simp [htext, hclip, hsrc, hsel, hcorr]
            | cons p ps =>
              simp only [htext, hclip, hsrc, hsel, hcorr, List.isEmpty_cons,
                Bool.false_eq_true, if_false, FindSelection, Clipboard.Duration]
              split
              · simp
              · split
                · split <;> simp [PushState, setTimes]
                · simp

/-! ### Paste: sync-locked tracks, and the selection afterwards -/

/-- C4, the code at a failing input.  In `syncLockedState` the paste target
is the second track of a sync-lock group of three.  `OnPaste` pastes
(`t1 = 2`, `newT1 = 7`): the wave track before the target is adjusted by
`SyncLockAdjust(2, 7)`, the label track after the target, whose end time
is not before `t1`, gets no call at all. -/
theorem OnPaste_skips_sync_locked_track_after_last_target :
    (OnPasteTraced (recordingOps [] true) sampleEnv syncLockedState).2
      = PasteExit.pasted ∧
    FindCorrespondence syncLockedState.project.tracks monoClipboard.tracks
      = [(sampleTrack 2 TrackKind.wave true true 0,
          sampleTrack 1 TrackKind.wave false false 0)] ∧
    (OnPaste (recordingOps [] true) sampleEnv syncLockedState).state.project.tracks.map
        (fun t => (t.id, t.content.data))
      = [(1, [Edit.syncLockAdjust 2 7]), (2, [Edit.clearAndPaste 2 2 1]), (3, [])] ∧
    syncLockedState.project.selectedRegion.t1
      ≤ (recordingOps [] true).GetEndTime (sampleTrack 3 TrackKind.label false true 0) ∧
    syncLockedState.project.selectedRegion.t1
      ≠ syncLockedState.project.selectedRegion.t0 + monoClipboard.Duration := by
  decide

/-- C5 as stated fails when no track is selected: in `unselectedState` the
selection starts at 3 and the clipboard has duration 5; `OnPaste` creates a
new track and leaves the selection `[0, 5)`, not `[3, 8)`. -/
theorem OnPaste_new_tracks_selection_counterexample :
    (OnPasteTraced (recordingOps [] true) sampleEnv unselectedState).2
      = PasteExit.newTracks ∧
    unselectedState.clipboard.tracks ≠ [] ∧
    (OnPaste (recordingOps [] true) sampleEnv unselectedState).state.project.selectedRegion
      = ⟨0, 5⟩ ∧
    (OnPaste (recordingOps [] true) sampleEnv unselectedState).state.project.selectedRegion
      ≠ ⟨unselectedState.project.selectedRegion.t0,
          unselectedState.project.selectedRegion.t0 + unselectedState.clipboard.Duration⟩ := by
  decide

/-- C5 (amended): for every `OnPaste` that inserts clipboard content (it
ends having pasted into selected tracks, or having pasted into new tracks),
the clipboard was not empty, and the selected region afterwards is
`[t0, t0 + (T1 - T0))` when tracks were selected, `t0` being the start of
the selection before the command, and `[0, Q(T1) - Q(T0))` when no track was
selected and new tracks were created, `Q` being `QUANTIZED_TIME` at the
project rate and `T0`, `T1` the times of the clipboard. -/
theorem OnPaste_selection_after_paste (ops : TrackOps D) (env : Environment)
    (st : State D)
    (h : (OnPasteTraced ops env st).2 = PasteExit.pasted ∨
      (OnPasteTraced ops env st).2 = PasteExit.newTracks) :
    st.clipboard.tracks ≠ [] ∧
    (Selected st.project.tracks ≠ [] →
      (OnPaste ops env st).state.project.selectedRegion
        = ⟨st.project.selectedRegion.t0,
            st.project.selectedRegion.t0 + (st.clipboard.t1 - st.clipboard.t0)⟩) ∧
    (Selected st.project.tracks = [] →
      (OnPaste ops env st).state.project.selectedRegion
        = ⟨0, env.quantizedTime st.clipboard.t1 - env.quantizedTime st.clipboard.t0⟩) := by
  have hx := OnPasteTraced_exits ops env st
  unfold OnPaste
  rcases h with h | h
  · have h1 := hx.1 h
    exact ⟨h1.2.2.1, fun _ => h1.2.2.2.2, fun hs => absurd hs h1.2.1⟩
  · have h1 := hx.2.1 h
    exact ⟨h1.2.2.1, fun hs => absurd h1.2.1 hs, fun _ => h1.2.2.2.2⟩

/-- A paste into the selected tracks of `twoWaveState`, whose selection
starts at 2, leaves the selection `[2, 7)`. -/
theorem OnPaste_selection_after_paste_witness :
    (OnPasteTraced (recordingOps [] true) sampleEnv twoWaveState).2 = PasteExit.pasted ∧
    (OnPaste (recordingOps [] true) sampleEnv twoWaveState).state.project.selectedRegion
      = ⟨2, 2 + (5 - 0)⟩ :=
  ⟨by decide,
   (OnPaste_selection_after_paste (recordingOps [] true) sampleEnv twoWaveState
      (Or.inl (by decide))).2.1 (by decide)⟩

/-! ### History: one state per committed edit, none on failure -/

/-- Embeds `visitAndPush` pushes one state when the visit ends, none when a call
throws; it never moves the selection. -/
theorem visitAndPush_history (f : Track D → Except String (Content D))
    (longDescription shortDescription : String) (st : State D) :
    ((visitAndPush f longDescription shortDescription st).completed = true →
      (visitAndPush f longDescription shortDescription st).state.project.history
        = st.project.history ++ [⟨longDescription, shortDescription⟩]) ∧
    ((visitAndPush f longDescription shortDescription st).completed = false →
      (visitAndPush f longDescription shortDescription st).state.project.history
        = st.project.history) ∧
    (visitAndPush f longDescription shortDescription st).state.project.selectedRegion
      = st.project.selectedRegion := by
  unfold visitAndPush
  cases hv : (visitTracks f st.project.tracks).2 <;> simp [hv, PushState]

theorem OnDelete_history (ops : TrackOps D) (st : State D) :
    ((OnDelete ops st).completed = true →
      (OnDelete ops st).state.project.history
        = st.project.history ++ [⟨"Deleted %.2f seconds at t=%.2f", "Delete"⟩]) ∧
    ((OnDelete ops st).completed = false →
      (OnDelete ops st).state.project.history = st.project.history ∧
      (OnDelete ops st).state.project.selectedRegion = st.project.selectedRegion) := by
  unfold OnDelete
  cases hv : (visitTracks (deleteClear ops st.project.selectedRegion.t0
    st.project.selectedRegion.t1) st.project.tracks).2 <;> simp [hv, PushState]

theorem OnCut_history (ops : TrackOps D) (env : Environment) (st : State D) :
    ((OnCut ops env st).completed = true →
      cutSelectedText ops st.project.tracks = none →
      (OnCut ops env st).state.project.history
        = st.project.history ++ [⟨"Cut to the clipboard", "Cut"⟩]) ∧
    ((OnCut ops env st).completed = true →
      cutSelectedText ops st.project.tracks ≠ none →
      (OnCut ops env st).state.project.history = st.project.history) ∧
    ((OnCut ops env st).completed = false →
      (OnCut ops env st).state.project.history = st.project.history ∧
      (OnCut ops env st).state.project.selectedRegion = st.project.selectedRegion) := by
  unfold OnCut
  cases htext : cutSelectedText ops st.project.tracks with
  | some tracks => simp [htext]
  | none =>
    simp only [htext]
    split
    · simp
    · split <;> simp [PushState]

theorem OnCopy_project (ops : TrackOps D) (st : State D) :
    (OnCopy ops st).state.project = st.project ∧
    (OnCopy ops st).state.messages = st.messages := by
  unfold OnCopy
  simp only []
  split
  · simp
  · split <;> simp

theorem OnSplitCut_history (ops : TrackOps D) (st : State D) :
    ((OnSplitCut ops st).completed = true →
      (OnSplitCut ops st).state.project.history
        = st.project.history ++ [⟨"Split-cut to the clipboard", "Split Cut"⟩]) ∧
    ((OnSplitCut ops st).completed = false →
      (OnSplitCut ops st).state.project.history = st.project.history) := by
  unfold OnSplitCut
  simp only []
  split <;> simp [PushState]

theorem OnSplitNew_history (ops : TrackOps D) (st : State D) :
    ((OnSplitNew ops st).completed = true →
      (OnSplitNew ops st).state.project.history
        = st.project.history ++ [⟨"Split to new track", "Split New"⟩]) ∧
    ((OnSplitNew ops st).completed = false →
      (OnSplitNew ops st).state.project.history = st.project.history) := by
  unfold OnSplitNew
  simp only []
  split <;> simp [PushState]

theorem OnDuplicate_history (ops : TrackOps D) (fuel : Nat) (st : State D)
    (out : Outcome D) (h : OnDuplicate ops fuel st = some out) :
    (out.completed = true →
      out.state.project.history = st.project.history ++ [⟨"Duplicated", "Duplicate"⟩]) ∧
    (out.completed = false → out.state.project.history = st.project.history) := by
  unfold OnDuplicate at h
  simp only [] at h
  split at h
  · simp at h
  · simp at h; subst h; simp
  · simp at h; subst h; simp [PushState]

/-- C6: a structural edit that fails commits nothing.  If `OnCut`,
`OnDelete` or `OnPaste` is left by an exception (an operation on some track
reported an error), the command has pushed no history state and has not
moved the selection; and after the roll-back of the top-level handler
(`runCommand`) the project, with all its tracks, is exactly as it was before
the command. -/
theorem failed_edit_commits_nothing (ops : TrackOps D) (env : Environment)
    (st : State D) :
    ((OnCut ops env st).completed = false →
      (OnCut ops env st).state.project.history = st.project.history ∧
      (OnCut ops env st).state.project.selectedRegion = st.project.selectedRegion ∧
      (runCommand (OnCut ops env) st).project = st.project) ∧
    ((OnDelete ops st).completed = false →
      (OnDelete ops st).state.project.history = st.project.history ∧
      (OnDelete ops st).state.project.selectedRegion = st.project.selectedRegion ∧
      (runCommand (OnDelete ops) st).project = st.project) ∧
    ((OnPaste ops env st).completed = false →
      (OnPaste ops env st).state.project.history = st.project.history ∧
      (OnPaste ops env st).state.project.selectedRegion = st.project.selectedRegion ∧
      (runCommand (OnPaste ops env) st).project = st.project) := by
  refine ⟨?_, ?_, ?_⟩
  · intro h
    have := (OnCut_history ops env st).2.2 h
    exact ⟨this.1, this.2, by simp [runCommand, h]⟩
  · intro h
    have := (OnDelete_history ops st).2 h
    exact ⟨this.1, this.2, by simp [runCommand, h]⟩
  · intro h
    have := (OnPasteTraced_exits ops env st).2.2.2.2.2 h
    exact ⟨this.1, this.2, by simp [runCommand, h]⟩

/-- In `twoWaveState`, when `Clear` throws on the second track, `OnDelete`
is left by the exception after it has cleared the first track; the handler
restores the project. -/
theorem failed_edit_commits_nothing_witness :
    (OnDelete (recordingOps [2] true) twoWaveState).completed = false ∧
    (OnDelete (recordingOps [2] true) twoWaveState).state.project.tracks
      ≠ twoWaveState.project.tracks ∧
    (runCommand (OnDelete (recordingOps [2] true)) twoWaveState).project
      = twoWaveState.project :=
  ⟨by decide, by decide,
   ((failed_edit_commits_nothing (recordingOps [2] true) sampleEnv
      twoWaveState).2.1 (by decide)).2.2⟩

/-- C7: `PushState` is called exactly once per committed structural edit.
Each of `OnCut` (audio path), `OnDelete`, `OnDuplicate`, `OnSplitCut`,
`OnSplitDelete`, `OnSilence`, `OnTrim` (on a selection that is not a point),
`OnSplit` (without a temporary track, or with a wave one), `OnSplitNew`,
`OnJoin`, `OnDisjoin`, and an `OnPaste` that pasted (into selected tracks or
into new tracks) appends exactly one entry to the history when it runs to
its end.  `OnCopy`, a rejected, cancelled or empty-clipboard `OnPaste`,
`OnTrim` on a point selection and `OnSplit` on a temporary track that is not
a wave track leave the history as it was. -/
theorem PushState_once_per_committed_edit (ops : TrackOps D) (env : Environment)
    (st : State D) :
    ((OnCut ops env st).completed = true →
      cutSelectedText ops st.project.tracks = none →
      (OnCut ops env st).state.project.history
        = st.project.history ++ [⟨"Cut to the clipboard", "Cut"⟩]) ∧
    ((OnDelete ops st).completed = true →
      (OnDelete ops st).state.project.history
        = st.project.history ++ [⟨"Deleted %.2f seconds at t=%.2f", "Delete"⟩]) ∧
    (∀ fuel out, OnDuplicate ops fuel st = some out → out.completed = true →
      out.state.project.history
        = st.project.history ++ [⟨"Duplicated", "Duplicate"⟩]) ∧
    ((OnSplitCut ops st).completed = true →
      (OnSplitCut ops st).state.project.history
        = st.project.history ++ [⟨"Split-cut to the clipboard", "Split Cut"⟩]) ∧
    ((OnSplitDelete ops st).completed = true →
      (OnSplitDelete ops st).state.project.history
        = st.project.history
          ++ [⟨"Split-deleted %.2f seconds at t=%.2f", "Split Delete"⟩]) ∧
    ((OnSilence ops st).completed = true →
      (OnSilence ops st).state.project.history
        = st.project.history
          ++ [⟨"Silenced selected tracks for %.2f seconds at %.2f", "Silence"⟩]) ∧
    ((OnTrim ops st).completed = true → isPoint st.project.selectedRegion = false →
      (OnTrim ops st).state.project.history
        = st.project.history
          ++ [⟨"Trim selected audio tracks from %.2f seconds to %.2f seconds",
                "Trim Audio"⟩]) ∧
    (∀ pTrack : Option (Track D), (OnSplit ops pTrack st).completed = true →
      (∀ t, pTrack = some t → t.kind = TrackKind.wave) →
      (OnSplit ops pTrack st).state.project.history
        = st.project.history ++ [⟨"Split", "Split"⟩]) ∧
    ((OnSplitNew ops st).completed = true →
      (OnSplitNew ops st).state.project.history
        = st.project.history ++ [⟨"Split to new track", "Split New"⟩]) ∧
    ((OnJoin ops st).completed = true →
      (OnJoin ops st).state.project.history
        = st.project.history ++ [⟨"Joined %.2f seconds at t=%.2f", "Join"⟩]) ∧
    ((OnDisjoin ops st).completed = true →
      (OnDisjoin ops st).state.project.history
        = st.project.history ++ [⟨"Detached %.2f seconds at t=%.2f", "Detach"⟩]) ∧
    ((OnPasteTraced ops env st).2 = PasteExit.pasted ∨
      (OnPasteTraced ops env st).2 = PasteExit.newTracks →
      (OnPaste ops env st).completed = true ∧
      (OnPaste ops env st).state.project.history
        = st.project.history ++ [⟨"Pasted from the clipboard", "Paste"⟩]) ∧
    (OnCopy ops st).state.project.history = st.project.history ∧
    ((OnPasteTraced ops env st).2 = PasteExit.rejected ∨
      (OnPasteTraced ops env st).2 = PasteExit.cancelled ∨
      (OnPasteTraced ops env st).2 = PasteExit.emptyClipboard →
      (OnPaste ops env st).completed = true ∧
      (OnPaste ops env st).state.project.history = st.project.history) ∧
    (isPoint st.project.selectedRegion = true →
      (OnTrim ops st).completed = true ∧
      (OnTrim ops st).state.project.history = st.project.history) ∧
    (∀ t : Track D, t.kind ≠ TrackKind.wave →
      (OnSplit ops (some t) st).completed = true ∧
      (OnSplit ops (some t) st).state.project.history = st.project.history) := by
  have hx := OnPasteTraced_exits ops env st
  refine ⟨(OnCut_history ops env st).1, (OnDelete_history ops st).1, ?_,
    (OnSplitCut_history ops st).1, (visitAndPush_history _ _ _ st).1,
    (visitAndPush_history _ _ _ st).1, ?_, ?_, (OnSplitNew_history ops st).1,
    (visitAndPush_history _ _ _ st).1, (visitAndPush_history _ _ _ st).1,
    ?_, ?_, ?_, ?_, ?_⟩
  · intro fuel out h hc
    exact (OnDuplicate_history ops fuel st out h).1 hc
  · intro hc hp
    unfold OnTrim at hc ⊢
    simp only [hp, Bool.false_eq_true, if_false] at hc ⊢
    exact (visitAndPush_history _ _ _ st).1 hc
  · intro pTrack hc hw
    cases pTrack with
    | none =>
      unfold OnSplit at hc ⊢
      exact (visitAndPush_history _ _ _ st).1 hc
    | some t =>
      have hk := hw t rfl
      unfold OnSplit at hc ⊢
      simp only [hk, if_true] at hc ⊢
      exact (visitAndPush_history _ _ _ st).1 hc
  · intro h
    unfold OnPaste
    rcases h with h | h
    · exact ⟨(hx.1 h).1, (hx.1 h).2.2.2.1⟩
    · exact ⟨(hx.2.1 h).1, (hx.2.1 h).2.2.2.1⟩
  · rw [(OnCopy_project ops st).1]
  · intro h
    unfold OnPaste
    have := hx.2.2.1 h
    exact ⟨this.1, by rw [this.2.1]⟩
  · intro hp
    unfold OnTrim
    simp [hp]
  · intro t hk
    unfold OnSplit
    simp [hk]

/-- On `twoWaveState`: `OnDelete` runs to its end and the history, empty
before, holds the one entry "Delete"; a paste pushes the one entry
"Paste"; `OnDuplicate` ends within three steps with the one entry
"Duplicate". -/
theorem PushState_once_per_committed_edit_witness :
    (OnDelete (recordingOps [] true) twoWaveState).completed = true ∧
    (OnDelete (recordingOps [] true) twoWaveState).state.project.history
      = [] ++ [⟨"Deleted %.2f seconds at t=%.2f", "Delete"⟩] ∧
    (OnPaste (recordingOps [] true) sampleEnv twoWaveState).state.project.history
      = [] ++ [⟨"Pasted from the clipboard", "Paste"⟩] ∧
    (OnDuplicate (recordingOps [] true) 3 twoWaveState).map
        (fun out => (out.completed, out.state.project.history))
      = some (true, [⟨"Duplicated", "Duplicate"⟩]) :=
  ⟨by decide,
   (PushState_once_per_committed_edit (recordingOps [] true) sampleEnv
      twoWaveState).2.1 (by decide),
   ((PushState_once_per_committed_edit (recordingOps [] true) sampleEnv
      twoWaveState).2.2.2.2.2.2.2.2.2.2.2.1 (Or.inl (by decide))).2,
   by decide⟩

/-! ### Cut and Copy: the clipboard and the project -/

theorem foldl_Add_forget_id (entries : List (Track D)) :
    ∀ acc : TrackList D,
      (entries.foldl Add acc).map (fun t => { t with id := 0 })
        = acc.map (fun t => { t with id := 0 })
          ++ entries.map (fun t => { t with id := 0 }) := by
  induction entries with
  | nil => intro acc; simp
  | cons e es ih =>
    intro acc
    rw [List.foldl_cons, ih (Add acc e)]
    simp [Add]

theorem cutVisit_clipboard (ops : TrackOps D) (t0 t1 : Time)
    (tracks : List (Track D)) :
    ∀ newClipboard : TrackList D,
      (∀ n ∈ tracks, n.kind = TrackKind.note → n.basicEditing = true) →
      (cutVisit ops t0 t1 tracks newClipboard).2.2 = true →
      (cutVisit ops t0 t1 tracks newClipboard).2.1
        = (cutEntries ops t0 t1 tracks).foldl Add newClipboard := by
  induction tracks with
  | nil => intro acc _ _; simp [cutVisit, cutEntries]
  | cons n ns ih =>
    intro acc hnote h
    have hns : ∀ m ∈ ns, m.kind = TrackKind.note → m.basicEditing = true :=
      fun m hm => hnote m (List.mem_cons_of_mem _ hm)
    have hn := hnote n (List.mem_cons_self _ _)
    unfold cutVisit at h ⊢
    unfold cutEntries
    rw [List.filterMap_cons]
    cases hsel : n.selected with
    | false =>
      simp only [hsel, Bool.not_false, if_true, Bool.false_and, Bool.false_eq_true,
        if_false] at h ⊢
      exact ih acc hns h
    | true =>
      by_cases hk : n.kind = TrackKind.note
      · have hb := hn hk
        simp only [hsel, hk, hb, Bool.not_true, Bool.false_eq_true, if_false, if_true,
          Bool.and_self] at h ⊢
        cases hc : ops.Cut n t0 t1 with
        | error e => simp [hc] at h
        | ok r =>
          obtain ⟨c, dest⟩ := r
          simp only [hc] at h ⊢
          cases dest with
          | none => exact ih _ hns h
          | some d => exact ih _ hns h
      · cases hb : n.basicEditing with
        | false =>
          simp only [hsel, hk, hb, Bool.not_true, Bool.false_eq_true, if_false,
            Bool.and_false] at h ⊢
          exact ih acc hns h
        | true =>
          simp only [hsel, hk, hb, Bool.not_true, Bool.false_eq_true, if_false, if_true,
            Bool.and_self] at h ⊢
          cases hc : ops.Copy n t0 t1 true with
          | error e => simp [hc] at h
          | ok dest =>
            simp only [hc] at h ⊢
            cases dest with
            | none => exact ih _ hns h
            | some d => exact ih _ hns h

theorem copyVisit_clipboard (ops : TrackOps D) (t0 t1 : Time)
    (tracks : List (Track D)) :
    ∀ newClipboard result : TrackList D,
      copyVisit ops t0 t1 tracks newClipboard = some result →
      result = (copyEntries ops t0 t1 tracks).foldl Add newClipboard := by
  induction tracks with
  | nil => intro acc result h; simp [copyVisit] at h; simp [copyEntries, h]
  | cons n ns ih =>
    intro acc result h
    unfold copyVisit at h
    unfold copyEntries
    rw [List.filterMap_cons]
    cases hc : (n.selected && n.basicEditing) with
    | false =>
      simp only [hc, Bool.false_eq_true, if_false] at h ⊢
      exact ih acc result h
    | true =>
      simp only [hc, if_true] at h ⊢
      cases hcopy : ops.Copy n t0 t1 true with
      | error e => simp [hcopy] at h
      | ok dest =>
        simp only [hcopy] at h ⊢
        cases dest with
        | none => exact ih _ result h
        | some d => exact ih _ result h

/-- C8: after `OnCut` or `OnCopy` on the audio path (no label or clip text
was cut or copied) has run to its end with selection `[t0, t1]`, the
clipboard is replaced wholesale, whatever it held: its tracks are the
entries added one by one to an empty list, one for each selected track that
supports basic editing and yields a non-null copy, in project track order,
each the track's `Copy(t0, t1)` (`Cut(t0, t1)` for a note track in `OnCut`);
adding keeps the number, the order and everything but the identity of the
entries; and its `T0`, `T1` and owner are `t0`, `t1` and the project.  Note
tracks support basic editing. -/
theorem clipboard_replaced_by_cut_or_copy (ops : TrackOps D) (env : Environment)
    (st : State D)
    (hnote : ∀ n ∈ st.project.tracks, n.kind = TrackKind.note → n.basicEditing = true) :
    ((OnCut ops env st).completed = true →
      cutSelectedText ops st.project.tracks = none →
      (OnCut ops env st).state.clipboard
        = ⟨addAll (cutEntries ops st.project.selectedRegion.t0
              st.project.selectedRegion.t1 st.project.tracks),
            st.project.selectedRegion.t0, st.project.selectedRegion.t1,
            some st.project.key⟩) ∧
    ((OnCopy ops st).completed = true →
      copiesSelectedText ops st.project.tracks = false →
      (OnCopy ops st).state.clipboard
        = ⟨addAll (copyEntries ops st.project.selectedRegion.t0
              st.project.selectedRegion.t1 st.project.tracks),
            st.project.selectedRegion.t0, st.project.selectedRegion.t1,
            some st.project.key⟩) ∧
    (∀ entries : List (Track D),
      (addAll entries).map (fun t => { t with id := 0 })
        = entries.map (fun t => { t with id := 0 })) := by
  refine ⟨?_, ?_, ?_⟩
  · intro hc htext
    unfold OnCut at hc ⊢
    simp only [htext] at hc ⊢
    cases h1 : (cutVisit ops st.project.selectedRegion.t0 st.project.selectedRegion.t1
        st.project.tracks []).2.2 with
    | false => simp [h1] at hc
    | true =>
      have hcb := cutVisit_clipboard ops _ _ st.project.tracks [] hnote h1
      simp only [h1, Bool.not_true, Bool.false_eq_true, if_false] at hc ⊢
      split
      · rename_i h2; simp [h2] at hc
      · simp [Clipboard.Assign, hcb, addAll]
  · intro hc htext
    unfold OnCopy at hc ⊢
    simp only [htext, Bool.false_eq_true, if_false] at hc ⊢
    cases h1 : copyVisit ops st.project.selectedRegion.t0 st.project.selectedRegion.t1
        st.project.tracks [] with
    | none => simp [h1] at hc
    | some cb =>
      have hcb := copyVisit_clipboard ops _ _ st.project.tracks [] cb h1
      simp [Clipboard.Assign, hcb, addAll]
  · intro entries
    have := foldl_Add_forget_id entries []
    simpa [addAll] using this

/-- Embeds `OnCut` on `twoWaveState`, selection `[2, 4)`: the clipboard holds the
copies of the two selected wave tracks, in order, with times 2 and 4 and
owner 1. -/
theorem clipboard_replaced_by_cut_or_copy_witness :
    (OnCut (recordingOps [] true) sampleEnv twoWaveState).state.clipboard
      = ⟨addAll (cutEntries (recordingOps [] true) 2 4 twoWaveState.project.tracks),
          2, 4, some 1⟩ ∧
    (cutEntries (recordingOps [] true) 2 4 twoWaveState.project.tracks).map
        (fun t => t.content.data)
      = [[Edit.copied 1 2 4], [Edit.copied 2 2 4]] :=
  ⟨(clipboard_replaced_by_cut_or_copy (recordingOps [] true) sampleEnv twoWaveState
      (by decide)).1 (by decide) (by decide),
   by decide⟩

/-- C9: `OnCopy` leaves the project unchanged.  Whatever the state, and
whether or not a `Copy` throws, the project afterwards is the project
before: the same tracks with the same content, the same selected region, the
same history; no message is shown.  Only the clipboard can differ. -/
theorem OnCopy_leaves_project_unchanged (ops : TrackOps D) (st : State D) :
    (OnCopy ops st).state.project = st.project ∧
    (OnCopy ops st).state.project.tracks = st.project.tracks ∧
    (OnCopy ops st).state.project.selectedRegion = st.project.selectedRegion ∧
    (OnCopy ops st).state.project.history = st.project.history ∧
    (OnCopy ops st).state.messages = st.messages := by
  have h := OnCopy_project ops st
  refine ⟨h.1, ?_, ?_, ?_, h.2⟩ <;> rw [h.1]

/-- C10, the code at a failing input.  In `noteSyncState` the note track is
not selected but sync-lock selected, and supports basic editing.  `OnCut`
over `[2, 4)` clears the wave track and the label track and makes no call on
the note track; `OnDelete` on the same state clears all three. -/
theorem OnCut_leaves_sync_lock_selected_note_track :
    (OnCut (recordingOps [] true) sampleEnv noteSyncState).completed = true ∧
    cutSelectedText (recordingOps [] true) noteSyncState.project.tracks = none ∧
    noteSyncState.project.tracks.map
        (fun t => (t.id, t.kind, IsSelectedOrSyncLockSelected t, t.basicEditing))
      = [(1, TrackKind.wave, true, true), (2, TrackKind.note, true, true),
         (3, TrackKind.label, true, true)] ∧
    (OnCut (recordingOps [] true) sampleEnv noteSyncState).state.project.tracks.map
        (fun t => (t.id, t.content.data))
      = [(1, [Edit.clear 2 4]), (2, []), (3, [Edit.clear 2 4])] ∧
    (OnDelete (recordingOps [] true) noteSyncState).state.project.tracks.map
        (fun t => (t.id, t.content.data))
      = [(1, [Edit.clear 2 4]), (2, [Edit.clear 2 4]), (3, [Edit.clear 2 4])] := by
  decide

/-! ### Paste: the source tracks and the hidden data -/

theorem HasHiddenData_iff (trackList : TrackList D) :
    HasHiddenData trackList = true ↔
      ∃ track ∈ trackList, track.kind = TrackKind.wave ∧
        ∃ clip ∈ track.content.clips, clip.trimLeft ≠ 0 ∨ clip.trimRight ≠ 0 := by
  simp only [HasHiddenData, AnyOfKind, List.any_eq_true, List.mem_filter,
    decide_eq_true_eq, Bool.or_eq_true, bne_iff_ne, ne_eq]
  constructor
  · rintro ⟨track, ⟨hmem, hkind⟩, clip, hclip, h⟩
    exact ⟨track, hmem, hkind, clip, hclip, h⟩
  · rintro ⟨track, hmem, hkind, clip, hclip, h⟩
    exact ⟨track, ⟨hmem, hkind⟩, clip, hclip, h⟩

/-- C12: `FindSourceTracks` is a function of (same project?, policy, hidden
data?, dialog answer).  Into another project, with policy "Ask", hidden data
in the clipboard and the dialog cancelled, it returns nothing, and in no
other case; into another project, with policy "Discard", or with policy
"Ask", hidden data and the answer discard, it returns the result of
`DuplicateDiscardTrimmed` on the clipboard; in every other case it returns
the track list of the clipboard itself.  `HasHiddenData` holds exactly when
some clip of some wave track has a trim-left or trim-right other than 0. -/
theorem FindSourceTracks_decides_keep_or_discard (ops : TrackOps D)
    (env : Environment) (st : State D) :
    FindSourceTracks ops env st =
      (if st.clipboard.project ≠ some st.project.key ∧ env.pastePolicy = "Ask" ∧
          HasHiddenData st.clipboard.tracks = true ∧
          env.dialogAnswer = DialogResult.cancel then
        .ok none
      else if st.clipboard.project ≠ some st.project.key ∧
          (env.pastePolicy = "Discard" ∨
            (env.pastePolicy = "Ask" ∧ HasHiddenData st.clipboard.tracks = true ∧
              env.dialogAnswer = DialogResult.discard)) then
        (DuplicateDiscardTrimmed ops st.clipboard.tracks).map some
      else
        .ok (some st.clipboard.tracks)) ∧
    (FindSourceTracks ops env st = .ok none ↔
      st.clipboard.project ≠ some st.project.key ∧ env.pastePolicy = "Ask" ∧
        HasHiddenData st.clipboard.tracks = true ∧
        env.dialogAnswer = DialogResult.cancel) ∧
    (HasHiddenData st.clipboard.tracks = true ↔
      ∃ track ∈ st.clipboard.tracks, track.kind = TrackKind.wave ∧
        ∃ clip ∈ track.content.clips, clip.trimLeft ≠ 0 ∨ clip.trimRight ≠ 0) := by
  have hmap : ∀ r : Except String (TrackList D),
      (match r with
        | .error e => (.error e : Except String (Option (TrackList D)))
        | .ok srcTracks => .ok (some srcTracks)) = r.map some := by
    intro r
    cases r <;> rfl
  have hne : ∀ r : Except String (TrackList D),
      r.map some ≠ (.ok none : Except String (Option (TrackList D))) := by
    intro r
    cases r <;> simp [Except.map]
  have heq : FindSourceTracks ops env st =
      (if st.clipboard.project ≠ some st.project.key ∧ env.pastePolicy = "Ask" ∧
          HasHiddenData st.clipboard.tracks = true ∧
          env.dialogAnswer = DialogResult.cancel then
        .ok none
      else if st.clipboard.project ≠ some st.project.key ∧
          (env.pastePolicy = "Discard" ∨
            (env.pastePolicy = "Ask" ∧ HasHiddenData st.clipboard.tracks = true ∧
              env.dialogAnswer = DialogResult.discard)) then
        (DuplicateDiscardTrimmed ops st.clipboard.tracks).map some
      else
        .ok (some st.clipboard.tracks)) := by
    unfold FindSourceTracks
    simp only [hmap]
    by_cases hother : st.clipboard.project = some st.project.key
    · simp [hother]
    · by_cases hask : env.pastePolicy = "Ask"
      · have hnd : ¬ env.pastePolicy = "Discard" := by rw [hask]; decide
        cases hhid : HasHiddenData st.clipboard.tracks
        · simp [hother, hask]
        · cases hans : env.dialogAnswer <;> simp [hother, hask]
      · by_cases hdis : env.pastePolicy = "Discard"
        · simp [hother, hask, hdis]
        · simp [hother, hask, hdis]
  refine ⟨heq, ?_, HasHiddenData_iff _⟩
  rw [heq]
  constructor
  · intro h
    by_contra hc
    rw [if_neg hc] at h
    split at h
    · exact hne _ h
    · simp at h
  · intro h
    rw [if_pos h]

/-- C13: with policy "Ask", a clipboard that another project owns and that
has hidden data, and the dialog cancelled, `OnPaste` (not having pasted
text, which comes before the dialog) returns by its cancel exit: the state
after it is the state before it, so no track is created or modified, the
selection and the clipboard are as they were, and the history has no new
state. -/
theorem OnPaste_aborts_when_dialog_cancelled (ops : TrackOps D) (env : Environment)
    (st : State D)
    (htext : (DoPasteText ops st.project).2 = false)
    (hpolicy : env.pastePolicy = "Ask")
    (hother : st.clipboard.project ≠ some st.project.key)
    (hhidden : HasHiddenData st.clipboard.tracks = true)
    (hcancel : env.dialogAnswer = DialogResult.cancel) :
    OnPasteTraced ops env st = (⟨st, true⟩, PasteExit.cancelled) ∧
      (OnPaste ops env st).state = st ∧
      (OnPaste ops env st).state.project.tracks = st.project.tracks ∧
      (OnPaste ops env st).state.project.selectedRegion = st.project.selectedRegion ∧
      (OnPaste ops env st).state.clipboard = st.clipboard ∧
      (OnPaste ops env st).state.project.history = st.project.history := by
  have hne : st.clipboard.tracks.isEmpty = false := by
    obtain ⟨track, hmem, _⟩ := (HasHiddenData_iff _).mp hhidden
    cases hl : st.clipboard.tracks with
    | nil => rw [hl] at hmem; cases hmem
    | cons a l => rfl
  have hfind : FindSourceTracks ops env st = .ok none := by
    unfold FindSourceTracks
    simp [hother, hpolicy, hhidden, hcancel]
  have htraced : OnPasteTraced ops env st = (⟨st, true⟩, PasteExit.cancelled) := by
    unfold OnPasteTraced
    simp only [htext, hne, hfind, Bool.false_eq_true, if_false]
  refine ⟨htraced, ?_, ?_, ?_, ?_, ?_⟩ <;> simp [OnPaste, htraced]

theorem OnPaste_aborts_when_dialog_cancelled_witness :
    OnPasteTraced (recordingOps [] true) askEnv askState
        = (⟨askState, true⟩, PasteExit.cancelled) ∧
      (OnPaste (recordingOps [] true) askEnv askState).state = askState ∧
      (OnPaste (recordingOps [] true) askEnv askState).state.project.tracks
        = askState.project.tracks ∧
      (OnPaste (recordingOps [] true) askEnv askState).state.project.selectedRegion
        = askState.project.selectedRegion ∧
      (OnPaste (recordingOps [] true) askEnv askState).state.clipboard
        = askState.clipboard ∧
      (OnPaste (recordingOps [] true) askEnv askState).state.project.history
        = askState.project.history :=
  OnPaste_aborts_when_dialog_cancelled (recordingOps [] true) askEnv askState
    (by decide) (by decide) (by decide) (by decide) (by decide)

/-! ### Paste: discarding the hidden audio -/

theorem forall₂_mem_right {α β : Type} {R : α → β → Prop} {l₁ : List α} {l₂ : List β}
    (h : List.Forall₂ R l₁ l₂) : ∀ b ∈ l₂, ∃ a ∈ l₁, R a b := by
  induction h with
  | nil => intro b hb; cases hb
  | cons hab _ ih =>
    intro b hb
    rcases List.mem_cons.mp hb with rfl | hb
    · exact ⟨_, List.mem_cons_self _ _, hab⟩
    · obtain ⟨a, ha, hr⟩ := ih b hb
      exact ⟨a, List.mem_cons_of_mem _ ha, hr⟩

theorem discardTrimmedClip_spec (ops : TrackOps D)
    (hstart : ∀ clip, ops.GetPlayStartTime clip = specPlayStartTime clip)
    (hend : ∀ clip, ops.GetPlayEndTime clip = specPlayEndTime clip)
    (hleft : ∀ clip t, ops.ClearLeft clip t = .ok (specClearLeft clip t))
    (hright : ∀ clip t, ops.ClearRight clip t = .ok (specClearRight clip t))
    (clip : WaveClip) :
    ∃ after, discardTrimmedClip ops clip = .ok after ∧
      after.trimLeft = 0 ∧ after.trimRight = 0 ∧
      specPlayStartTime after = specPlayStartTime clip ∧
      specPlayEndTime after = specPlayEndTime clip := by
  unfold discardTrimmedClip
  by_cases hl : clip.trimLeft = 0
  · by_cases hr : clip.trimRight = 0
    · refine ⟨clip, by simp [hl, hr], hl, hr, rfl, rfl⟩
    · refine ⟨specClearRight { clip with trimRight := 0 } (specPlayEndTime clip),
        by simp [hl, hr, hend, hright], ?_, ?_, ?_, ?_⟩
      · simp [specClearRight, hl]
      · simp [specClearRight]
      · simp [specClearRight, specPlayStartTime]
      · simp only [specClearRight, specPlayEndTime]
        ring
  · by_cases hr : clip.trimRight = 0
    · refine ⟨specClearLeft { clip with trimLeft := 0 } (specPlayStartTime clip),
        by simp [hl, hr, hstart, hleft, specClearLeft], ?_, ?_, ?_, ?_⟩
      · simp [specClearLeft]
      · simp [specClearLeft, hr]
      · simp [specClearLeft, specPlayStartTime]
      · simp only [specClearLeft, specPlayEndTime, specPlayStartTime]
        ring
    · refine ⟨specClearRight
          { specClearLeft { clip with trimLeft := 0 } (specPlayStartTime clip) with
            trimRight := 0 }
          (specPlayEndTime
            (specClearLeft { clip with trimLeft := 0 } (specPlayStartTime clip))),
        by simp [hl, hr, hstart, hend, hleft, hright, specClearLeft], ?_, ?_, ?_, ?_⟩
      · simp [specClearRight, specClearLeft]
      · simp [specClearRight]
      · simp [specClearRight, specClearLeft, specPlayStartTime]
      · simp only [specClearRight, specClearLeft, specPlayEndTime, specPlayStartTime]
        ring

theorem discardTrimmedClips_spec (ops : TrackOps D)
    (hstart : ∀ clip, ops.GetPlayStartTime clip = specPlayStartTime clip)
    (hend : ∀ clip, ops.GetPlayEndTime clip = specPlayEndTime clip)
    (hleft : ∀ clip t, ops.ClearLeft clip t = .ok (specClearLeft clip t))
    (hright : ∀ clip t, ops.ClearRight clip t = .ok (specClearRight clip t))
    (clips : List WaveClip) :
    ∃ result, discardTrimmedClips ops clips = .ok result ∧
      List.Forall₂ (fun before after =>
        after.trimLeft = 0 ∧ after.trimRight = 0 ∧
        specPlayStartTime after = specPlayStartTime before ∧
        specPlayEndTime after = specPlayEndTime before) clips result := by
  induction clips with
  | nil => exact ⟨[], rfl, List.Forall₂.nil⟩
  | cons clip clips ih =>
    obtain ⟨after, hafter, hprops⟩ :=
      discardTrimmedClip_spec ops hstart hend hleft hright clip
    obtain ⟨result, hresult, hall⟩ := ih
    refine ⟨after :: result, ?_, List.Forall₂.cons hprops hall⟩
    simp [discardTrimmedClips, hafter, hresult]

/-- How a track of the result of `DuplicateDiscardTrimmed` relates to the
source track at the same position. -/
theorem duplicateDiscardTrimmedLoop_spec (ops : TrackOps D)
    (hstart : ∀ clip, ops.GetPlayStartTime clip = specPlayStartTime clip)
    (hend : ∀ clip, ops.GetPlayEndTime clip = specPlayEndTime clip)
    (hleft : ∀ clip t, ops.ClearLeft clip t = .ok (specClearLeft clip t))
    (hright : ∀ clip t, ops.ClearRight clip t = .ok (specClearRight clip t))
    (src : TrackList D) :
    (∀ track ∈ src, (duplicateOf ops track).isSome = true) →
    ∀ acc : TrackList D, ∃ out,
      duplicateDiscardTrimmedLoop ops src acc = .ok (acc ++ out) ∧
      List.Forall₂ (fun track r =>
        ∃ copy, duplicateOf ops track = some copy ∧ r.kind = copy.kind ∧
          r.content.data = copy.content.data ∧
          (copy.kind ≠ TrackKind.wave → r.content.clips = copy.content.clips) ∧
          (copy.kind = TrackKind.wave →
            List.Forall₂ (fun before after =>
              after.trimLeft = 0 ∧ after.trimRight = 0 ∧
              specPlayStartTime after = specPlayStartTime before ∧
              specPlayEndTime after = specPlayEndTime before)
              copy.content.clips r.content.clips)) src out := by
  induction src with
  | nil =>
    intro _ acc
    exact ⟨[], by simp [duplicateDiscardTrimmedLoop], List.Forall₂.nil⟩
  | cons track rest ih =>
    intro hcopy acc
    have hthis := hcopy track (List.mem_cons_self _ _)
    have hrest : ∀ t ∈ rest, (duplicateOf ops t).isSome = true :=
      fun t ht => hcopy t (List.mem_cons_of_mem _ ht)
    unfold duplicateOf at hthis
    cases hc : ops.Copy track (ops.GetStartTime track) (ops.GetEndTime track) false with
    | error e => simp [hc] at hthis
    | ok holder =>
      cases holder with
      | none => simp [hc] at hthis
      | some trackCopy =>
        have hdup : duplicateOf ops track
            = some (ops.SetOffset (ops.Init trackCopy track) (ops.GetStartTime track)) := by
          simp [duplicateOf, hc]
        generalize hcopyEq :
          ops.SetOffset (ops.Init trackCopy track) (ops.GetStartTime track) = copy at hdup
        by_cases hkind : copy.kind = TrackKind.wave
        · obtain ⟨clips, hclips, hall⟩ :=
            discardTrimmedClips_spec ops hstart hend hleft hright copy.content.clips
          obtain ⟨out, hout, hrel⟩ := ih hrest
            (Add acc { copy with content := { copy.content with clips := clips } })
          refine ⟨{ copy with
              id := freshId acc,
              content := { copy.content with clips := clips } } :: out, ?_, ?_⟩
          · (conv_lhs => unfold duplicateDiscardTrimmedLoop)
            simp only [hc, hcopyEq]
            rw [if_pos hkind]
            simp only [hclips]
            refine hout.trans ?_
            simp [Add]
          · refine List.Forall₂.cons ⟨copy, hdup, rfl, rfl, ?_, ?_⟩ hrel
            · intro h
              exact absurd hkind h
            · intro _
              exact hall
        · obtain ⟨out, hout, hrel⟩ := ih hrest (Add acc copy)
          refine ⟨{ copy with id := freshId acc } :: out, ?_, ?_⟩
          · (conv_lhs => unfold duplicateDiscardTrimmedLoop)
            simp only [hc, hcopyEq]
            rw [if_neg hkind]
            refine hout.trans ?_
            simp [Add]
          · refine List.Forall₂.cons ⟨copy, hdup, rfl, rfl, ?_, ?_⟩ hrel
            · intro _
              rfl
            · intro h
              exact absurd h hkind

/-- C14: with the clip operations of the specification, and `Copy`
returning a track for each source track, `DuplicateDiscardTrimmed` returns a
list with one track for each source track, in the order of the source; in
it every clip of every wave track has trim-left 0 and trim-right 0, so that
`HasHiddenData` is false of it; each track of it is the copy of the source
track at its position (same kind, same payload), and each clip of a wave
track has the play start and the play end that the clip of the copy had
before its hidden audio was discarded.  The source list is an argument
passed by value: nothing is written to it. -/
theorem DuplicateDiscardTrimmed_discards_hidden_audio (ops : TrackOps D)
    (src : TrackList D)
    (hstart : ∀ clip, ops.GetPlayStartTime clip = specPlayStartTime clip)
    (hend : ∀ clip, ops.GetPlayEndTime clip = specPlayEndTime clip)
    (hleft : ∀ clip t, ops.ClearLeft clip t = .ok (specClearLeft clip t))
    (hright : ∀ clip t, ops.ClearRight clip t = .ok (specClearRight clip t))
    (hcopy : ∀ track ∈ src, (duplicateOf ops track).isSome = true) :
    ∃ result, DuplicateDiscardTrimmed ops src = .ok result ∧
      result.length = src.length ∧
      HasHiddenData result = false ∧
      (∀ track ∈ result, track.kind = TrackKind.wave →
        ∀ clip ∈ track.content.clips, clip.trimLeft = 0 ∧ clip.trimRight = 0) ∧
      List.Forall₂ (fun track r =>
        ∃ copy, duplicateOf ops track = some copy ∧ r.kind = copy.kind ∧
          r.content.data = copy.content.data ∧
          (copy.kind ≠ TrackKind.wave → r.content.clips = copy.content.clips) ∧
          (copy.kind = TrackKind.wave →
            List.Forall₂ (fun before after =>
              after.trimLeft = 0 ∧ after.trimRight = 0 ∧
              specPlayStartTime after = specPlayStartTime before ∧
              specPlayEndTime after = specPlayEndTime before)
              copy.content.clips r.content.clips)) src result := by
  obtain ⟨out, hout, hrel⟩ :=
    duplicateDiscardTrimmedLoop_spec ops hstart hend hleft hright src hcopy []
  have hzero : ∀ track ∈ out, track.kind = TrackKind.wave →
      ∀ clip ∈ track.content.clips, clip.trimLeft = 0 ∧ clip.trimRight = 0 := by
    intro r hr hkind clip hclip
    obtain ⟨track, _, copy, _, hk, _, _, hwave⟩ := forall₂_mem_right hrel r hr
    obtain ⟨before, _, hl, hr, _⟩ := forall₂_mem_right (hwave (hk ▸ hkind)) clip hclip
    exact ⟨hl, hr⟩
  refine ⟨out, by simpa [DuplicateDiscardTrimmed] using hout, ?_, ?_, hzero, hrel⟩
  · exact (List.Forall₂.length_eq hrel).symm
  · cases hh : HasHiddenData out with
    | false => rfl
    | true =>
      obtain ⟨track, hmem, hkind, clip, hclip, h⟩ := (HasHiddenData_iff _).mp hh
      have hz := hzero track hmem hkind clip hclip
      rcases h with h | h
      · exact absurd hz.1 h
      · exact absurd hz.2 h

theorem DuplicateDiscardTrimmed_discards_hidden_audio_witness :
    HasHiddenData trimmedClipboard.tracks = true ∧
    ∃ result, DuplicateDiscardTrimmed specClipOps trimmedClipboard.tracks = .ok result ∧
      result.length = trimmedClipboard.tracks.length ∧
      HasHiddenData result = false ∧
      (∀ track ∈ result, track.kind = TrackKind.wave →
        ∀ clip ∈ track.content.clips, clip.trimLeft = 0 ∧ clip.trimRight = 0) ∧
      List.Forall₂ (fun track r =>
        ∃ copy, duplicateOf specClipOps track = some copy ∧ r.kind = copy.kind ∧
          r.content.data = copy.content.data ∧
          (copy.kind ≠ TrackKind.wave → r.content.clips = copy.content.clips) ∧
          (copy.kind = TrackKind.wave →
            List.Forall₂ (fun before after =>
              after.trimLeft = 0 ∧ after.trimRight = 0 ∧
              specPlayStartTime after = specPlayStartTime before ∧
              specPlayEndTime after = specPlayEndTime before)
              copy.content.clips r.content.clips)) trimmedClipboard.tracks result :=
  ⟨by decide,
    DuplicateDiscardTrimmed_discards_hidden_audio specClipOps trimmedClipboard.tracks
      (fun _ => rfl) (fun _ => rfl) (fun _ _ => rfl) (fun _ _ => rfl) (by decide)⟩

/-! ### Cut, then Paste at the cut position -/

theorem split_at_member (T : TrackList D) (x : Track D)
    (hids : (T.map (fun t => t.id)).Nodup) (hx : x ∈ T) :
    ∃ pre post, T = pre ++ x :: post ∧
      T.dropWhile (fun t => t.id != x.id) = x :: post ∧
      T.takeWhile (fun t => t.id != x.id) = pre := by
  induction T with
  | nil => cases hx
  | cons a T ih =>
    rw [List.map_cons, List.nodup_cons] at hids
    by_cases ha : a = x
    · subst ha
      exact ⟨[], T, rfl, by simp [List.dropWhile], by simp [List.takeWhile]⟩
    · have hxT : x ∈ T := by
        rcases List.mem_cons.mp hx with h | h
        · exact absurd h.symm ha
        · exact h
      have hne : a.id ≠ x.id := by
        intro h
        apply hids.1
        rw [h]
        exact List.mem_map_of_mem (fun t => t.id) hxT
      obtain ⟨pre, post, h1, h2, h3⟩ := ih hids.2 hxT
      have hb : (a.id != x.id) = true := by simpa using hne
      refine ⟨a :: pre, post, by rw [h1]; rfl, ?_, ?_⟩
      · simp only [List.dropWhile_cons, hb, if_true, h2]
      · simp only [List.takeWhile_cons, hb, if_true, h3]

theorem current_of_mem (T : TrackList D) (d x : Track D)
    (hids : (T.map (fun t => t.id)).Nodup) (hd : d ∈ T) (hid : x.id = d.id) :
    current T x = d := by
  obtain ⟨pre, post, h1, h2, h3⟩ := split_at_member T d hids hd
  unfold current
  rw [hid]
  have : T.find? (fun t => t.id == d.id) = some d := by
    rw [h1, List.find?_append]
    have hpre : pre.find? (fun t => t.id == d.id) = none := by
      rw [List.find?_eq_none]
      intro t ht
      have := List.mem_takeWhile_imp (h3 ▸ ht)
      simpa using this
    simp [hpre]
  simp [this]

theorem groupsContiguous_suffix (a b : List (Track D))
    (h : groupsContiguous (a ++ b) = true) : groupsContiguous b = true := by
  induction a with
  | nil => exact h
  | cons x a ih =>
    rw [List.cons_append] at h
    unfold groupsContiguous at h
    rw [Bool.and_eq_true] at h
    exact ih h.2

theorem visitTracks_ok (f : Track D → Except String (Content D)) :
    ∀ l : List (Track D), (visitTracks f l).2 = true →
      (visitTracks f l).1 = l.map (applyVisit f) := by
  intro l
  induction l with
  | nil => intro _; rfl
  | cons t ts ih =>
    intro h
    unfold visitTracks at h ⊢
    cases hf : f t with
    | error e => simp [hf] at h
    | ok c =>
      simp only [hf] at h ⊢
      rw [ih h]
      simp [applyVisit, hf, withContent]

theorem cutVisit_tracks (ops : TrackOps D) (t0 t1 : Time) :
    ∀ (l : List (Track D)) (acc : TrackList D),
      (cutVisit ops t0 t1 l acc).2.2 = true →
      (cutVisit ops t0 t1 l acc).1 = l.map (afterCutVisit ops t0 t1) := by
  intro l
  induction l with
  | nil => intro _ _; rfl
  | cons n ns ih =>
    intro acc h
    unfold cutVisit at h ⊢
    cases hsel : n.selected with
    | false =>
      simp only [hsel, Bool.not_false, if_true] at h ⊢
      rw [ih _ h]
      simp [afterCutVisit, hsel]
    | true =>
      by_cases hk : n.kind = TrackKind.note
      · simp only [hsel, Bool.not_true, Bool.false_eq_true, if_false, hk, if_true] at h ⊢
        cases hc : ops.Cut n t0 t1 with
        | error e => simp [hc] at h
        | ok r =>
          obtain ⟨c, dest⟩ := r
          simp only [hc] at h ⊢
          rw [ih _ h]
          simp [afterCutVisit, hsel, hk, hc, withContent]
      · simp only [hsel, Bool.not_true, Bool.false_eq_true, if_false, hk] at h ⊢
        cases hb : n.basicEditing with
        | false =>
          simp only [hb, Bool.false_eq_true, if_false] at h ⊢
          rw [ih _ h]
          simp [afterCutVisit, hsel, hk]
        | true =>
          simp only [hb, if_true] at h ⊢
          cases hc : ops.Copy n t0 t1 true with
          | error e => simp [hc] at h
          | ok dest =>
            simp only [hc] at h ⊢
            rw [ih _ h]
            simp [afterCutVisit, hsel, hk]

/-- The state `OnCut` leaves when it cuts audio and runs to its end. -/
theorem OnCut_spec (ops : TrackOps D) (env : Environment) (st : State D)
    (htext : cutSelectedText ops st.project.tracks = none)
    (hnote : ∀ n ∈ st.project.tracks, n.kind = TrackKind.note → n.basicEditing = true)
    (hdone : (OnCut ops env st).completed = true) :
    (OnCut ops env st).state.project.tracks
      = (st.project.tracks.map (afterCutVisit ops st.project.selectedRegion.t0
          st.project.selectedRegion.t1)).map
          (applyVisit (cutClear ops env st.project.selectedRegion.t0
            st.project.selectedRegion.t1)) ∧
    (OnCut ops env st).state.clipboard
      = ⟨(cutEntries ops st.project.selectedRegion.t0 st.project.selectedRegion.t1
            st.project.tracks).foldl Add [],
          st.project.selectedRegion.t0, st.project.selectedRegion.t1,
          some st.project.key⟩ ∧
    (OnCut ops env st).state.project.selectedRegion
      = ⟨st.project.selectedRegion.t0, st.project.selectedRegion.t0⟩ ∧
    (OnCut ops env st).state.project.key = st.project.key ∧
    (OnCut ops env st).state.project.isSyncLocked = st.project.isSyncLocked := by
  unfold OnCut at hdone ⊢
  simp only [htext] at hdone ⊢
  cases h1 : (cutVisit ops st.project.selectedRegion.t0 st.project.selectedRegion.t1
      st.project.tracks []).2.2 with
  | false => simp [h1] at hdone
  | true =>
    simp only [h1, Bool.not_true, Bool.false_eq_true, if_false] at hdone ⊢
    cases h2 : (visitTracks (cutClear ops env st.project.selectedRegion.t0
        st.project.selectedRegion.t1)
        (cutVisit ops st.project.selectedRegion.t0 st.project.selectedRegion.t1
          st.project.tracks []).1).2 with
    | false => simp [h2] at hdone
    | true =>
      simp only [h2, Bool.not_true, Bool.false_eq_true, if_false]
      have hv := visitTracks_ok _ _ h2
      rw [cutVisit_tracks ops _ _ _ _ h1] at hv
      have hc := cutVisit_clipboard ops st.project.selectedRegion.t0
        st.project.selectedRegion.t1 st.project.tracks [] hnote h1
      refine ⟨?_, ?_, ?_, ?_, ?_⟩
      · simp only [PushState]
        rw [cutVisit_tracks ops _ _ _ _ h1]
        exact hv
      · simp [Clipboard.Assign, hc]
      · simp [PushState, collapseToT0]
      · simp [PushState]
      · simp [PushState]

theorem cutOne_attributes (ops : TrackOps D) (env : Environment) (t0 t1 : Time)
    (n : Track D) : ∃ c, cutOne ops env t0 t1 n = withContent n c := by
  have h1 : ∃ c, afterCutVisit ops t0 t1 n = withContent n c := by
    unfold afterCutVisit
    split
    · split
      · exact ⟨_, rfl⟩
      · exact ⟨n.content, rfl⟩
    · exact ⟨n.content, rfl⟩
  obtain ⟨c1, hc1⟩ := h1
  unfold cutOne applyVisit
  rw [hc1]
  split
  · exact ⟨_, rfl⟩
  · exact ⟨c1, rfl⟩

theorem cutOne_of_cutTrack (ops : TrackOps D) (env : Environment) (t0 t1 : Time)
    (n : Track D) (c : Content D) (d : Option (Track D))
    (hsel : n.selected = true)
    (h : cutTrack ops env t0 t1 n = .ok (c, d)) :
    cutOne ops env t0 t1 n = withContent n c := by
  unfold cutTrack at h
  unfold cutOne afterCutVisit
  by_cases hk : n.kind = TrackKind.note
  · rw [if_pos hk] at h
    simp only [hsel, hk, decide_True, Bool.and_self, if_true, h]
    unfold applyVisit cutClear
    simp [IsSelectedOrSyncLockSelected, withContent, hsel, hk]
  · rw [if_neg hk] at h
    simp only [hsel, hk, decide_False, Bool.and_false, Bool.false_eq_true, if_false]
    unfold applyVisit
    cases hc : ops.Copy n t0 t1 true with
    | error e => simp [hc] at h
    | ok dest =>
      simp only [hc] at h
      cases hcl : cutClear ops env t0 t1 n with
      | error e => simp [hcl] at h
      | ok c2 =>
        simp only [hcl, Except.ok.injEq, Prod.mk.injEq] at h ⊢
        rw [h.1]

theorem freshId_not_mem (l : TrackList D) : freshId l ∉ l.map (fun t => t.id) := by
  have hle : ∀ (ids : List Nat), ∀ i ∈ ids, i ≤ ids.foldr max 0 := by
    intro ids
    induction ids with
    | nil => intro i hi; cases hi
    | cons a ids ih =>
      intro i hi
      rw [List.foldr_cons]
      rcases List.mem_cons.mp hi with rfl | hi
      · exact Nat.le_max_left _ _
      · exact (ih i hi).trans (Nat.le_max_right _ _)
  intro h
  have := hle _ _ h
  unfold freshId at this
  omega

theorem foldl_Add_spec (entries : List (Track D)) :
    ∀ acc : TrackList D, (acc.map (fun t => t.id)).Nodup →
      ∃ out, entries.foldl Add acc = acc ++ out ∧
        List.Forall₂ (fun e s => ∃ i, s = { e with id := i }) entries out ∧
        ((acc ++ out).map (fun t => t.id)).Nodup := by
  induction entries with
  | nil =>
    intro acc h
    exact ⟨[], by simp, List.Forall₂.nil, by simpa using h⟩
  | cons e es ih =>
    intro acc h
    have h2 : ((Add acc e).map (fun t => t.id)).Nodup := by
      unfold Add
      rw [List.map_append, List.map_singleton]
      apply List.Nodup.append h (List.nodup_singleton _)
      intro i hi hi2
      rw [List.mem_singleton] at hi2
      subst hi2
      exact freshId_not_mem acc hi
    obtain ⟨out, ho1, ho2, ho3⟩ := ih (Add acc e) h2
    refine ⟨{ e with id := freshId acc } :: out, ?_, List.Forall₂.cons ⟨_, rfl⟩ ho2, ?_⟩
    · rw [List.foldl_cons, ho1]
      simp [Add]
    · have : acc ++ { e with id := freshId acc } :: out = Add acc e ++ out := by
        simp [Add]
      rw [this]
      exact ho3

theorem cutEntries_spec (ops : TrackOps D) (env : Environment) (t0 t1 : Time) :
    ∀ tracks : List (Track D),
      (∀ n ∈ tracks, n.selected = true → n.basicEditing = true →
        ∃ c d, cutTrack ops env t0 t1 n = .ok (c, some d)) →
      List.Forall₂ (fun n e => ∃ c d, cutTrack ops env t0 t1 n = .ok (c, some d) ∧
          e = ops.FinishCopy n d)
        (tracks.filter (fun n => n.selected && n.basicEditing))
        (cutEntries ops t0 t1 tracks) := by
  intro tracks
  induction tracks with
  | nil => intro _; exact List.Forall₂.nil
  | cons n ns ih =>
    intro h
    have hns := ih (fun m hm => h m (List.mem_cons_of_mem _ hm))
    unfold cutEntries at hns ⊢
    rw [List.filter_cons, List.filterMap_cons]
    cases hp : (n.selected && n.basicEditing) with
    | false =>
      simp only [Bool.false_eq_true, if_false]
      exact hns
    | true =>
      rw [Bool.and_eq_true] at hp
      obtain ⟨c, d, hcd⟩ := h n (List.mem_cons_self _ _) hp.1 hp.2
      have hentry : (if n.kind = TrackKind.note then
            match ops.Cut n t0 t1 with
            | .ok (_, some dest) => some (ops.FinishCopy n dest)
            | _ => none
          else
            match ops.Copy n t0 t1 true with
            | .ok (some dest) => some (ops.FinishCopy n dest)
            | _ => none) = some (ops.FinishCopy n d) := by
        unfold cutTrack at hcd
        by_cases hk : n.kind = TrackKind.note
        · rw [if_pos hk] at hcd ⊢
          rw [hcd]
        · rw [if_neg hk] at hcd ⊢
          cases hc : ops.Copy n t0 t1 true with
          | error e => simp [hc] at hcd
          | ok dest =>
            simp only [hc] at hcd
            cases hcl : cutClear ops env t0 t1 n with
            | error e => simp [hcl] at hcd
            | ok c2 =>
              simp only [hcl, Except.ok.injEq, Prod.mk.injEq] at hcd
              rw [hcd.2]
      simp only [if_true]
      rw [hentry]
      exact List.Forall₂.cons ⟨c, d, hcd, rfl⟩ hns

theorem firstFit_nil_sources (fits : Track D → Track D → Bool)
    (candidates : List (Track D)) : firstFit fits candidates [] = some [] := by
  unfold firstFit
  rfl

theorem firstFit_filter (fits : Track D → Track D → Bool) (p : Track D → Bool) :
    ∀ (cands sources : List (Track D)),
      List.Forall₂ (fun d s => fits s d = true) (cands.filter p) sources →
      (∀ c ∈ cands, p c = false → ∀ s ∈ sources, fits s c = false) →
      firstFit fits cands sources = some (List.zip (cands.filter p) sources) := by
  intro cands
  induction cands with
  | nil =>
    intro sources h _
    cases h
    exact firstFit_nil_sources fits []
  | cons c cs ih =>
    intro sources h hun
    cases hp : p c with
    | true =>
      rw [List.filter_cons, hp, if_pos rfl] at h ⊢
      cases h with
      | cons hfit hrest =>
        rename_i s ss
        rw [firstFit_take fits c s cs ss hfit,
          ih ss hrest (fun c' hc' hpc s' hs' =>
            hun c' (List.mem_cons_of_mem _ hc') hpc s' (List.mem_cons_of_mem _ hs'))]
        rfl
    | false =>
      rw [List.filter_cons, hp] at h ⊢
      simp only [Bool.false_eq_true, if_false] at h ⊢
      cases sources with
      | nil =>
        rw [firstFit_nil_sources]
        simp
      | cons s ss =>
        rw [firstFit_skip fits c s cs ss (hun c (List.mem_cons_self _ _) hp s
          (List.mem_cons_self _ _))]
        exact ih (s :: ss) h (fun c' hc' hpc s' hs' =>
          hun c' (List.mem_cons_of_mem _ hc') hpc s' hs')

theorem forall₂_imp_mem {α β : Type} {R S : α → β → Prop} {l₁ : List α} {l₂ : List β}
    (h : List.Forall₂ R l₁ l₂) (himp : ∀ a ∈ l₁, ∀ b ∈ l₂, R a b → S a b) :
    List.Forall₂ S l₁ l₂ := by
  induction h with
  | nil => exact List.Forall₂.nil
  | @cons a b as bs hab _ ih =>
    exact List.Forall₂.cons (himp a (List.mem_cons_self _ _) b (List.mem_cons_self _ _) hab)
      (ih (fun x hx y hy => himp x (List.mem_cons_of_mem _ hx) y
        (List.mem_cons_of_mem _ hy)))

theorem forall₂_comp {α β γ : Type} {R : α → β → Prop} {S : β → γ → Prop}
    {l₁ : List α} {l₂ : List β} (h : List.Forall₂ R l₁ l₂) :
    ∀ {l₃ : List γ}, List.Forall₂ S l₂ l₃ →
      List.Forall₂ (fun a c => ∃ b, R a b ∧ S b c) l₁ l₃ := by
  induction h with
  | nil =>
    intro l₃ h2
    cases h2
    exact List.Forall₂.nil
  | @cons a b as bs hab _ ih =>
    intro l₃ h2
    cases h2 with
    | cons hbc hrest => exact List.Forall₂.cons ⟨b, hab, hbc⟩ (ih hrest)

theorem groupsContiguous_map (w : Track D → Track D)
    (hw : ∀ t, (w t).syncGroup = t.syncGroup) :
    ∀ l : List (Track D), groupsContiguous (l.map w) = groupsContiguous l := by
  intro l
  induction l with
  | nil => rfl
  | cons x l ih =>
    rw [List.map_cons]
    unfold groupsContiguous
    rw [ih, List.dropWhile_map, List.all_map]
    have h1 : ((fun t : Track D => t.syncGroup == (w x).syncGroup) ∘ w)
        = (fun t : Track D => t.syncGroup == x.syncGroup) := by
      funext t
      simp [Function.comp, hw]
    have h2 : ((fun t : Track D => t.syncGroup != (w x).syncGroup) ∘ w)
        = (fun t : Track D => t.syncGroup != x.syncGroup) := by
      funext t
      simp [Function.comp, hw]
    rw [h1, h2]

/-! ### Trim -/

theorem visitTracks_total (f : Track D → Except String (Content D))
    (hf : ∀ t, ∃ c, f t = .ok c) :
    ∀ l : List (Track D), visitTracks f l = (l.map (applyVisit f), true) := by
  intro l
  induction l with
  | nil => rfl
  | cons t ts ih =>
    obtain ⟨c, hc⟩ := hf t
    unfold visitTracks
    simp only [hc, ih]
    simp [applyVisit, hc, withContent]

theorem visitTracks_ok_all (f : Track D → Except String (Content D)) :
    ∀ l : List (Track D), (visitTracks f l).2 = true →
      ∀ t ∈ l, ∃ c, f t = .ok c := by
  intro l
  induction l with
  | nil => intro _ t ht; cases ht
  | cons a ts ih =>
    intro h t ht
    unfold visitTracks at h
    cases hf : f a with
    | error e => simp [hf] at h
    | ok c =>
      simp only [hf] at h
      rcases List.mem_cons.mp ht with rfl | ht
      · exact ⟨c, hf⟩
      · exact ih h t ht

/-- C21: `OnTrim` requires a range.  When the selected region is a point
(`t0 = t1`) the command returns at once: the state after it is the state
before it, so no track is changed and no history state is pushed.  When it
is not a point the selection and the clipboard are left as they were, and
if the command runs to its end the tracks are the tracks before it, in
order, each selected wave track with the content one `Trim(t0, t1)` call on
it returned and every other track as it was, and one history state is
pushed.  Run on the recording operations, which log each call on its track,
every selected wave track has exactly one new entry, `trim t0 t1`, and no
other track has any. -/
theorem OnTrim_requires_a_range (ops : TrackOps D) (st : State D) :
    (isPoint st.project.selectedRegion = true ↔
      st.project.selectedRegion.t0 = st.project.selectedRegion.t1) ∧
    (isPoint st.project.selectedRegion = true → OnTrim ops st = ⟨st, true⟩) ∧
    (isPoint st.project.selectedRegion = false →
      (OnTrim ops st).state.project.selectedRegion = st.project.selectedRegion ∧
      (OnTrim ops st).state.clipboard = st.clipboard ∧
      ((OnTrim ops st).completed = true →
        List.Forall₂
          (fun n r =>
            if n.selected = true ∧ n.kind = TrackKind.wave then
              ∃ c, ops.Trim n st.project.selectedRegion.t0 st.project.selectedRegion.t1
                = .ok c ∧ r = withContent n c
            else r = n)
          st.project.tracks (OnTrim ops st).state.project.tracks ∧
        (OnTrim ops st).state.project.history
          = st.project.history
            ++ [⟨"Trim selected audio tracks from %.2f seconds to %.2f seconds",
                "Trim Audio"⟩])) ∧
    (∀ (labelsPaste : Bool) (rst : State (List Edit)),
      isPoint rst.project.selectedRegion = false →
      (OnTrim (recordingOps [] labelsPaste) rst).completed = true ∧
      (OnTrim (recordingOps [] labelsPaste) rst).state.project.tracks
        = rst.project.tracks.map (fun n =>
            if n.selected = true ∧ n.kind = TrackKind.wave then
              withContent n
                ⟨n.content.clips,
                  n.content.data ++ [Edit.trim rst.project.selectedRegion.t0
                    rst.project.selectedRegion.t1]⟩
            else n)) := by
  refine ⟨by simp [isPoint], ?_, ?_, ?_⟩
  · intro hp
    unfold OnTrim
    simp [hp]
  · intro hp
    unfold OnTrim visitAndPush
    simp only [hp, Bool.false_eq_true, if_false]
    cases hv : (visitTracks (onSelectedWave ops.Trim st.project.selectedRegion.t0
        st.project.selectedRegion.t1) st.project.tracks).2 with
    | false => simp
    | true =>
      simp only [Bool.not_true, Bool.false_eq_true, if_false, PushState, true_and,
        forall_const, and_true]
      rw [visitTracks_ok _ _ hv, List.forall₂_map_right_iff, List.forall₂_same]
      intro n hn
      obtain ⟨c0, hc0⟩ := visitTracks_ok_all _ _ hv n hn
      unfold applyVisit
      rw [hc0]
      unfold onSelectedWave at hc0
      by_cases hsw : n.selected = true ∧ n.kind = TrackKind.wave
      · rw [if_pos hsw]
        simp only [hsw.1, hsw.2, decide_True, Bool.and_self, if_true] at hc0
        exact ⟨c0, hc0, rfl⟩
      · rw [if_neg hsw]
        have : (n.selected && decide (n.kind = TrackKind.wave)) = false := by
          rw [Bool.and_eq_false_iff]
          by_cases hs : n.selected = true
          · right
            simpa using fun h => hsw ⟨hs, h⟩
          · left
            simpa using hs
        simp only [this, Bool.false_eq_true, if_false, Except.ok.injEq] at hc0
        rw [← hc0]
        rfl
  · intro labelsPaste rst hp
    unfold OnTrim visitAndPush
    simp only [hp, Bool.false_eq_true, if_false]
    rw [visitTracks_total _ (by
      intro t
      unfold onSelectedWave
      split
      · exact ⟨_, rfl⟩
      · exact ⟨_, rfl⟩)]
    simp only [Bool.not_true, Bool.false_eq_true, if_false, PushState, true_and]
    apply List.map_congr_left
    intro n _
    unfold applyVisit onSelectedWave
    by_cases hsw : n.selected = true ∧ n.kind = TrackKind.wave
    · rw [if_pos hsw]
      simp [hsw.1, hsw.2, recordingOps, record, withContent]
    · rw [if_neg hsw]
      have : (n.selected && decide (n.kind = TrackKind.wave)) = false := by
        rw [Bool.and_eq_false_iff]
        by_cases hs : n.selected = true
        · right
          simpa using fun h => hsw ⟨hs, h⟩
        · left
          simpa using hs
      simp [this, withContent]

/-! ### Cut, Copy, Split Cut: a copy that fails -/

/-- C22, the code at a failing input.  In `twoWaveState` the clipboard holds
a wave track copied from `[0, 5)` of project 1, and the copy of the second
selected track throws.  `OnCut`, `OnCopy` and `OnSplitCut` each are left by
the exception with the clipboard emptied (no tracks, `T0 = T1 = 0`, no
owner): `clipboard.Clear()` ran before the copies were made. -/
theorem failed_copy_leaves_clipboard_cleared :
    twoWaveState.clipboard = ⟨[sampleTrack 1 TrackKind.wave false false 0], 0, 5, some 1⟩ ∧
    (OnCut (recordingOps [2] true) sampleEnv twoWaveState).completed = false ∧
    (OnCut (recordingOps [2] true) sampleEnv twoWaveState).state.clipboard
      = ⟨[], 0, 0, none⟩ ∧
    (OnCopy (recordingOps [2] true) twoWaveState).completed = false ∧
    (OnCopy (recordingOps [2] true) twoWaveState).state.clipboard
      = ⟨[], 0, 0, none⟩ ∧
    (OnSplitCut (recordingOps [2] true) twoWaveState).completed = false ∧
    (OnSplitCut (recordingOps [2] true) twoWaveState).state.clipboard
      = ⟨[], 0, 0, none⟩ := by
  decide

/-! ### The correspondence: first fit is complete -/

theorem firstFit_complete (fits : Track D → Track D → Bool) :
    ∀ (cands sources : List (Track D)) (assignment : Correspondence D),
      assignment.map Prod.snd = sources →
      (assignment.map Prod.fst).Sublist cands →
      (∀ p ∈ assignment, fits p.2 p.1 = true) →
      ∃ r, firstFit fits cands sources = some r := by
  intro cands
  induction cands with
  | nil =>
    intro sources assignment hs hsub _
    have ha : assignment = [] := by
      cases assignment with
      | nil => rfl
      | cons p ps => simp at hsub
    subst ha
    subst hs
    exact ⟨[], firstFit_nil_sources fits []⟩
  | cons c cs ih =>
    intro sources assignment hs hsub hfit
    cases assignment with
    | nil =>
      subst hs
      exact ⟨[], firstFit_nil_sources fits _⟩
    | cons p ps =>
      obtain ⟨d, s⟩ := p
      subst hs
      have hps : ∀ q ∈ ps, fits q.2 q.1 = true :=
        fun q hq => hfit q (List.mem_cons_of_mem _ hq)
      have hds : fits s d = true := hfit (d, s) (List.mem_cons_self _ _)
      rw [List.map_cons] at hsub
      simp only [List.map_cons]
      rcases List.sublist_cons_iff.mp hsub with h | ⟨r, hr, hr2⟩
      · -- the assignment does not use `c`
        cases hc : fits s c with
        | true =>
          obtain ⟨r2, hr2⟩ := ih (ps.map Prod.snd) ps rfl
            ((List.sublist_cons_self _ _).trans h) hps
          exact ⟨(c, s) :: r2, by rw [firstFit_take fits c s cs _ hc, hr2]; rfl⟩
        | false =>
          obtain ⟨r2, hr2⟩ := ih (s :: ps.map Prod.snd) ((d, s) :: ps) rfl h hfit
          exact ⟨r2, by rw [firstFit_skip fits c s cs _ hc, hr2]⟩
      · -- the assignment gives `c` to the first source
        rw [List.cons.injEq] at hr
        obtain ⟨hdc, hrr⟩ := hr
        subst hdc
        subst hrr
        obtain ⟨r2, hr2'⟩ := ih (ps.map Prod.snd) ps rfl hr2 hps
        exact ⟨(d, s) :: r2, by rw [firstFit_take fits d s cs _ hds, hr2']; rfl⟩

/-- C24: the first-fit scan of `FindCorrespondence` is complete.  When the
source has leaders, `FindCorrespondence` returns a non-empty correspondence
if and only if some assignment gives every source leader, in order, a
destination candidate it fits, the destinations being taken from the
candidates in their order, none twice (a sublist of the candidates).  The
candidates are the range the function scans: the selected leaders, or from
the only selected leader on. -/
theorem FindCorrespondence_first_fit_is_complete (dstTracks srcTracks : TrackList D)
    (hsrc : Leaders srcTracks ≠ []) :
    FindCorrespondence dstTracks srcTracks ≠ [] ↔
      ∃ assignment : Correspondence D,
        assignment.map Prod.snd = Leaders srcTracks ∧
        (assignment.map Prod.fst).Sublist (destinationRange dstTracks) ∧
        ∀ p ∈ assignment, FitsInto srcTracks dstTracks p.2 p.1 = true := by
  rw [FindCorrespondence_eq_firstFit]
  constructor
  · intro h
    cases hf : firstFit (FitsInto srcTracks dstTracks) (destinationRange dstTracks)
        (Leaders srcTracks) with
    | none => simp [hf] at h
    | some r =>
      exact ⟨r, firstFit_snd _ _ _ _ hf, firstFit_sublist _ _ _ _ hf,
        firstFit_fits _ _ _ _ hf⟩
  · rintro ⟨assignment, hs, hsub, hfit⟩
    obtain ⟨r, hr⟩ := firstFit_complete _ _ _ assignment hs hsub hfit
    rw [hr]
    intro hnil
    simp only [Option.getD_some] at hnil
    subst hnil
    have := firstFit_snd _ _ _ _ hr
    simp only [List.map_nil] at this
    exact hsrc this.symm

theorem FindCorrespondence_first_fit_is_complete_witness :
    FindCorrespondence twoWaveState.project.tracks monoClipboard.tracks ≠ [] ↔
      ∃ assignment : Correspondence (List Edit),
        assignment.map Prod.snd = Leaders monoClipboard.tracks ∧
        (assignment.map Prod.fst).Sublist (destinationRange twoWaveState.project.tracks) ∧
        ∀ p ∈ assignment,
          FitsInto monoClipboard.tracks twoWaveState.project.tracks p.2 p.1 = true :=
  FindCorrespondence_first_fit_is_complete twoWaveState.project.tracks
    monoClipboard.tracks (by decide)

/-! ### Paste: a label track whose `PasteOver` pastes nothing -/

/-- C25, the code at a failing input.  In `labelPasteState` the selected
label track is the paste target and its `PasteOver` returns false.
`OnPaste` has by then called `Clear(2, 4)` and `ShiftLabelsOnInsert(5, 2)` on
the track, which stays changed; the command ends with nothing recorded as
pasted: the history has no new state and the selection is as it was. -/
theorem OnPaste_mutates_label_track_without_history :
    (OnPasteTraced (recordingOps [] false) sampleEnv labelPasteState).2
      = PasteExit.nothingPasted ∧
    (OnPaste (recordingOps [] false) sampleEnv labelPasteState).completed = true ∧
    labelPasteState.project.tracks.map (fun t => t.content.data) = [[]] ∧
    (OnPaste (recordingOps [] false) sampleEnv labelPasteState).state.project.tracks.map
        (fun t => t.content.data)
      = [[Edit.clear 2 4, Edit.shiftLabelsOnInsert 5 2]] ∧
    (OnPaste (recordingOps [] false) sampleEnv labelPasteState).state.project.history
      = labelPasteState.project.history ∧
    (OnPaste (recordingOps [] false) sampleEnv labelPasteState).state.project.selectedRegion
      = labelPasteState.project.selectedRegion := by
  decide

/-! ### Paste: the channels of a wave track -/

theorem channelPairsFrom_get (srcs : List (Track D)) (hsrc : srcs ≠ []) :
    ∀ (ds : List (Track D)) (j i : Nat),
      (channelPairsFrom srcs j ds)[i]?
        = (ds[i]?).bind (fun d =>
            (srcs[min (j + i) (srcs.length - 1)]?).map (fun s => (d, s))) := by
  have hlen : 0 < srcs.length := List.length_pos.mpr hsrc
  intro ds
  induction ds with
  | nil => intro j i; simp [channelPairsFrom]
  | cons d ds ih =>
    intro j i
    have hm : min j (srcs.length - 1) < srcs.length := by omega
    unfold channelPairsFrom
    rw [List.getElem?_eq_getElem hm]
    cases i with
    | zero => simp [List.getElem?_eq_getElem hm]
    | succ i =>
      simp only [List.getElem?_cons_succ]
      rw [ih (j + 1) i]
      have : j + 1 + i = j + (i + 1) := by omega
      rw [this]

theorem pasteChannels_eq_pasteEach (ops : TrackOps D) (t0 t1 : Time)
    (srcs : List (Track D)) (hsrc : srcs ≠ []) :
    ∀ (dsts : List (Track D)) (k : Nat) (s : PasteProgress D),
      pasteChannels ops t0 t1 dsts (srcs.drop (min k (srcs.length - 1))) s
        = pasteEach ops t0 t1 (channelPairsFrom srcs k dsts) s := by
  have hlen : 0 < srcs.length := List.length_pos.mpr hsrc
  intro dsts
  induction dsts with
  | nil => intro k s; simp [pasteChannels, channelPairsFrom, pasteEach]
  | cons d ds ih =>
    intro k s
    have hm : min k (srcs.length - 1) < srcs.length := by omega
    have hdrop : srcs.drop (min k (srcs.length - 1))
        = srcs[min k (srcs.length - 1)] :: srcs.drop (min k (srcs.length - 1) + 1) :=
      List.drop_eq_getElem_cons hm
    have hnext : (if (srcs.drop (min k (srcs.length - 1))).length > 1
          then srcs.drop (min k (srcs.length - 1) + 1)
          else srcs.drop (min k (srcs.length - 1)))
        = srcs.drop (min (k + 1) (srcs.length - 1)) := by
      rw [List.length_drop]
      by_cases hk : k < srcs.length - 1
      · have h1 : min k (srcs.length - 1) = k := by omega
        have h2 : min (k + 1) (srcs.length - 1) = k + 1 := by omega
        rw [h1, h2, if_pos (by omega)]
      · have h1 : min k (srcs.length - 1) = srcs.length - 1 := by omega
        have h2 : min (k + 1) (srcs.length - 1) = srcs.length - 1 := by omega
        rw [h1, h2, if_neg (by omega)]
    unfold channelPairsFrom
    rw [List.getElem?_eq_getElem hm]
    simp only
    unfold pasteEach
    conv_lhs => unfold pasteChannels
    generalize hS : srcs.drop (min k (srcs.length - 1)) = srcChannels at hdrop hnext ⊢
    rw [hdrop] at hnext ⊢
    simp only
    cases hc : ops.ClearAndPaste (current s.tracks d) t0 t1 srcs[min k (srcs.length - 1)]
        t1 (t0 + ops.GetEndTime srcs[min k (srcs.length - 1)]) with
    | error e => rfl
    | ok c =>
      simp only
      rw [hnext]
      exact ih (k + 1) _

theorem channelPairsFrom_fst (srcs : List (Track D)) (hsrc : srcs ≠ []) :
    ∀ (ds : List (Track D)) (j : Nat),
      (channelPairsFrom srcs j ds).map Prod.fst = ds := by
  have hlen : 0 < srcs.length := List.length_pos.mpr hsrc
  intro ds
  induction ds with
  | nil => intro j; rfl
  | cons d ds ih =>
    intro j
    have hm : min j (srcs.length - 1) < srcs.length := by omega
    unfold channelPairsFrom
    rw [List.getElem?_eq_getElem hm]
    simp [ih (j + 1)]

theorem channelPairsFrom_snd (srcs : List (Track D)) :
    ∀ (ds : List (Track D)) (j : Nat), ∀ p ∈ channelPairsFrom srcs j ds, p.2 ∈ srcs := by
  intro ds
  induction ds with
  | nil => intro j p hp; simp [channelPairsFrom] at hp
  | cons d ds ih =>
    intro j p hp
    unfold channelPairsFrom at hp
    cases hg : srcs[min j (srcs.length - 1)]? with
    | none =>
      rw [hg] at hp
      exact ih (j + 1) p hp
    | some s =>
      rw [hg] at hp
      rcases List.mem_cons.mp hp with rfl | hp
      · exact List.getElem?_mem hg
      · exact ih (j + 1) p hp

theorem channelPairsFrom_zip (srcs : List (Track D)) :
    ∀ (ds : List (Track D)) (j : Nat), j + ds.length ≤ srcs.length →
      channelPairsFrom srcs j ds = List.zip ds (srcs.drop j) := by
  intro ds
  induction ds with
  | nil => intro j _; simp [channelPairsFrom]
  | cons d ds ih =>
    intro j hj
    simp only [List.length_cons] at hj
    have hjn : j < srcs.length := by omega
    have hm : min j (srcs.length - 1) = j := by omega
    unfold channelPairsFrom
    rw [hm, List.getElem?_eq_getElem hjn, List.drop_eq_getElem_cons hjn]
    simp only [List.zip_cons_cons]
    rw [ih (j + 1) (by omega)]

/-- C26: pasting a source track of `n_src >= 1` channels into the channels of
a destination wave track is one `pasteWaveTrack` call for each destination
channel, in order, destination channel `k` receiving source channel
`min(k, n_src - 1)`.  The source channel of every call is a channel of the
source (the iterator is not read past the last one); the only channel of a
mono source is pasted into every destination channel; with no more
destination channels than source channels the pasting is channel by
channel.  For a wave track the `TypeSwitch` of `OnPaste` is this loop over
the channels of the leader and the channels of the source. -/
theorem pasteChannels_pastes_each_channel_once (ops : TrackOps D) (t0 t1 : Time)
    (dsts srcs : List (Track D)) (s : PasteProgress D) (hsrc : srcs ≠ []) :
    pasteChannels ops t0 t1 dsts srcs s
      = pasteEach ops t0 t1 (channelPairs dsts srcs) s ∧
    (channelPairs dsts srcs).map Prod.fst = dsts ∧
    (∀ k, (channelPairs dsts srcs)[k]?
      = (dsts[k]?).bind (fun d =>
          (srcs[min k (srcs.length - 1)]?).map (fun src => (d, src)))) ∧
    (∀ p ∈ channelPairs dsts srcs, p.2 ∈ srcs) ∧
    (∀ only, srcs = [only] → ∀ p ∈ channelPairs dsts srcs, p.2 = only) ∧
    (dsts.length ≤ srcs.length → channelPairs dsts srcs = List.zip dsts srcs) ∧
    (∀ (clipboard : Clipboard D) (srcTracks : TrackList D) (leader src : Track D),
      leader.kind = TrackKind.wave →
      pasteInto ops clipboard srcTracks t0 t1 leader src s
        = pasteChannels ops t0 t1 (Channels s.tracks leader)
            (Channels srcTracks src) s) := by
  refine ⟨?_, channelPairsFrom_fst srcs hsrc dsts 0, ?_, channelPairsFrom_snd srcs dsts 0,
    ?_, ?_, ?_⟩
  · have h := pasteChannels_eq_pasteEach ops t0 t1 srcs hsrc dsts 0 s
    simpa [channelPairs] using h
  · intro k
    have h := channelPairsFrom_get srcs hsrc dsts 0 k
    simpa [channelPairs] using h
  · intro only honly p hp
    have := channelPairsFrom_snd srcs dsts 0 p hp
    rw [honly] at this
    simpa using this
  · intro hle
    have h := channelPairsFrom_zip srcs dsts 0 (by omega)
    simpa [channelPairs] using h
  · intro clipboard srcTracks leader src hk
    unfold pasteInto
    rw [hk]

theorem pasteChannels_pastes_each_channel_once_witness :
    pasteChannels (recordingOps [] true) 2 2 stereoTracks stereoSource
        ⟨stereoTracks, [], false, none, false⟩
      = pasteEach (recordingOps [] true) 2 2 (channelPairs stereoTracks stereoSource)
          ⟨stereoTracks, [], false, none, false⟩ ∧
    (channelPairs stereoTracks stereoSource).map Prod.fst = stereoTracks ∧
    (∀ k, (channelPairs stereoTracks stereoSource)[k]?
      = (stereoTracks[k]?).bind (fun d =>
          (stereoSource[min k (stereoSource.length - 1)]?).map (fun src => (d, src)))) ∧
    (∀ p ∈ channelPairs stereoTracks stereoSource, p.2 ∈ stereoSource) ∧
    (∀ only, stereoSource = [only] →
      ∀ p ∈ channelPairs stereoTracks stereoSource, p.2 = only) ∧
    (stereoTracks.length ≤ stereoSource.length →
      channelPairs stereoTracks stereoSource = List.zip stereoTracks stereoSource) ∧
    (∀ (clipboard : Clipboard (List Edit)) (srcTracks : TrackList (List Edit))
      (leader src : Track (List Edit)),
      leader.kind = TrackKind.wave →
      pasteInto (recordingOps [] true) clipboard srcTracks 2 2 leader src
          ⟨stereoTracks, [], false, none, false⟩
        = pasteChannels (recordingOps [] true) 2 2
            (Channels (PasteProgress.tracks ⟨stereoTracks, [], false, none, false⟩) leader)
            (Channels srcTracks src) ⟨stereoTracks, [], false, none, false⟩) :=
  pasteChannels_pastes_each_channel_once (recordingOps [] true) 2 2 stereoTracks
    stereoSource ⟨stereoTracks, [], false, none, false⟩ (by decide)


/-! ### Duplicate: the walk over the live selection -/

theorem Add_drop_visited (visited rest : List (Track D)) (n dest : Track D) :
    (Add (visited ++ n :: rest) dest).drop (visited.length + 1)
      = rest ++ [{ dest with id := freshId (visited ++ n :: rest) }] := by
  unfold Add
  have h : visited ++ n :: rest ++ [{ dest with id := freshId (visited ++ n :: rest) }]
      = (visited ++ [n]) ++ (rest ++ [{ dest with id := freshId (visited ++ n :: rest) }]) := by
    simp
  rw [h]
  exact List.drop_left' (by simp)

/-- Under the recording operations the walk of `duplicateLoop` has no end
once the track that `last` names can no longer stop it: when some track
ahead of the iterator is selected, supports basic editing and is not
`last`, and `last` itself, if still ahead, is skipped, every copy joins the
tracks ahead and is such a track again. -/
theorem duplicateLoop_never_ends (t0 t1 : Time) (lastId : Nat) :
    ∀ (fuel : Nat) (visited rest : List (Track (List Edit))),
      (∃ x ∈ rest, x.selected = true ∧ x.basicEditing = true ∧ x.id ≠ lastId) →
      (∀ x ∈ rest, x.id = lastId → x.selected = false ∨ x.basicEditing = false) →
      lastId ∈ (visited ++ rest).map (fun t => t.id) →
      duplicateLoop (recordingOps [] true) t0 t1 (some lastId) fuel visited rest
        = none := by
  intro fuel
  induction fuel with
  | zero =>
    intro visited rest _ _ _
    unfold duplicateLoop
    rfl
  | succ fuel ih =>
    intro visited rest hex hlast hmem
    cases rest with
    | nil =>
      obtain ⟨x, hx, _⟩ := hex
      simp at hx
    | cons n rest =>
      obtain ⟨x, hx, hxs, hxe, hxid⟩ := hex
      have hmem2 : lastId ∈ ((visited ++ [n]) ++ rest).map (fun t => t.id) := by
        simpa using hmem
      unfold duplicateLoop
      by_cases hs : n.selected = true
      · by_cases he : n.basicEditing = true
        · have hnid : n.id ≠ lastId := by
            intro hid
            rcases hlast n (List.mem_cons_self _ _) hid with h | h
            · rw [hs] at h
              cases h
            · rw [he] at h
              cases h
          have hne : ¬ (some n.id = some lastId) := by
            intro h
            exact hnid (Option.some.inj h)
          simp only [hs, he, Bool.not_true, Bool.false_eq_true, if_false]
          simp only [recordingOps, List.not_mem_nil, if_false, hne]
          rw [Add_drop_visited]
          apply ih
          · refine ⟨_, List.mem_append_right _ (List.mem_singleton_self _), ?_, ?_, ?_⟩
            · exact hs
            · exact he
            · intro hid
              have hf := freshId_not_mem (visited ++ n :: rest)
              apply hf
              have hid2 : freshId (visited ++ n :: rest) = lastId := hid
              rw [hid2]
              exact hmem
          · intro y hy hyid
            rcases List.mem_append.mp hy with hy | hy
            · exact hlast y (List.mem_cons_of_mem _ hy) hyid
            · rw [List.mem_singleton] at hy
              subst hy
              exfalso
              have hf := freshId_not_mem (visited ++ n :: rest)
              apply hf
              have hid2 : freshId (visited ++ n :: rest) = lastId := hyid
              rw [hid2]
              exact hmem
          · rw [← List.append_assoc, List.map_append]
            exact List.mem_append_left _ hmem2
        · have he2 : n.basicEditing = false := by
            cases h : n.basicEditing
            · rfl
            · exact absurd h he
          simp only [hs, he2, Bool.not_true, Bool.not_false, Bool.false_eq_true, if_false,
            if_true]
          apply ih
          · rcases List.mem_cons.mp hx with rfl | hx
            · rw [he2] at hxe
              cases hxe
            · exact ⟨x, hx, hxs, hxe, hxid⟩
          · intro y hy
            exact hlast y (List.mem_cons_of_mem _ hy)
          · exact hmem2
      · have hs2 : n.selected = false := by
          cases h : n.selected
          · rfl
          · exact absurd h hs
        simp only [hs2, Bool.not_false, if_true]
        apply ih
        · rcases List.mem_cons.mp hx with rfl | hx
          · rw [hs2] at hxs
            cases hxs
          · exact ⟨x, hx, hxs, hxe, hxid⟩
        · intro y hy
          exact hlast y (List.mem_cons_of_mem _ hy)
        · exact hmem2

/-- C27, at the failing input: on `timeTrackLastState`, where the last
selected track does not support basic editing, `OnDuplicate` has not
returned after any number of steps of its loop.  The `continue` taken for
that track skips the `n == last` test, so the walk goes on into the copies
it has added, which are selected and editable and never equal `last`. -/
theorem OnDuplicate_never_ends_when_last_selected_is_not_editable :
    ((Selected timeTrackLastState.project.tracks).getLast?).map
        (fun t => (t.id, t.basicEditing)) = some (2, false) ∧
    ∀ fuel : Nat,
      OnDuplicate (recordingOps [] true) fuel timeTrackLastState = none := by
  refine ⟨by decide, ?_⟩
  intro fuel
  have hlast : ((Selected timeTrackLastState.project.tracks).getLast?).map
      (fun t => t.id) = some 2 := by decide
  have h := duplicateLoop_never_ends 2 4 2 fuel [] timeTrackLastState.project.tracks
    ⟨sampleTrack 1 TrackKind.wave true false 0, by decide, by decide, by decide,
      by decide⟩
    (by decide) (by decide)
  unfold OnDuplicate
  simp only [hlast]
  have ht0 : timeTrackLastState.project.selectedRegion.t0 = 2 := rfl
  have ht1 : timeTrackLastState.project.selectedRegion.t1 = 4 := rfl
  rw [ht0, ht1, h]


/-! ### Cut, then Paste at the cut position: multi-channel tracks -/

theorem ids_of_nodup_split (A rest : List (Track D)) (x : Track D)
    (h : ((A ++ x :: rest).map (fun t => t.id)).Nodup) :
    (∀ a ∈ A, a.id ≠ x.id) ∧ (∀ r ∈ rest, r.id ≠ x.id) := by
  rw [List.map_append, List.map_cons, List.nodup_append] at h
  obtain ⟨_, h2, h3⟩ := h
  rw [List.nodup_cons] at h2
  constructor
  · intro a ha heq
    exact h3 (List.mem_map_of_mem (fun t => t.id) ha)
      (by rw [heq]; exact List.mem_cons_self _ _)
  · intro r hr heq
    apply h2.1
    rw [← heq]
    exact List.mem_map_of_mem (fun t => t.id) hr

theorem current_at (A rest : List (Track D)) (x y : Track D)
    (hA : ∀ a ∈ A, a.id ≠ x.id) (hy : y.id = x.id) :
    current (A ++ x :: rest) y = x := by
  unfold current
  rw [hy, List.find?_append]
  have hnone : A.find? (fun t => t.id == x.id) = none := by
    rw [List.find?_eq_none]
    intro a ha
    simpa using hA a ha
  simp [hnone]

theorem setContent_at (A rest : List (Track D)) (x y : Track D) (c : Content D)
    (hA : ∀ a ∈ A, a.id ≠ x.id) (hR : ∀ r ∈ rest, r.id ≠ x.id) (hy : y.id = x.id) :
    setContent (A ++ x :: rest) y c = A ++ withContent x c :: rest := by
  unfold setContent
  rw [hy, List.map_append, List.map_cons]
  have h1 : A.map (fun t => if t.id = x.id then { t with content := c } else t) = A := by
    conv_rhs => rw [← List.map_id A]
    apply List.map_congr_left
    intro a ha
    simp [hA a ha]
  have h2 : rest.map (fun t => if t.id = x.id then { t with content := c } else t)
      = rest := by
    conv_rhs => rw [← List.map_id rest]
    apply List.map_congr_left
    intro a ha
    simp [hR a ha]
  rw [h1, h2]
  simp [withContent]

theorem dropWhile_at (A rest : List (Track D)) (x : Track D)
    (hA : ∀ a ∈ A, a.id ≠ x.id) :
    (A ++ x :: rest).dropWhile (fun t => t.id != x.id) = x :: rest ∧
    (A ++ x :: rest).takeWhile (fun t => t.id != x.id) = A := by
  induction A with
  | nil => simp [List.dropWhile, List.takeWhile]
  | cons a A ih =>
    have ha : (a.id != x.id) = true := by simpa using hA a (List.mem_cons_self _ _)
    obtain ⟨h1, h2⟩ := ih (fun b hb => hA b (List.mem_cons_of_mem _ hb))
    constructor
    · simp only [List.cons_append, List.dropWhile_cons, ha, if_true, h1]
    · simp only [List.cons_append, List.takeWhile_cons, ha, if_true, h2]

theorem FindLeader_at (A rest : List (Track D)) (x y : Track D)
    (hA : ∀ a ∈ A, a.id ≠ x.id) (hy : y.id = x.id) (hx : x.leader = true) :
    FindLeader (A ++ x :: rest) y = some x := by
  obtain ⟨h1, h2⟩ := dropWhile_at A rest x hA
  unfold FindLeader
  rw [hy, h1, h2]
  simp [hx]

theorem Channels_at (A rest : List (Track D)) (x y : Track D)
    (hA : ∀ a ∈ A, a.id ≠ x.id) (hy : y.id = x.id) (hx : x.leader = true) :
    Channels (A ++ x :: rest) y = x :: rest.takeWhile (fun c => !c.leader) := by
  unfold Channels
  rw [FindLeader_at A rest x y hA hy hx]
  simp only [(dropWhile_at A rest x hA).1]

theorem takeWhile_channels (cs rest : List (Track D))
    (hcs : ∀ c ∈ cs, c.leader = false)
    (hrest : ∀ r, rest.head? = some r → r.leader = true) :
    (cs ++ rest).takeWhile (fun c => !c.leader) = cs := by
  induction cs with
  | nil =>
    cases rest with
    | nil => rfl
    | cons r rest =>
      have := hrest r rfl
      simp [List.takeWhile, this]
  | cons c cs ih =>
    have hc := hcs c (List.mem_cons_self _ _)
    simp only [List.cons_append, List.takeWhile_cons, hc, Bool.not_false, if_true]
    rw [ih (fun d hd => hcs d (List.mem_cons_of_mem _ hd))]

theorem ungroup_head_lf (gs : List (Track D × List (Track D)))
    (hgs : ∀ g ∈ gs, g.1.leader = true) :
    ∀ r, (ungroup gs).head? = some r → r.leader = true := by
  intro r hr
  cases gs with
  | nil => simp [ungroup] at hr
  | cons g gs =>
    simp only [ungroup, List.head?_cons, Option.some.injEq] at hr
    rw [← hr]
    exact hgs g (List.mem_cons_self _ _)

theorem ungroup_head (gs : List (Track D × List (Track D)))
    (hgs : ∀ g ∈ gs, GroupOk g) :
    ∀ r, (ungroup gs).head? = some r → r.leader = true :=
  ungroup_head_lf gs (fun g hg => (hgs g hg).1)

theorem ungroup_append (gs1 gs2 : List (Track D × List (Track D))) :
    ungroup (gs1 ++ gs2) = ungroup gs1 ++ ungroup gs2 := by
  induction gs1 with
  | nil => rfl
  | cons g gs ih => simp [ungroup, ih]

theorem Leaders_ungroup_lf (gs : List (Track D × List (Track D)))
    (hgs : ∀ g ∈ gs, g.1.leader = true ∧ ∀ c ∈ g.2, c.leader = false) :
    Leaders (ungroup gs) = gs.map Prod.fst := by
  induction gs with
  | nil => rfl
  | cons g gs ih =>
    have hg := hgs g (List.mem_cons_self _ _)
    have h2 : g.2.filter (fun t => t.leader) = [] := by
      rw [List.filter_eq_nil_iff]
      intro c hc
      simp [hg.2 c hc]
    unfold Leaders at ih ⊢
    simp only [ungroup, List.filter_cons, hg.1, if_true, List.filter_append, h2,
      List.nil_append, List.map_cons]
    rw [ih (fun g' hg' => hgs g' (List.mem_cons_of_mem _ hg'))]

theorem Leaders_ungroup (gs : List (Track D × List (Track D)))
    (hgs : ∀ g ∈ gs, GroupOk g) :
    Leaders (ungroup gs) = gs.map Prod.fst :=
  Leaders_ungroup_lf gs (fun g hg => ⟨(hgs g hg).1, fun c hc => ((hgs g hg).2 c hc).1⟩)

/-- A list in which the channels follow their leaders is a list of leaders
with their channels, after the channels of the track before it. -/
theorem channelsFollow_groups :
    ∀ (cs : List (Track D)) (p : Track D), channelsFollow p cs = true →
      ∃ (pc : List (Track D)) (gs : List (Track D × List (Track D))),
        cs = pc ++ ungroup gs ∧ (∀ g ∈ gs, GroupOk g) ∧
        ∀ c ∈ pc, c.leader = false ∧ c.kind = TrackKind.wave ∧
          p.kind = TrackKind.wave ∧ c.selected = p.selected ∧
          c.basicEditing = p.basicEditing ∧ c.syncGroup = p.syncGroup := by
  intro cs
  induction cs with
  | nil => intro p _; exact ⟨[], [], rfl, by simp, by simp⟩
  | cons c cs ih =>
    intro p h
    unfold channelsFollow at h
    rw [Bool.and_eq_true] at h
    obtain ⟨pc, gs, hcs, hgs, hpc⟩ := ih c h.2
    by_cases hl : c.leader = true
    · refine ⟨[], (c, pc) :: gs, ?_, ?_, by simp⟩
      · simp [ungroup, hcs]
      · intro g hg
        rcases List.mem_cons.mp hg with rfl | hg
        · exact ⟨hl, fun d hd => hpc d hd⟩
        · exact hgs g hg
    · have hl2 : c.leader = false := by
        cases h1 : c.leader
        · rfl
        · exact absurd h1 hl
      have hch : isChannelAfter p c = true := by
        have := h.1
        simpa [hl2] using this
      unfold isChannelAfter at hch
      simp only [Bool.and_eq_true, decide_eq_true_eq] at hch
      obtain ⟨⟨⟨⟨⟨_, hk⟩, hpk⟩, hsel⟩, hed⟩, hsg⟩ := hch
      refine ⟨c :: pc, gs, by simp [hcs], hgs, ?_⟩
      intro d hd
      rcases List.mem_cons.mp hd with rfl | hd
      · exact ⟨hl2, hk, hpk, hsel, hed, hsg⟩
      · obtain ⟨h1, h2, _, h4, h5, h6⟩ := hpc d hd
        exact ⟨h1, h2, hpk, h4.trans hsel, h5.trans hed, h6.trans hsg⟩


theorem pasteChannels_restores (ops : TrackOps D) (t0 t1 : Time)
    (goal : Track D → Content D) :
    ∀ (dsts srcs A rest : List (Track D)) (iPair : Correspondence D) (b : Bool)
      (ff : Option Nat) (threw : Bool),
      ((A ++ dsts ++ rest).map (fun t => t.id)).Nodup →
      List.Forall₂
        (fun d src => ops.ClearAndPaste d t0 t1 src t1 (t0 + ops.GetEndTime src)
          = .ok (goal d)) dsts srcs →
      dsts ≠ [] →
      pasteChannels ops t0 t1 dsts srcs ⟨A ++ dsts ++ rest, iPair, b, ff, threw⟩
        = ⟨A ++ dsts.map (fun d => withContent d (goal d)) ++ rest, iPair, true, ff,
            threw⟩ := by
  intro dsts
  induction dsts with
  | nil => intro _ _ _ _ _ _ _ _ _ h; exact absurd rfl h
  | cons d ds ih =>
    intro srcs A rest iPair b ff threw hnd hlaw _
    cases hlaw with
    | @cons _ src _ srcRest hd hrest =>
      have hsplit : A ++ d :: ds ++ rest = A ++ d :: (ds ++ rest) := by simp
      obtain ⟨hA, hR⟩ := ids_of_nodup_split A (ds ++ rest) d (by rw [← hsplit]; exact hnd)
      unfold pasteChannels
      simp only [hsplit]
      rw [current_at A _ d d hA rfl, hd]
      simp only []
      rw [setContent_at A _ d d (goal d) hA hR rfl]
      cases ds with
      | nil =>
        cases hrest
        simp [pasteChannels]
      | cons d2 ds2 =>
        cases hrest with
        | @cons _ src2 _ srcRest2 hd2 hrest2 =>
          have hlen : (src :: src2 :: srcRest2).length > 1 := by simp
          rw [if_pos hlen]
          have hnd2 : (((A ++ [withContent d (goal d)]) ++ (d2 :: ds2) ++ rest).map
              (fun t => t.id)).Nodup := by
            have : ((A ++ [withContent d (goal d)]) ++ (d2 :: ds2) ++ rest).map
                (fun t => t.id) = (A ++ d :: (d2 :: ds2) ++ rest).map (fun t => t.id) := by
              simp [withContent]
            rw [this]
            exact hnd
          have h := ih (src2 :: srcRest2) (A ++ [withContent d (goal d)]) rest iPair true
            ff threw hnd2 (List.Forall₂.cons hd2 hrest2) (by simp)
          have he : A ++ withContent d (goal d) :: (d2 :: ds2 ++ rest)
              = (A ++ [withContent d (goal d)]) ++ (d2 :: ds2) ++ rest := by simp
          rw [he, h]
          simp

theorem pasteTrack_wave (ops : TrackOps D) (duration t0 t1 : Time) (d src : Track D)
    (c : Content D) (hk : d.kind = TrackKind.wave)
    (h : pasteTrack ops duration t0 t1 d src = .ok (c, true)) :
    ops.ClearAndPaste d t0 t1 src t1 (t0 + ops.GetEndTime src) = .ok c := by
  unfold pasteTrack at h
  rw [hk] at h
  simp only at h
  cases hc : ops.ClearAndPaste d t0 t1 src t1 (t0 + ops.GetEndTime src) with
  | error e => simp [hc] at h
  | ok c2 =>
    simp only [hc, Except.ok.injEq, Prod.mk.injEq, and_true] at h
    rw [h]

/-- Pasting into a target leaves each channel of the track with its goal
content and changes no other track. -/
theorem pasteInto_group (ops : TrackOps D) (clipboard : Clipboard D)
    (srcTracks : TrackList D) (t0 t1 : Time) (goal : Track D → Content D)
    (g : Track D × List (Track D)) (src : Track D) (A rest : List (Track D))
    (iPair : Correspondence D) (b : Bool) (ff : Option Nat) (threw : Bool)
    (hg : GroupOk g)
    (hnd : ((A ++ (g.1 :: g.2) ++ rest).map (fun t => t.id)).Nodup)
    (hrest : ∀ r, rest.head? = some r → r.leader = true)
    (hlaw : LawfulPair ops srcTracks clipboard.Duration t0 t1 goal g src) :
    pasteInto ops clipboard srcTracks t0 t1 g.1 src
        ⟨A ++ (g.1 :: g.2) ++ rest, iPair, b, ff, threw⟩
      = ⟨A ++ (g.1 :: g.2).map (fun d => withContent d (goal d)) ++ rest, iPair, true,
          ff, threw⟩ := by
  obtain ⟨schans, hsrc, hF⟩ := hlaw
  have hsplit : A ++ (g.1 :: g.2) ++ rest = A ++ g.1 :: (g.2 ++ rest) := by simp
  obtain ⟨hA, hR⟩ := ids_of_nodup_split A (g.2 ++ rest) g.1 (by rw [← hsplit]; exact hnd)
  unfold pasteInto
  by_cases hk : g.1.kind = TrackKind.wave
  · rw [hk]
    simp only []
    have hch : Channels (A ++ (g.1 :: g.2) ++ rest) g.1 = g.1 :: g.2 := by
      rw [hsplit, Channels_at A _ g.1 g.1 hA rfl hg.1,
        takeWhile_channels g.2 rest (fun c hc => (hg.2 c hc).1) hrest]
    rw [hch, hsrc]
    apply pasteChannels_restores ops t0 t1 goal (g.1 :: g.2) (src :: schans) A rest
      iPair b ff threw hnd _ (by simp)
    have hkinds : ∀ d ∈ g.1 :: g.2, d.kind = TrackKind.wave := by
      intro d hd
      rcases List.mem_cons.mp hd with rfl | hd
      · exact hk
      · exact (hg.2 d hd).2.1
    exact forall₂_imp_mem hF (fun d hd sc _ h => pasteTrack_wave ops _ t0 t1 d sc _
      (hkinds d hd) h)
  · have h2 : g.2 = [] := by
      cases h2 : g.2 with
      | nil => rfl
      | cons c cs =>
        exact absurd (hg.2 c (by rw [h2]; exact List.mem_cons_self _ _)).2.2.1 hk
    rw [h2] at hF hnd hR ⊢
    simp only [List.nil_append, List.map_cons, List.map_nil, List.append_assoc,
      List.singleton_append] at hnd hR ⊢
    cases hF with
    | cons hlaw1 hnil =>
      have hcur1 : ∀ c, current (A ++ withContent g.1 c :: rest) g.1 = withContent g.1 c :=
        fun c => current_at A rest (withContent g.1 c) g.1 hA rfl
      have hset1 : ∀ c c2, setContent (A ++ withContent g.1 c :: rest) g.1 c2
          = A ++ withContent g.1 c2 :: rest :=
        fun c c2 => setContent_at A rest (withContent g.1 c) g.1 c2 hA hR rfl
      have hcur0 : current (A ++ g.1 :: rest) g.1 = g.1 := current_at A rest g.1 g.1 hA rfl
      have hset0 : ∀ c2, setContent (A ++ g.1 :: rest) g.1 c2
          = A ++ withContent g.1 c2 :: rest :=
        fun c2 => setContent_at A rest g.1 g.1 c2 hA hR rfl
      unfold pasteTrack at hlaw1
      cases hkk : g.1.kind with
      | wave => exact absurd hkk hk
      | label =>
        simp only [hkk] at hlaw1 ⊢
        rw [hcur0]
        cases hc1 : ops.Clear g.1 t0 t1 with
        | error e => simp [hc1] at hlaw1
        | ok c1 =>
          simp only [hc1] at hlaw1 ⊢
          rw [hset0, hcur1]
          cases hc2 : ops.ShiftLabelsOnInsert (withContent g.1 c1) clipboard.Duration t0 with
          | error e => simp [hc2] at hlaw1
          | ok c2 =>
            simp only [hc2] at hlaw1 ⊢
            rw [hset1, hcur1, hlaw1]
            simp only []
            rw [hset1]
            simp
      | note =>
        simp only [hkk] at hlaw1 ⊢
        rw [hcur0]
        cases hc1 : ops.Clear g.1 t0 t1 with
        | error e => simp [hc1] at hlaw1
        | ok c1 =>
          simp only [hc1] at hlaw1 ⊢
          rw [hset0, hcur1]
          cases hc2 : ops.Paste (withContent g.1 c1) t0 src with
          | error e => simp [hc2] at hlaw1
          | ok c2 =>
            simp only [hc2, Except.ok.injEq, Prod.mk.injEq, and_true] at hlaw1 ⊢
            rw [hset1, hlaw1]
      | other =>
        simp only [hkk] at hlaw1 ⊢
        rw [hcur0]
        cases hc1 : ops.Clear g.1 t0 t1 with
        | error e => simp [hc1] at hlaw1
        | ok c1 =>
          simp only [hc1] at hlaw1 ⊢
          rw [hset0, hcur1]
          cases hc2 : ops.Paste (withContent g.1 c1) t0 src with
          | error e => simp [hc2] at hlaw1
          | ok c2 =>
            simp only [hc2, Except.ok.injEq, Prod.mk.injEq, and_true] at hlaw1 ⊢
            rw [hset1, hlaw1]


theorem forall₂_self {α : Type} {R : α → α → Prop} :
    ∀ (l : List α), (∀ t ∈ l, R t t) → List.Forall₂ R l l := by
  intro l
  induction l with
  | nil => intro _; exact List.Forall₂.nil
  | cons a l ih =>
    intro h
    exact List.Forall₂.cons (h a (List.mem_cons_self _ _))
      (ih (fun t ht => h t (List.mem_cons_of_mem _ ht)))

theorem forall₂_append {α β : Type} {R : α → β → Prop} {a1 a2 : List α}
    {b1 b2 : List β} (h1 : List.Forall₂ R a1 b1) (h2 : List.Forall₂ R a2 b2) :
    List.Forall₂ R (a1 ++ a2) (b1 ++ b2) := by
  induction h1 with
  | nil => exact h2
  | cons hab _ ih => exact List.Forall₂.cons hab ih

theorem Restored_self (goal : Track D → Content D) (t : Track D)
    (h : isCutTarget t = false) : Restored goal t t :=
  ⟨⟨t.content, rfl⟩, fun h2 => (by rw [h] at h2; cases h2), fun _ => rfl⟩

theorem isCutTarget_channel (g : Track D × List (Track D)) (hg : GroupOk g) :
    ∀ c ∈ g.2, isCutTarget c = isCutTarget g.1 := by
  intro c hc
  obtain ⟨_, _, _, h4, h5, _⟩ := hg.2 c hc
  unfold isCutTarget
  rw [h4, h5]

theorem mem_ungroup (gs : List (Track D × List (Track D))) (t : Track D) :
    t ∈ ungroup gs ↔ ∃ g ∈ gs, t = g.1 ∨ t ∈ g.2 := by
  induction gs with
  | nil => simp [ungroup]
  | cons g gs ih =>
    simp only [ungroup, List.mem_cons, List.mem_append, ih]
    constructor
    · rintro (h | h | ⟨g2, hg2, h⟩)
      · exact ⟨g, Or.inl rfl, Or.inl h⟩
      · exact ⟨g, Or.inl rfl, Or.inr h⟩
      · exact ⟨g2, Or.inr hg2, h⟩
    · rintro ⟨g2, (rfl | hg2), h⟩
      · rcases h with h | h
        · exact Or.inl h
        · exact Or.inr (Or.inl h)
      · exact Or.inr (Or.inr ⟨g2, hg2, h⟩)

theorem no_targets (gs : List (Track D × List (Track D)))
    (hgs : ∀ g ∈ gs, GroupOk g)
    (h : (gs.map Prod.fst).filter isCutTarget = []) :
    ∀ t ∈ ungroup gs, isCutTarget t = false := by
  intro t ht
  obtain ⟨g, hg, htg⟩ := (mem_ungroup gs t).mp ht
  have h1 : isCutTarget g.1 = false := by
    rw [List.filter_eq_nil_iff] at h
    have := h g.1 (List.mem_map_of_mem Prod.fst hg)
    simpa using this
  rcases htg with rfl | htg
  · exact h1
  · rw [isCutTarget_channel g (hgs g hg) t htg, h1]

theorem unchanged_restored (goal : Track D → Content D)
    (gs : List (Track D × List (Track D))) (hgs : ∀ g ∈ gs, GroupOk g)
    (h : (gs.map Prod.fst).filter isCutTarget = []) :
    List.Forall₂ (Restored goal) (ungroup gs) (ungroup gs) :=
  forall₂_self _ (fun t ht => Restored_self goal t (no_targets gs hgs h t ht))

theorem head_ungroup_append (gs : List (Track D × List (Track D)))
    (Later : List (Track D)) (hgs : ∀ g ∈ gs, GroupOk g)
    (hL : ∀ r, Later.head? = some r → r.leader = true) :
    ∀ r, (ungroup gs ++ Later).head? = some r → r.leader = true := by
  intro r hr
  cases gs with
  | nil => exact hL r (by simpa [ungroup] using hr)
  | cons g gs =>
    simp only [ungroup, List.cons_append, List.head?_cons, Option.some.injEq] at hr
    rw [← hr]
    exact (hgs g (List.mem_cons_self _ _)).1

/-- The inner loop of `OnPaste` over the leaders of one sync-lock group:
every target of the group is pasted into, the other leaders are at most
adjusted, and the pairs of the group are used up. -/
theorem pasteGroup_groups (ops : TrackOps D) (clipboard : Clipboard D)
    (srcTracks : TrackList D) (t0 t1 newT1 : Time) (isSyncLocked : Bool)
    (goal : Track D → Content D)
    (hadj : ∀ n a b, ∃ c, ops.SyncLockAdjust n a b = .ok c) :
    ∀ (gsG : List (Track D × List (Track D))) (A Later : List (Track D))
      (PG Prest : Correspondence D) (b : Bool) (ff : Option Nat),
      (∀ g ∈ gsG, GroupOk g) →
      (∀ g ∈ gsG, g.1.basicEditing = true) →
      (∀ r, Later.head? = some r → r.leader = true) →
      ((A ++ ungroup gsG ++ Later).map (fun t => t.id)).Nodup →
      PG.map Prod.fst = (gsG.map Prod.fst).filter isCutTarget →
      (∀ p ∈ Prest, p.1.id ∉ (ungroup gsG).map (fun t => t.id)) →
      (∀ g ∈ gsG, ∀ p ∈ PG, p.1 = g.1 →
        LawfulPair ops srcTracks clipboard.Duration t0 t1 goal g p.2) →
      ∃ (G' : List (Track D)) (b' : Bool) (ff' : Option Nat),
        pasteGroup ops clipboard srcTracks t0 t1 newT1 isSyncLocked (gsG.map Prod.fst)
            ⟨A ++ ungroup gsG ++ Later, PG ++ Prest, b, ff, false⟩
          = ⟨A ++ G' ++ Later, Prest, b', ff', false⟩ ∧
        List.Forall₂ (Restored goal) G' (ungroup gsG) ∧
        (PG ≠ [] → b' = true) ∧ (b = true → b' = true) := by
  intro gsG
  induction gsG with
  | nil =>
    intro A Later PG Prest b ff _ _ _ _ hPG _ _
    have hnil : PG = [] := by
      cases PG with
      | nil => rfl
      | cons p PG => simp at hPG
    subst hnil
    exact ⟨[], b, ff, by simp [pasteGroup, ungroup], List.Forall₂.nil,
      fun h => absurd rfl h, fun h => h⟩
  | cons g gs ih =>
    intro A Later PG Prest b ff hgs hed hLater hnd hPG hPrest hlaw
    have hg := hgs g (List.mem_cons_self _ _)
    have hgs2 : ∀ g' ∈ gs, GroupOk g' := fun g' h => hgs g' (List.mem_cons_of_mem _ h)
    have hed2 : ∀ g' ∈ gs, g'.1.basicEditing = true :=
      fun g' h => hed g' (List.mem_cons_of_mem _ h)
    have hshape : A ++ ungroup (g :: gs) ++ Later
        = A ++ g.1 :: (g.2 ++ (ungroup gs ++ Later)) := by
      simp [ungroup]
    obtain ⟨hA, hR⟩ := ids_of_nodup_split A _ g.1 (by rw [← hshape]; exact hnd)
    rw [List.map_cons]
    unfold pasteGroup
    cases hP : PG ++ Prest with
    | nil =>
      have hPG0 : PG = [] := (List.append_eq_nil.mp hP).1
      have hPr0 : Prest = [] := (List.append_eq_nil.mp hP).2
      subst hPG0
      subst hPr0
      refine ⟨ungroup (g :: gs), b, ff, rfl, ?_, fun h => absurd rfl h, fun h => h⟩
      exact unchanged_restored goal (g :: gs) hgs (by simpa using hPG.symm)
    | cons pr rest =>
      obtain ⟨first, src⟩ := pr
      simp only []
      by_cases htar : isCutTarget g.1 = true
      · -- the leader is the next target
        rw [List.map_cons, List.filter_cons, if_pos htar] at hPG
        cases PG with
        | nil => simp at hPG
        | cons p PG' =>
          rw [List.map_cons, List.cons.injEq] at hPG
          rw [List.cons_append, List.cons.injEq] at hP
          obtain ⟨hp1, hP2⟩ := hP
          have hfirst : first = g.1 := by
            have := congrArg Prod.fst hp1
            simp only at this
            rw [← this]
            exact hPG.1
          have hsrc : src = p.2 := by
            have := congrArg Prod.snd hp1
            simp only at this
            rw [← this]
          subst hfirst
          have hcond : (g.1.id != g.1.id) = false := by simp
          rw [hcond]
          simp only [Bool.false_eq_true, if_false]
          have hlawp := hlaw g (List.mem_cons_self _ _) p (List.mem_cons_self _ _) hPG.1
          rw [← hsrc] at hlawp
          have hshape2 : A ++ ungroup (g :: gs) ++ Later
              = A ++ (g.1 :: g.2) ++ (ungroup gs ++ Later) := by
            simp [ungroup]
          rw [hshape2] at hnd ⊢
          rw [pasteInto_group ops clipboard srcTracks t0 t1 goal g src A
            (ungroup gs ++ Later) rest b _ false hg hnd
            (head_ungroup_append gs Later hgs2 hLater) hlawp]
          simp only [Bool.false_eq_true, if_false]
          have hnd2 : (((A ++ (g.1 :: g.2).map (fun d => withContent d (goal d)))
              ++ ungroup gs ++ Later).map (fun t => t.id)).Nodup := by
            have : ((A ++ (g.1 :: g.2).map (fun d => withContent d (goal d)))
                ++ ungroup gs ++ Later).map (fun t => t.id)
                = (A ++ (g.1 :: g.2) ++ (ungroup gs ++ Later)).map (fun t => t.id) := by
              simp [withContent, Function.comp_def]
            rw [this]
            exact hnd
          obtain ⟨G2, b2, ff2, hrun, hres, _, hb2⟩ := ih
            (A ++ (g.1 :: g.2).map (fun d => withContent d (goal d))) Later PG' Prest true
            (ff.orElse (fun _ => some g.1.id)) hgs2 hed2 hLater hnd2 hPG.2
            (fun q hq hmem => hPrest q hq (by
              simp only [ungroup, List.map_cons, List.map_append, List.mem_cons,
                List.mem_append]
              exact Or.inr (Or.inr hmem)))
            (fun g' hg' q hq => hlaw g' (List.mem_cons_of_mem _ hg') q
              (List.mem_cons_of_mem _ hq))
          have hsh3 : A ++ (g.1 :: g.2).map (fun d => withContent d (goal d))
              ++ (ungroup gs ++ Later)
              = (A ++ (g.1 :: g.2).map (fun d => withContent d (goal d)))
                ++ ungroup gs ++ Later := by simp
          rw [hsh3, ← hP2, hrun]
          refine ⟨(g.1 :: g.2).map (fun d => withContent d (goal d)) ++ G2, b2, ff2,
            by simp, ?_, fun _ => hb2 rfl, fun _ => hb2 rfl⟩
          have hone : List.Forall₂ (Restored goal)
              ((g.1 :: g.2).map (fun d => withContent d (goal d))) (g.1 :: g.2) := by
            rw [List.forall₂_map_left_iff]
            apply forall₂_self
            intro d hd
            have hded : d.basicEditing = true := by
              rcases List.mem_cons.mp hd with rfl | hd
              · exact hed g (List.mem_cons_self _ _)
              · rw [(hg.2 d hd).2.2.2.2.1]
                exact hed g (List.mem_cons_self _ _)
            exact ⟨⟨_, rfl⟩, fun _ => rfl, fun h => (by rw [hded] at h; cases h)⟩
          have := forall₂_append hone hres
          simpa [ungroup] using this
      · -- the leader is not a target
        have htar2 : isCutTarget g.1 = false := by
          cases h : isCutTarget g.1
          · rfl
          · exact absurd h htar
        rw [List.map_cons, List.filter_cons, if_neg htar] at hPG
        have hne : (g.1.id != first.id) = true := by
          have hmemG : g.1.id ∈ (ungroup (g :: gs)).map (fun t => t.id) := by
            simp [ungroup]
          cases PG with
          | nil =>
            rw [List.nil_append] at hP
            have hq := hPrest (first, src) (by rw [hP]; exact List.mem_cons_self _ _)
            simp only [bne_iff_ne, ne_eq]
            intro heq
            apply hq
            show first.id ∈ _
            rw [← heq]
            exact hmemG
          | cons p PG' =>
            rw [List.cons_append, List.cons.injEq] at hP
            have hp1 : p.1 = first := by rw [hP.1]
            have hmem : first ∈ gs.map Prod.fst := by
              have : p.1 ∈ (p :: PG').map Prod.fst := by simp
              rw [hPG] at this
              rw [← hp1]
              exact (List.mem_filter.mp this).1
            obtain ⟨g2, hg2, hg2f⟩ := List.mem_map.mp hmem
            have hin : first ∈ g.2 ++ (ungroup gs ++ Later) := by
              apply List.mem_append_right
              apply List.mem_append_left
              rw [mem_ungroup]
              exact ⟨g2, hg2, Or.inl hg2f.symm⟩
            simp only [bne_iff_ne, ne_eq]
            intro heq
            exact hR first hin heq.symm
        rw [hne]
        simp only [if_true]
        have hchan : List.Forall₂ (Restored goal) g.2 g.2 :=
          forall₂_self _ (fun c hc => Restored_self goal c
            (by rw [isCutTarget_channel g hg c hc, htar2]))
        have hged : g.1.basicEditing = true := hed g (List.mem_cons_self _ _)
        have hPrest2 : ∀ q ∈ Prest, q.1.id ∉ (ungroup gs).map (fun t => t.id) :=
          fun q hq hmem => hPrest q hq (by
            simp only [ungroup, List.map_cons, List.map_append, List.mem_cons,
              List.mem_append]
            exact Or.inr (Or.inr hmem))
        have hlaw2 : ∀ g' ∈ gs, ∀ q ∈ PG, q.1 = g'.1 →
            LawfulPair ops srcTracks clipboard.Duration t0 t1 goal g' q.2 :=
          fun g' hg' q hq => hlaw g' (List.mem_cons_of_mem _ hg') q hq
        -- the step on a leader whose content becomes `c`
        have hstep : ∀ (c : Content D) (b0 : Bool),
            ∃ (G' : List (Track D)) (b' : Bool) (ff' : Option Nat),
              pasteGroup ops clipboard srcTracks t0 t1 newT1 isSyncLocked
                  (gs.map Prod.fst)
                  ⟨A ++ withContent g.1 c :: (g.2 ++ (ungroup gs ++ Later)),
                    (first, src) :: rest, b0, ff, false⟩
                = ⟨A ++ G' ++ Later, Prest, b', ff', false⟩ ∧
              List.Forall₂ (Restored goal) G' (ungroup (g :: gs)) ∧
              (PG ≠ [] → b' = true) ∧ (b0 = true → b' = true) := by
          intro c b0
          have hnd2 : (((A ++ withContent g.1 c :: g.2) ++ ungroup gs ++ Later).map
              (fun t => t.id)).Nodup := by
            have : ((A ++ withContent g.1 c :: g.2) ++ ungroup gs ++ Later).map
                (fun t => t.id)
                = (A ++ g.1 :: (g.2 ++ (ungroup gs ++ Later))).map (fun t => t.id) := by
              simp [withContent]
            rw [this, ← hshape]
            exact hnd
          obtain ⟨G2, b2, ff2, hrun, hres, hb1, hb2⟩ := ih
            (A ++ withContent g.1 c :: g.2) Later PG Prest b0 ff hgs2 hed2 hLater hnd2
            hPG hPrest2 hlaw2
          have hsh : A ++ withContent g.1 c :: (g.2 ++ (ungroup gs ++ Later))
              = (A ++ withContent g.1 c :: g.2) ++ ungroup gs ++ Later := by simp
          rw [hsh, ← hP, hrun]
          refine ⟨withContent g.1 c :: g.2 ++ G2, b2, ff2, by simp, ?_, hb1, hb2⟩
          have h1 : Restored goal (withContent g.1 c) g.1 :=
            ⟨⟨c, rfl⟩, fun h => (by rw [htar2] at h; cases h),
              fun h => (by rw [hged] at h; cases h)⟩
          have := forall₂_append (List.Forall₂.cons h1 hchan) hres
          simpa [ungroup] using this
        have hsame : A ++ g.1 :: (g.2 ++ (ungroup gs ++ Later))
            = A ++ withContent g.1 g.1.content :: (g.2 ++ (ungroup gs ++ Later)) := rfl
        rw [hshape]
        by_cases hsync : isSyncLocked = true
        · rw [if_pos hsync]
          by_cases hc : (t1 != newT1 &&
              decide (t1 ≤ ops.GetEndTime (current
                (A ++ g.1 :: (g.2 ++ (ungroup gs ++ Later))) g.1))) = true
          · rw [if_pos hc, current_at A _ g.1 g.1 hA rfl]
            obtain ⟨c, hcok⟩ := hadj g.1 t1 newT1
            rw [hcok]
            simp only []
            rw [setContent_at A _ g.1 g.1 c hA hR rfl]
            obtain ⟨G', b', ff', h1, h2, h3, h4⟩ := hstep c true
            exact ⟨G', b', ff', h1, h2, h3, fun _ => h4 rfl⟩
          · rw [if_neg hc, hsame]
            exact hstep g.1.content b
        · rw [if_neg hsync, hsame]
          exact hstep g.1.content b


theorem restored_map {β : Type} (goal : Track D → Content D) (f : Track D → β)
    (hf : ∀ b c, f (withContent b c) = f b) {l1 l2 : List (Track D)}
    (h : List.Forall₂ (Restored goal) l1 l2) : l1.map f = l2.map f := by
  induction h with
  | nil => rfl
  | @cons a b _ _ hab _ ih =>
    obtain ⟨⟨c, hc⟩, _⟩ := hab
    rw [List.map_cons, List.map_cons, ih, hc, hf]

theorem syncGroup_of_mem_ungroup (gs : List (Track D × List (Track D)))
    (hgs : ∀ g ∈ gs, GroupOk g) (t : Track D) (ht : t ∈ ungroup gs) :
    ∃ g ∈ gs, t.syncGroup = g.1.syncGroup := by
  obtain ⟨g, hg, htg⟩ := (mem_ungroup gs t).mp ht
  rcases htg with rfl | htg
  · exact ⟨g, hg, rfl⟩
  · exact ⟨g, hg, ((hgs g hg).2 t htg).2.2.2.2.2⟩

theorem FindLeader_last (Pre cs Post : List (Track D)) (L last : Track D)
    (hnd : ((Pre ++ L :: (cs ++ Post)).map (fun t => t.id)).Nodup)
    (hL : L.leader = true) (hcs : ∀ c ∈ cs, c.leader = false)
    (hlast : (L :: cs).getLast? = some last) :
    FindLeader (Pre ++ L :: (cs ++ Post)) last = some L := by
  rcases List.eq_nil_or_concat cs with h | ⟨cs2, x, h⟩
  · subst h
    simp only [List.getLast?_singleton, Option.some.injEq] at hlast
    subst hlast
    exact FindLeader_at Pre _ L L (ids_of_nodup_split Pre _ L hnd).1 rfl hL
  · rw [List.concat_eq_append] at h
    subst h
    have hx : last = x := by
      have : (L :: (cs2 ++ [x])).getLast? = some x := by
        rw [← List.cons_append, List.getLast?_concat]
      rw [this] at hlast
      exact (Option.some.inj hlast).symm
    subst hx
    have hshape : Pre ++ L :: (cs2 ++ [last] ++ Post)
        = (Pre ++ L :: cs2) ++ last :: Post := by simp
    rw [hshape] at hnd ⊢
    obtain ⟨hA, _⟩ := ids_of_nodup_split (Pre ++ L :: cs2) Post last hnd
    obtain ⟨h1, h2⟩ := dropWhile_at (Pre ++ L :: cs2) Post last hA
    unfold FindLeader
    rw [h1, h2]
    have hlx : last.leader = false := hcs last (by simp)
    have hcs2 : cs2.reverse.find? (fun c => c.leader) = none := by
      rw [List.find?_eq_none]
      intro c hc
      have := hcs c (by simp [List.mem_reverse.mp hc])
      simp [this]
    simp [List.reverse_append, List.find?_append, hlx, hcs2, hL]

theorem eq_of_id_eq (T : List (Track D)) (hnd : (T.map (fun t => t.id)).Nodup)
    (a b : Track D) (ha : a ∈ T) (hb : b ∈ T) (h : a.id = b.id) : a = b := by
  exact List.inj_on_of_nodup_map hnd ha hb h

/-- The sync-lock group of the first leader of the range still to visit,
and the range after the group, in a list of leaders with their channels. -/
theorem group_and_next_groups (A : List (Track D))
    (g0 : Track D × List (Track D)) (gs : List (Track D × List (Track D)))
    (hgs : ∀ g ∈ g0 :: gs, GroupOk g)
    (hnd : ((A ++ ungroup (g0 :: gs)).map (fun t => t.id)).Nodup)
    (hcont : groupsContiguous ((g0 :: gs).map Prod.fst) = true)
    (hbound : ∀ a ∈ A, a.syncGroup ≠ g0.1.syncGroup) :
    ∃ run after, gs = run ++ after ∧
      (∀ g ∈ run, g.1.syncGroup = g0.1.syncGroup) ∧
      (∀ g ∈ after, g.1.syncGroup ≠ g0.1.syncGroup) ∧
      groupsContiguous (after.map Prod.fst) = true ∧
      SyncLockGroup (A ++ ungroup (g0 :: gs)) g0.1 = ungroup (g0 :: run) ∧
      ∃ last l, (ungroup (g0 :: run)).getLast? = some last ∧
        FindLeader (A ++ ungroup (g0 :: gs)) last = some l ∧
        (StartingWith (Leaders (A ++ ungroup (g0 :: gs))) l).tail = after.map Prod.fst := by
  have hsplit := List.takeWhile_append_dropWhile
    (fun g : Track D × List (Track D) => g.1.syncGroup == g0.1.syncGroup) gs
  have hrunk : ∀ g ∈ gs.takeWhile (fun g => g.1.syncGroup == g0.1.syncGroup),
      g.1.syncGroup = g0.1.syncGroup := by
    intro g hg
    have := @List.mem_takeWhile_imp _
      (fun g : Track D × List (Track D) => g.1.syncGroup == g0.1.syncGroup) gs g hg
    simpa using this
  have hafterk : ∀ g ∈ gs.dropWhile (fun g => g.1.syncGroup == g0.1.syncGroup),
      g.1.syncGroup ≠ g0.1.syncGroup := by
    have hc := hcont
    rw [List.map_cons] at hc
    unfold groupsContiguous at hc
    rw [Bool.and_eq_true, List.dropWhile_map, List.all_eq_true] at hc
    intro g hg
    have := hc.1 g.1 (List.mem_map_of_mem Prod.fst hg)
    simpa using this
  have hcontA : groupsContiguous
      ((gs.dropWhile (fun g => g.1.syncGroup == g0.1.syncGroup)).map Prod.fst) = true := by
    have hc := hcont
    rw [List.map_cons] at hc
    unfold groupsContiguous at hc
    rw [Bool.and_eq_true] at hc
    have h2 := hc.2
    rw [← hsplit, List.map_append] at h2
    exact groupsContiguous_suffix _ _ h2
  generalize gs.takeWhile (fun g => g.1.syncGroup == g0.1.syncGroup) = run
    at hsplit hrunk
  generalize gs.dropWhile (fun g => g.1.syncGroup == g0.1.syncGroup) = after
    at hsplit hafterk hcontA
  subst hsplit
  have hgsrun : ∀ g ∈ g0 :: run, GroupOk g :=
    fun g hg => hgs g (by
      rcases List.mem_cons.mp hg with rfl | hg
      · exact List.mem_cons_self _ _
      · exact List.mem_cons_of_mem _ (List.mem_append_left _ hg))
  have hgsafter : ∀ g ∈ after, GroupOk g :=
    fun g hg => hgs g (List.mem_cons_of_mem _ (List.mem_append_right _ hg))
  have hshape : ungroup (g0 :: (run ++ after)) = ungroup (g0 :: run) ++ ungroup after := by
    rw [← List.cons_append, ungroup_append]
  refine ⟨run, after, rfl, hrunk, hafterk, hcontA, ?_, ?_⟩
  · unfold SyncLockGroup
    rw [hshape, List.filter_append, List.filter_append]
    have h1 : A.filter (fun t => t.syncGroup == g0.1.syncGroup) = [] := by
      rw [List.filter_eq_nil_iff]
      intro a ha
      simpa using hbound a ha
    have h2 : (ungroup (g0 :: run)).filter (fun t => t.syncGroup == g0.1.syncGroup)
        = ungroup (g0 :: run) := by
      rw [List.filter_eq_self]
      intro t ht
      obtain ⟨g, hg, htg⟩ := syncGroup_of_mem_ungroup _ hgsrun t ht
      rw [htg]
      rcases List.mem_cons.mp hg with rfl | hg
      · simp
      · simpa using hrunk g hg
    have h3 : (ungroup after).filter (fun t => t.syncGroup == g0.1.syncGroup) = [] := by
      rw [List.filter_eq_nil_iff]
      intro t ht
      obtain ⟨g, hg, htg⟩ := syncGroup_of_mem_ungroup _ hgsafter t ht
      rw [htg]
      simpa using hafterk g hg
    rw [h1, h2, h3]
    simp
  · rcases List.eq_nil_or_concat (g0 :: run) with h | ⟨init, gl, h⟩
    · cases h
    · rw [List.concat_eq_append] at h
      have hgl : GroupOk gl := hgsrun gl (by rw [h]; simp)
      have hinit : ∀ g ∈ init, GroupOk g := fun g hg => hgsrun g (by rw [h]; simp [hg])
      have hun : ungroup (g0 :: run) = ungroup init ++ (gl.1 :: gl.2) := by
        rw [h, ungroup_append]
        simp [ungroup]
      have hT : A ++ ungroup (g0 :: (run ++ after))
          = (A ++ ungroup init) ++ gl.1 :: (gl.2 ++ ungroup after) := by
        rw [hshape, hun]
        simp
      have hlastex : ∃ last, (gl.1 :: gl.2).getLast? = some last := by
        cases hl : (gl.1 :: gl.2).getLast? with
        | none => simp at hl
        | some x => exact ⟨x, rfl⟩
      obtain ⟨last, hlast⟩ := hlastex
      refine ⟨last, gl.1, ?_, ?_, ?_⟩
      · rw [hun, List.getLast?_append, hlast]
        rfl
      · rw [hT] at hnd ⊢
        exact FindLeader_last (A ++ ungroup init) gl.2 (ungroup after) gl.1 last hnd hgl.1
          (fun c hc => (hgl.2 c hc).1) hlast
      · have hLead : Leaders (A ++ ungroup (g0 :: (run ++ after)))
            = (Leaders A ++ init.map Prod.fst) ++ gl.1 :: after.map Prod.fst := by
          rw [hshape]
          unfold Leaders
          rw [List.filter_append, List.filter_append]
          have e1 := Leaders_ungroup (g0 :: run) hgsrun
          have e2 := Leaders_ungroup after hgsafter
          unfold Leaders at e1 e2
          rw [e1, e2, h]
          simp
        rw [hLead]
        unfold StartingWith
        have hpre : ∀ a ∈ Leaders A ++ init.map Prod.fst, a.id ≠ gl.1.id := by
          rw [hT] at hnd
          obtain ⟨hA, _⟩ := ids_of_nodup_split (A ++ ungroup init) _ gl.1 hnd
          intro a ha
          apply hA
          rcases List.mem_append.mp ha with ha | ha
          · exact List.mem_append_left _ (List.mem_filter.mp ha).1
          · obtain ⟨g, hg, rfl⟩ := List.mem_map.mp ha
            exact List.mem_append_right _ ((mem_ungroup init g.1).mpr ⟨g, hg, Or.inl rfl⟩)
        rw [(dropWhile_at _ _ gl.1 hpre).1]
        rfl


theorem mem_ungroup_of_leader (gs : List (Track D × List (Track D))) (t : Track D)
    (h : t ∈ gs.map Prod.fst) : t ∈ ungroup gs := by
  obtain ⟨g, hg, rfl⟩ := List.mem_map.mp h
  exact (mem_ungroup gs g.1).mpr ⟨g, hg, Or.inl rfl⟩

/-- The outer loop of `OnPaste` over the sync-lock groups: when the pairs
still to paste are the targets among the leaders still to visit, every
target is pasted into, no track that does not support basic editing is
touched, and the loop ends without an exception. -/
theorem pasteGroups_groups (ops : TrackOps D) (clipboard : Clipboard D)
    (srcTracks : TrackList D) (t0 t1 newT1 : Time) (isSyncLocked : Bool)
    (goal : Track D → Content D)
    (hadj : ∀ n a b, ∃ c, ops.SyncLockAdjust n a b = .ok c) :
    ∀ (fuel : Nat) (gsR : List (Track D × List (Track D))) (A : List (Track D))
      (P : Correspondence D) (b : Bool) (ff : Option Nat),
      gsR.length ≤ fuel →
      (∀ g ∈ gsR, GroupOk g) →
      ((A ++ ungroup gsR).map (fun t => t.id)).Nodup →
      groupsContiguous (gsR.map Prod.fst) = true →
      (∀ a ∈ A, ∀ g ∈ gsR, a.syncGroup ≠ g.1.syncGroup) →
      (∀ g ∈ gsR, g.1.basicEditing = false →
        ∀ g2 ∈ gsR, g2.1.syncGroup = g.1.syncGroup → g2.1.id = g.1.id) →
      P.map Prod.fst = (gsR.map Prod.fst).filter isCutTarget →
      (∀ g ∈ gsR, ∀ p ∈ P, p.1 = g.1 →
        LawfulPair ops srcTracks clipboard.Duration t0 t1 goal g p.2) →
      ∃ (R' : List (Track D)) (b' : Bool) (ff' : Option Nat),
        pasteGroups ops clipboard srcTracks t0 t1 newT1 isSyncLocked fuel
            (gsR.map Prod.fst) ⟨A ++ ungroup gsR, P, b, ff, false⟩
          = ⟨A ++ R', [], b', ff', false⟩ ∧
        List.Forall₂ (Restored goal) R' (ungroup gsR) ∧
        (P ≠ [] → b' = true) ∧ (b = true → b' = true) := by
  have hempty : ∀ (P : Correspondence D), P.map Prod.fst = [] → P = [] := by
    intro P h
    cases P with
    | nil => rfl
    | cons p P => simp at h
  intro fuel
  induction fuel with
  | zero =>
    intro gsR A P b ff hlen _ _ _ _ _ hP _
    have hr : gsR = [] := List.length_eq_zero.mp (Nat.le_zero.mp hlen)
    subst hr
    have hP0 := hempty P (by simpa using hP)
    subst hP0
    exact ⟨[], b, ff, by simp [pasteGroups, ungroup], List.Forall₂.nil,
      fun h => absurd rfl h, fun h => h⟩
  | succ fuel ih =>
    intro gsR A P b ff hlen hgs hnd hcont hbound hiso hP hlaw
    cases gsR with
    | nil =>
      have hP0 := hempty P (by simpa using hP)
      subst hP0
      exact ⟨[], b, ff, by simp [pasteGroups, ungroup], List.Forall₂.nil,
        fun h => absurd rfl h, fun h => h⟩
    | cons g0 gs =>
      cases P with
      | nil =>
        refine ⟨ungroup (g0 :: gs), b, ff, ?_, ?_, fun h => absurd rfl h, fun h => h⟩
        · rw [List.map_cons]
          unfold pasteGroups
          rfl
        · exact unchanged_restored goal (g0 :: gs) hgs (by simpa using hP.symm)
      | cons p0 P' =>
        obtain ⟨dst, src0⟩ := p0
        obtain ⟨run, after, hsplit, hrunk, hafterk, hcontA, hgroup, last, l, hlast, hfl,
          hnext⟩ := group_and_next_groups A g0 gs hgs hnd hcont
            (fun a ha => hbound a ha g0 (List.mem_cons_self _ _))
        subst hsplit
        have hgsrun : ∀ g ∈ g0 :: run, GroupOk g :=
          fun g hg => hgs g (by
            rcases List.mem_cons.mp hg with rfl | hg
            · exact List.mem_cons_self _ _
            · exact List.mem_cons_of_mem _ (List.mem_append_left _ hg))
        have hgsafter : ∀ g ∈ after, GroupOk g :=
          fun g hg => hgs g (List.mem_cons_of_mem _ (List.mem_append_right _ hg))
        have hshape : ungroup (g0 :: (run ++ after))
            = ungroup (g0 :: run) ++ ungroup after := by
          rw [← List.cons_append, ungroup_append]
        have hleadG : (ungroup (g0 :: run)).filter (fun t => t.leader)
            = (g0 :: run).map Prod.fst := Leaders_ungroup (g0 :: run) hgsrun
        have hrunk2 : ∀ t ∈ ungroup (g0 :: run), t.syncGroup = g0.1.syncGroup := by
          intro t ht
          obtain ⟨g, hg, htg⟩ := syncGroup_of_mem_ungroup _ hgsrun t ht
          rw [htg]
          rcases List.mem_cons.mp hg with rfl | hg
          · rfl
          · exact hrunk g hg
        have hfilter : (List.map Prod.fst (g0 :: (run ++ after))).filter isCutTarget
            = ((g0 :: run).map Prod.fst).filter isCutTarget
              ++ (after.map Prod.fst).filter isCutTarget := by
          rw [← List.cons_append, List.map_append, List.filter_append]
        have hdstmem : dst ∈ (List.map Prod.fst (g0 :: (run ++ after))).filter isCutTarget := by
          rw [← hP]
          simp
        have hdstT : dst ∈ A ++ ungroup (g0 :: (run ++ after)) :=
          List.mem_append_right _ (mem_ungroup_of_leader _ dst (List.mem_filter.mp hdstmem).1)
        have hlen2 : after.length ≤ fuel := by
          simp only [List.length_cons, List.length_append] at hlen
          omega
        have hiso2 : ∀ g ∈ after, g.1.basicEditing = false →
            ∀ g2 ∈ after, g2.1.syncGroup = g.1.syncGroup → g2.1.id = g.1.id :=
          fun g hg hb g2 hg2 => hiso g
            (List.mem_cons_of_mem _ (List.mem_append_right _ hg)) hb g2
            (List.mem_cons_of_mem _ (List.mem_append_right _ hg2))
        rw [List.map_cons]
        unfold pasteGroups
        simp only [hgroup, hlast, hfl, hnext, hleadG]
        by_cases hany : (ungroup (g0 :: run)).any (fun t => t.id == dst.id) = true
        · -- the group holds the next target
          rw [hany]
          simp only [Bool.not_true, Bool.false_eq_true, if_false]
          obtain ⟨t, ht, hteq⟩ := List.any_eq_true.mp hany
          have hteq2 : t.id = dst.id := by simpa using hteq
          have htd : t = dst := eq_of_id_eq _ hnd t dst
            (List.mem_append_right _ (by rw [hshape]; exact List.mem_append_left _ ht))
            hdstT hteq2
          subst htd
          have hdstG : t ∈ (g0 :: run).map Prod.fst := by
            have h1 := (List.mem_filter.mp hdstmem).1
            rw [← List.cons_append, List.map_append] at h1
            rcases List.mem_append.mp h1 with h1 | h1
            · exact h1
            · obtain ⟨g, hg, hgt⟩ := List.mem_map.mp h1
              have := hafterk g hg
              rw [hgt, hrunk2 t ht] at this
              exact absurd rfl this
          have htar : isCutTarget t = true := (List.mem_filter.mp hdstmem).2
          have hedit : ∀ g ∈ g0 :: run, g.1.basicEditing = true := by
            intro g hg
            by_contra hne
            have hfalse : g.1.basicEditing = false := by
              cases h : g.1.basicEditing
              · rfl
              · exact absurd h hne
            obtain ⟨gd, hgd, hgdt⟩ := List.mem_map.mp hdstG
            have hmemR : ∀ g' ∈ g0 :: run, g' ∈ g0 :: (run ++ after) := by
              intro g' hg'
              rcases List.mem_cons.mp hg' with rfl | hg'
              · exact List.mem_cons_self _ _
              · exact List.mem_cons_of_mem _ (List.mem_append_left _ hg')
            have hsg : gd.1.syncGroup = g.1.syncGroup := by
              rw [hrunk2 gd.1 (mem_ungroup_of_leader _ _ (List.mem_map_of_mem _ hgd)),
                hrunk2 g.1 (mem_ungroup_of_leader _ _ (List.mem_map_of_mem _ hg))]
            have hid := hiso g (hmemR g hg) hfalse gd (hmemR gd hgd) hsg
            have heq : gd.1 = g.1 := eq_of_id_eq _ hnd gd.1 g.1
              (List.mem_append_right _ (mem_ungroup_of_leader _ _
                (List.mem_map_of_mem _ (hmemR gd hgd))))
              (List.mem_append_right _ (mem_ungroup_of_leader _ _
                (List.mem_map_of_mem _ (hmemR g hg)))) hid
            rw [← heq, hgdt] at hfalse
            unfold isCutTarget at htar
            rw [hfalse] at htar
            simp at htar
          rw [hfilter] at hP
          obtain ⟨PG, Prest, hPsplit, hPG, hPr⟩ := List.map_eq_append_iff.mp hP
          have hPGne : PG ≠ [] := by
            intro h
            rw [h] at hPG
            have : t ∈ ((g0 :: run).map Prod.fst).filter isCutTarget :=
              List.mem_filter.mpr ⟨hdstG, htar⟩
            rw [← hPG] at this
            simp at this
          have hPrest : ∀ p ∈ Prest, p.1.id ∉ (ungroup (g0 :: run)).map (fun t => t.id) := by
            intro p hp hmem
            have hp1 : p.1 ∈ (after.map Prod.fst).filter isCutTarget := by
              rw [← hPr]
              exact List.mem_map_of_mem Prod.fst hp
            have hp2 := (List.mem_filter.mp hp1).1
            obtain ⟨x, hx, hxid⟩ := List.mem_map.mp hmem
            have hxid2 : x.id = p.1.id := hxid
            have hxe : x = p.1 := eq_of_id_eq _ hnd x p.1
              (List.mem_append_right _ (by rw [hshape]; exact List.mem_append_left _ hx))
              (List.mem_append_right _ (by
                rw [hshape]
                exact List.mem_append_right _ (mem_ungroup_of_leader _ _ hp2))) hxid2
            obtain ⟨g, hg, hgt⟩ := List.mem_map.mp hp2
            have := hafterk g hg
            rw [hgt, ← hxe, hrunk2 x hx] at this
            exact absurd rfl this
          have hndG : ((A ++ ungroup (g0 :: run) ++ ungroup after).map
              (fun t => t.id)).Nodup := by
            rw [List.append_assoc, ← hshape]
            exact hnd
          obtain ⟨G', b1, ff1, hrun, hres, hb1, hb2⟩ := pasteGroup_groups ops clipboard
            srcTracks t0 t1 newT1 isSyncLocked goal hadj (g0 :: run) A (ungroup after)
            PG Prest b ff hgsrun hedit (ungroup_head after hgsafter) hndG hPG hPrest
            (fun g hg p hp => hlaw g (by
              rcases List.mem_cons.mp hg with rfl | hg
              · exact List.mem_cons_self _ _
              · exact List.mem_cons_of_mem _ (List.mem_append_left _ hg)) p
              (by rw [hPsplit]; exact List.mem_append_left _ hp))
          have hsh : A ++ ungroup (g0 :: (run ++ after))
              = A ++ ungroup (g0 :: run) ++ ungroup after := by
            rw [hshape, List.append_assoc]
          rw [hsh, hPsplit, hrun]
          simp only [Bool.false_eq_true, if_false]
          have hidsG : G'.map (fun t => t.id) = (ungroup (g0 :: run)).map (fun t => t.id) :=
            restored_map goal (fun t => t.id) (fun _ _ => rfl) hres
          have hsgG : G'.map (fun t => t.syncGroup)
              = (ungroup (g0 :: run)).map (fun t => t.syncGroup) :=
            restored_map goal (fun t => t.syncGroup) (fun _ _ => rfl) hres
          have hnd3 : (((A ++ G') ++ ungroup after).map (fun t => t.id)).Nodup := by
            have : ((A ++ G') ++ ungroup after).map (fun t => t.id)
                = (A ++ ungroup (g0 :: run) ++ ungroup after).map (fun t => t.id) := by
              simp only [List.map_append, hidsG]
            rw [this]
            exact hndG
          obtain ⟨R2, b2, ff2, hrun2, hres2, _, hbb⟩ := ih after (A ++ G') Prest b1 ff1
            hlen2 hgsafter hnd3 hcontA
            (by
              intro a ha g hg
              rcases List.mem_append.mp ha with ha | ha
              · exact hbound a ha g (List.mem_cons_of_mem _ (List.mem_append_right _ hg))
              · have hm : a.syncGroup ∈ G'.map (fun t => t.syncGroup) :=
                  List.mem_map_of_mem (fun t => t.syncGroup) ha
                rw [hsgG] at hm
                obtain ⟨x, hx, hxs⟩ := List.mem_map.mp hm
                have hxs2 : x.syncGroup = a.syncGroup := hxs
                rw [← hxs2, hrunk2 x hx]
                exact fun h => hafterk g hg h.symm)
            hiso2 hPr
            (fun g hg p hp => hlaw g
              (List.mem_cons_of_mem _ (List.mem_append_right _ hg)) p
              (by rw [hPsplit]; exact List.mem_append_right _ hp))
          rw [hrun2]
          refine ⟨G' ++ R2, b2, ff2, by simp, ?_, fun _ => hbb (hb1 hPGne),
            fun h => hbb (hb2 h)⟩
          rw [hshape]
          exact forall₂_append hres hres2
        · -- nothing to paste into this group
          have hany2 : (ungroup (g0 :: run)).any (fun t => t.id == dst.id) = false := by
            cases h : (ungroup (g0 :: run)).any (fun t => t.id == dst.id)
            · rfl
            · exact absurd h hany
          rw [hany2]
          simp only [Bool.not_false, if_true]
          have hnone : ((g0 :: run).map Prod.fst).filter isCutTarget = [] := by
            cases hf : ((g0 :: run).map Prod.fst).filter isCutTarget with
            | nil => rfl
            | cons x xs =>
              exfalso
              rw [hfilter, hf] at hP
              simp only [List.map_cons, List.cons_append, List.cons.injEq] at hP
              have hx : x ∈ ((g0 :: run).map Prod.fst).filter isCutTarget := by
                rw [hf]
                exact List.mem_cons_self _ _
              have hx2 := mem_ungroup_of_leader _ x (List.mem_filter.mp hx).1
              have : (ungroup (g0 :: run)).any (fun t => t.id == dst.id) = true := by
                rw [List.any_eq_true]
                exact ⟨x, hx2, by rw [hP.1]; simp⟩
              rw [hany2] at this
              cases this
          rw [hfilter, hnone, List.nil_append] at hP
          have hsh : A ++ ungroup (g0 :: (run ++ after))
              = (A ++ ungroup (g0 :: run)) ++ ungroup after := by
            rw [hshape, List.append_assoc]
          have hnd3 : (((A ++ ungroup (g0 :: run)) ++ ungroup after).map
              (fun t => t.id)).Nodup := by
            rw [← hsh]
            exact hnd
          obtain ⟨R2, b2, ff2, hrun2, hres2, hb1, hb2⟩ := ih after (A ++ ungroup (g0 :: run))
            ((dst, src0) :: P') b ff hlen2 hgsafter hnd3 hcontA
            (by
              intro a ha g hg
              rcases List.mem_append.mp ha with ha | ha
              · exact hbound a ha g (List.mem_cons_of_mem _ (List.mem_append_right _ hg))
              · rw [hrunk2 a ha]
                exact fun h => hafterk g hg h.symm)
            hiso2 hP
            (fun g hg p hp => hlaw g
              (List.mem_cons_of_mem _ (List.mem_append_right _ hg)) p hp)
          rw [hsh, hrun2]
          refine ⟨ungroup (g0 :: run) ++ R2, b2, ff2, by simp, ?_, hb1, hb2⟩
          rw [hshape]
          exact forall₂_append (unchanged_restored goal (g0 :: run) hgsrun hnone) hres2


theorem ungroup_map (w : Track D → Track D) (gs : List (Track D × List (Track D))) :
    ungroup (gs.map (fun g => (w g.1, g.2.map w))) = (ungroup gs).map w := by
  induction gs with
  | nil => rfl
  | cons g gs ih => simp [ungroup, ih]

theorem filter_ungroup (gs : List (Track D × List (Track D)))
    (hgs : ∀ g ∈ gs, GroupOk g) :
    (ungroup gs).filter isCutTarget = ungroup (gs.filter (fun g => isCutTarget g.1)) := by
  induction gs with
  | nil => rfl
  | cons g gs ih =>
    have hg := hgs g (List.mem_cons_self _ _)
    have ih2 := ih (fun g' hg' => hgs g' (List.mem_cons_of_mem _ hg'))
    cases ht : isCutTarget g.1 with
    | true =>
      have h2 : g.2.filter isCutTarget = g.2 := by
        rw [List.filter_eq_self]
        intro c hc
        rw [isCutTarget_channel g hg c hc, ht]
      simp only [ungroup, List.filter_cons, ht, if_true, List.filter_append, h2, ih2]
    | false =>
      have h2 : g.2.filter isCutTarget = [] := by
        rw [List.filter_eq_nil_iff]
        intro c hc
        rw [isCutTarget_channel g hg c hc, ht]
        simp
      simp only [ungroup, List.filter_cons, ht, Bool.false_eq_true, if_false,
        List.filter_append, h2, List.nil_append, ih2]

theorem forall₂_split_append {α β : Type} {R : α → β → Prop} :
    ∀ (a1 a2 : List α) (b : List β), List.Forall₂ R (a1 ++ a2) b →
      ∃ b1 b2, b = b1 ++ b2 ∧ List.Forall₂ R a1 b1 ∧ List.Forall₂ R a2 b2 := by
  intro a1
  induction a1 with
  | nil => intro a2 b h; exact ⟨[], b, rfl, List.Forall₂.nil, h⟩
  | cons x a1 ih =>
    intro a2 b h
    rw [List.cons_append] at h
    cases h with
    | @cons _ y _ ys hxy hrest =>
      obtain ⟨b1, b2, hb, h1, h2⟩ := ih a2 ys hrest
      exact ⟨y :: b1, b2, by rw [hb]; rfl, List.Forall₂.cons hxy h1, h2⟩

/-- A list that corresponds, track by track, to a list of leaders with their
channels is itself one. -/
theorem forall₂_ungroup {R : Track D → Track D → Prop} :
    ∀ (gs : List (Track D × List (Track D))) (src : List (Track D)),
      List.Forall₂ R (ungroup gs) src →
      ∃ sgs : List (Track D × List (Track D)), src = ungroup sgs ∧
        List.Forall₂ (fun g sg => R g.1 sg.1 ∧ List.Forall₂ R g.2 sg.2) gs sgs := by
  intro gs
  induction gs with
  | nil =>
    intro src h
    cases h
    exact ⟨[], rfl, List.Forall₂.nil⟩
  | cons g gs ih =>
    intro src h
    simp only [ungroup] at h
    cases h with
    | @cons _ s _ rest h1 hrest =>
      obtain ⟨b1, b2, hb, h2, h3⟩ := forall₂_split_append g.2 (ungroup gs) rest hrest
      obtain ⟨sgs, hs, hF⟩ := ih b2 h3
      exact ⟨(s, b1) :: sgs, by simp [ungroup, hb, hs], List.Forall₂.cons ⟨h1, h2⟩ hF⟩

theorem Channels_ungroup (gs : List (Track D × List (Track D)))
    (hgs : ∀ g ∈ gs, g.1.leader = true ∧ ∀ c ∈ g.2, c.leader = false)
    (hnd : ((ungroup gs).map (fun t => t.id)).Nodup)
    (g : Track D × List (Track D)) (hg : g ∈ gs) :
    Channels (ungroup gs) g.1 = g.1 :: g.2 := by
  obtain ⟨pre, post, hsplit⟩ := List.append_of_mem hg
  have hshape : ungroup gs = ungroup pre ++ g.1 :: (g.2 ++ ungroup post) := by
    rw [hsplit, ungroup_append]
    rfl
  rw [hshape] at hnd ⊢
  rw [Channels_at _ _ g.1 g.1 (ids_of_nodup_split _ _ g.1 hnd).1 rfl (hgs g hg).1,
    takeWhile_channels g.2 (ungroup post) (hgs g hg).2
      (ungroup_head_lf post (fun g' hg' => (hgs g' (by rw [hsplit]; simp [hg'])).1))]

/-- The correspondence `FindCorrespondence` finds when each target among the
selected leaders has its own source, in order, that fits it, and no
source fits a selected leader that is not a target. -/
theorem FindCorrespondence_zip (T1 srcTracks : TrackList D)
    (hids1 : (T1.map (fun t => t.id)).Nodup)
    (hne : (Leaders T1).filter isCutTarget ≠ [])
    (hfit : List.Forall₂ (fun d s => FitsInto srcTracks T1 s d = true)
      ((Leaders T1).filter isCutTarget) (Leaders srcTracks))
    (hunfit : ∀ c ∈ Leaders T1, c.basicEditing = false →
      ∀ s ∈ Leaders srcTracks, FitsInto srcTracks T1 s c = false) :
    FindCorrespondence T1 srcTracks
      = List.zip ((Leaders T1).filter isCutTarget) (Leaders srcTracks) := by
  rw [FindCorrespondence_eq_firstFit]
  have htargets : (SelectedLeaders T1).filter (fun t => t.basicEditing)
      = (Leaders T1).filter isCutTarget := by
    unfold SelectedLeaders
    rw [List.filter_filter]
    apply List.filter_congr
    intro a _
    unfold isCutTarget
    exact Bool.and_comm _ _
  by_cases hsingle : (SelectedLeaders T1).length = 1
  · obtain ⟨only, honly⟩ := List.length_eq_one.mp hsingle
    obtain ⟨before, first, after, _, hrange, _, _, hfirst⟩ :=
      destinationRange_of_single T1 only honly
    have hfo := hfirst hids1
    subst hfo
    rw [hrange]
    rw [← htargets, honly] at hne hfit ⊢
    have hed : first.basicEditing = true := by
      cases hb : first.basicEditing with
      | true => rfl
      | false => simp [List.filter, hb] at hne
    have hf : [first].filter (fun t => t.basicEditing) = [first] := by
      simp [List.filter, hed]
    rw [hf] at hfit ⊢
    generalize Leaders srcTracks = L at hfit ⊢
    cases hfit with
    | cons h1 h2 =>
      cases h2
      rw [firstFit_take _ _ _ _ _ h1, firstFit_nil_sources]
      rfl
  · rw [destinationRange_of_not_single T1 hsingle]
    rw [firstFit_filter (FitsInto srcTracks T1) (fun t => t.basicEditing)
      (SelectedLeaders T1) (Leaders srcTracks) (by rw [htargets]; exact hfit)
      (fun c hc hb s hs => hunfit c (List.mem_filter.mp hc).1 hb s hs)]
    rw [htargets]
    rfl


/-- The end of `OnPaste` when the paste loops ran without throwing and
pasted something. -/
theorem OnPaste_of_pasteGroups (ops : TrackOps D) (env : Environment) (st : State D)
    (srcTracks : TrackList D) (s : PasteProgress D)
    (htext : (DoPasteText ops st.project).2 = false)
    (hclip : st.clipboard.tracks.isEmpty = false)
    (hsrc : FindSourceTracks ops env st = .ok (some srcTracks))
    (hsel : (Selected st.project.tracks).isEmpty = false)
    (hcorr : (FindCorrespondence st.project.tracks srcTracks).isEmpty = false)
    (hs : pasteGroups ops st.clipboard srcTracks st.project.selectedRegion.t0
        st.project.selectedRegion.t1
        (st.project.selectedRegion.t0 + st.clipboard.Duration) st.project.isSyncLocked
        (Leaders st.project.tracks).length (Leaders st.project.tracks)
        ⟨st.project.tracks, FindCorrespondence st.project.tracks srcTracks, false, none,
          false⟩ = s)
    (hthrew : s.threw = false) (hb : s.bPastedSomething = true) :
    (OnPaste ops env st).completed = true ∧
    (OnPaste ops env st).state.project.tracks = s.tracks ∧
    (OnPaste ops env st).state.project.selectedRegion
      = ⟨st.project.selectedRegion.t0,
          st.project.selectedRegion.t0 + st.clipboard.Duration⟩ := by
  unfold OnPaste OnPasteTraced
  simp only [htext, hclip, hsrc, hsel, hcorr, Bool.false_eq_true, if_false, FindSelection,
    hs, hthrew, hb, if_true]
  cases s.ff <;> simp [PushState, setTimes]

/-- What `WellFormed` says of a track list. -/
theorem WellFormed_groups (T : TrackList D) (h : WellFormed T = true) :
    ∃ gs : List (Track D × List (Track D)), T = ungroup gs ∧ (∀ g ∈ gs, GroupOk g) ∧
      (T.map (fun t => t.id)).Nodup ∧ groupsContiguous (Leaders T) = true ∧
      (∀ n ∈ T, n.basicEditing = false →
        n.kind ≠ TrackKind.wave ∧ n.kind ≠ TrackKind.note) ∧
      (∀ a ∈ T, ∀ b ∈ T, a.kind = b.kind → a.basicEditing = b.basicEditing) ∧
      (∀ a ∈ T, a.basicEditing = false →
        ∀ b ∈ T, b.syncGroup = a.syncGroup → b.id = a.id) := by
  unfold WellFormed at h
  simp only [Bool.and_eq_true] at h
  obtain ⟨⟨⟨⟨⟨h1, h2⟩, h3⟩, h4⟩, h5⟩, h6⟩ := h
  have hgs : ∃ gs : List (Track D × List (Track D)), T = ungroup gs ∧
      (∀ g ∈ gs, GroupOk g) := by
    cases T with
    | nil => exact ⟨[], rfl, by simp⟩
    | cons first rest =>
      simp only [Bool.and_eq_true] at h2
      obtain ⟨pc, gs, hrest, hok, hpc⟩ := channelsFollow_groups rest first h2.2
      refine ⟨(first, pc) :: gs, by rw [hrest]; rfl, ?_⟩
      intro g hg
      rcases List.mem_cons.mp hg with rfl | hg
      · exact ⟨h2.1, hpc⟩
      · exact hok g hg
  obtain ⟨gs, hT, hok⟩ := hgs
  refine ⟨gs, hT, hok, of_decide_eq_true h1, h3, ?_, ?_, ?_⟩
  · intro n hn hb
    have := List.all_eq_true.mp h4 n hn
    simp only [hb, Bool.false_or, Bool.and_eq_true, decide_eq_true_eq] at this
    exact this
  · intro a ha b hb hk
    have := List.all_eq_true.mp (List.all_eq_true.mp h5 a ha) b hb
    simp only [Bool.or_eq_true, decide_eq_true_eq] at this
    rcases this with h | h
    · exact absurd hk h
    · exact h
  · intro a ha hed b hb hg
    have := List.all_eq_true.mp h6 a ha
    simp only [hed, Bool.false_or] at this
    have := List.all_eq_true.mp this b hb
    simp only [Bool.or_eq_true, decide_eq_true_eq] at this
    rcases this with h | h
    · exact h
    · exact absurd hg h

/-- A track that is no wave or note track and does not support basic
editing is left as it is by `OnCut`. -/
theorem cutOne_not_editable (ops : TrackOps D) (env : Environment) (t0 t1 : Time)
    (n : Track D) (hb : n.basicEditing = false) (hw : n.kind ≠ TrackKind.wave)
    (hn : n.kind ≠ TrackKind.note) : cutOne ops env t0 t1 n = n := by
  unfold cutOne afterCutVisit
  have h1 : (n.selected && decide (n.kind = TrackKind.note)) = false := by
    simp [hn]
  simp only [h1, Bool.false_eq_true, if_false]
  have hc : cutClear ops env t0 t1 n = .ok n.content := by
    unfold cutClear
    by_cases hs : IsSelectedOrSyncLockSelected n = true
    · simp [hs, hn, hw, hb]
    · simp [hs]
  unfold applyVisit
  rw [hc]
  rfl

theorem GroupOk_map (w : Track D → Track D) (hw : ∀ n, ∃ c, w n = withContent n c)
    (g : Track D × List (Track D)) (hg : GroupOk g) :
    GroupOk (w g.1, g.2.map w) := by
  have hw1 : ∀ n, (w n).leader = n.leader ∧ (w n).kind = n.kind ∧
      (w n).selected = n.selected ∧ (w n).basicEditing = n.basicEditing ∧
      (w n).syncGroup = n.syncGroup := by
    intro n
    obtain ⟨c, hc⟩ := hw n
    rw [hc]
    exact ⟨rfl, rfl, rfl, rfl, rfl⟩
  refine ⟨by rw [(hw1 g.1).1]; exact hg.1, ?_⟩
  intro c hc
  obtain ⟨m, hm, rfl⟩ := List.mem_map.mp hc
  obtain ⟨a1, a2, a3, a4, a5, a6⟩ := hg.2 m hm
  obtain ⟨b1, b2, b3, b4, b5⟩ := hw1 m
  obtain ⟨c1, c2, c3, c4, c5⟩ := hw1 g.1
  show (w m).leader = false ∧ (w m).kind = TrackKind.wave ∧ (w g.1).kind = TrackKind.wave ∧
    (w m).selected = (w g.1).selected ∧ (w m).basicEditing = (w g.1).basicEditing ∧
    (w m).syncGroup = (w g.1).syncGroup
  rw [b1, b2, b3, b4, b5, c2, c3, c4, c5]
  exact ⟨a1, a2, a3, a4, a5, a6⟩


/-- Cut, then Paste, for operations that satisfy the round trip at the level
of one channel: in a well-formed project in which a selected track supports
basic editing, `OnPaste` after `OnCut` runs to its end, every track is the
track it was with some content, every selected track is as it was, and the
selection is `[t0, t0 + (t1 - t0)]`. -/
theorem OnCut_then_OnPaste_restores (ops : TrackOps D) (env : Environment)
    (st : State D)
    (hwf : WellFormed st.project.tracks = true)
    (htarget : ∃ n ∈ st.project.tracks, n.selected = true ∧ n.basicEditing = true)
    (hcuttext : cutSelectedText ops st.project.tracks = none)
    (hcut : (OnCut ops env st).completed = true)
    (hpastetext : (DoPasteText ops (OnCut ops env st).state.project).2 = false)
    (hadj : ∀ n a b, ∃ c, ops.SyncLockAdjust n a b = .ok c)
    (hlaw : ∀ n ∈ st.project.tracks, n.selected = true → n.basicEditing = true →
      ∃ c d,
        cutTrack ops env st.project.selectedRegion.t0 st.project.selectedRegion.t1 n
          = .ok (c, some d) ∧
        (ops.FinishCopy n d).kind = n.kind ∧ (ops.FinishCopy n d).leader = n.leader ∧
        ∀ i, pasteTrack ops
            (st.project.selectedRegion.t1 - st.project.selectedRegion.t0)
            st.project.selectedRegion.t0 st.project.selectedRegion.t0
            (withContent n c) { ops.FinishCopy n d with id := i }
          = .ok (n.content, true)) :
    (OnPaste ops env (OnCut ops env st).state).completed = true ∧
    List.Forall₂ (fun r n => (∃ c, r = withContent n c) ∧ (n.selected = true → r = n))
      (OnPaste ops env (OnCut ops env st).state).state.project.tracks
      st.project.tracks ∧
    (OnPaste ops env (OnCut ops env st).state).state.project.selectedRegion
      = ⟨st.project.selectedRegion.t0,
          st.project.selectedRegion.t0
            + (st.project.selectedRegion.t1 - st.project.selectedRegion.t0)⟩ := by
  obtain ⟨gs, hT, hok, hids, hcont, hedit, hkinds, halone⟩ := WellFormed_groups _ hwf
  have hnote : ∀ n ∈ st.project.tracks, n.kind = TrackKind.note →
      n.basicEditing = true := by
    intro n hn hk
    cases hb : n.basicEditing with
    | true => rfl
    | false => exact absurd hk (hedit n hn hb).2
  obtain ⟨hT1, hclipb, hselr, hkey, hsync⟩ := OnCut_spec ops env st hcuttext hnote hcut
  generalize (OnCut ops env st).state = st1 at hT1 hclipb hselr hkey hsync hpastetext ⊢
  generalize st.project.selectedRegion.t0 = t0 at *
  generalize st.project.selectedRegion.t1 = t1 at *
  generalize htr : st.project.tracks = tracks at *
  -- the tracks after the cut
  have hT1' : st1.project.tracks = tracks.map (cutOne ops env t0 t1) := by
    rw [hT1, List.map_map]
    rfl
  have hw := cutOne_attributes ops env t0 t1
  have hwne : ∀ n ∈ tracks, n.basicEditing = false → cutOne ops env t0 t1 n = n :=
    fun n hn hb => cutOne_not_editable ops env t0 t1 n hb (hedit n hn hb).1
      (hedit n hn hb).2
  -- the clipboard
  have hE := cutEntries_spec ops env t0 t1 tracks (fun n hn hs hb => by
    obtain ⟨c, d, h, _⟩ := hlaw n hn hs hb
    exact ⟨c, d, h⟩)
  obtain ⟨src, hout, hF, hnd⟩ := foldl_Add_spec (cutEntries ops t0 t1 tracks) []
    (by simp)
  rw [List.nil_append] at hout hnd
  rw [hout] at hclipb
  have hR := forall₂_comp hE hF
  have hfacts : ∀ n ∈ tracks.filter (fun n => n.selected && n.basicEditing), ∀ s,
      (∃ e, (∃ c d, cutTrack ops env t0 t1 n = .ok (c, some d) ∧
          e = ops.FinishCopy n d) ∧ ∃ i, s = { e with id := i }) →
      s.kind = n.kind ∧ s.leader = n.leader ∧
        pasteTrack ops (t1 - t0) t0 t0 (cutOne ops env t0 t1 n) s
          = .ok (n.content, true) := by
    rintro n hn s ⟨e, ⟨c, d, hcd, he⟩, i, hs⟩
    obtain ⟨hnT, hp⟩ := List.mem_filter.mp hn
    rw [Bool.and_eq_true] at hp
    obtain ⟨c2, d2, h1, h2, h3, h4⟩ := hlaw n hnT hp.1 hp.2
    rw [hcd] at h1
    simp only [Except.ok.injEq, Prod.mk.injEq, Option.some.injEq] at h1
    obtain ⟨hc, hd⟩ := h1
    subst hc
    subst hd
    subst he
    subst hs
    exact ⟨h2, h3, by rw [cutOne_of_cutTrack ops env t0 t1 n c _ hp.1 hcd]; exact h4 i⟩
  have hRel : List.Forall₂ (fun n s => s.kind = n.kind ∧ s.leader = n.leader ∧
        pasteTrack ops (t1 - t0) t0 t0 (cutOne ops env t0 t1 n) s
          = .ok (n.content, true))
      (tracks.filter isCutTarget) src :=
    forall₂_imp_mem hR (fun n hn s _ hr => hfacts n hn s hr)
  clear hR hfacts hE hF hlaw hout
  -- from here on the tracks after the cut are the tracks with other contents
  generalize cutOne ops env t0 t1 = w at hT1' hw hwne hRel
  have hwid : ∀ n, (w n).id = n.id := by
    intro n; obtain ⟨c, hc⟩ := hw n; rw [hc]; rfl
  have hwkind : ∀ n, (w n).kind = n.kind := by
    intro n; obtain ⟨c, hc⟩ := hw n; rw [hc]; rfl
  have hwlead : ∀ n, (w n).leader = n.leader := by
    intro n; obtain ⟨c, hc⟩ := hw n; rw [hc]; rfl
  have hwsel : ∀ n, (w n).selected = n.selected := by
    intro n; obtain ⟨c, hc⟩ := hw n; rw [hc]; rfl
  have hwed : ∀ n, (w n).basicEditing = n.basicEditing := by
    intro n; obtain ⟨c, hc⟩ := hw n; rw [hc]; rfl
  have hwgroup : ∀ n, (w n).syncGroup = n.syncGroup := by
    intro n; obtain ⟨c, hc⟩ := hw n; rw [hc]; rfl
  have hwtarget : ∀ n, isCutTarget (w n) = isCutTarget n := by
    intro n; unfold isCutTarget; rw [hwsel, hwed]
  have hidsB : ((tracks.map w).map (fun t => t.id)).Nodup := by
    rw [List.map_map]
    have : ((fun t : Track D => t.id) ∘ w) = (fun t => t.id) := by
      funext n
      exact hwid n
    rw [this]
    exact hids
  have hB : tracks.map w = ungroup (gs.map (fun g => (w g.1, g.2.map w))) := by
    rw [hT, ungroup_map]
  have hokB : ∀ g ∈ gs.map (fun g => (w g.1, g.2.map w)), GroupOk g := by
    intro g hg
    obtain ⟨g0, hg0, rfl⟩ := List.mem_map.mp hg
    exact GroupOk_map w hw g0 (hok g0 hg0)
  have hkindsB : ∀ a ∈ tracks.map w, ∀ b ∈ tracks.map w, a.kind = b.kind →
      a.basicEditing = b.basicEditing := by
    intro a ha b hb hk
    obtain ⟨m, hm, rfl⟩ := List.mem_map.mp ha
    obtain ⟨n, hn, rfl⟩ := List.mem_map.mp hb
    rw [hwkind, hwkind] at hk
    rw [hwed, hwed]
    exact hkinds m hm n hn hk
  have haloneB : ∀ a ∈ tracks.map w, a.basicEditing = false →
      ∀ b ∈ tracks.map w, b.syncGroup = a.syncGroup → b.id = a.id := by
    intro a ha hed b hb hg
    obtain ⟨m, hm, rfl⟩ := List.mem_map.mp ha
    obtain ⟨n, hn, rfl⟩ := List.mem_map.mp hb
    rw [hwgroup, hwgroup] at hg
    rw [hwed] at hed
    rw [hwid, hwid]
    exact halone m hm hed n hn hg
  have hfilter : (tracks.map w).filter isCutTarget = (tracks.filter isCutTarget).map w := by
    rw [List.filter_map]
    congr 1
    apply List.filter_congr
    intro n _
    exact hwtarget n
  have hRelB : List.Forall₂ (fun d s => s.kind = d.kind ∧ s.leader = d.leader ∧
        pasteTrack ops (t1 - t0) t0 t0 d s = .ok ((current tracks d).content, true))
      ((tracks.map w).filter isCutTarget) src := by
    rw [hfilter, List.forall₂_map_left_iff]
    apply forall₂_imp_mem hRel
    intro n hn s _ hr
    have hnT := (List.mem_filter.mp hn).1
    rw [hwkind, hwlead, current_of_mem tracks n _ hids hnT (hwid n)]
    exact hr
  clear hRel
  generalize hgsB : gs.map (fun g => (w g.1, g.2.map w)) = gsB at hB hokB
  rw [hB, filter_ungroup gsB hokB] at hRelB
  obtain ⟨sgs, hsrc, hG⟩ := forall₂_ungroup _ src hRelB
  clear hRelB
  have hlfB : ∀ g ∈ gsB, g.1.leader = true ∧ ∀ c ∈ g.2, c.leader = false :=
    fun g hg => ⟨(hokB g hg).1, fun c hc => ((hokB g hg).2 c hc).1⟩
  have hlfS : ∀ sg ∈ sgs, sg.1.leader = true ∧ ∀ c ∈ sg.2, c.leader = false := by
    intro sg hsg
    obtain ⟨g, hg, hrel, hrel2⟩ := forall₂_mem_right hG sg hsg
    have hgB := (List.mem_filter.mp hg).1
    refine ⟨by rw [hrel.2.1]; exact (hokB g hgB).1, ?_⟩
    intro c hc
    obtain ⟨d, hd, hr⟩ := forall₂_mem_right hrel2 c hc
    rw [hr.2.1]
    exact ((hokB g hgB).2 d hd).1
  have hLB : Leaders (tracks.map w) = gsB.map Prod.fst := by
    rw [hB]
    exact Leaders_ungroup gsB hokB
  have hLS : Leaders src = sgs.map Prod.fst := by
    rw [hsrc]
    exact Leaders_ungroup_lf sgs hlfS
  have hCB : ∀ g ∈ gsB, Channels (tracks.map w) g.1 = g.1 :: g.2 := by
    intro g hg
    rw [hB]
    exact Channels_ungroup gsB hlfB (by rw [← hB]; exact hidsB) g hg
  have hCS : ∀ sg ∈ sgs, Channels src sg.1 = sg.1 :: sg.2 := by
    intro sg hsg
    rw [hsrc]
    exact Channels_ungroup sgs hlfS (by rw [← hsrc]; exact hnd) sg hsg
  have htargetsB : (gsB.map Prod.fst).filter isCutTarget
      = (gsB.filter (fun g => isCutTarget g.1)).map Prod.fst := by
    rw [List.filter_map]
    rfl
  have hlen : (gsB.filter (fun g => isCutTarget g.1)).length = sgs.length :=
    hG.length_eq
  have hFne : gsB.filter (fun g => isCutTarget g.1) ≠ [] := by
    obtain ⟨n0, hn0, hn0sel, hn0ed⟩ := htarget
    rw [hT] at hn0
    obtain ⟨g0, hg0, hn0g⟩ := (mem_ungroup gs n0).mp hn0
    have h0 : isCutTarget g0.1 = true := by
      rcases hn0g with h | h
      · rw [← h]; unfold isCutTarget; rw [hn0sel, hn0ed]; rfl
      · rw [← isCutTarget_channel g0 (hok g0 hg0) n0 h]
        unfold isCutTarget; rw [hn0sel, hn0ed]; rfl
    apply List.ne_nil_of_mem
    apply List.mem_filter.mpr
    refine ⟨?_, ?_⟩
    · rw [← hgsB]
      exact List.mem_map_of_mem _ hg0
    · show isCutTarget (w g0.1) = true
      rw [hwtarget]
      exact h0
  -- the correspondence
  have hcorr := FindCorrespondence_zip (tracks.map w) src hidsB
    (by
      rw [hLB, htargetsB]
      intro h
      exact hFne (List.map_eq_nil_iff.mp h))
    (by
      rw [hLB, htargetsB, hLS, List.forall₂_map_left_iff, List.forall₂_map_right_iff]
      apply forall₂_imp_mem hG
      intro g hg sg hsg hrel
      have hgB := (List.mem_filter.mp hg).1
      have hl : sg.2.length = g.2.length := hrel.2.length_eq.symm
      unfold FitsInto SameKindAs NChannels
      rw [hCB g hgB, hCS sg hsg]
      simp [hrel.1.1, hl])
    (by
      intro c hc hb s hs
      rw [hLS] at hs
      obtain ⟨sg, hsg, rfl⟩ := List.mem_map.mp hs
      obtain ⟨g, hg, hrel, _⟩ := forall₂_mem_right hG sg hsg
      obtain ⟨hgB, hgt⟩ := List.mem_filter.mp hg
      have hcB : c ∈ tracks.map w := by
        unfold Leaders at hc
        exact (List.mem_filter.mp hc).1
      have hgm : g.1 ∈ tracks.map w := by
        rw [hB]
        exact mem_ungroup_of_leader gsB g.1 (List.mem_map_of_mem _ hgB)
      have hged : g.1.basicEditing = true := by
        unfold isCutTarget at hgt
        rw [Bool.and_eq_true] at hgt
        exact hgt.2
      have hk : sg.1.kind ≠ c.kind := by
        intro hk
        rw [hrel.1] at hk
        have := hkindsB g.1 hgm c hcB hk
        rw [hged, hb] at this
        cases this
      unfold FitsInto SameKindAs
      simp [hk])
  rw [hLB, htargetsB, hLS] at hcorr
  have hPfst : (List.zip ((gsB.filter (fun g => isCutTarget g.1)).map Prod.fst)
      (sgs.map Prod.fst)).map Prod.fst
      = (gsB.map Prod.fst).filter isCutTarget := by
    rw [htargetsB]
    apply List.map_fst_zip
    rw [List.length_map, List.length_map, hlen]
  have hPne : List.zip ((gsB.filter (fun g => isCutTarget g.1)).map Prod.fst)
      (sgs.map Prod.fst) ≠ [] := by
    intro h
    rw [h, htargetsB] at hPfst
    exact hFne (List.map_eq_nil_iff.mp hPfst.symm)
  have hpairs : ∀ p ∈ List.zip ((gsB.filter (fun g => isCutTarget g.1)).map Prod.fst)
      (sgs.map Prod.fst), ∃ g ∈ gsB, ∃ sg ∈ sgs, p.1 = g.1 ∧ p.2 = sg.1 ∧
        List.Forall₂ (fun d s => pasteTrack ops (t1 - t0) t0 t0 d s
          = .ok ((current tracks d).content, true)) (g.1 :: g.2) (sg.1 :: sg.2) := by
    have hG2 : List.Forall₂ (fun d s => ∃ g ∈ gsB, ∃ sg ∈ sgs, d = g.1 ∧ s = sg.1 ∧
        List.Forall₂ (fun d s => pasteTrack ops (t1 - t0) t0 t0 d s
          = .ok ((current tracks d).content, true)) (g.1 :: g.2) (sg.1 :: sg.2))
        ((gsB.filter (fun g => isCutTarget g.1)).map Prod.fst) (sgs.map Prod.fst) := by
      rw [List.forall₂_map_left_iff, List.forall₂_map_right_iff]
      apply forall₂_imp_mem hG
      intro g hg sg hsg hrel
      exact ⟨g, (List.mem_filter.mp hg).1, sg, hsg, rfl, rfl,
        List.Forall₂.cons hrel.1.2.2 (hrel.2.imp (fun _ _ h => h.2.2))⟩
    intro p hp
    exact (List.forall₂_iff_zip.mp hG2).2 hp
  -- the paste
  have hclip1 : st1.clipboard.tracks.isEmpty = false := by
    rw [hclipb]
    show src.isEmpty = false
    cases hs : sgs with
    | nil => rw [hs] at hlen; exact absurd (List.length_eq_zero.mp hlen) hFne
    | cons a l => rw [hsrc, hs]; rfl
  have hsrc1 : FindSourceTracks ops env st1 = .ok (some src) := by
    unfold FindSourceTracks
    simp [hclipb, hkey]
  have hsel1 : (Selected st1.project.tracks).isEmpty = false := by
    obtain ⟨n0, hn0, hn0sel, hn0ed⟩ := htarget
    have hmem : w n0 ∈ Selected st1.project.tracks := by
      unfold Selected
      rw [hT1']
      exact List.mem_filter.mpr ⟨List.mem_map_of_mem _ hn0, by rw [hwsel]; exact hn0sel⟩
    cases hs : Selected st1.project.tracks with
    | nil => rw [hs] at hmem; cases hmem
    | cons a l => rfl
  have hcorr1 : (FindCorrespondence st1.project.tracks src).isEmpty = false := by
    rw [hT1', hcorr]
    cases hz : List.zip ((gsB.filter (fun g => isCutTarget g.1)).map Prod.fst)
        (sgs.map Prod.fst) with
    | nil => exact absurd hz hPne
    | cons a l => rfl
  obtain ⟨R, b, ff, hpg, hres, hb, _⟩ := pasteGroups_groups ops
    ⟨src, t0, t1, some st.project.key⟩ src t0 t0 (t0 + (t1 - t0)) st.project.isSyncLocked
    (fun d => (current tracks d).content) hadj (gsB.map Prod.fst).length gsB []
    (List.zip ((gsB.filter (fun g => isCutTarget g.1)).map Prod.fst) (sgs.map Prod.fst))
    false none (by rw [List.length_map])
    hokB (by rw [List.nil_append, ← hB]; exact hidsB)
    (by
      rw [← hLB]
      have hL : Leaders (tracks.map w) = (Leaders tracks).map w := by
        unfold Leaders
        rw [List.filter_map]
        congr 1
        apply List.filter_congr
        intro n _
        exact hwlead n
      rw [hL, groupsContiguous_map w hwgroup]
      exact hcont)
    (by simp)
    (by
      intro g hg hed g2 hg2 hsg
      have h1 : g.1 ∈ tracks.map w := by
        rw [hB]; exact mem_ungroup_of_leader gsB g.1 (List.mem_map_of_mem _ hg)
      have h2 : g2.1 ∈ tracks.map w := by
        rw [hB]; exact mem_ungroup_of_leader gsB g2.1 (List.mem_map_of_mem _ hg2)
      exact haloneB g.1 h1 hed g2.1 h2 hsg)
    hPfst
    (by
      intro g hg p hp hpg
      obtain ⟨g2, hg2, sg, hsg, hp1, hp2, hF2⟩ := hpairs p hp
      have hgg : g2.1 :: g2.2 = g.1 :: g.2 := by
        rw [← hCB g2 hg2, ← hCB g hg, ← hp1, hpg]
      have htail : g2.2 = g.2 := (List.cons.inj hgg).2
      have hhead : g2.1 = g.1 := (List.cons.inj hgg).1
      refine ⟨sg.2, by rw [hp2]; exact hCS sg hsg, ?_⟩
      rw [hp2, ← hhead, ← htail]
      exact hF2)
  rw [List.nil_append, List.nil_append] at hpg
  obtain ⟨hdone, htracks, hselF⟩ := OnPaste_of_pasteGroups ops env st1 src
    ⟨R, [], b, ff, false⟩ hpastetext hclip1 hsrc1 hsel1 hcorr1
    (by
      rw [hT1', hcorr, hselr, hclipb, hsync, hLB, hB]
      exact hpg) rfl (hb hPne)
  refine ⟨hdone, ?_, ?_⟩
  · rw [htracks]
    rw [← hB, List.forall₂_map_right_iff] at hres
    apply forall₂_imp_mem hres
    intro r _ n hn hres1
    obtain ⟨⟨c, hc⟩, htar, hun⟩ := hres1
    obtain ⟨c2, hc2⟩ := hw n
    refine ⟨⟨c, by rw [hc, hc2]; rfl⟩, ?_⟩
    intro hs
    cases hed : n.basicEditing with
    | true =>
      have h := htar (by rw [hwtarget]; unfold isCutTarget; rw [hs, hed]; rfl)
      rw [h]
      show withContent (w n) (current tracks (w n)).content = n
      rw [current_of_mem tracks n _ hids hn (hwid n), hc2]
      rfl
    | false =>
      rw [hun (by rw [hwed]; exact hed)]
      exact hwne n hn hed
  · rw [hselF, hselr, hclipb]
    rfl


/-! ### Cut, then Paste, with the operations of the specification -/

theorem take_copy_drop (d : List Int) (a b : Nat) (h : a ≤ b) :
    d.take a ++ (d.drop a).take (b - a) ++ d.drop b = d := by
  have h1 : d.drop b = (d.drop a).drop (b - a) := by
    rw [List.drop_drop]
    congr 1
    omega
  rw [h1, List.append_assoc, List.take_append_drop, List.take_append_drop]

theorem take_removed (d : List Int) (a b : Nat) (h : a ≤ b) :
    (d.take a ++ d.drop b).take a = d.take a ∧
    (d.take a ++ d.drop b).drop a = d.drop b := by
  by_cases hl : a ≤ d.length
  · have hlen : (d.take a).length = a := by simp [hl]
    exact ⟨List.take_left' hlen, List.drop_left' hlen⟩
  · have h1 : d.take a = d := List.take_of_length_le (by omega)
    have h2 : d.drop b = [] := List.drop_of_length_le (by omega)
    rw [h1, h2, List.append_nil]
    exact ⟨h1, by rw [List.drop_of_length_le (by omega)]⟩

/-- Inserting the copy of `[a, b)` at `a` into what is left without it. -/
theorem insert_restores (d : List Int) (a b : Nat) (h : a ≤ b) :
    (d.take a ++ d.drop b).take a ++ (d.drop a).take (b - a)
      ++ (d.take a ++ d.drop b).drop a = d := by
  rw [(take_removed d a b h).1, (take_removed d a b h).2]
  exact take_copy_drop d a b h

/-- Shifting what lies after `a` in what is left, when something does, and
writing the copy of `[a, b)` over it. -/
theorem shift_and_write_restores (d : List Int) (a b : Nat) (h : a ≤ b) :
    (if a < (d.take a ++ d.drop b).length
      then (d.take a ++ d.drop b).take a ++ List.replicate (b - a) 0
        ++ (d.take a ++ d.drop b).drop a
      else d.take a ++ d.drop b).take a
      ++ (d.drop a).take (b - a)
      ++ (if a < (d.take a ++ d.drop b).length
      then (d.take a ++ d.drop b).take a ++ List.replicate (b - a) 0
        ++ (d.take a ++ d.drop b).drop a
      else d.take a ++ d.drop b).drop (a + ((d.drop a).take (b - a)).length) = d := by
  rw [(take_removed d a b h).1, (take_removed d a b h).2]
  by_cases hb : b < d.length
  · have hlen : (d.take a).length = a := by simp; omega
    have hc : a < (d.take a ++ d.drop b).length := by
      simp only [List.length_append, List.length_take, List.length_drop]
      omega
    have hcopy : ((d.drop a).take (b - a)).length = b - a := by
      simp only [List.length_take, List.length_drop]
      omega
    rw [if_pos hc, hcopy]
    simp only [List.append_assoc]
    rw [List.take_left' hlen]
    have h3 : List.drop (a + (b - a)) (d.take a ++ (List.replicate (b - a) 0 ++ d.drop b))
        = d.drop b := by
      have := @List.drop_append Int (d.take a)
        (List.replicate (b - a) 0 ++ d.drop b) (b - a)
      rw [hlen] at this
      rw [this]
      exact List.drop_left' (by simp)
    rw [h3, ← List.append_assoc]
    exact take_copy_drop d a b h
  · have h2 : d.drop b = [] := List.drop_of_length_le (by omega)
    have hc : ¬ a < (d.take a ++ d.drop b).length := by
      simp only [List.length_append, List.length_take, List.length_drop]
      omega
    rw [if_neg hc, h2, List.append_nil, List.take_take, Nat.min_self]
    have h4 : List.drop (a + ((d.drop a).take (b - a)).length) (d.take a) = [] :=
      List.drop_of_length_le (by simp only [List.length_take]; omega)
    rw [h4, List.append_nil]
    have h5 : (d.drop a).take (b - a) = d.drop a :=
      List.take_of_length_le (by simp only [List.length_drop]; omega)
    rw [h5, List.take_append_drop]

theorem firstTextEdit_none (f : Track D → Option (Content D)) (hf : ∀ t, f t = none) :
    ∀ l : List (Track D), firstTextEdit f l = none := by
  intro l
  induction l with
  | nil => rfl
  | cons t ts ih => simp [firstTextEdit, hf t, ih]

theorem cutSelectedText_timelineOps (tracks : TrackList (List Int)) :
    cutSelectedText timelineOps tracks = none := by
  unfold cutSelectedText
  rw [firstTextEdit_none, firstTextEdit_none]
  · intro t
    split <;> rfl
  · intro t
    split <;> rfl

theorem DoPasteText_timelineOps (project : Project (List Int)) :
    (DoPasteText timelineOps project).2 = false := by
  unfold DoPasteText
  dsimp only
  rw [firstTextEdit_none, firstTextEdit_none]
  · intro t
    split <;> rfl
  · intro t
    split <;> rfl

/-- The first `Visit` of `OnCut` runs to its end when no `Cut` and no `Copy`
throws. -/
theorem cutVisit_total (ops : TrackOps D) (t0 t1 : Time)
    (hCut : ∀ n, ∃ r, ops.Cut n t0 t1 = .ok r)
    (hCopy : ∀ n, ∃ r, ops.Copy n t0 t1 true = .ok r) :
    ∀ (l : List (Track D)) (acc : TrackList D),
      (cutVisit ops t0 t1 l acc).2.2 = true := by
  intro l
  induction l with
  | nil => intro _; rfl
  | cons n ns ih =>
    intro acc
    unfold cutVisit
    cases hsel : n.selected with
    | false =>
      simp only [Bool.not_false, if_true]
      exact ih _
    | true =>
      by_cases hk : n.kind = TrackKind.note
      · simp only [Bool.not_true, Bool.false_eq_true, if_false, hk, if_true]
        obtain ⟨r, hr⟩ := hCut n
        obtain ⟨c, dest⟩ := r
        simp only [hr]
        exact ih _
      · simp only [Bool.not_true, Bool.false_eq_true, if_false, hk]
        cases hb : n.basicEditing with
        | false =>
          simp only [Bool.false_eq_true, if_false]
          exact ih _
        | true =>
          simp only [if_true]
          obtain ⟨dest, hr⟩ := hCopy n
          simp only [hr]
          exact ih _

theorem cutClear_timelineOps (env : Environment) (t0 t1 : Time)
    (t : Track (List Int)) : ∃ c, cutClear timelineOps env t0 t1 t = .ok c := by
  unfold cutClear
  split_ifs <;> exact ⟨_, rfl⟩

theorem OnCut_timelineOps_completed (env : Environment) (st : State (List Int)) :
    (OnCut timelineOps env st).completed = true := by
  unfold OnCut
  simp only [cutSelectedText_timelineOps]
  rw [cutVisit_total timelineOps _ _ (fun n => ⟨_, rfl⟩) (fun n => ⟨_, rfl⟩)]
  simp only [Bool.not_true, Bool.false_eq_true, if_false]
  rw [visitTracks_total _ (cutClear_timelineOps env _ _)]
  rfl

/-- The calls `OnCut` makes on a selected track that supports basic
editing, with the operations of the specification. -/
theorem cutTrack_timelineOps (env : Environment) (t0 t1 : Time) (n : Track (List Int))
    (hs : n.selected = true) (hb : n.basicEditing = true) :
    cutTrack timelineOps env t0 t1 n
      = .ok (⟨n.content.clips, removeRegion n.content.data t0 t1⟩,
          some (withContent n ⟨n.content.clips, copyRegion n.content.data t0 t1⟩)) := by
  unfold cutTrack
  by_cases hk : n.kind = TrackKind.note
  · simp only [hk, if_true]
    rfl
  · simp only [hk, if_false]
    have hc : cutClear timelineOps env t0 t1 n
        = .ok ⟨n.content.clips, removeRegion n.content.data t0 t1⟩ := by
      unfold cutClear IsSelectedOrSyncLockSelected
      simp only [hs, Bool.true_or, Bool.not_true, Bool.false_eq_true, if_false, hk, hb,
        if_true]
      split_ifs <;> rfl
    rw [hc]
    rfl

/-- The calls `OnPaste` makes at `t0` on what `OnCut` left of a channel,
with the copy `OnCut` took of `[t0, t1)`, give back the content. -/
theorem pasteTrack_timelineOps (t0 t1 : Time) (h0 : 0 ≤ t0) (h01 : t0 ≤ t1)
    (n : Track (List Int)) (i : Nat) :
    pasteTrack timelineOps (t1 - t0) t0 t0
        (withContent n ⟨n.content.clips, removeRegion n.content.data t0 t1⟩)
        { withContent n ⟨n.content.clips, copyRegion n.content.data t0 t1⟩ with id := i }
      = .ok (n.content, true) := by
  have hab : t0.toNat ≤ t1.toNat := Int.toNat_le_toNat h01
  have hdur : (t1 - t0).toNat = t1.toNat - t0.toNat := by
    have e0 : ((t0.toNat : Nat) : Int) = t0 := Int.toNat_of_nonneg h0
    have e1 : ((t1.toNat : Nat) : Int) = t1 := Int.toNat_of_nonneg (le_trans h0 h01)
    omega
  unfold pasteTrack
  cases hk : n.kind with
  | wave =>
    simp only [withContent, hk, timelineOps, insertAt, removeRegion, copyRegion,
      List.take_append_drop]
    rw [insert_restores n.content.data _ _ hab]
  | label =>
    simp only [withContent, hk, timelineOps, insertAt, removeRegion, copyRegion,
      List.take_append_drop, hdur]
    rw [shift_and_write_restores n.content.data _ _ hab]
  | note =>
    simp only [withContent, hk, timelineOps, insertAt, removeRegion, copyRegion,
      List.take_append_drop]
    rw [insert_restores n.content.data _ _ hab]
  | other =>
    simp only [withContent, hk, timelineOps, insertAt, removeRegion, copyRegion,
      List.take_append_drop]
    rw [insert_restores n.content.data _ _ hab]


theorem CutCopyAvailableFlag_target (project : Project D)
    (h : CutCopyAvailableFlag (fun _ => false) project = true) :
    project.selectedRegion.t0 ≠ project.selectedRegion.t1 ∧
    ∃ n ∈ project.tracks, n.selected = true ∧ n.basicEditing = true := by
  unfold CutCopyAvailableFlag at h
  simp only [List.filter_false, List.isEmpty_nil, Bool.not_true, Bool.false_eq_true,
    if_false, Bool.and_eq_true, ite_eq_left_iff, Bool.not_eq_true] at h
  have h2 : TimeSelectedPred project = true ∧ EditableTracksSelectedPred project = true := by
    by_contra hc
    have := h (by
      intro hh
      exact hc hh)
    cases this
  obtain ⟨ht, he⟩ := h2
  refine ⟨?_, ?_⟩
  · unfold TimeSelectedPred isPoint at ht
    simpa using ht
  · unfold EditableTracksSelectedPred Selected at he
    cases hl : (List.filter (fun t => t.basicEditing)
        (List.filter (fun t => t.selected) project.tracks)) with
    | nil => rw [hl] at he; cases he
    | cons n rest =>
      have hn : n ∈ List.filter (fun t => t.basicEditing)
          (List.filter (fun t => t.selected) project.tracks) := by
        rw [hl]; exact List.mem_cons_self _ _
      obtain ⟨hn1, hb⟩ := List.mem_filter.mp hn
      obtain ⟨hn2, hs⟩ := List.mem_filter.mp hn1
      exact ⟨n, hn2, hs, hb⟩

/-- The times of the selection after `OnCut` and then `OnPaste`, in the
arithmetic of `Time`: the end of the selection in
`OnCut_then_OnPaste_restores`. -/
theorem pasteTimes_cutTimes (t0 t1 : Time) :
    pasteTimes (cutTimes (t0, t1)).1 (cutTimes (t0, t1)).2 = (t0, t0 + (t1 - t0)) :=
  rfl

end EditMenus

namespace ExportFLAC

/-! ## Theorems: FLAC export -/

/-! ### The metadata block -/

theorem tagEntries_length (tags : List Tag) :
    (tagEntries tags).length
      = tags.length + (tags.filter (fun t => t.1 = "COMMENTS")).length := by
  induction tags with
  | nil => simp [tagEntries]
  | cons t rest ih =>
    obtain ⟨n, v⟩ := t
    unfold tagEntries
    by_cases h1 : n = "YEAR"
    · have h2 : n ≠ "COMMENTS" := by rw [h1]; decide
      simp [h1, ih, List.filter_cons]
      omega
    · by_cases h2 : n = "COMMENTS"
      · simp [h1, h2, ih, List.filter_cons]
        omega
      · simp [h1, h2, ih, List.filter_cons]
        omega

/-- When every append succeeds the loop of `MakeMetadata` extends the block
by the entries of the tags. -/
theorem makeMetadataLoop_ok (c : Collaborators) (tags : List Tag) :
    ∀ (metadata : List Tag) (events : List Event),
      (∀ k, k < (tagEntries tags).length → c.appendOk (metadata.length + k) = true) →
      (makeMetadataLoop c tags metadata events).1 = some (metadata ++ tagEntries tags) := by
  induction tags with
  | nil => intro metadata events _; simp [makeMetadataLoop, tagEntries]
  | cons t rest ih =>
    intro metadata events h
    obtain ⟨n, v⟩ := t
    unfold makeMetadataLoop
    unfold tagEntries at h ⊢
    by_cases h1 : n = "YEAR"
    · simp only [h1, TAG_YEAR, if_true] at h ⊢
      have h0 := h 0 (by simp)
      simp only [Nat.add_zero] at h0
      simp only [h0, Bool.not_true, Bool.false_eq_true, if_false]
      rw [ih]
      · simp
      · intro k hk
        have := h (k + 1) (by simp; omega)
        simpa [Nat.add_assoc, Nat.add_comm 1 k] using this
    · by_cases h2 : n = "COMMENTS"
      · have h1' : ¬ ("COMMENTS" = "YEAR") := by decide
        subst h2
        simp only [h1', TAG_YEAR, TAG_COMMENTS, if_true, if_false] at h ⊢
        have h0 := h 0 (by simp)
        have h1 := h 1 (by simp)
        simp only [Nat.add_zero] at h0
        simp only [h0, Bool.not_true, Bool.false_eq_true, if_false, List.length_append,
          List.length_singleton, h1]
        rw [ih]
        · simp
        · intro k hk
          have := h (k + 2) (by simp; omega)
          simpa [Nat.add_assoc, Nat.add_comm 2 k] using this
      · simp only [h1, h2, TAG_YEAR, TAG_COMMENTS, if_false] at h ⊢
        have h0 := h 0 (by simp)
        simp only [Nat.add_zero] at h0
        simp only [h0, Bool.not_true, Bool.false_eq_true, if_false]
        rw [ih]
        · simp
        · intro k hk
          have := h (k + 1) (by simp; omega)
          simpa [Nat.add_assoc, Nat.add_comm 1 k] using this

/-- When an append fails the loop of `MakeMetadata` returns no block. -/
theorem makeMetadataLoop_fail (c : Collaborators) (tags : List Tag) :
    ∀ (metadata : List Tag) (events : List Event),
      (∃ k, k < (tagEntries tags).length ∧ c.appendOk (metadata.length + k) = false) →
      (makeMetadataLoop c tags metadata events).1 = none := by
  induction tags with
  | nil => intro metadata events h; obtain ⟨k, hk, _⟩ := h; simp [tagEntries] at hk
  | cons t rest ih =>
    intro metadata events h
    obtain ⟨k, hk, hfail⟩ := h
    obtain ⟨n, v⟩ := t
    unfold makeMetadataLoop
    unfold tagEntries at hk
    by_cases h1 : n = "YEAR"
    · simp only [h1, TAG_YEAR, if_true] at hk ⊢
      cases h0 : c.appendOk metadata.length with
      | false => simp
      | true =>
        simp only [Bool.not_true, Bool.false_eq_true, if_false]
        apply ih
        cases k with
        | zero => simp [h0] at hfail
        | succ k =>
          refine ⟨k, by simpa using hk, ?_⟩
          simpa [Nat.add_assoc, Nat.add_comm 1 k] using hfail
    · by_cases h2 : n = "COMMENTS"
      · have h1' : ¬ ("COMMENTS" = "YEAR") := by decide
        subst h2
        simp only [h1', TAG_YEAR, TAG_COMMENTS, if_true, if_false] at hk ⊢
        cases h0 : c.appendOk metadata.length with
        | false => simp
        | true =>
          simp only [Bool.not_true, Bool.false_eq_true, if_false, List.length_append,
            List.length_singleton]
          cases h01 : c.appendOk (metadata.length + 1) with
          | false => simp
          | true =>
            simp only [Bool.not_true, Bool.false_eq_true, if_false]
            apply ih
            cases k with
            | zero => simp [h0] at hfail
            | succ k =>
              cases k with
              | zero => simp [h01] at hfail
              | succ k =>
                refine ⟨k, by simp at hk; omega, ?_⟩
                simpa [Nat.add_assoc, Nat.add_comm 2 k] using hfail
      · simp only [h1, h2, TAG_YEAR, TAG_COMMENTS, if_false] at hk ⊢
        cases h0 : c.appendOk metadata.length with
        | false => simp
        | true =>
          simp only [Bool.not_true, Bool.false_eq_true, if_false]
          apply ih
          cases k with
          | zero => simp [h0] at hfail
          | succ k =>
            refine ⟨k, by simpa using hk, ?_⟩
            simpa [Nat.add_assoc, Nat.add_comm 1 k] using hfail

/-- The loop of `MakeMetadata` only adds `appendComment` events: a property
of events that holds of these is kept. -/
theorem makeMetadataLoop_events (c : Collaborators) (P : Event → Prop)
    (hP : ∀ n v, P (Event.appendComment n v)) (tags : List Tag) :
    ∀ (metadata : List Tag) (events : List Event),
      (∀ e ∈ events, P e) →
      ∀ e ∈ (makeMetadataLoop c tags metadata events).2, P e := by
  induction tags with
  | nil => intro metadata events h; simpa [makeMetadataLoop] using h
  | cons t rest ih =>
    intro metadata events h
    obtain ⟨n, v⟩ := t
    have hext : ∀ (name : String) (evs : List Event),
        (∀ e ∈ evs, P e) →
        ∀ e ∈ evs ++ [Event.appendComment name v], P e := by
      intro name evs hevs e he
      rcases List.mem_append.mp he with he | he
      · exact hevs e he
      · simp at he; subst he; exact hP _ _
    unfold makeMetadataLoop
    split
    · split
      · exact hext _ _ h
      · exact ih _ _ (hext _ _ h)
    · split
      · split
        · exact hext _ _ h
        · dsimp only
          split
          · exact hext _ _ (hext _ _ h)
          · exact ih _ _ (hext _ _ (hext _ _ h))
      · split
        · exact hext _ _ h
        · exact ih _ _ (hext _ _ h)

/-! ### The set-up of the encoder -/

/-- After the clamp the level is an index of `flacLevels`. -/
theorem flacLevels_clamped (levelPref : Int) :
    ∃ level, flacLevels[(if levelPref < 0 ∨ levelPref > 8 then 5 else levelPref).toNat]?
      = some level := by
  by_cases h : levelPref < 0 ∨ levelPref > 8
  · simp only [h, if_true]
    exact ⟨_, rfl⟩
  · simp only [h, if_false]
    have h1 : 0 ≤ levelPref := by omega
    have h2 : levelPref ≤ 8 := by omega
    obtain ⟨n, rfl⟩ := Int.eq_ofNat_of_zero_le h1
    have h3 : n ≤ 8 := by omega
    simp only [Int.toNat_ofNat]
    interval_cases n <;> exact ⟨_, rfl⟩

theorem events_append_singleton (P : Event → Prop) (events : List Event) (x : Event)
    (h : ∀ e ∈ events, P e) (hx : P x) : ∀ e ∈ events ++ [x], P e := by
  intro e he
  rcases List.mem_append.mp he with he | he
  · exact h e he
  · simp at he; subst he; exact hx

theorem andCall_events (c : Collaborators) (P : Event → Prop) (s : Bool × List Event)
    (call : EncoderCall) (h : ∀ e ∈ s.2, P e) (hcall : P (Event.encoder call)) :
    ∀ e ∈ (andCall c s call).2, P e := by
  unfold andCall
  split
  · exact events_append_singleton P _ _ h hcall
  · exact h

theorem MakeMetadata_events (c : Collaborators) (P : Event → Prop)
    (hP : ∀ n v, P (Event.appendComment n v)) (tags : List Tag) (events : List Event)
    (h : ∀ e ∈ events, P e) : ∀ e ∈ (MakeMetadata c tags events).2, P e :=
  makeMetadataLoop_events c P hP tags [] events h

theorem andCall_isConfigure (c : Collaborators) (bitDepthPref : String)
    (s : Bool × List Event) (call : EncoderCall)
    (hcall : Event.isConfigure bitDepthPref (Event.encoder call) = true)
    (h : ∀ e ∈ s.2, Event.isConfigure bitDepthPref e = true) :
    ∀ e ∈ (andCall c s call).2, Event.isConfigure bitDepthPref e = true :=
  andCall_events c (fun e => Event.isConfigure bitDepthPref e = true) s call h hcall

theorem configureStart_events (c : Collaborators) (bitDepthPref : String)
    (numChannels : Nat) (rate : Int) :
    ∀ e ∈ (configureStart c numChannels rate).2,
      Event.isConfigure bitDepthPref e = true := by
  unfold configureStart
  dsimp only
  apply andCall_isConfigure _ _ _ _ (by rfl)
  apply andCall_isConfigure _ _ _ _ (by rfl)
  simp

theorem configureMetadata_events (c : Collaborators) (bitDepthPref : String)
    (s : Bool × List Event) (metadata : Option (List Tag))
    (h : ∀ e ∈ s.2, Event.isConfigure bitDepthPref e = true) :
    ∀ e ∈ (configureMetadata c s metadata).2,
      Event.isConfigure bitDepthPref e = true := by
  unfold configureMetadata
  split
  · exact events_append_singleton _ _ _ h rfl
  · exact h

theorem configureLevel_events (c : Collaborators) (bitDepthPref : String)
    (numChannels : Nat) (level : FlacLevel) (s : Bool × List Event)
    (h : ∀ e ∈ s.2, Event.isConfigure bitDepthPref e = true) :
    ∀ e ∈ (configureLevel c bitDepthPref numChannels level s).2,
      Event.isConfigure bitDepthPref e = true := by
  unfold configureLevel
  dsimp only
  apply andCall_isConfigure _ _ _ _ (by rfl)
  apply andCall_isConfigure _ _ _ _ (by rfl)
  apply andCall_isConfigure _ _ _ _ (by rfl)
  apply andCall_isConfigure _ _ _ _ (by rfl)
  apply andCall_isConfigure _ _ _ _ (by rfl)
  have hbits : ∀ e ∈ (if bitDepthPref = "24" then andCall c s (.set_bits_per_sample 24)
      else andCall c s (.set_bits_per_sample 16)).2,
      Event.isConfigure bitDepthPref e = true := by
    by_cases h24 : bitDepthPref = "24"
    · simp only [h24, if_true]
      exact andCall_isConfigure _ _ _ _ (by decide) (by simpa [h24] using h)
    · simp only [h24, if_false]
      exact andCall_isConfigure _ _ _ _
        (by simp [Event.isConfigure, Event.isSetup, h24]) h
  split
  · apply andCall_isConfigure _ _ _ _ (by rfl)
    apply andCall_isConfigure _ _ _ _ (by rfl)
    apply andCall_isConfigure _ _ _ _ (by rfl)
    apply andCall_isConfigure _ _ _ _ (by rfl)
    exact hbits
  · apply andCall_isConfigure _ _ _ _ (by rfl)
    apply andCall_isConfigure _ _ _ _ (by rfl)
    apply andCall_isConfigure _ _ _ _ (by rfl)
    apply andCall_isConfigure _ _ _ _ (by rfl)
    exact hbits

/-- The configuration of the encoder never reads outside `flacLevels`; it
produces only events of the configuration; when it fails it has shown an
error dialog; when it succeeds the format is `int24Sample` exactly when the
bit-depth parameter is "24". -/
theorem configureEncoder_spec (c : Collaborators) (levelPref : Int)
    (bitDepthPref : String) (numChannels : Nat) (rate : Int) (tags : List Tag) :
    match configureEncoder c levelPref bitDepthPref numChannels rate tags with
    | .failed events =>
      (∀ e ∈ events, Event.isConfigure bitDepthPref e = true) ∧
      ∃ code, Event.showExportErrorDialog code ∈ events
    | .undefined => False
    | .ready format events =>
      (∀ e ∈ events, Event.isConfigure bitDepthPref e = true) ∧
      format = (if bitDepthPref = "24" then sampleFormat.int24Sample
        else sampleFormat.int16Sample) := by
  obtain ⟨level, hlevel⟩ := flacLevels_clamped levelPref
  have hP : ∀ n v, Event.isConfigure bitDepthPref (Event.appendComment n v) = true :=
    fun _ _ => rfl
  have hstart := configureStart_events c bitDepthPref numChannels rate
  unfold configureEncoder
  simp only [hlevel]
  generalize configureStart c numChannels rate = s0 at hstart ⊢
  obtain ⟨ok, ev⟩ := s0
  have hm : ∀ e ∈ (if ok = true then MakeMetadata c tags ev else (none, ev)).2,
      Event.isConfigure bitDepthPref e = true := by
    split
    · exact MakeMetadata_events c _ hP tags ev hstart
    · exact hstart
  generalize (if ok = true then MakeMetadata c tags ev else (none, ev)) = m at hm ⊢
  obtain ⟨metadata, ev2⟩ := m
  dsimp only at hm ⊢
  have h1 := configureMetadata_events c bitDepthPref (ok, ev2) metadata hm
  have h2 := configureLevel_events c bitDepthPref numChannels level _ h1
  by_cases hnone : (ok && metadata.isNone) = true
  · simp only [hnone, if_true]
    exact ⟨events_append_singleton _ _ _ hm (by rfl),
      ⟨"FLAC:283", List.mem_append_right _ (List.mem_singleton.mpr rfl)⟩⟩
  · simp only [hnone, if_false]
    cases hs : (configureLevel c bitDepthPref numChannels level
        (configureMetadata c (ok, ev2) metadata)).1 with
    | false =>
      simp only [Bool.not_false, if_true]
      exact ⟨events_append_singleton _ _ _ h2 (by rfl),
        ⟨"FLAC:336", List.mem_append_right _ (List.mem_singleton.mpr rfl)⟩⟩
    | true =>
      simp only [Bool.not_true, Bool.false_eq_true, if_false]
      exact ⟨h2, trivial⟩

theorem isSetup_of_isConfigure (bitDepthPref : String) (e : Event)
    (h : Event.isConfigure bitDepthPref e = true) :
    Event.isSetup bitDepthPref e = true := by
  unfold Event.isConfigure at h
  split at h
  · simp at h
  · simp at h
  · simp at h
  · exact h

/-- The set-up never reads outside `flacLevels`; it produces only events of
the set-up; when it fails it has reported an error; when it succeeds the
file is open, the encoder initialised (`init` is the last event), and the
format is `int24Sample` exactly when the bit-depth parameter is "24". -/
theorem setupEncoder_spec (c : Collaborators) (levelPref : Int)
    (bitDepthPref : String) (numChannels : Nat) (rate : Int) (tags : List Tag) :
    match setupEncoder c levelPref bitDepthPref numChannels rate tags with
    | .failed events =>
      (∀ e ∈ events, Event.isSetup bitDepthPref e = true) ∧
      (∃ e ∈ events, Event.reportsError e = true)
    | .undefined => False
    | .ready format events =>
      (∀ e ∈ events, Event.isSetup bitDepthPref e = true) ∧
      format = (if bitDepthPref = "24" then sampleFormat.int24Sample
        else sampleFormat.int16Sample) ∧
      c.openOk = true ∧ c.initStatus = 0 ∧
      Event.encoder EncoderCall.init ∈ events := by
  have hconf := configureEncoder_spec c levelPref bitDepthPref numChannels rate tags
  unfold setupEncoder
  cases hc : configureEncoder c levelPref bitDepthPref numChannels rate tags with
  | undefined => rw [hc] at hconf; exact hconf
  | failed events =>
    rw [hc] at hconf
    obtain ⟨h1, code, h2⟩ := hconf
    exact ⟨fun e he => isSetup_of_isConfigure _ _ (h1 e he), ⟨_, h2, rfl⟩⟩
  | ready format events =>
    rw [hc] at hconf
    obtain ⟨h1, h2⟩ := hconf
    have h1' : ∀ e ∈ events, Event.isSetup bitDepthPref e = true :=
      fun e he => isSetup_of_isConfigure _ _ (h1 e he)
    have hopen := events_append_singleton _ _ Event.openFile h1' (by rfl)
    cases ho : c.openOk with
    | false =>
      simp only [ho, Bool.not_false, if_true]
      exact ⟨events_append_singleton _ _ _ hopen (by rfl),
        ⟨_, List.mem_append_right _ (List.mem_singleton.mpr rfl), rfl⟩⟩
    | true =>
      have hinit := events_append_singleton _ _ (Event.encoder EncoderCall.init) hopen
        (by rfl)
      simp only [ho, Bool.not_true, Bool.false_eq_true, if_false]
      by_cases hi : c.initStatus = 0
      · simp only [hi, ne_eq, not_true_eq_false, if_false]
        exact ⟨hinit, h2, trivial, trivial,
          List.mem_append_right _ (List.mem_singleton.mpr rfl)⟩
      · simp only [ne_eq, hi, not_false_eq_true, if_true]
        exact ⟨events_append_singleton _ _ _ hinit (by rfl),
          ⟨_, List.mem_append_right _ (List.mem_singleton.mpr rfl), rfl⟩⟩

/-! ### The sample buffer -/

theorem fillChannel_spec (numChannels : Nat) (format : sampleFormat)
    (mixed : Nat → Int) (i : Nat) :
    ∀ (samples : Nat) (buffer result : SampleBuffer),
      fillChannel numChannels format mixed i samples buffer = some result →
      ∀ a b, result a b
        = if a = i ∧ b < samples then readSample format (mixed b) else buffer a b := by
  intro samples
  induction samples with
  | zero =>
    intro buffer result h a b
    simp [fillChannel] at h
    subst h
    simp
  | succ n ih =>
    intro buffer result h a b
    unfold fillChannel at h
    cases h1 : fillChannel numChannels format mixed i n buffer with
    | none => simp [h1] at h
    | some b1 =>
      simp only [h1] at h
      unfold writeSample at h
      split at h
      · simp only [Option.some.injEq] at h
        subst h
        have := ih buffer b1 h1 a b
        by_cases hab : a = i ∧ b = n
        · obtain ⟨ha, hb⟩ := hab
          subst ha hb
          simp
        · simp only [hab, if_false, this]
          by_cases ha : a = i
          · have hb : b ≠ n := fun hb => hab ⟨ha, hb⟩
            by_cases hlt : b < n
            · have : b < n + 1 := by omega
              simp [ha, hlt, this]
            · have : ¬ b < n + 1 := by omega
              simp [ha, hlt, this]
          · simp [ha]
      · simp at h

theorem fillChannel_some (numChannels : Nat) (format : sampleFormat)
    (mixed : Nat → Int) (i : Nat) (hi : i < numChannels) :
    ∀ (samples : Nat) (buffer : SampleBuffer), samples ≤ SAMPLES_PER_RUN →
      ∃ result, fillChannel numChannels format mixed i samples buffer = some result := by
  intro samples
  induction samples with
  | zero => intro buffer _; exact ⟨buffer, rfl⟩
  | succ n ih =>
    intro buffer hn
    obtain ⟨b1, h1⟩ := ih buffer (by omega)
    unfold fillChannel
    simp only [h1]
    unfold writeSample
    have : i < numChannels ∧ n < SAMPLES_PER_RUN := ⟨hi, by omega⟩
    simp only [this, and_self, if_true]
    exact ⟨_, rfl⟩

theorem fillBuffer_spec (numChannels : Nat) (format : sampleFormat)
    (block : MixerBlock) :
    ∀ (channels : Nat) (buffer result : SampleBuffer),
      fillBuffer numChannels format block channels buffer = some result →
      ∀ a b, result a b
        = if a < channels ∧ b < block.samplesThisRun
          then readSample format (block.GetBuffer a b) else buffer a b := by
  intro channels
  induction channels with
  | zero =>
    intro buffer result h a b
    simp [fillBuffer] at h
    subst h
    simp
  | succ m ih =>
    intro buffer result h a b
    unfold fillBuffer at h
    cases h1 : fillBuffer numChannels format block m buffer with
    | none => simp [h1] at h
    | some b1 =>
      simp only [h1] at h
      have h2 := fillChannel_spec _ _ _ _ _ _ _ h a b
      have h3 := ih buffer b1 h1 a b
      rw [h2, h3]
      by_cases ha : a = m
      · subst ha
        by_cases hb : b < block.samplesThisRun
        · simp [hb]
        · simp [hb]
      · by_cases hlt : a < m
        · have : a < m + 1 := by omega
          simp [ha, hlt, this]
        · have : ¬ a < m + 1 := by omega
          simp [ha, hlt, this]

theorem fillBuffer_some (numChannels : Nat) (format : sampleFormat)
    (block : MixerBlock) (hn : block.samplesThisRun ≤ SAMPLES_PER_RUN) :
    ∀ (channels : Nat) (buffer : SampleBuffer), channels ≤ numChannels →
      ∃ result, fillBuffer numChannels format block channels buffer = some result := by
  intro channels
  induction channels with
  | zero => intro buffer _; exact ⟨buffer, rfl⟩
  | succ m ih =>
    intro buffer hm
    obtain ⟨b1, h1⟩ := ih buffer (by omega)
    unfold fillBuffer
    simp only [h1]
    exact fillChannel_some _ _ _ _ (by omega) _ _ hn

/-- After the buffer is filled from a block, `encoder.process` is handed the
samples of the block, read at the width of the format. -/
theorem handedOver_fillBuffer (numChannels : Nat) (format : sampleFormat)
    (block : MixerBlock) (buffer result : SampleBuffer)
    (h : fillBuffer numChannels format block numChannels buffer = some result) :
    handedOver numChannels block.samplesThisRun result
      = expectedSamples numChannels format block := by
  unfold handedOver expectedSamples
  apply List.map_congr_left
  intro i hi
  apply List.map_congr_left
  intro j hj
  have := fillBuffer_spec _ _ _ _ _ _ h i j
  rw [this]
  simp [List.mem_range.mp hi, List.mem_range.mp hj]

/-! ### The export loop -/

/-- The events the loop starts with are kept in front of the events it
adds. -/
theorem exportLoop_events (c : Collaborators) (numChannels : Nat)
    (format : sampleFormat) (blocks : List MixerBlock) :
    ∀ (k : Nat) (buffer : SampleBuffer) (events : List Event),
      exportLoop c numChannels format blocks k buffer events
        = (exportLoop c numChannels format blocks k buffer []).map
            (fun le => ⟨le.exportResult, events ++ le.events⟩) := by
  induction blocks with
  | nil => intro k buffer events; simp [exportLoop]
  | cons block blocks ih =>
    intro k buffer events
    unfold exportLoop
    dsimp only
    by_cases h0 : block.samplesThisRun = 0
    · simp [h0]
    · simp only [h0, if_false]
      cases hfill : fillBuffer numChannels format block numChannels buffer with
      | none => simp
      | some buf =>
        simp only []
        cases hp : c.processOk k with
        | false => simp
        | true =>
          simp only [Bool.not_true, Bool.false_eq_true, if_false]
          by_cases hs : c.progress k = ExportResult.Success
          · simp only [hs, if_true]
            rw [ih (k + 1) buf (events ++ _ ++ _ ++ _), ih (k + 1) buf ([] ++ _ ++ _ ++ _)]
            simp [Option.map_map, Function.comp_def]
          · simp [hs]

/-- One turn of the loop on a block that is not empty. -/
theorem exportLoop_cons (c : Collaborators) (numChannels : Nat)
    (format : sampleFormat) (block : MixerBlock) (blocks : List MixerBlock)
    (k : Nat) (buffer : SampleBuffer) (h0 : block.samplesThisRun ≠ 0) :
    exportLoop c numChannels format (block :: blocks) k buffer []
      = match fillBuffer numChannels format block numChannels buffer with
        | none => none
        | some buf =>
          if c.processOk k = false then
            some ⟨ExportResult.Error,
              [Event.mixerProcess block.samplesThisRun,
               Event.encoder (EncoderCall.process block.samplesThisRun
                 (expectedSamples numChannels format block)),
               Event.showDiskFullExportErrorDialog]⟩
          else if c.progress k = ExportResult.Success then
            (exportLoop c numChannels format blocks (k + 1) buf []).map
              (fun le => ⟨le.exportResult,
                [Event.mixerProcess block.samplesThisRun,
                 Event.encoder (EncoderCall.process block.samplesThisRun
                   (expectedSamples numChannels format block)),
                 Event.updateProgress ExportResult.Success] ++ le.events⟩)
          else
            some ⟨c.progress k,
              [Event.mixerProcess block.samplesThisRun,
               Event.encoder (EncoderCall.process block.samplesThisRun
                 (expectedSamples numChannels format block)),
               Event.updateProgress (c.progress k)]⟩ := by
  conv_lhs => unfold exportLoop
  dsimp only
  simp only [h0, if_false]
  cases hfill : fillBuffer numChannels format block numChannels buffer with
  | none => rfl
  | some buf =>
    simp only [handedOver_fillBuffer _ _ _ _ _ hfill]
    cases hp : c.processOk k with
    | false => simp
    | true =>
      simp only [Bool.not_true, Bool.false_eq_true, if_false]
      by_cases hs : c.progress k = ExportResult.Success
      · simp only [hs, if_true]
        rw [exportLoop_events]
        simp
      · simp [hs]

/-- The loop on an empty block list, or on a list that starts with an empty
block: `Process` returns 0 and the loop ends. -/
theorem exportLoop_stop (c : Collaborators) (numChannels : Nat)
    (format : sampleFormat) (blocks : List MixerBlock) (k : Nat)
    (buffer : SampleBuffer) (h : delivered blocks = []) :
    exportLoop c numChannels format blocks k buffer []
      = some ⟨ExportResult.Success, [Event.mixerProcess 0]⟩ := by
  cases blocks with
  | nil => simp [exportLoop]
  | cons block blocks =>
    have h0 : block.samplesThisRun = 0 := by
      by_contra hne
      simp [delivered, List.takeWhile, hne] at h
    unfold exportLoop
    simp [h0]

theorem delivered_cons (block : MixerBlock) (blocks : List MixerBlock)
    (h0 : block.samplesThisRun ≠ 0) :
    delivered (block :: blocks) = block :: delivered blocks := by
  simp [delivered, List.takeWhile, h0]

theorem delivered_cons_zero (block : MixerBlock) (blocks : List MixerBlock)
    (h0 : block.samplesThisRun = 0) :
    delivered (block :: blocks) = [] := by
  simp [delivered, List.takeWhile, h0]

/-- The loop produces only loop events, and every `encoder.process` call
hands over the samples of one of the mixer's blocks. -/
theorem exportLoop_general (c : Collaborators) (numChannels : Nat)
    (format : sampleFormat) (blocks : List MixerBlock) :
    ∀ (k : Nat) (buffer : SampleBuffer) (loopEnd : LoopEnd),
      exportLoop c numChannels format blocks k buffer [] = some loopEnd →
      (∀ e ∈ loopEnd.events, Event.isLoop e = true) ∧
      (∀ samples data,
        Event.encoder (EncoderCall.process samples data) ∈ loopEnd.events →
        ∃ b ∈ blocks, samples = b.samplesThisRun ∧
          data = expectedSamples numChannels format b) := by
  induction blocks with
  | nil =>
    intro k buffer le h
    simp [exportLoop] at h
    subst h
    simp [Event.isLoop]
  | cons block blocks ih =>
    intro k buffer le h
    by_cases h0 : block.samplesThisRun = 0
    · rw [exportLoop_stop _ _ _ _ _ _ (delivered_cons_zero _ _ h0)] at h
      simp at h
      subst h
      simp [Event.isLoop]
    · rw [exportLoop_cons _ _ _ _ _ _ _ h0] at h
      cases hfill : fillBuffer numChannels format block numChannels buffer with
      | none => simp [hfill] at h
      | some buf =>
        simp only [hfill] at h
        cases hp : c.processOk k with
        | false =>
          simp only [hp, if_true, Option.some.injEq] at h
          subst h
          simp [Event.isLoop]
        | true =>
          simp only [hp, Bool.true_eq_false, if_false] at h
          by_cases hs : c.progress k = ExportResult.Success
          · simp only [hs, if_true] at h
            cases hrec : exportLoop c numChannels format blocks (k + 1) buf [] with
            | none => simp [hrec] at h
            | some le2 =>
              simp only [hrec, Option.map_some', Option.some.injEq] at h
              subst h
              obtain ⟨h1, h2⟩ := ih (k + 1) buf le2 hrec
              constructor
              · intro e he
                simp only [List.cons_append, List.nil_append, List.mem_cons] at he
                rcases he with he | he | he | he
                · subst he; rfl
                · subst he; rfl
                · subst he; rfl
                · exact h1 e he
              · intro samples data he
                simp only [List.cons_append, List.nil_append, List.mem_cons,
                  Event.encoder.injEq, EncoderCall.process.injEq, reduceCtorEq,
                  false_or] at he
                rcases he with he | he
                · exact ⟨block, List.mem_cons_self _ _, he.1, he.2⟩
                · obtain ⟨b, hb, hb2⟩ := h2 samples data he
                  exact ⟨b, List.mem_cons_of_mem _ hb, hb2⟩
          · simp only [hs, if_false, Option.some.injEq] at h
            subst h
            simp [Event.isLoop]

/-- The loop stays inside `tmpsmplbuf` when no block is larger than
`SAMPLES_PER_RUN`. -/
theorem exportLoop_some (c : Collaborators) (numChannels : Nat)
    (format : sampleFormat) (blocks : List MixerBlock) :
    ∀ (k : Nat) (buffer : SampleBuffer),
      (∀ b ∈ blocks, b.samplesThisRun ≤ SAMPLES_PER_RUN) →
      ∃ loopEnd, exportLoop c numChannels format blocks k buffer [] = some loopEnd := by
  induction blocks with
  | nil => intro k buffer _; exact ⟨_, exportLoop_stop _ _ _ _ _ _ rfl⟩
  | cons block blocks ih =>
    intro k buffer hb
    by_cases h0 : block.samplesThisRun = 0
    · exact ⟨_, exportLoop_stop _ _ _ _ _ _ (delivered_cons_zero _ _ h0)⟩
    · rw [exportLoop_cons _ _ _ _ _ _ _ h0]
      obtain ⟨buf, hfill⟩ := fillBuffer_some numChannels format block
        (hb block (List.mem_cons_self _ _)) numChannels buffer (le_refl _)
      simp only [hfill]
      cases hp : c.processOk k with
      | false => simp
      | true =>
        simp only [Bool.true_eq_false, if_false]
        by_cases hs : c.progress k = ExportResult.Success
        · simp only [hs, if_true]
          obtain ⟨le2, h2⟩ := ih (k + 1) buf
            (fun b hb2 => hb b (List.mem_cons_of_mem _ hb2))
          exact ⟨_, by rw [h2]; rfl⟩
        · simp [hs]

/-- The loop when every block is accepted and every progress update reports
Success: it ends with Success after one `encoder.process` call per delivered
block, and `Process` was called once more, returning 0. -/
theorem exportLoop_all_accepted (c : Collaborators) (numChannels : Nat)
    (format : sampleFormat) (blocks : List MixerBlock) :
    ∀ (k : Nat) (buffer : SampleBuffer) (loopEnd : LoopEnd),
      exportLoop c numChannels format blocks k buffer [] = some loopEnd →
      (∀ i, i < (delivered blocks).length →
        c.processOk (k + i) = true ∧ c.progress (k + i) = ExportResult.Success) →
      loopEnd.exportResult = ExportResult.Success ∧
      processFrames loopEnd.events = (delivered blocks).map (fun b => b.samplesThisRun) ∧
      mixerAnswers loopEnd.events
        = (delivered blocks).map (fun b => b.samplesThisRun) ++ [0] := by
  induction blocks with
  | nil =>
    intro k buffer le h _
    simp [exportLoop] at h
    subst h
    simp [delivered, processFrames, mixerAnswers]
  | cons block blocks ih =>
    intro k buffer le h hall
    by_cases h0 : block.samplesThisRun = 0
    · rw [exportLoop_stop _ _ _ _ _ _ (delivered_cons_zero _ _ h0)] at h
      simp at h
      subst h
      simp [delivered_cons_zero _ _ h0, processFrames, mixerAnswers]
    · rw [exportLoop_cons _ _ _ _ _ _ _ h0] at h
      rw [delivered_cons _ _ h0] at hall ⊢
      have hk := hall 0 (by simp)
      simp only [Nat.add_zero] at hk
      cases hfill : fillBuffer numChannels format block numChannels buffer with
      | none => simp [hfill] at h
      | some buf =>
        simp only [hfill, hk.1, hk.2, Bool.true_eq_false, if_false, if_true] at h
        cases hrec : exportLoop c numChannels format blocks (k + 1) buf [] with
        | none => simp [hrec] at h
        | some le2 =>
          simp only [hrec, Option.map_some', Option.some.injEq] at h
          subst h
          have hall2 : ∀ i, i < (delivered blocks).length →
              c.processOk (k + 1 + i) = true ∧
              c.progress (k + 1 + i) = ExportResult.Success := by
            intro i hi
            have := hall (i + 1) (by simp; omega)
            simpa [Nat.add_assoc, Nat.add_comm 1 i] using this
          obtain ⟨h1, h2, h3⟩ := ih (k + 1) buf le2 hrec hall2
          refine ⟨h1, ?_, ?_⟩
          · simp only [processFrames] at h2 ⊢
            simp [List.filterMap_cons, h2]
          · simp only [mixerAnswers] at h3 ⊢
            simp [List.filterMap_cons, h3]

/-- The loop when turn `j` is the first whose `encoder.process` fails or
whose progress update does not report Success: it ends on that turn, with
Error for the failed call and otherwise with what the update reported, after
`j + 1` calls of `Process` and of `encoder.process`. -/
theorem exportLoop_first_terminal (c : Collaborators) (numChannels : Nat)
    (format : sampleFormat) (blocks : List MixerBlock) :
    ∀ (k : Nat) (buffer : SampleBuffer) (loopEnd : LoopEnd) (j : Nat),
      exportLoop c numChannels format blocks k buffer [] = some loopEnd →
      j < (delivered blocks).length →
      (∀ i, i < j →
        c.processOk (k + i) = true ∧ c.progress (k + i) = ExportResult.Success) →
      (c.processOk (k + j) = false ∨ c.progress (k + j) ≠ ExportResult.Success) →
      loopEnd.exportResult
        = (if c.processOk (k + j) = false then ExportResult.Error
           else c.progress (k + j)) ∧
      processFrames loopEnd.events
        = ((delivered blocks).take (j + 1)).map (fun b => b.samplesThisRun) ∧
      mixerAnswers loopEnd.events
        = ((delivered blocks).take (j + 1)).map (fun b => b.samplesThisRun) := by
  induction blocks with
  | nil => intro k buffer le j _ hj; simp [delivered] at hj
  | cons block blocks ih =>
    intro k buffer le j h hj hbefore hbad
    by_cases h0 : block.samplesThisRun = 0
    · simp [delivered_cons_zero _ _ h0] at hj
    · rw [exportLoop_cons _ _ _ _ _ _ _ h0] at h
      rw [delivered_cons _ _ h0] at hj ⊢
      cases hfill : fillBuffer numChannels format block numChannels buffer with
      | none => simp [hfill] at h
      | some buf =>
        simp only [hfill] at h
        cases j with
        | zero =>
          simp only [Nat.add_zero] at hbad ⊢
          cases hp : c.processOk k with
          | false =>
            simp only [hp, if_true, Option.some.injEq] at h
            subst h
            simp [processFrames, mixerAnswers]
          | true =>
            have hs : c.progress k ≠ ExportResult.Success := by
              rcases hbad with hbad | hbad
              · rw [hp] at hbad; exact absurd hbad (by decide)
              · exact hbad
            simp only [hp, hs, Bool.true_eq_false, if_false, Option.some.injEq] at h
            subst h
            simp [processFrames, mixerAnswers]
        | succ j =>
          have hk := hbefore 0 (by omega)
          simp only [Nat.add_zero] at hk
          simp only [hk.1, hk.2, Bool.true_eq_false, if_false, if_true] at h
          cases hrec : exportLoop c numChannels format blocks (k + 1) buf [] with
          | none => simp [hrec] at h
          | some le2 =>
            simp only [hrec, Option.map_some', Option.some.injEq] at h
            subst h
            have hb2 : ∀ i, i < j →
                c.processOk (k + 1 + i) = true ∧
                c.progress (k + 1 + i) = ExportResult.Success := by
              intro i hi
              have := hbefore (i + 1) (by omega)
              simpa [Nat.add_assoc, Nat.add_comm 1 i] using this
            have hbad2 : c.processOk (k + 1 + j) = false ∨
                c.progress (k + 1 + j) ≠ ExportResult.Success := by
              simpa [Nat.add_assoc, Nat.add_comm 1 j] using hbad
            have hj2 : j < (delivered blocks).length := by simpa using hj
            obtain ⟨h1, h2, h3⟩ := ih (k + 1) buf le2 j hrec hj2 hb2 hbad2
            have hidx : k + (j + 1) = k + 1 + j := by omega
            refine ⟨?_, ?_, ?_⟩
            · rw [hidx]; exact h1
            · simp only [processFrames] at h2 ⊢
              simp [List.filterMap_cons, h2]
            · simp only [mixerAnswers] at h3 ⊢
              simp [List.filterMap_cons, h3]

/-! ### The whole export -/

/-- Once the set-up has succeeded, `Export` is the export loop followed by
the finalization: the encoder is finished and the file detached after the
events of the loop, and the result is the one the loop ended with, except
that a failing `finish` turns Success or Stopped into Error. -/
theorem Export_of_ready (c : Collaborators) (levelPref : Int) (bitDepthPref : String)
    (numChannels : Nat) (rate : Int) (selectionOnly : Bool) (tags : List Tag)
    (format : sampleFormat) (setup : List Event)
    (h : setupEncoder c levelPref bitDepthPref numChannels rate tags
      = .ready format setup) :
    Export c levelPref bitDepthPref numChannels rate selectionOnly tags
      = (exportLoop c numChannels format c.blocks 0 (fun _ _ => 0) []).map
          (fun le =>
            (if le.exportResult ≠ ExportResult.Cancelled ∧
                le.exportResult ≠ ExportResult.Error ∧ c.finishOk = false
              then ExportResult.Error else le.exportResult,
             setup ++ [Event.createMixer numChannels SAMPLES_PER_RUN format,
                Event.setStatusString
                  (if selectionOnly then "Exporting the selected audio as FLAC"
                   else "Exporting the audio as FLAC")]
               ++ le.events ++ [Event.detachFile, Event.encoder EncoderCall.finish])) := by
  unfold Export
  simp only [h]
  rw [exportLoop_events]
  cases hloop : exportLoop c numChannels format c.blocks 0 (fun _ _ => 0) [] with
  | none => rfl
  | some le =>
    simp only [Option.map_some', finishExport]
    by_cases h1 : le.exportResult ≠ ExportResult.Cancelled ∧
        le.exportResult ≠ ExportResult.Error
    · cases hf : c.finishOk with
      | false => simp [h1, hf]
      | true => simp [h1, hf]
    · have h2 : ¬ (le.exportResult ≠ ExportResult.Cancelled ∧
          le.exportResult ≠ ExportResult.Error ∧ c.finishOk = false) :=
        fun h3 => h1 ⟨h3.1, h3.2.1⟩
      simp only [h1, h2, if_false]
      simp

/-- When the set-up fails, `Export` returns Error with the events of the
set-up. -/
theorem Export_of_failed (c : Collaborators) (levelPref : Int) (bitDepthPref : String)
    (numChannels : Nat) (rate : Int) (selectionOnly : Bool) (tags : List Tag)
    (setup : List Event)
    (h : setupEncoder c levelPref bitDepthPref numChannels rate tags = .failed setup) :
    Export c levelPref bitDepthPref numChannels rate selectionOnly tags
      = some (ExportResult.Error, setup) := by
  unfold Export
  simp only [h]

theorem processFrames_append (a b : List Event) :
    processFrames (a ++ b) = processFrames a ++ processFrames b := by
  simp [processFrames, List.filterMap_append]

theorem mixerAnswers_append (a b : List Event) :
    mixerAnswers (a ++ b) = mixerAnswers a ++ mixerAnswers b := by
  simp [mixerAnswers, List.filterMap_append]

/-- Events of the set-up are no `encoder.process` calls, no answers of the
mixer, no detaching of the file and no `finish`. -/
theorem setup_events_quiet (bitDepthPref : String) (events : List Event)
    (h : ∀ e ∈ events, Event.isSetup bitDepthPref e = true) :
    processFrames events = [] ∧ mixerAnswers events = [] ∧
    events.countP Event.isDetach = 0 ∧ events.countP Event.isFinish = 0 := by
  induction events with
  | nil => simp [processFrames, mixerAnswers]
  | cons e es ih =>
    have he := h e (List.mem_cons_self _ _)
    obtain ⟨h1, h2, h3, h4⟩ := ih (fun x hx => h x (List.mem_cons_of_mem _ hx))
    simp only [processFrames, mixerAnswers] at h1 h2 ⊢
    simp only [List.filterMap_cons, List.countP_cons, h1, h2, h3, h4]
    cases e with
    | encoder call => cases call <;> first | (simp [Event.isSetup] at he; done) | simp [Event.isDetach, Event.isFinish]
    | _ => first | (simp [Event.isSetup] at he; done) | simp [Event.isDetach, Event.isFinish]

/-- Events of the loop are no detaching of the file and no `finish`. -/
theorem loop_events_quiet (events : List Event)
    (h : ∀ e ∈ events, Event.isLoop e = true) :
    events.countP Event.isDetach = 0 ∧ events.countP Event.isFinish = 0 := by
  induction events with
  | nil => simp
  | cons e es ih =>
    have he := h e (List.mem_cons_self _ _)
    obtain ⟨h3, h4⟩ := ih (fun x hx => h x (List.mem_cons_of_mem _ hx))
    simp only [List.countP_cons, h3, h4]
    cases e with
    | encoder call => cases call <;> first | (simp [Event.isLoop] at he; done) | simp [Event.isDetach, Event.isFinish]
    | _ => first | (simp [Event.isLoop] at he; done) | simp [Event.isDetach, Event.isFinish]

theorem andCall_ok (c : Collaborators) (s : Bool × List Event) (call : EncoderCall)
    (hs : s.1 = true) (hcall : c.setterOk call = true) : (andCall c s call).1 = true := by
  simp [andCall, hs, hcall]

theorem andCall_failed (c : Collaborators) (s : Bool × List Event) (call : EncoderCall)
    (hs : s.1 = false) : andCall c s call = s := by
  simp [andCall, hs]

theorem configureLevel_ok (c : Collaborators) (bitDepthPref : String)
    (numChannels : Nat) (level : FlacLevel) (s : Bool × List Event)
    (hset : ∀ call, c.setterOk call = true) (hs : s.1 = true) :
    (configureLevel c bitDepthPref numChannels level s).1 = true := by
  unfold configureLevel
  dsimp only
  have hbits : (if bitDepthPref = "24" then andCall c s (.set_bits_per_sample 24)
      else andCall c s (.set_bits_per_sample 16)).1 = true := by
    split <;> exact andCall_ok _ _ _ hs (hset _)
  split <;>
    (repeat' apply andCall_ok) <;> first | exact hset _ | exact hbits

theorem configureLevel_failed (c : Collaborators) (bitDepthPref : String)
    (numChannels : Nat) (level : FlacLevel) (s : Bool × List Event)
    (hs : s.1 = false) :
    configureLevel c bitDepthPref numChannels level s = s := by
  unfold configureLevel
  dsimp only
  have hbits : (if bitDepthPref = "24" then andCall c s (.set_bits_per_sample 24)
      else andCall c s (.set_bits_per_sample 16)) = s := by
    split <;> exact andCall_failed _ _ _ hs
  rw [hbits]
  split <;> simp [andCall_failed, hs]

/-- When every call of the set-up succeeds, the set-up succeeds. -/
theorem setupEncoder_ready (c : Collaborators) (levelPref : Int) (bitDepthPref : String)
    (numChannels : Nat) (rate : Int) (tags : List Tag)
    (hset : ∀ call, c.setterOk call = true) (happ : ∀ k, c.appendOk k = true)
    (hopen : c.openOk = true) (hinit : c.initStatus = 0) :
    ∃ format setup,
      setupEncoder c levelPref bitDepthPref numChannels rate tags
        = .ready format setup := by
  obtain ⟨level, hlevel⟩ := flacLevels_clamped levelPref
  have hstart : (configureStart c numChannels rate).1 = true := by
    unfold configureStart
    exact andCall_ok _ _ _ (andCall_ok _ _ _ rfl (hset _)) (hset _)
  have hmeta : (MakeMetadata c tags (configureStart c numChannels rate).2).1
      = some (tagEntries tags) := by
    have := makeMetadataLoop_ok c tags [] (configureStart c numChannels rate).2
      (fun k _ => happ _)
    simpa [MakeMetadata] using this
  have hconf : ∃ format events,
      configureEncoder c levelPref bitDepthPref numChannels rate tags
        = .ready format events := by
    unfold configureEncoder
    simp only [hlevel, hstart, if_true, hmeta, Option.isNone_some, Bool.and_false,
      Bool.false_eq_true, if_false]
    have h1 : (configureMetadata c
        (true, (MakeMetadata c tags (configureStart c numChannels rate).2).2)
        (some (tagEntries tags))).1 = true := by
      simp [configureMetadata, hset]
    have h2 := configureLevel_ok c bitDepthPref numChannels level _ hset h1
    simp only [h2, Bool.not_true, Bool.false_eq_true, if_false]
    exact ⟨_, _, rfl⟩
  obtain ⟨format, events, hc⟩ := hconf
  unfold setupEncoder
  simp only [hc, hopen, hinit, Bool.not_true, Bool.false_eq_true, if_false, ne_eq,
    not_true_eq_false]
  exact ⟨_, _, rfl⟩

/-- When an append to the metadata block fails, the configuration of the
encoder fails. -/
theorem configureEncoder_append_fails (c : Collaborators) (levelPref : Int)
    (bitDepthPref : String) (numChannels : Nat) (rate : Int) (tags : List Tag)
    (hfail : ∃ k, k < (tagEntries tags).length ∧ c.appendOk k = false) :
    ∃ events,
      configureEncoder c levelPref bitDepthPref numChannels rate tags
        = .failed events := by
  obtain ⟨level, hlevel⟩ := flacLevels_clamped levelPref
  have hmeta : ∀ events, (MakeMetadata c tags events).1 = none := by
    intro events
    have := makeMetadataLoop_fail c tags [] events (by simpa using hfail)
    simpa [MakeMetadata] using this
  unfold configureEncoder
  simp only [hlevel]
  cases hstart : (configureStart c numChannels rate).1 with
  | true =>
    simp only [if_true, hmeta, Option.isNone_none, Bool.and_self]
    exact ⟨_, rfl⟩
  | false =>
    simp only [Bool.false_eq_true, if_false, Bool.false_and]
    have h1 : configureMetadata c (false, (configureStart c numChannels rate).2) none
        = (false, (configureStart c numChannels rate).2) := by
      simp [configureMetadata]
    rw [h1, configureLevel_failed _ _ _ _ _ rfl]
    simp only [Bool.not_false, if_true]
    exact ⟨_, rfl⟩

/-- An export whose set-up fails before `init`, or at `init`: `init` is
among the events only if it failed. -/
theorem setupEncoder_failed_init (c : Collaborators) (levelPref : Int)
    (bitDepthPref : String) (numChannels : Nat) (rate : Int) (tags : List Tag)
    (events : List Event)
    (h : setupEncoder c levelPref bitDepthPref numChannels rate tags = .failed events)
    (hinit : Event.encoder EncoderCall.init ∈ events) : c.initStatus ≠ 0 := by
  have hconf := configureEncoder_spec c levelPref bitDepthPref numChannels rate tags
  unfold setupEncoder at h
  cases hc : configureEncoder c levelPref bitDepthPref numChannels rate tags with
  | undefined => rw [hc] at hconf; exact absurd hconf id
  | failed ev =>
    rw [hc] at hconf
    simp only [hc, Setup.failed.injEq] at h
    subst h
    have := hconf.1 _ hinit
    simp [Event.isConfigure] at this
  | ready format ev =>
    rw [hc] at hconf
    simp only [hc] at h
    cases ho : c.openOk with
    | false =>
      simp only [ho, Bool.not_false, if_true, Setup.failed.injEq] at h
      subst h
      simp only [List.append_assoc, List.mem_append, List.mem_singleton, reduceCtorEq,
        or_false] at hinit
      have := hconf.1 _ hinit
      simp [Event.isConfigure] at this
    | true =>
      simp only [ho, Bool.not_true, Bool.false_eq_true, if_false] at h
      by_cases hi : c.initStatus = 0
      · simp [hi] at h
      · exact hi

theorem delivered_eq_self (blocks : List MixerBlock)
    (h : ∀ b ∈ blocks, 0 < b.samplesThisRun) : delivered blocks = blocks := by
  unfold delivered
  rw [List.takeWhile_eq_self_iff]
  intro b hb
  have := h b hb
  simp
  omega

/-- C15: when `Process` returns the non-zero sizes `b1..bn` (each at most
8192) and then 0, every call on the encoder succeeds (the set-up included:
the comments are appended and the file opens), and no progress update
reports a cancel or a stop, `Export` returns Success, has called
`encoder.process` exactly `n` times with frame counts `b1..bn` in that
order, and has then detached the file and finished the encoder, once.  For
2 channels, 2 seconds at 44100 Hz delivered in full blocks these are
`ceil(2 * 44100 / 8192) = 11` calls, the last of 6280 frames. -/
theorem Export_encodes_every_block (c : Collaborators) (levelPref : Int)
    (bitDepthPref : String) (numChannels : Nat) (rate : Int) (selectionOnly : Bool)
    (tags : List Tag)
    (hset : ∀ call, c.setterOk call = true) (happ : ∀ k, c.appendOk k = true)
    (hopen : c.openOk = true) (hinit : c.initStatus = 0)
    (hproc : ∀ k, c.processOk k = true)
    (hprog : ∀ k, c.progress k = ExportResult.Success) (hfin : c.finishOk = true)
    (hblocks : ∀ b ∈ c.blocks, 0 < b.samplesThisRun ∧ b.samplesThisRun ≤ SAMPLES_PER_RUN) :
    ∃ events,
      Export c levelPref bitDepthPref numChannels rate selectionOnly tags
        = some (ExportResult.Success, events) ∧
      processFrames events = c.blocks.map (fun b => b.samplesThisRun) ∧
      mixerAnswers events = c.blocks.map (fun b => b.samplesThisRun) ++ [0] ∧
      events.countP Event.isFinish = 1 ∧
      (∃ before, events = before ++ [Event.detachFile, Event.encoder EncoderCall.finish] ∧
        processFrames before = processFrames events) ∧
      (c.blocks.map (fun b => b.samplesThisRun) = fullBlocks (2 * 44100) →
        processFrames events = List.replicate 10 8192 ++ [6280] ∧
        (processFrames events).length = (2 * 44100 + 8191) / 8192) := by
  obtain ⟨format, setup, hready⟩ := setupEncoder_ready c levelPref bitDepthPref
    numChannels rate tags hset happ hopen hinit
  have hspec := setupEncoder_spec c levelPref bitDepthPref numChannels rate tags
  rw [hready] at hspec
  obtain ⟨hq1, hq2, hq3, hq4⟩ := setup_events_quiet bitDepthPref setup hspec.1
  obtain ⟨le, hloop⟩ := exportLoop_some c numChannels format c.blocks 0 (fun _ _ => 0)
    (fun b hb => (hblocks b hb).2)
  have hdel := delivered_eq_self c.blocks (fun b hb => (hblocks b hb).1)
  obtain ⟨hres, hframes, hmix⟩ := exportLoop_all_accepted c numChannels format c.blocks
    0 _ le hloop (fun i _ => ⟨hproc _, hprog _⟩)
  rw [hdel] at hframes hmix
  obtain ⟨hl1, hl2⟩ := loop_events_quiet le.events
    (exportLoop_general c numChannels format c.blocks 0 _ le hloop).1
  have hexp := Export_of_ready c levelPref bitDepthPref numChannels rate selectionOnly
    tags format setup hready
  rw [hloop] at hexp
  simp only [Option.map_some', hres, hfin] at hexp
  obtain ⟨before, hbefore⟩ : ∃ before : List Event, before
      = setup ++ [Event.createMixer numChannels SAMPLES_PER_RUN format,
          Event.setStatusString
            (if selectionOnly then "Exporting the selected audio as FLAC"
             else "Exporting the audio as FLAC")] ++ le.events := ⟨_, rfl⟩
  rw [← hbefore] at hexp
  have hpf : processFrames before = c.blocks.map (fun b => b.samplesThisRun) := by
    rw [hbefore, processFrames_append, processFrames_append, hq1, hframes]
    simp [processFrames]
  have hpf2 : processFrames (before ++ [Event.detachFile, Event.encoder EncoderCall.finish])
      = c.blocks.map (fun b => b.samplesThisRun) := by
    rw [processFrames_append, hpf]
    simp [processFrames]
  refine ⟨before ++ [Event.detachFile, Event.encoder EncoderCall.finish],
    ?_, hpf2, ?_, ?_, ⟨before, rfl, ?_⟩, ?_⟩
  · rw [hexp]
    simp
  · rw [hbefore, mixerAnswers_append, mixerAnswers_append, mixerAnswers_append, hq2, hmix]
    simp [mixerAnswers]
  · rw [hbefore]
    simp [List.countP_append, hq4, hl2, Event.isFinish, List.countP_cons]
  · rw [hpf, hpf2]
  · intro hfull
    rw [hpf2, hfull]
    constructor
    · decide
    · decide

/-- Two blocks of 2 and 1 frames, all calls succeeding: `Export` returns
Success after `encoder.process` calls of 2 and 1 frames. -/
theorem Export_encodes_every_block_witness :
    ∃ events,
      Export (sampleCollaborators [sampleBlock 2, sampleBlock 1] false
          ExportResult.Success true) 5 "16" 2 44100 true []
        = some (ExportResult.Success, events) ∧
      processFrames events = [2, 1] := by
  obtain ⟨events, h1, h2, _⟩ := Export_encodes_every_block
    (sampleCollaborators [sampleBlock 2, sampleBlock 1] false ExportResult.Success true)
    5 "16" 2 44100 true [] (fun _ => rfl) (fun _ => rfl) rfl rfl (fun _ => rfl)
    (fun _ => rfl) rfl (by simp [sampleCollaborators, sampleBlock, SAMPLES_PER_RUN])
  exact ⟨events, h1, h2⟩

/-- C16: once the encoder has been initialised successfully, every way
`Export` ends (completion, write failure, cancellation, stop, failure of
the finalization) has detached the output file handle exactly once and
called `encoder.finish()` exactly once, as its last two events; and an
export loop that ends with Cancelled and one that ends with Error (a write
failure) take the same clean-up, which differs only in the result
returned. -/
theorem Export_detaches_and_finishes_once (c : Collaborators) (levelPref : Int)
    (bitDepthPref : String) (numChannels : Nat) (rate : Int) (selectionOnly : Bool)
    (tags : List Tag) (result : ExportResult) (events : List Event)
    (h : Export c levelPref bitDepthPref numChannels rate selectionOnly tags
      = some (result, events))
    (hinit : Event.encoder EncoderCall.init ∈ events) (hok : c.initStatus = 0) :
    events.countP Event.isDetach = 1 ∧ events.countP Event.isFinish = 1 ∧
    (∃ before, events = before ++ [Event.detachFile, Event.encoder EncoderCall.finish]) ∧
    (∀ loopEnd : LoopEnd,
      loopEnd.exportResult = ExportResult.Cancelled ∨
        loopEnd.exportResult = ExportResult.Error →
      finishExport c loopEnd
        = (loopEnd.exportResult,
            loopEnd.events ++ [Event.detachFile, Event.encoder EncoderCall.finish])) := by
  have hspec := setupEncoder_spec c levelPref bitDepthPref numChannels rate tags
  have hclean : ∀ loopEnd : LoopEnd,
      loopEnd.exportResult = ExportResult.Cancelled ∨
        loopEnd.exportResult = ExportResult.Error →
      finishExport c loopEnd
        = (loopEnd.exportResult,
            loopEnd.events ++ [Event.detachFile, Event.encoder EncoderCall.finish]) := by
    intro le hle
    unfold finishExport
    rcases hle with hle | hle <;> simp [hle]
  cases hs : setupEncoder c levelPref bitDepthPref numChannels rate tags with
  | undefined => rw [hs] at hspec; exact absurd hspec id
  | failed setup =>
    rw [Export_of_failed _ _ _ _ _ _ _ _ hs] at h
    simp only [Option.some.injEq, Prod.mk.injEq] at h
    obtain ⟨_, h2⟩ := h
    subst h2
    exact absurd hok (setupEncoder_failed_init _ _ _ _ _ _ _ hs hinit)
  | ready format setup =>
    rw [hs] at hspec
    obtain ⟨_, _, hq3, hq4⟩ := setup_events_quiet bitDepthPref setup hspec.1
    rw [Export_of_ready _ _ _ _ _ _ _ _ _ hs] at h
    cases hloop : exportLoop c numChannels format c.blocks 0 (fun _ _ => 0) [] with
    | none => simp [hloop] at h
    | some le =>
      simp only [hloop, Option.map_some', Option.some.injEq, Prod.mk.injEq] at h
      obtain ⟨_, h2⟩ := h
      subst h2
      obtain ⟨hl1, hl2⟩ := loop_events_quiet le.events
        (exportLoop_general c numChannels format c.blocks 0 _ le hloop).1
      refine ⟨?_, ?_, ⟨_, rfl⟩, hclean⟩
      · simp [List.countP_append, hq3, hl1, Event.isDetach, List.countP_cons]
      · simp [List.countP_append, hq4, hl2, Event.isFinish, List.countP_cons]

/-- A cancelled export of one block: the file is detached once and the
encoder finished once. -/
theorem Export_detaches_and_finishes_once_witness :
    ∃ events,
      Export (sampleCollaborators [sampleBlock 2] false ExportResult.Cancelled true)
          5 "16" 2 44100 true [] = some (ExportResult.Cancelled, events) ∧
      events.countP Event.isDetach = 1 ∧ events.countP Event.isFinish = 1 :=
  ⟨_, rfl,
    (Export_detaches_and_finishes_once
      (sampleCollaborators [sampleBlock 2] false ExportResult.Cancelled true)
      5 "16" 2 44100 true [] ExportResult.Cancelled _ rfl (by decide) rfl).1,
    (Export_detaches_and_finishes_once
      (sampleCollaborators [sampleBlock 2] false ExportResult.Cancelled true)
      5 "16" 2 44100 true [] ExportResult.Cancelled _ rfl (by decide) rfl).2.1⟩

/-- C17 as stated fails: one block is accepted, the first progress update
reports Stopped, and `encoder.finish()` fails; `Export` returns Error, not
the Stopped that the progress update reported. -/
theorem Export_stopped_then_finish_fails_counterexample :
    (sampleCollaborators [sampleBlock 2, sampleBlock 1] false ExportResult.Stopped
      false).processOk 0 = true ∧
    (sampleCollaborators [sampleBlock 2, sampleBlock 1] false ExportResult.Stopped
      false).progress 0 = ExportResult.Stopped ∧
    (Export (sampleCollaborators [sampleBlock 2, sampleBlock 1] false
        ExportResult.Stopped false) 5 "16" 2 44100 true []).map Prod.fst
      = some ExportResult.Error := by
  decide

/-- C17 (amended): `Export` reports the first terminal condition and stops.
If turn `j` of the loop is the first whose `encoder.process` call fails or
whose progress update does not report Success, then exactly `j + 1` calls
of `Mixer.Process` and of `encoder.process` are made in the whole export
(the ones up to that turn), and `Export` returns Error for the failed call
and otherwise the result the progress update reported, except that it
returns Error when that result is Stopped and `encoder.finish()` then
fails.  Success is returned only if every delivered block was accepted,
every progress update reported Success, and `encoder.finish()` succeeded. -/
theorem Export_stops_at_first_terminal_condition (c : Collaborators) (levelPref : Int)
    (bitDepthPref : String) (numChannels : Nat) (rate : Int) (selectionOnly : Bool)
    (tags : List Tag) (format : sampleFormat) (setup : List Event)
    (result : ExportResult) (events : List Event)
    (hready : setupEncoder c levelPref bitDepthPref numChannels rate tags
      = .ready format setup)
    (h : Export c levelPref bitDepthPref numChannels rate selectionOnly tags
      = some (result, events)) :
    (∀ j, j < (delivered c.blocks).length →
      (∀ i, i < j → c.processOk i = true ∧ c.progress i = ExportResult.Success) →
      (c.processOk j = false ∨ c.progress j ≠ ExportResult.Success) →
      processFrames events
        = ((delivered c.blocks).take (j + 1)).map (fun b => b.samplesThisRun) ∧
      (processFrames events).length = j + 1 ∧
      (mixerAnswers events).length = j + 1 ∧
      result
        = (if c.processOk j = false then ExportResult.Error
           else if c.progress j = ExportResult.Stopped ∧ c.finishOk = false
             then ExportResult.Error
           else c.progress j)) ∧
    (result = ExportResult.Success →
      c.finishOk = true ∧
      (∀ i, i < (delivered c.blocks).length →
        c.processOk i = true ∧ c.progress i = ExportResult.Success) ∧
      processFrames events = (delivered c.blocks).map (fun b => b.samplesThisRun)) := by
  have hspec := setupEncoder_spec c levelPref bitDepthPref numChannels rate tags
  rw [hready] at hspec
  obtain ⟨hq1, hq2, _, _⟩ := setup_events_quiet bitDepthPref setup hspec.1
  rw [Export_of_ready _ _ _ _ _ _ _ _ _ hready] at h
  cases hloop : exportLoop c numChannels format c.blocks 0 (fun _ _ => 0) [] with
  | none => simp [hloop] at h
  | some le =>
    simp only [hloop, Option.map_some', Option.some.injEq, Prod.mk.injEq] at h
    obtain ⟨hres, hev⟩ := h
    have hpf : processFrames events = processFrames le.events := by
      rw [← hev]
      simp only [processFrames_append, hq1]
      simp [processFrames]
    have hma : mixerAnswers events = mixerAnswers le.events := by
      rw [← hev]
      simp only [mixerAnswers_append, hq2]
      simp [mixerAnswers]
    have hterminal : ∀ j, j < (delivered c.blocks).length →
        (∀ i, i < j → c.processOk i = true ∧ c.progress i = ExportResult.Success) →
        (c.processOk j = false ∨ c.progress j ≠ ExportResult.Success) →
        processFrames events
          = ((delivered c.blocks).take (j + 1)).map (fun b => b.samplesThisRun) ∧
        (processFrames events).length = j + 1 ∧
        (mixerAnswers events).length = j + 1 ∧
        result
          = (if c.processOk j = false then ExportResult.Error
             else if c.progress j = ExportResult.Stopped ∧ c.finishOk = false
               then ExportResult.Error
             else c.progress j) := by
      intro j hj hbefore hbad
      obtain ⟨h1, h2, h3⟩ := exportLoop_first_terminal c numChannels format c.blocks 0 _
        le j hloop hj (by simpa using hbefore) (by simpa using hbad)
      simp only [Nat.zero_add] at h1
      have hlen : (((delivered c.blocks).take (j + 1)).map
          (fun b => b.samplesThisRun)).length = j + 1 := by
        simp only [List.length_map, List.length_take]
        omega
      refine ⟨by rw [hpf, h2], by rw [hpf, h2, hlen], by rw [hma, h3, hlen], ?_⟩
      rw [← hres, h1]
      cases hp : c.processOk j with
      | false => simp
      | true =>
        have hs : c.progress j ≠ ExportResult.Success := by
          rcases hbad with hbad | hbad
          · rw [hp] at hbad; exact absurd hbad (by decide)
          · exact hbad
        simp only [Bool.true_eq_false, if_false]
        cases hpr : c.progress j with
        | Success => exact absurd hpr hs
        | Error => simp
        | Cancelled => simp
        | Stopped => cases hf : c.finishOk <;> simp
    refine ⟨hterminal, ?_⟩
    intro hsucc
    have hall : ∀ i, i < (delivered c.blocks).length →
        c.processOk i = true ∧ c.progress i = ExportResult.Success := by
      by_contra hne
      have hex : ∃ j, j < (delivered c.blocks).length ∧
          (c.processOk j = false ∨ c.progress j ≠ ExportResult.Success) := by
        by_contra hno
        apply hne
        intro i hi
        by_contra hi2
        apply hno
        refine ⟨i, hi, ?_⟩
        by_cases hp : c.processOk i = true
        · right
          intro hs
          exact hi2 ⟨hp, hs⟩
        · left
          simpa using hp
      obtain ⟨hj, hbad⟩ := Nat.find_spec hex
      have hmin : ∀ i, i < Nat.find hex →
          c.processOk i = true ∧ c.progress i = ExportResult.Success := by
        intro i hi
        have hnot := Nat.find_min hex hi
        have hilt : i < (delivered c.blocks).length := by omega
        by_contra hi2
        apply hnot
        refine ⟨hilt, ?_⟩
        by_cases hp : c.processOk i = true
        · right
          intro hs
          exact hi2 ⟨hp, hs⟩
        · left
          simpa using hp
      have hr := (hterminal _ hj hmin hbad).2.2.2
      rw [hsucc] at hr
      cases hp : c.processOk (Nat.find hex) with
      | false => simp [hp] at hr
      | true =>
        have hs : c.progress (Nat.find hex) ≠ ExportResult.Success := by
          rcases hbad with hbad | hbad
          · rw [hp] at hbad; exact absurd hbad (by decide)
          · exact hbad
        simp only [hp, Bool.true_eq_false, if_false] at hr
        split at hr
        · exact absurd hr (by decide)
        · exact hs hr.symm
    obtain ⟨h1, h2, _⟩ := exportLoop_all_accepted c numChannels format c.blocks 0 _ le
      hloop (by simpa using hall)
    refine ⟨?_, hall, by rw [hpf, h2]⟩
    rw [h1, hsucc] at hres
    cases hf : c.finishOk with
    | true => rfl
    | false => simp [hf] at hres

/-- An export of two blocks in which the first progress update reports
Cancelled: one `encoder.process` call is made and `Export` returns
Cancelled. -/
theorem Export_stops_at_first_terminal_condition_witness :
    ∃ events,
      Export (sampleCollaborators [sampleBlock 2, sampleBlock 1] false
        ExportResult.Cancelled true) 5 "16" 2 44100 true []
        = some (ExportResult.Cancelled, events) ∧
      (processFrames events).length = 0 + 1 :=
  ⟨_, rfl,
    ((Export_stops_at_first_terminal_condition
      (sampleCollaborators [sampleBlock 2, sampleBlock 1] false
        ExportResult.Cancelled true) 5 "16" 2 44100 true [] _ _
      ExportResult.Cancelled _ rfl rfl).1 0 (by decide) (by simp)
      (Or.inr (by decide))).2.1⟩

/-- C18, the code at a failing input.  Every call succeeds except
`encoder.finish()`: `Export` returns Error and no error dialog and no error
string is among its events.  When instead `encoder.process` fails, the
disk-full dialog is shown. -/
theorem Export_finish_failure_reports_nothing :
    (Export (sampleCollaborators [sampleBlock 2] false ExportResult.Success false)
        5 "16" 2 44100 true []).map (fun r => (r.1, r.2.filter Event.reportsError))
      = some (ExportResult.Error, []) ∧
    (Export (sampleCollaborators [sampleBlock 2] true ExportResult.Success true)
        5 "16" 2 44100 true []).map (fun r => (r.1, r.2.filter Event.reportsError))
      = some (ExportResult.Error, [Event.showDiskFullExportErrorDialog]) := by
  decide

/-! ### Sample width and metadata -/

theorem readShort_range (raw : Int) :
    -32768 ≤ readShort raw ∧ readShort raw ≤ 32767 := by
  unfold readShort
  omega

theorem readShort_of_range (raw : Int) (h1 : -32768 ≤ raw) (h2 : raw ≤ 32767) :
    readShort raw = raw := by
  unfold readShort
  omega

theorem readInt_of_range (raw : Int) (h1 : -2147483648 ≤ raw) (h2 : raw ≤ 2147483647) :
    readInt raw = raw := by
  unfold readInt
  omega

theorem expectedSamples_get (numChannels : Nat) (format : sampleFormat)
    (block : MixerBlock) (i j : Nat) (hi : i < numChannels)
    (hj : j < block.samplesThisRun) :
    ((expectedSamples numChannels format block)[i]?).bind (fun row => row[j]?)
      = some (readSample format (block.GetBuffer i j)) := by
  simp [expectedSamples, List.getElem?_map, List.getElem?_range, hi, hj]

theorem mem_export_events (setup mid loop tail : List Event) (e : Event)
    (h : e ∈ setup ++ mid ++ loop ++ tail) :
    e ∈ setup ∨ e ∈ mid ∨ e ∈ loop ∨ e ∈ tail := by
  simp only [List.mem_append] at h
  tauto

/-- C19: the bit depth declared to the encoder is 24 exactly when the
bit-depth parameter is the string "24" and otherwise 16; the sample format
asked of the mixer is `int24Sample` in the first case and `int16Sample`
otherwise; and every `encoder.process` call hands over, for each channel and
index, the sample of one of the mixer's blocks read at the width of that
same format.  A 16-bit sample (within `[-32768, 32767]`) and a sample that
fits 32 bits are read with sign and value unchanged, and what is read at 16
bits always lies within `[-32768, 32767]`. -/
theorem Export_bit_depth_agrees (c : Collaborators) (levelPref : Int)
    (bitDepthPref : String) (numChannels : Nat) (rate : Int) (selectionOnly : Bool)
    (tags : List Tag) (result : ExportResult) (events : List Event)
    (h : Export c levelPref bitDepthPref numChannels rate selectionOnly tags
      = some (result, events)) :
    (∀ bits, Event.encoder (EncoderCall.set_bits_per_sample bits) ∈ events →
      bits = if bitDepthPref = "24" then 24 else 16) ∧
    (∀ channels size format, Event.createMixer channels size format ∈ events →
      channels = numChannels ∧ size = SAMPLES_PER_RUN ∧
      format = if bitDepthPref = "24" then sampleFormat.int24Sample
        else sampleFormat.int16Sample) ∧
    (∀ samples data, Event.encoder (EncoderCall.process samples data) ∈ events →
      ∃ b ∈ c.blocks, samples = b.samplesThisRun ∧
        data = expectedSamples numChannels
          (if bitDepthPref = "24" then sampleFormat.int24Sample
            else sampleFormat.int16Sample) b ∧
        ∀ i j, i < numChannels → j < samples →
          (data[i]?).bind (fun row => row[j]?)
            = some (readSample
                (if bitDepthPref = "24" then sampleFormat.int24Sample
                  else sampleFormat.int16Sample) (b.GetBuffer i j))) ∧
    (∀ raw : Int, -32768 ≤ raw → raw ≤ 32767 →
      readSample sampleFormat.int16Sample raw = raw) ∧
    (∀ raw : Int, -2147483648 ≤ raw → raw ≤ 2147483647 →
      readSample sampleFormat.int24Sample raw = raw) ∧
    (∀ raw : Int, -32768 ≤ readSample sampleFormat.int16Sample raw ∧
      readSample sampleFormat.int16Sample raw ≤ 32767) := by
  have hspec := setupEncoder_spec c levelPref bitDepthPref numChannels rate tags
  have hsetupBits : ∀ (evs : List Event),
      (∀ e ∈ evs, Event.isSetup bitDepthPref e = true) →
      ∀ bits, Event.encoder (EncoderCall.set_bits_per_sample bits) ∈ evs →
        bits = if bitDepthPref = "24" then 24 else 16 := by
    intro evs hall bits hb
    have := hall _ hb
    simpa [Event.isSetup] using this
  refine ⟨?_, ?_, ?_, ?_, ?_, ?_⟩
  · intro bits hb
    cases hs : setupEncoder c levelPref bitDepthPref numChannels rate tags with
    | undefined => rw [hs] at hspec; exact absurd hspec id
    | failed setup =>
      rw [hs] at hspec
      rw [Export_of_failed _ _ _ _ _ _ _ _ hs] at h
      simp only [Option.some.injEq, Prod.mk.injEq] at h
      rw [← h.2] at hb
      exact hsetupBits _ hspec.1 bits hb
    | ready format setup =>
      rw [hs] at hspec
      rw [Export_of_ready _ _ _ _ _ _ _ _ _ hs] at h
      cases hloop : exportLoop c numChannels format c.blocks 0 (fun _ _ => 0) [] with
      | none => simp [hloop] at h
      | some le =>
        simp only [hloop, Option.map_some', Option.some.injEq, Prod.mk.injEq] at h
        rw [← h.2] at hb
        have hl := (exportLoop_general c numChannels format c.blocks 0 _ le hloop).1
        rcases mem_export_events _ _ _ _ _ hb with hb | hb | hb | hb
        · exact hsetupBits _ hspec.1 bits hb
        · simp at hb
        · have := hl _ hb
          simp [Event.isLoop] at this
        · simp at hb
  · intro channels size fmt hm
    cases hs : setupEncoder c levelPref bitDepthPref numChannels rate tags with
    | undefined => rw [hs] at hspec; exact absurd hspec id
    | failed setup =>
      rw [hs] at hspec
      rw [Export_of_failed _ _ _ _ _ _ _ _ hs] at h
      simp only [Option.some.injEq, Prod.mk.injEq] at h
      rw [← h.2] at hm
      have := hspec.1 _ hm
      simp [Event.isSetup] at this
    | ready format setup =>
      rw [hs] at hspec
      rw [Export_of_ready _ _ _ _ _ _ _ _ _ hs] at h
      cases hloop : exportLoop c numChannels format c.blocks 0 (fun _ _ => 0) [] with
      | none => simp [hloop] at h
      | some le =>
        simp only [hloop, Option.map_some', Option.some.injEq, Prod.mk.injEq] at h
        rw [← h.2] at hm
        have hl := (exportLoop_general c numChannels format c.blocks 0 _ le hloop).1
        rcases mem_export_events _ _ _ _ _ hm with hm | hm | hm | hm
        · have := hspec.1 _ hm
          simp [Event.isSetup] at this
        · simp only [List.mem_cons, Event.createMixer.injEq, reduceCtorEq,
            List.not_mem_nil, or_false] at hm
          exact ⟨hm.1, hm.2.1, by rw [hm.2.2]; exact hspec.2.1⟩
        · have := hl _ hm
          simp [Event.isLoop] at this
        · simp at hm
  · intro samples data hp
    cases hs : setupEncoder c levelPref bitDepthPref numChannels rate tags with
    | undefined => rw [hs] at hspec; exact absurd hspec id
    | failed setup =>
      rw [hs] at hspec
      rw [Export_of_failed _ _ _ _ _ _ _ _ hs] at h
      simp only [Option.some.injEq, Prod.mk.injEq] at h
      rw [← h.2] at hp
      have := hspec.1 _ hp
      simp [Event.isSetup] at this
    | ready format setup =>
      rw [hs] at hspec
      rw [Export_of_ready _ _ _ _ _ _ _ _ _ hs] at h
      cases hloop : exportLoop c numChannels format c.blocks 0 (fun _ _ => 0) [] with
      | none => simp [hloop] at h
      | some le =>
        simp only [hloop, Option.map_some', Option.some.injEq, Prod.mk.injEq] at h
        rw [← h.2] at hp
        have hl := (exportLoop_general c numChannels format c.blocks 0 _ le hloop).2
        rcases mem_export_events _ _ _ _ _ hp with hp | hp | hp | hp
        · have := hspec.1 _ hp
          simp [Event.isSetup] at this
        · simp at hp
        · obtain ⟨b, hb, h1, h2⟩ := hl samples data hp
          rw [hspec.2.1] at h2
          refine ⟨b, hb, h1, h2, ?_⟩
          intro i j hi hj
          rw [h2]
          exact expectedSamples_get _ _ _ _ _ hi (by omega)
        · simp at hp
  · intro raw h1 h2
    simp [readSample, readShort_of_range raw h1 h2]
  · intro raw h1 h2
    simp [readSample, readInt_of_range raw h1 h2]
  · intro raw
    simpa [readSample] using readShort_range raw

/-- A 24-bit export of one block of two frames: the encoder is told 24 bits
and handed the samples of the block. -/
theorem Export_bit_depth_agrees_witness :
    ∃ events,
      Export (sampleCollaborators [sampleBlock 2] false ExportResult.Success true)
        5 "24" 2 44100 true [] = some (ExportResult.Success, events) ∧
      Event.encoder (EncoderCall.set_bits_per_sample 24) ∈ events ∧
      (24 : Nat) = if "24" = "24" then 24 else 16 :=
  ⟨_, rfl, by decide,
    (Export_bit_depth_agrees
      (sampleCollaborators [sampleBlock 2] false ExportResult.Success true)
      5 "24" 2 44100 true [] ExportResult.Success _ rfl).1 24 (by decide)⟩

/-- C20: `MakeMetadata` builds one block whose entries are the tags in tag
order, a YEAR tag under the name DATE, a COMMENTS tag twice, as COMMENT and
as DESCRIPTION with the same value, every other tag with its name and
value; the number of entries is the number of tags plus the number of
COMMENTS tags; if appending an entry fails `MakeMetadata` returns no block,
and `Export` returns Error without having opened the output file. -/
theorem MakeMetadata_entries (c : Collaborators) (tags : List Tag) :
    ((∀ k, k < (tagEntries tags).length → c.appendOk k = true) →
      ∀ events, (MakeMetadata c tags events).1 = some (tagEntries tags)) ∧
    (∀ (n v : String) (rest : List Tag),
      tagEntries ((n, v) :: rest)
        = (if n = "YEAR" then [("DATE", v)]
           else if n = "COMMENTS" then [("COMMENT", v), ("DESCRIPTION", v)]
           else [(n, v)]) ++ tagEntries rest) ∧
    (tagEntries tags).length
      = tags.length + (tags.filter (fun t => t.1 = "COMMENTS")).length ∧
    ((∃ k, k < (tagEntries tags).length ∧ c.appendOk k = false) →
      (∀ events, (MakeMetadata c tags events).1 = none) ∧
      ∀ (levelPref : Int) (bitDepthPref : String) (numChannels : Nat) (rate : Int)
        (selectionOnly : Bool),
        ∃ events,
          Export c levelPref bitDepthPref numChannels rate selectionOnly tags
            = some (ExportResult.Error, events) ∧
          Event.openFile ∉ events) := by
  refine ⟨?_, ?_, tagEntries_length tags, ?_⟩
  · intro hok events
    have := makeMetadataLoop_ok c tags [] events (by simpa using hok)
    simpa [MakeMetadata] using this
  · intro n v rest
    conv_lhs => unfold tagEntries
    split
    · simp
    · split <;> simp
  · intro hfail
    constructor
    · intro events
      have := makeMetadataLoop_fail c tags [] events (by simpa using hfail)
      simpa [MakeMetadata] using this
    · intro levelPref bitDepthPref numChannels rate selectionOnly
      obtain ⟨events, hc⟩ := configureEncoder_append_fails c levelPref bitDepthPref
        numChannels rate tags hfail
      have hspec := configureEncoder_spec c levelPref bitDepthPref numChannels rate tags
      rw [hc] at hspec
      have hs : setupEncoder c levelPref bitDepthPref numChannels rate tags
          = .failed events := by
        unfold setupEncoder
        simp only [hc]
      refine ⟨events, Export_of_failed _ _ _ _ _ _ _ _ hs, ?_⟩
      intro hopen
      have := hspec.1 _ hopen
      simp [Event.isConfigure] at this

/-- The tags YEAR, COMMENTS and TITLE give four entries; when the third
append fails, `Export` returns Error before opening the file. -/
theorem MakeMetadata_entries_witness :
    (MakeMetadata (sampleCollaborators [] false ExportResult.Success true)
        [("YEAR", "1999"), ("COMMENTS", "hi"), ("TITLE", "x")] []).1
      = some [("DATE", "1999"), ("COMMENT", "hi"), ("DESCRIPTION", "hi"), ("TITLE", "x")] ∧
    (MakeMetadata
        { sampleCollaborators [] false ExportResult.Success true with
          appendOk := fun k => decide (k ≠ 2) }
        [("YEAR", "1999"), ("COMMENTS", "hi"), ("TITLE", "x")] []).1 = none :=
  ⟨(MakeMetadata_entries (sampleCollaborators [] false ExportResult.Success true)
      [("YEAR", "1999"), ("COMMENTS", "hi"), ("TITLE", "x")]).1 (fun _ _ => rfl) [],
   ((MakeMetadata_entries
      { sampleCollaborators [] false ExportResult.Success true with
        appendOk := fun k => decide (k ≠ 2) }
      [("YEAR", "1999"), ("COMMENTS", "hi"), ("TITLE", "x")]).2.2.2
      ⟨2, by decide, by decide⟩).1 []⟩


/-! ### The bounds of the sample buffer -/

/-- A block larger than `SAMPLES_PER_RUN` takes the loop of a channel
outside `tmpsmplbuf`. -/
theorem fillChannel_overrun (numChannels : Nat) (format : sampleFormat)
    (mixed : Nat → Int) (i samples : Nat) (buffer : SampleBuffer)
    (h : SAMPLES_PER_RUN < samples) :
    fillChannel numChannels format mixed i samples buffer = none := by
  cases samples with
  | zero => exact absurd h (Nat.not_lt_zero _)
  | succ n =>
    unfold fillChannel
    cases fillChannel numChannels format mixed i n buffer with
    | none => rfl
    | some b =>
      have hn : ¬ (i < numChannels ∧ n < SAMPLES_PER_RUN) := by
        intro hc
        omega
      simp only [writeSample, hn, if_false]

/-- C23: when every answer of `Mixer::Process` is at most the block size
`SAMPLES_PER_RUN = 8192` the mixer was created with, `Export` never writes
outside `tmpsmplbuf`: it returns a result (the out-of-bounds branch of the
model is not taken), the buffer is filled from every block, and every index
(channel `i < numChannels`, sample `j < samplesThisRun`) of a write lies
within the `numChannels x 8192` buffer, so that the write is made.  A write
is outside the buffer exactly when `i >= numChannels` or `j >= 8192`, and a
block of more than 8192 samples does take the loop of a channel outside. -/
theorem Export_writes_inside_tmpsmplbuf (c : Collaborators) (levelPref : Int)
    (bitDepthPref : String) (numChannels : Nat) (rate : Int) (selectionOnly : Bool)
    (tags : List Tag)
    (hblocks : ∀ b ∈ c.blocks, b.samplesThisRun ≤ SAMPLES_PER_RUN) :
    (∃ r, Export c levelPref bitDepthPref numChannels rate selectionOnly tags = some r) ∧
    (∀ b ∈ c.blocks, ∀ (format : sampleFormat) (buffer : SampleBuffer),
      ∃ filled, fillBuffer numChannels format b numChannels buffer = some filled) ∧
    (∀ b ∈ c.blocks, ∀ i j, i < numChannels → j < b.samplesThisRun →
      j < SAMPLES_PER_RUN ∧
      i * SAMPLES_PER_RUN + j < numChannels * SAMPLES_PER_RUN ∧
      ∀ (buffer : SampleBuffer) (value : Int),
        ∃ written, writeSample numChannels buffer i j value = some written) ∧
    (∀ (buffer : SampleBuffer) (i j : Nat) (value : Int),
      writeSample numChannels buffer i j value = none
        ↔ ¬ (i < numChannels ∧ j < SAMPLES_PER_RUN)) ∧
    (∀ (format : sampleFormat) (mixed : Nat → Int) (i samples : Nat)
        (buffer : SampleBuffer), SAMPLES_PER_RUN < samples →
      fillChannel numChannels format mixed i samples buffer = none) := by
  refine ⟨?_, ?_, ?_, ?_, ?_⟩
  · have hspec := setupEncoder_spec c levelPref bitDepthPref numChannels rate tags
    cases hs : setupEncoder c levelPref bitDepthPref numChannels rate tags with
    | undefined => rw [hs] at hspec; exact absurd hspec id
    | failed setup => exact ⟨_, Export_of_failed _ _ _ _ _ _ _ _ hs⟩
    | ready format setup =>
      obtain ⟨le, hloop⟩ := exportLoop_some c numChannels format c.blocks 0
        (fun _ _ => 0) hblocks
      rw [Export_of_ready _ _ _ _ _ _ _ _ _ hs, hloop]
      exact ⟨_, rfl⟩
  · intro b hb format buffer
    exact fillBuffer_some numChannels format b (hblocks b hb) numChannels buffer
      (le_refl _)
  · intro b hb i j hi hj
    have hle := hblocks b hb
    have hj2 : j < SAMPLES_PER_RUN := by omega
    refine ⟨hj2, ?_, ?_⟩
    · unfold SAMPLES_PER_RUN at hj2 ⊢
      omega
    · intro buffer value
      unfold writeSample
      rw [if_pos ⟨hi, hj2⟩]
      exact ⟨_, rfl⟩
  · intro buffer i j value
    unfold writeSample
    by_cases h : i < numChannels ∧ j < SAMPLES_PER_RUN
    · rw [if_pos h]
      simp [h]
    · rw [if_neg h]
      simp [h]
  · intro format mixed i samples buffer h
    exact fillChannel_overrun _ _ _ _ _ _ h

/-- Two stereo blocks of 2 and 8192 frames, the largest the mixer may
return: `Export` returns a result, and the last sample of the second
channel is written. -/
theorem Export_writes_inside_tmpsmplbuf_witness :
    (∀ b ∈ (sampleCollaborators [sampleBlock 2, sampleBlock 8192] false
        ExportResult.Success true).blocks, b.samplesThisRun ≤ SAMPLES_PER_RUN) ∧
    (∃ r, Export (sampleCollaborators [sampleBlock 2, sampleBlock 8192] false
        ExportResult.Success true) 5 "16" 2 44100 true [] = some r) ∧
    (∃ written, writeSample 2 (fun _ _ => 0) 1 8191 7 = some written) :=
  ⟨by simp [sampleCollaborators, sampleBlock, SAMPLES_PER_RUN],
   (Export_writes_inside_tmpsmplbuf
      (sampleCollaborators [sampleBlock 2, sampleBlock 8192] false
        ExportResult.Success true) 5 "16" 2 44100 true []
      (by simp [sampleCollaborators, sampleBlock, SAMPLES_PER_RUN])).1,
   ((Export_writes_inside_tmpsmplbuf
      (sampleCollaborators [sampleBlock 2, sampleBlock 8192] false
        ExportResult.Success true) 5 "16" 2 44100 true []
      (by simp [sampleCollaborators, sampleBlock, SAMPLES_PER_RUN])).2.2.1
      (sampleBlock 8192) (by simp [sampleCollaborators]) 1 8191 (by decide)
      (by simp [sampleBlock])).2.2 (fun _ _ => 0) 7⟩


/-! ### The level table -/

theorem levelIndex_eq_clamp (levelPref : Int) :
    (if levelPref < 0 ∨ levelPref > 8 then 5 else levelPref) = levelIndex levelPref := by
  unfold levelIndex
  by_cases h : levelPref < 0 ∨ levelPref > 8
  · have h2 : ¬ (0 ≤ levelPref ∧ levelPref ≤ 8) := by omega
    rw [if_pos h, if_neg h2]
  · have h2 : 0 ≤ levelPref ∧ levelPref ≤ 8 := by omega
    rw [if_neg h, if_pos h2]

theorem levelIndex_range (levelPref : Int) :
    0 ≤ levelIndex levelPref ∧ levelIndex levelPref ≤ 8 := by
  unfold levelIndex
  split <;> omega

/-- The calls of `configureLevel` are the chain of `levelCalls`. -/
theorem configureLevel_eq_foldl (c : Collaborators) (bitDepthPref : String)
    (numChannels : Nat) (level : FlacLevel) (s : Bool × List Event) :
    configureLevel c bitDepthPref numChannels level s
      = (levelCalls bitDepthPref numChannels level).foldl (andCall c) s := by
  unfold configureLevel levelCalls
  by_cases h24 : bitDepthPref = "24"
  · by_cases h2 : numChannels ≠ 2
    · simp only [if_pos h24, if_pos h2, List.foldl_cons, List.foldl_nil]
    · simp only [if_pos h24, if_neg h2, List.foldl_cons, List.foldl_nil]
  · by_cases h2 : numChannels ≠ 2
    · simp only [if_neg h24, if_pos h2, List.foldl_cons, List.foldl_nil]
    · simp only [if_neg h24, if_neg h2, List.foldl_cons, List.foldl_nil]

theorem foldl_andCall_events (c : Collaborators) (P : Event → Prop) :
    ∀ (calls : List EncoderCall) (s : Bool × List Event),
      (∀ e ∈ s.2, P e) → (∀ call ∈ calls, P (Event.encoder call)) →
      ∀ e ∈ (calls.foldl (andCall c) s).2, P e := by
  intro calls
  induction calls with
  | nil => intro s h _; exact h
  | cons call calls ih =>
    intro s h hcalls
    rw [List.foldl_cons]
    apply ih
    · exact andCall_events c P s call h (hcalls call (List.mem_cons_self _ _))
    · intro call2 h2
      exact hcalls call2 (List.mem_cons_of_mem _ h2)

theorem foldl_andCall_failed (c : Collaborators) :
    ∀ (calls : List EncoderCall) (s : Bool × List Event), s.1 = false →
      calls.foldl (andCall c) s = s := by
  intro calls
  induction calls with
  | nil => intro s _; rfl
  | cons call calls ih =>
    intro s hs
    rw [List.foldl_cons, andCall_failed c s call hs]
    exact ih s hs

/-- A chain of calls that ends in success has made every call. -/
theorem foldl_andCall_success (c : Collaborators) :
    ∀ (calls : List EncoderCall) (s : Bool × List Event),
      (calls.foldl (andCall c) s).1 = true →
      (calls.foldl (andCall c) s).2 = s.2 ++ calls.map Event.encoder := by
  intro calls
  induction calls with
  | nil => intro s _; simp
  | cons call calls ih =>
    intro s h
    rw [List.foldl_cons] at h ⊢
    by_cases hs : s.1 = true
    · rw [ih _ h]
      simp [andCall, hs]
    · have hs2 : s.1 = false := by
        cases h1 : s.1
        · rfl
        · exact absurd h1 hs
      rw [andCall_failed c s call hs2, foldl_andCall_failed c calls s hs2] at h
      rw [hs2] at h
      cases h

/-- Every event of the configuration of the encoder satisfies a property
that holds of the calls of `levelCalls` for the row of `flacLevels` at the
clamped level, and of every event that is not a call setting a compression
parameter. -/
theorem configureEncoder_events_of (c : Collaborators) (P : Event → Prop)
    (levelPref : Int) (bitDepthPref : String) (numChannels : Nat) (rate : Int)
    (tags : List Tag) (level : FlacLevel)
    (hlevel : flacLevels[(levelIndex levelPref).toNat]? = some level)
    (hcalls : ∀ call ∈ levelCalls bitDepthPref numChannels level, P (Event.encoder call))
    (hother : ∀ e, (∀ call, e = Event.encoder call → call.isCompression = false) → P e) :
    ∀ e ∈ (configureEncoder c levelPref bitDepthPref numChannels rate tags).events,
      P e := by
  have hP : ∀ n v, P (Event.appendComment n v) := by
    intro n v
    apply hother
    intro call h
    cases h
  have hstart : ∀ e ∈ (configureStart c numChannels rate).2, P e := by
    unfold configureStart
    dsimp only
    apply andCall_events
    · apply andCall_events
      · simp
      · apply hother
        intro call h
        cases h
        rfl
    · apply hother
      intro call h
      cases h
      rfl
  unfold configureEncoder
  simp only [levelIndex_eq_clamp, hlevel]
  generalize configureStart c numChannels rate = s0 at hstart ⊢
  obtain ⟨ok, ev⟩ := s0
  have hm : ∀ e ∈ (if ok = true then MakeMetadata c tags ev else (none, ev)).2, P e := by
    split
    · exact MakeMetadata_events c _ hP tags ev hstart
    · exact hstart
  generalize (if ok = true then MakeMetadata c tags ev else (none, ev)) = m at hm ⊢
  obtain ⟨metadata, ev2⟩ := m
  dsimp only at hm ⊢
  have h1 : ∀ e ∈ (configureMetadata c (ok, ev2) metadata).2, P e := by
    unfold configureMetadata
    split
    · apply events_append_singleton _ _ _ hm
      apply hother
      intro call h
      cases h
      rfl
    · exact hm
  have h2 : ∀ e ∈ (configureLevel c bitDepthPref numChannels level
      (configureMetadata c (ok, ev2) metadata)).2, P e := by
    rw [configureLevel_eq_foldl]
    exact foldl_andCall_events c P _ _ h1 hcalls
  have hdialog : ∀ code, P (Event.showExportErrorDialog code) := by
    intro code
    apply hother
    intro call h
    cases h
  by_cases hnone : (ok && metadata.isNone) = true
  · simp only [hnone, if_true, Setup.events]
    exact events_append_singleton _ _ _ hm (hdialog _)
  · simp only [hnone, if_false]
    cases hs : (configureLevel c bitDepthPref numChannels level
        (configureMetadata c (ok, ev2) metadata)).1 with
    | false =>
      simp only [Bool.not_false, if_true, Setup.events]
      exact events_append_singleton _ _ _ h2 (hdialog _)
    | true =>
      simp only [Bool.not_true, Bool.false_eq_true, if_false, Setup.events]
      exact h2

/-- When the configuration of the encoder succeeds it has made every call
of `levelCalls` for the row of `flacLevels` at the clamped level. -/
theorem configureEncoder_ready_calls (c : Collaborators)
    (levelPref : Int) (bitDepthPref : String) (numChannels : Nat) (rate : Int)
    (tags : List Tag) (level : FlacLevel)
    (hlevel : flacLevels[(levelIndex levelPref).toNat]? = some level)
    (format : sampleFormat) (events : List Event)
    (h : configureEncoder c levelPref bitDepthPref numChannels rate tags
      = .ready format events) :
    ∀ call ∈ levelCalls bitDepthPref numChannels level, Event.encoder call ∈ events := by
  unfold configureEncoder at h
  simp only [levelIndex_eq_clamp, hlevel] at h
  generalize configureStart c numChannels rate = s0 at h
  obtain ⟨ok, ev⟩ := s0
  generalize (if ok = true then MakeMetadata c tags ev else (none, ev)) = m at h
  obtain ⟨metadata, ev2⟩ := m
  dsimp only at h
  by_cases hnone : (ok && metadata.isNone) = true
  · simp only [hnone, if_true] at h
    cases h
  · simp only [hnone, if_false] at h
    cases hs : (configureLevel c bitDepthPref numChannels level
        (configureMetadata c (ok, ev2) metadata)).1 with
    | false =>
      simp only [hs, Bool.not_false, if_true] at h
      cases h
    | true =>
      simp only [hs, Bool.not_true, Bool.false_eq_true, if_false, Setup.ready.injEq] at h
      intro call hcall
      rw [← h.2, configureLevel_eq_foldl]
      rw [configureLevel_eq_foldl] at hs
      rw [foldl_andCall_success c _ _ hs]
      exact List.mem_append_right _ (List.mem_map_of_mem _ hcall)

/-- The events of the set-up are those of the configuration, followed by
the opening of the file, `init` and an error string. -/
theorem setupEncoder_events (c : Collaborators)
    (levelPref : Int) (bitDepthPref : String) (numChannels : Nat) (rate : Int)
    (tags : List Tag) :
    ∀ e ∈ (setupEncoder c levelPref bitDepthPref numChannels rate tags).events,
      e ∈ (configureEncoder c levelPref bitDepthPref numChannels rate tags).events ∨
      e = Event.openFile ∨ e = Event.encoder EncoderCall.init ∨
      ∃ message, e = Event.setErrorString message := by
  intro e he
  unfold setupEncoder at he
  cases hc : configureEncoder c levelPref bitDepthPref numChannels rate tags with
  | undefined =>
    rw [hc] at he
    simp [Setup.events] at he
  | failed events =>
    rw [hc] at he
    exact Or.inl he
  | ready format events =>
    rw [hc] at he
    simp only [Setup.events]
    by_cases hopen : c.openOk = true
    · by_cases hinit : c.initStatus = 0
      · simp [hopen, hinit, Setup.events] at he
        tauto
      · simp [hopen, hinit, Setup.events] at he
        rcases he with he | he | he | he
        · exact Or.inl he
        · exact Or.inr (Or.inl he)
        · exact Or.inr (Or.inr (Or.inl he))
        · exact Or.inr (Or.inr (Or.inr ⟨_, he⟩))
    · simp [hopen, Setup.events] at he
      rcases he with he | he | he
      · exact Or.inl he
      · exact Or.inr (Or.inl he)
      · exact Or.inr (Or.inr (Or.inr ⟨_, he⟩))

/-- When the set-up succeeds its events hold those of the configuration,
which succeeded. -/
theorem setupEncoder_ready_configured (c : Collaborators)
    (levelPref : Int) (bitDepthPref : String) (numChannels : Nat) (rate : Int)
    (tags : List Tag) (format : sampleFormat) (setup : List Event)
    (h : setupEncoder c levelPref bitDepthPref numChannels rate tags
      = .ready format setup) :
    ∃ events, configureEncoder c levelPref bitDepthPref numChannels rate tags
        = .ready format events ∧ ∀ e ∈ events, e ∈ setup := by
  unfold setupEncoder at h
  cases hc : configureEncoder c levelPref bitDepthPref numChannels rate tags with
  | undefined => rw [hc] at h; cases h
  | failed events => rw [hc] at h; cases h
  | ready format2 events =>
    rw [hc] at h
    by_cases hopen : c.openOk = true
    · by_cases hinit : c.initStatus = 0
      · simp only [hopen, hinit, Bool.not_true, Bool.false_eq_true, if_false, ne_eq,
          not_true_eq_false, Setup.ready.injEq] at h
        refine ⟨events, by rw [h.1], ?_⟩
        intro e he
        rw [← h.2]
        simp [he]
      · simp [hopen, hinit] at h
    · simp [hopen] at h

/-- Every event of `Export` is an event of the set-up, the creation of the
mixer, the status string, an event of the loop, the detaching of the file
or `finish`. -/
theorem Export_events (c : Collaborators) (levelPref : Int)
    (bitDepthPref : String) (numChannels : Nat) (rate : Int) (selectionOnly : Bool)
    (tags : List Tag) (result : ExportResult) (events : List Event)
    (h : Export c levelPref bitDepthPref numChannels rate selectionOnly tags
      = some (result, events)) :
    ∀ e ∈ events,
      e ∈ (setupEncoder c levelPref bitDepthPref numChannels rate tags).events ∨
      Event.isLoop e = true ∨ e = Event.detachFile ∨
      e = Event.encoder EncoderCall.finish ∨
      (∃ channels size format, e = Event.createMixer channels size format) ∨
      ∃ message, e = Event.setStatusString message := by
  intro e he
  cases hs : setupEncoder c levelPref bitDepthPref numChannels rate tags with
  | undefined =>
    unfold Export at h
    simp only [hs] at h
    cases h
  | failed setup =>
    rw [Export_of_failed _ _ _ _ _ _ _ _ hs] at h
    simp only [Option.some.injEq, Prod.mk.injEq] at h
    rw [← h.2] at he
    exact Or.inl he
  | ready format setup =>
    rw [Export_of_ready _ _ _ _ _ _ _ _ _ hs] at h
    cases hloop : exportLoop c numChannels format c.blocks 0 (fun _ _ => 0) [] with
    | none => simp [hloop] at h
    | some le =>
      simp only [hloop, Option.map_some', Option.some.injEq, Prod.mk.injEq] at h
      rw [← h.2] at he
      have hl := (exportLoop_general c numChannels format c.blocks 0 _ le hloop).1
      rcases mem_export_events _ _ _ _ _ he with he | he | he | he
      · exact Or.inl he
      · simp only [List.mem_cons, List.not_mem_nil, or_false] at he
        rcases he with he | he
        · exact Or.inr (Or.inr (Or.inr (Or.inr (Or.inl ⟨_, _, _, he⟩))))
        · exact Or.inr (Or.inr (Or.inr (Or.inr (Or.inr ⟨_, he⟩))))
      · exact Or.inr (Or.inl (hl _ he))
      · simp only [List.mem_cons, List.not_mem_nil, or_false] at he
        rcases he with he | he
        · exact Or.inr (Or.inr (Or.inl he))
        · exact Or.inr (Or.inr (Or.inr (Or.inl he)))

/-- C28: for every integer level the index into the 9-entry table
`flacLevels` lies in 0..8: a level in 0..8 is used as is, any other level is
replaced by 5, and the lookup finds a row (the set-up never reads outside
the table).  Every call of `Export` that sets a compression parameter is
the call of `levelCalls` for that row, and a set-up that succeeds has made
each of these calls.  When the channel count is not 2 the calls made for
mid-side stereo and loose mid-side stereo both pass false, whatever the
level. -/
theorem Export_level_index_within_flacLevels (c : Collaborators) (levelPref : Int)
    (bitDepthPref : String) (numChannels : Nat) (rate : Int) (selectionOnly : Bool)
    (tags : List Tag) :
    flacLevels.length = 9 ∧
    0 ≤ levelIndex levelPref ∧ levelIndex levelPref ≤ 8 ∧
    (levelIndex levelPref).toNat < flacLevels.length ∧
    (0 ≤ levelPref ∧ levelPref ≤ 8 → levelIndex levelPref = levelPref) ∧
    (levelPref < 0 ∨ 8 < levelPref → levelIndex levelPref = 5) ∧
    (if levelPref < 0 ∨ levelPref > 8 then 5 else levelPref) = levelIndex levelPref ∧
    setupEncoder c levelPref bitDepthPref numChannels rate tags ≠ Setup.undefined ∧
    ∃ level, flacLevels[(levelIndex levelPref).toNat]? = some level ∧
      (∀ result events,
        Export c levelPref bitDepthPref numChannels rate selectionOnly tags
          = some (result, events) →
        ∀ call, Event.encoder call ∈ events → call.isCompression = true →
          call ∈ levelCalls bitDepthPref numChannels level) ∧
      (∀ format setup,
        setupEncoder c levelPref bitDepthPref numChannels rate tags
          = .ready format setup →
        ∀ call ∈ levelCalls bitDepthPref numChannels level,
          Event.encoder call ∈ setup) ∧
      (numChannels ≠ 2 →
        EncoderCall.set_do_mid_side_stereo false
          ∈ levelCalls bitDepthPref numChannels level ∧
        EncoderCall.set_loose_mid_side_stereo false
          ∈ levelCalls bitDepthPref numChannels level ∧
        ∀ result events,
          Export c levelPref bitDepthPref numChannels rate selectionOnly tags
            = some (result, events) →
          ∀ value, Event.encoder (EncoderCall.set_do_mid_side_stereo value) ∈ events ∨
              Event.encoder (EncoderCall.set_loose_mid_side_stereo value) ∈ events →
            value = false) := by
  have hrange := levelIndex_range levelPref
  obtain ⟨level, hlevel⟩ := flacLevels_clamped levelPref
  rw [levelIndex_eq_clamp] at hlevel
  have hmain : ∀ result events,
      Export c levelPref bitDepthPref numChannels rate selectionOnly tags
        = some (result, events) →
      ∀ call, Event.encoder call ∈ events → call.isCompression = true →
        call ∈ levelCalls bitDepthPref numChannels level := by
    intro result events h call hcall hcomp
    have hconf := configureEncoder_events_of c
      (fun e => ∀ call, e = Event.encoder call → call.isCompression = true →
        call ∈ levelCalls bitDepthPref numChannels level)
      levelPref bitDepthPref numChannels rate tags level hlevel
      (by
        intro call2 h2 call3 h3 _
        cases h3
        exact h2)
      (by
        intro e he call2 h2 h3
        rw [he call2 h2] at h3
        cases h3)
    rcases Export_events c levelPref bitDepthPref numChannels rate selectionOnly tags
      result events h _ hcall with he | he | he | he | he | he
    · rcases setupEncoder_events c levelPref bitDepthPref numChannels rate tags _ he
        with he | he | he | he
      · exact hconf _ he call rfl hcomp
      · cases he
      · cases he
        cases hcomp
      · obtain ⟨_, he⟩ := he
        cases he
    · cases call <;> first | (simp [Event.isLoop] at he; done) | cases hcomp
    · cases he
    · cases he
      cases hcomp
    · obtain ⟨_, _, _, he⟩ := he
      cases he
    · obtain ⟨_, he⟩ := he
      cases he
  refine ⟨rfl, hrange.1, hrange.2, ?_, ?_, ?_, levelIndex_eq_clamp levelPref, ?_,
    level, hlevel, hmain, ?_, ?_⟩
  · have h9 : flacLevels.length = 9 := rfl
    rw [h9]
    omega
  · intro h
    unfold levelIndex
    rw [if_pos h]
  · intro h
    unfold levelIndex
    have h2 : ¬ (0 ≤ levelPref ∧ levelPref ≤ 8) := by omega
    rw [if_neg h2]
  · intro h
    have hspec := setupEncoder_spec c levelPref bitDepthPref numChannels rate tags
    rw [h] at hspec
    exact hspec
  · intro format setup h call hcall
    obtain ⟨events, hc, hsub⟩ := setupEncoder_ready_configured c levelPref bitDepthPref
      numChannels rate tags format setup h
    exact hsub _ (configureEncoder_ready_calls c levelPref bitDepthPref numChannels rate
      tags level hlevel format events hc call hcall)
  · intro h2
    refine ⟨?_, ?_, ?_⟩
    · simp [levelCalls, h2]
    · simp [levelCalls, h2]
    · intro result events h value hv
      rcases hv with hv | hv
      · have := hmain result events h _ hv rfl
        simpa [levelCalls, h2] using this
      · have := hmain result events h _ hv rfl
        simpa [levelCalls, h2] using this


/-! ### `ParseConfig` -/

theorem decimalDigits_length_pos :
    ∀ (fuel n : Nat), n < fuel → 1 ≤ (decimalDigits fuel n).length := by
  intro fuel
  induction fuel with
  | zero => intro n h; exact absurd h (Nat.not_lt_zero _)
  | succ fuel _ =>
    intro n _
    unfold decimalDigits
    split
    · simp
    · simp

theorem decimalDigits_length_two :
    ∀ (fuel n : Nat), n < fuel → 10 ≤ n → 2 ≤ (decimalDigits fuel n).length := by
  intro fuel n h h10
  cases fuel with
  | zero => exact absurd h (Nat.not_lt_zero _)
  | succ fuel =>
    unfold decimalDigits
    have hn : ¬ n < 10 := by omega
    rw [if_neg hn]
    have := decimalDigits_length_pos fuel (n / 10) (by omega)
    simp only [List.length_append, List.length_singleton]
    omega

theorem decimalDigits_length_three :
    ∀ (fuel n : Nat), n < fuel → 100 ≤ n → 3 ≤ (decimalDigits fuel n).length := by
  intro fuel n h h100
  cases fuel with
  | zero => exact absurd h (Nat.not_lt_zero _)
  | succ fuel =>
    unfold decimalDigits
    have hn : ¬ n < 10 := by omega
    rw [if_neg hn]
    have := decimalDigits_length_two fuel (n / 10) (by omega) (by omega)
    simp only [List.length_append, List.length_singleton]
    omega

/-- The decimal string of an `int` is one of "0" .. "8" exactly when the
value is in 0..8. -/
theorem to_string_level_iff (l : Int) :
    to_string l ∈ ["0", "1", "2", "3", "4", "5", "6", "7", "8"] ↔ 0 ≤ l ∧ l ≤ 8 := by
  constructor
  · intro h
    have hlen : (to_string l).data.length = 1 := by
      simp only [List.mem_cons, List.not_mem_nil, or_false] at h
      rcases h with h | h | h | h | h | h | h | h | h <;> (rw [h]; rfl)
    cases l with
    | ofNat n =>
      have hlen2 : (decimalDigits (n + 1) n).length = 1 := hlen
      have hn : n < 10 := by
        by_contra hc
        have := decimalDigits_length_two (n + 1) n (by omega) (by omega)
        omega
      interval_cases n <;> first | (constructor <;> decide) | exact absurd h (by decide)
    | negSucc n =>
      have hlen2 : (decimalDigits (n + 2) (n + 1)).length + 1 = 1 := hlen
      have := decimalDigits_length_pos (n + 2) (n + 1) (by omega)
      omega
  · intro h
    obtain ⟨h0, h8⟩ := h
    obtain ⟨n, rfl⟩ := Int.eq_ofNat_of_zero_le h0
    have hn : n ≤ 8 := by omega
    interval_cases n <;> decide

/-- The decimal string of an `int` is "16" or "24" exactly when the value is
16 or 24. -/
theorem to_string_bitDepth_iff (b : Int) :
    to_string b ∈ ["16", "24"] ↔ b = 16 ∨ b = 24 := by
  constructor
  · intro h
    have hlen : (to_string b).data.length = 2 := by
      simp only [List.mem_cons, List.not_mem_nil, or_false] at h
      rcases h with h | h <;> (rw [h]; rfl)
    cases b with
    | ofNat n =>
      have hlen2 : (decimalDigits (n + 1) n).length = 2 := hlen
      have hn : n < 100 := by
        by_contra hc
        have := decimalDigits_length_three (n + 1) n (by omega) (by omega)
        omega
      interval_cases n <;> first | exact absurd h (by decide) | decide
    | negSucc n =>
      have hlen2 : (decimalDigits (n + 2) (n + 1)).length + 1 = 2 := hlen
      have hn : n < 9 := by
        by_contra hc
        have := decimalDigits_length_two (n + 2) (n + 1) (by omega) (by omega)
        omega
      interval_cases n <;> exact absurd h (by decide)
  · intro h
    rcases h with rfl | rfl <;> decide

/-- The loop over `FlacOptions` accepts exactly a level among the values of
the level option together with a bit depth among those of the bit-depth
option. -/
theorem checkOptions_FlacOptions (level bitDepth : ExportValue) :
    checkOptions level bitDepth FlacOptions = true ↔
      level ∈ ["0", "1", "2", "3", "4", "5", "6", "7", "8"] ∧
      bitDepth ∈ ["16", "24"] := by
  have h01 : ¬ (FlacOptionIDBitDepth = FlacOptionIDLevel) := by decide
  have h10 : ¬ (FlacOptionIDLevel = FlacOptionIDBitDepth) := by decide
  unfold FlacOptions
  simp only [checkOptions, h01, h10, false_and, true_and, false_or, or_false]
  by_cases hb : bitDepth ∈ ["16", "24"]
  · by_cases hl : level ∈ ["0", "1", "2", "3", "4", "5", "6", "7", "8"]
    · simp only [hb, hl, not_true_eq_false, if_false, and_self]
    · simp only [hb, hl, not_true_eq_false, not_false_eq_true, if_false, if_true,
        and_true, Bool.false_eq_true]
  · simp only [hb, not_false_eq_true, if_true, and_false, Bool.false_eq_true]

theorem ParseConfig_of_ints (config : JsonValue) (parameters : Parameters) (l b : Int)
    (hL : config.FindMember "level" = some (.number (some l)))
    (hB : config.FindMember "bit_depth" = some (.number (some b))) :
    ParseConfig config parameters
      = if checkOptions (to_string l) (to_string b) FlacOptions = true then
          some (true, [(FlacOptionIDLevel, to_string l),
            (FlacOptionIDBitDepth, to_string b)])
        else some (false, parameters) := by
  have hobj : config.IsObject = true := by
    cases config <;> first | rfl | (simp [JsonValue.FindMember] at hL)
  unfold ParseConfig
  simp only [hobj, JsonValue.HasMember, JsonValue.index, hL, hB, Option.isSome_some,
    Option.getD_some, JsonValue.IsNumber, JsonValue.GetInt, Bool.not_true, Bool.or_self,
    Bool.false_eq_true, if_false]
  cases checkOptions (to_string l) (to_string b) FlacOptions <;> simp

theorem ParseConfig_of_numbers (config : JsonValue) (parameters : Parameters)
    (x y : Option Int)
    (hL : config.FindMember "level" = some (.number x))
    (hB : config.FindMember "bit_depth" = some (.number y))
    (hxy : x = none ∨ y = none) :
    ParseConfig config parameters = none := by
  have hobj : config.IsObject = true := by
    cases config <;> first | rfl | (simp [JsonValue.FindMember] at hL)
  unfold ParseConfig
  simp only [hobj, JsonValue.HasMember, JsonValue.index, hL, hB, Option.isSome_some,
    Option.getD_some, JsonValue.IsNumber, Bool.not_true, Bool.or_self,
    Bool.false_eq_true, if_false]
  rcases hxy with rfl | rfl
  · simp [JsonValue.GetInt]
  · cases x <;> simp [JsonValue.GetInt]

theorem ParseConfig_rejects (config : JsonValue) (parameters : Parameters)
    (h : (∀ x, config.FindMember "level" ≠ some (.number x)) ∨
      (∀ y, config.FindMember "bit_depth" ≠ some (.number y))) :
    ParseConfig config parameters = some (false, parameters) := by
  unfold ParseConfig
  have hcond : (!config.IsObject ||
      !config.HasMember "level" || !(config.index "level").IsNumber ||
      !config.HasMember "bit_depth" || !(config.index "bit_depth").IsNumber) = true := by
    simp only [JsonValue.HasMember, JsonValue.index]
    rcases h with h | h
    · cases hL : config.FindMember "level" with
      | none => simp
      | some v =>
        cases v with
        | number x => exact absurd hL (h x)
        | _ => simp [JsonValue.IsNumber]
    · cases hB : config.FindMember "bit_depth" with
      | none => simp
      | some v =>
        cases v with
        | number y => exact absurd hB (h y)
        | _ => simp [JsonValue.IsNumber]
  rw [if_pos hcond]

/-- Every configuration falls under one of the three cases above. -/
theorem FindMember_cases (config : JsonValue) :
    (∃ l b, config.FindMember "level" = some (.number (some l)) ∧
      config.FindMember "bit_depth" = some (.number (some b))) ∨
    (∃ x y, config.FindMember "level" = some (.number x) ∧
      config.FindMember "bit_depth" = some (.number y) ∧ (x = none ∨ y = none)) ∨
    ((∀ x, config.FindMember "level" ≠ some (.number x)) ∨
      (∀ y, config.FindMember "bit_depth" ≠ some (.number y))) := by
  by_cases hL : ∃ x, config.FindMember "level" = some (.number x)
  · by_cases hB : ∃ y, config.FindMember "bit_depth" = some (.number y)
    · obtain ⟨x, hx⟩ := hL
      obtain ⟨y, hy⟩ := hB
      cases x with
      | none => exact Or.inr (Or.inl ⟨_, _, hx, hy, Or.inl rfl⟩)
      | some l =>
        cases y with
        | none => exact Or.inr (Or.inl ⟨_, _, hx, hy, Or.inr rfl⟩)
        | some b => exact Or.inl ⟨l, b, hx, hy⟩
    · exact Or.inr (Or.inr (Or.inr (fun y hy => hB ⟨y, hy⟩)))
  · exact Or.inr (Or.inr (Or.inl (fun x hx => hL ⟨x, hx⟩)))

/-- What the guard of `ParseConfig` and the two `GetInt` calls establish,
in terms of the members found. -/
theorem numeric_members_iff (config : JsonValue) (l b : Int) :
    (config.IsObject = true ∧
      config.HasMember "level" = true ∧ (config.index "level").IsNumber = true ∧
      config.HasMember "bit_depth" = true ∧
      (config.index "bit_depth").IsNumber = true ∧
      (config.index "level").GetInt = some l ∧
      (config.index "bit_depth").GetInt = some b) ↔
    (config.FindMember "level" = some (.number (some l)) ∧
      config.FindMember "bit_depth" = some (.number (some b))) := by
  constructor
  · rintro ⟨_, _, _, _, _, hl, hb⟩
    simp only [JsonValue.index] at hl hb
    constructor
    · cases hL : config.FindMember "level" with
      | none => rw [hL] at hl; simp [JsonValue.GetInt] at hl
      | some v =>
        rw [hL] at hl
        cases v with
        | number x =>
          cases x with
          | none => simp [JsonValue.GetInt] at hl
          | some l2 =>
            simp only [Option.getD_some, JsonValue.GetInt, Option.some.injEq] at hl
            rw [hl]
        | _ => simp [JsonValue.GetInt] at hl
    · cases hB : config.FindMember "bit_depth" with
      | none => rw [hB] at hb; simp [JsonValue.GetInt] at hb
      | some v =>
        rw [hB] at hb
        cases v with
        | number x =>
          cases x with
          | none => simp [JsonValue.GetInt] at hb
          | some b2 =>
            simp only [Option.getD_some, JsonValue.GetInt, Option.some.injEq] at hb
            rw [hb]
        | _ => simp [JsonValue.GetInt] at hb
  · rintro ⟨hL, hB⟩
    have hobj : config.IsObject = true := by
      cases config <;> first | rfl | (simp [JsonValue.FindMember] at hL)
    simp [hobj, JsonValue.HasMember, JsonValue.index, hL, hB, JsonValue.IsNumber,
      JsonValue.GetInt]

/-- C30: `ParseConfig` is atomic on rejection.  Whenever it returns false
the caller's parameters are what they were; and it does return false, with
the parameters unchanged, when the configuration is not an object, when a
member is missing or not a number, and when the two `int` values are not a
level in 0..8 together with a bit depth of 16 or 24, one valid value beside
an invalid one included. -/
theorem ParseConfig_rejection_keeps_parameters (config : JsonValue)
    (parameters : Parameters) :
    (∀ result, ParseConfig config parameters = some (false, result) →
      result = parameters) ∧
    (config.IsObject = false →
      ParseConfig config parameters = some (false, parameters)) ∧
    (config.HasMember "level" = false ∨ (config.index "level").IsNumber = false ∨
        config.HasMember "bit_depth" = false ∨
        (config.index "bit_depth").IsNumber = false →
      ParseConfig config parameters = some (false, parameters)) ∧
    (∀ l b, config.FindMember "level" = some (.number (some l)) →
      config.FindMember "bit_depth" = some (.number (some b)) →
      ¬ (0 ≤ l ∧ l ≤ 8 ∧ (b = 16 ∨ b = 24)) →
      ParseConfig config parameters = some (false, parameters)) := by
  refine ⟨?_, ?_, ?_, ?_⟩
  · intro result h
    rcases FindMember_cases config with ⟨l, b, hL, hB⟩ | ⟨x, y, hL, hB, hxy⟩ | hrej
    · rw [ParseConfig_of_ints config parameters l b hL hB] at h
      split at h
      · simp at h
      · simp only [Option.some.injEq, Prod.mk.injEq, true_and] at h
        exact h.symm
    · rw [ParseConfig_of_numbers config parameters x y hL hB hxy] at h
      cases h
    · rw [ParseConfig_rejects config parameters hrej] at h
      simp only [Option.some.injEq, Prod.mk.injEq, true_and] at h
      exact h.symm
  · intro h
    unfold ParseConfig
    simp [h]
  · intro h
    unfold ParseConfig
    rcases h with h | h | h | h <;> simp [h]
  · intro l b hL hB hbad
    rw [ParseConfig_of_ints config parameters l b hL hB]
    have hc : ¬ checkOptions (to_string l) (to_string b) FlacOptions = true := by
      intro hc
      have hv := (checkOptions_FlacOptions _ _).mp hc
      have hl := (to_string_level_iff l).mp hv.1
      have hb := (to_string_bitDepth_iff b).mp hv.2
      exact hbad ⟨hl.1, hl.2, hb⟩
    rw [if_neg hc]

/-- A valid level beside a bit depth of 17, and a level of 9 beside a valid
bit depth: `ParseConfig` returns false and the parameters keep their one
entry. -/
theorem ParseConfig_rejection_keeps_parameters_witness :
    ParseConfig (sampleConfig 5 17) [(7, "old")] = some (false, [(7, "old")]) ∧
    ParseConfig (sampleConfig 9 16) [(7, "old")] = some (false, [(7, "old")]) :=
  ⟨(ParseConfig_rejection_keeps_parameters (sampleConfig 5 17) [(7, "old")]).2.2.2
      5 17 rfl rfl (by decide),
   (ParseConfig_rejection_keeps_parameters (sampleConfig 9 16) [(7, "old")]).2.2.2
      9 16 rfl rfl (by decide)⟩

end ExportFLAC
